import Mathlib

/-!
# The programs of `L2.9` to `L2.13` and the command interpreter of `L2.15`

A shallow embedding of the tokenizer, the parser and the execution engine of the
interpreter of `L2.15/main.go` (`Shell`), of `unpackString` of `L2.9/main.go` (`Unpack`), of
the comparison, sorting, merging and duplicate removal of the sorting program
`L2.10/main.go` (`SortTool`), of the field selection of `L2.13/main.go` (`Cut`), of the
printing of matches with their context of `L2.12/main.go` (`Grep`) and of `findAnagrams` of
`L2.11/main.go` (`Anagram`), and the properties proved about them.

* Go strings are lists of bytes (`Str`); indices into a string become the text left to scan.
* A loop whose index may advance by more than one position per iteration is iterated on an
  explicit budget (`fuel`), set to the length of the input at the entry point; the unfolding
  theorems (`tokenize_cons`, `expandEnv_cons`, `parseSegments_cons`) show that the budget is
  never exhausted.
* Calls to the operating system are answered by explicit parameters (`env` for `os.Getenv`,
  `System` for pipes, files and processes); state is passed explicitly (`JobState`).
* The tasks that `runPipeline` launches for its builtin stages run beside it; when each of
  them runs is a parameter too (`System.taskFirst`), and a task `exit` ends the process
  (`Outcome.exited`).
* Floating-point numbers and the library functions on them are a parameter (`FloatLib`);
  `sort.SliceStable` is the algorithm of the Go library (`stable`, `symMerge`), on segments
  of the data with the indices counted from the start of the segment, and `container/heap`
  is the algorithm of the Go library (`up`, `down`) on the slice of the heap.
* An `int` is a mathematical integer; where a computation can leave the range of 64 bits the
  wrap-around is explicit (`Grep.wrapInt`, `Cut.rangeLoop`).
-/

namespace Shell

/-- A Go string, as the list of its bytes; each `Char` stands for one byte, so the index
`line[i]` of the source is the `i`-th element and `len` is the length of the list. -/
abbrev Str := List Char

inductive TokenKind where
  | TK_WORD | TK_AND | TK_OR | TK_PIPE
  deriving DecidableEq, Repr

structure Token where
  Kind : TokenKind
  Val : Str
  deriving DecidableEq, Repr

/-- The failure of `tokenize` (`unterminated quote`); `outOfFuel` is the model's own marker for
an exhausted iteration budget, which `tokenize` never returns. -/
inductive LexError where
  | unterminatedQuote
  | outOfFuel
  deriving DecidableEq, Repr

/-- The double quote, byte 34. -/
def dquote : Char := Char.ofNat 34

/-- The single quote, byte 39. -/
def squote : Char := Char.ofNat 39

/-- The tab, byte 9. -/
def tab : Char := Char.ofNat 9

/-- Source: `isSpace`, a space or a tab. -/
def isSpace (b : Char) : Bool := b = ' ' || b = tab

/-- The inner loop of the word branch of `tokenize` (lines 195-204): the word `line[start:i]`
and the text left from `i` on. The word ends at a space or tab, at `|`, or at `&` followed by
`&`. -/
def scanWord : Str → Str × Str
  | [] => ([], [])
  | c :: cs =>
    if isSpace c then ([], c :: cs)
    else if c = '|' then ([], c :: cs)
    else if c = '&' ∧ cs.head? = some '&' then ([], c :: cs)
    else ((c :: (scanWord cs).1), (scanWord cs).2)

/-- One iteration of the outer loop of `tokenize` with `line[i] = c` and `cs` the text after
it: the token appended, if any, and the text left to scan. -/
def tokStep (c : Char) (cs : Str) : Except LexError (Option Token × Str) :=
  if isSpace c then .ok (none, cs)
  else if c = '&' ∧ cs.head? = some '&' then .ok (some ⟨.TK_AND, ['&', '&']⟩, cs.tail)
  else if c = '|' ∧ cs.head? = some '|' then .ok (some ⟨.TK_OR, ['|', '|']⟩, cs.tail)
  else if c = '|' then .ok (some ⟨.TK_PIPE, ['|']⟩, cs)
  else if c = dquote ∨ c = squote then
    match cs.dropWhile (fun x => x != c) with
    | [] => .error .unterminatedQuote
    | _ :: after => .ok (some ⟨.TK_WORD, cs.takeWhile (fun x => x != c)⟩, after)
  else .ok (some ⟨.TK_WORD, (scanWord (c :: cs)).1⟩, (scanWord (c :: cs)).2)

/-- The loop `for i < n` of `tokenize`, iterated at most `fuel` times. -/
def tokenizeLoop : Nat → Str → Except LexError (List Token)
  | _, [] => .ok []
  | 0, _ :: _ => .error .outOfFuel
  | fuel + 1, c :: cs =>
    match tokStep c cs with
    | .error e => .error e
    | .ok (none, rest) => tokenizeLoop fuel rest
    | .ok (some t, rest) =>
      match tokenizeLoop fuel rest with
      | .error e => .error e
      | .ok toks => .ok (t :: toks)

/-- Source: `tokenize`. Every iteration consumes at least one byte, so `len(line)` iterations
are always enough (`tokenize_cons`). -/
def tokenize (line : Str) : Except LexError (List Token) :=
  tokenizeLoop line.length line

/-! ### Environment expansion -/

/-- The opening brace, byte 123. -/
def lbrace : Char := Char.ofNat 123

/-- The closing brace, byte 125. -/
def rbrace : Char := Char.ofNat 125

/-- Source: `isAlnum`, an ASCII letter or digit. -/
def isAlnum (b : Char) : Bool :=
  ('0' ≤ b && b ≤ '9') || ('a' ≤ b && b ≤ 'z') || ('A' ≤ b && b ≤ 'Z')

/-- The condition `isAlnum(s[j]) || s[j] == '_'` of the name scan of `expandEnv`. -/
def isNameChar (b : Char) : Bool := isAlnum b || b = '_'

/-- One iteration of the loop of `expandEnv` with `s[i] = c`: the text written to the buffer
and the text left to scan. `env` is `os.Getenv`. -/
def expandStep (env : Str → Str) (c : Char) (cs : Str) : Str × Str :=
  if c = '$' then
    if cs.head? = some lbrace ∧ cs.tail.dropWhile (fun x => x != rbrace) ≠ [] then
      (env (cs.tail.takeWhile (fun x => x != rbrace)),
        (cs.tail.dropWhile (fun x => x != rbrace)).tail)
    else if cs.takeWhile isNameChar ≠ [] then
      (env (cs.takeWhile isNameChar), cs.dropWhile isNameChar)
    else (['$'], cs)
  else ([c], cs)

/-- The loop `for i < n` of `expandEnv`, iterated at most `fuel` times. -/
def expandLoop (env : Str → Str) : Nat → Str → Str
  | _, [] => []
  | 0, _ :: _ => []
  | fuel + 1, c :: cs =>
    (expandStep env c cs).1 ++ expandLoop env fuel (expandStep env c cs).2

/-- Source: `expandEnv`. Every iteration consumes at least one byte, so `len(s)` iterations
are always enough (`expandEnv_cons`). -/
def expandEnv (env : Str → Str) (s : Str) : Str := expandLoop env s.length s

/-! ### Parser -/

structure CmdUnit where
  Args : List Str
  Stdin : Str
  Stdout : Str
  Append : Bool
  deriving DecidableEq, Repr

structure CmdSegment where
  Pipeline : List CmdUnit
  NextOp : TokenKind
  deriving DecidableEq, Repr

/-- The failures of the parser, one for each message of the source; `outOfFuel` is the
model's own marker for an exhausted iteration budget, which `parseSegments` never returns. -/
inductive ParseError where
  | emptySegment
  | emptyCommandInPipeline
  | unexpectedToken
  | expectedFilenameAfterGt
  | expectedFilenameAfterLt
  | emptyCommand
  | outOfFuel
  deriving DecidableEq, Repr

/-- The loop of `parseCmdUnit` over the tokens left from index `i` on, with the current
`args`, `stdinFile` and `stdoutFile`. -/
def parseCmdUnitLoop (env : Str → Str) :
    List Token → List Str → Str → Str → Except ParseError CmdUnit
  | [], args, stdinFile, stdoutFile =>
    if args.length = 0 then .error .emptyCommand
    else .ok ⟨args, stdinFile, stdoutFile, false⟩
  | t :: ts, args, stdinFile, stdoutFile =>
    if t.Kind ≠ .TK_WORD then .error .unexpectedToken
    else if t.Val.head? = some '>' ∧ 1 < t.Val.length then
      parseCmdUnitLoop env ts args stdinFile (t.Val.drop 1)
    else if t.Val.head? = some '<' ∧ 1 < t.Val.length then
      parseCmdUnitLoop env ts args (t.Val.drop 1) stdoutFile
    else if t.Val = ['>'] then
      match ts with
      | [] => .error .expectedFilenameAfterGt
      | f :: ts2 => parseCmdUnitLoop env ts2 args stdinFile f.Val
    else if t.Val = ['<'] then
      match ts with
      | [] => .error .expectedFilenameAfterLt
      | f :: ts2 => parseCmdUnitLoop env ts2 args f.Val stdoutFile
    else parseCmdUnitLoop env ts (args ++ [expandEnv env t.Val]) stdinFile stdoutFile

/-- Source: `parseCmdUnit`. -/
def parseCmdUnit (env : Str → Str) (toks : List Token) : Except ParseError CmdUnit :=
  parseCmdUnitLoop env toks [] [] []

/-- The loop `for i := 0; i <= len(toks); i++` of `parsePipelineSegment`: the tokens left from
index `i` on, `sub = toks[start:i]`, and the units built so far. -/
def parsePipelineLoop (env : Str → Str) :
    List Token → List Token → List CmdUnit → Except ParseError (List CmdUnit)
  | [], sub, units =>
    if sub.length = 0 then .error .emptyCommandInPipeline
    else
      match parseCmdUnit env sub with
      | .error e => .error e
      | .ok unit => .ok (units ++ [unit])
  | t :: ts, sub, units =>
    if t.Kind = .TK_PIPE then
      if sub.length = 0 then .error .emptyCommandInPipeline
      else
        match parseCmdUnit env sub with
        | .error e => .error e
        | .ok unit => parsePipelineLoop env ts [] (units ++ [unit])
    else parsePipelineLoop env ts (sub ++ [t]) units

/-- Source: `parsePipelineSegment`. -/
def parsePipelineSegment (env : Str → Str) (toks : List Token) :
    Except ParseError CmdSegment :=
  if toks.length = 0 then .error .emptySegment
  else
    match parsePipelineLoop env toks [] [] with
    | .error e => .error e
    | .ok units => .ok ⟨units, .TK_WORD⟩

/-- The condition of the inner loop of `parseSegments`: the token is neither `&&` nor `||`. -/
def notAndOr (t : Token) : Bool := t.Kind != .TK_AND && t.Kind != .TK_OR

/-- The loop `for i < n` of `parseSegments` on the tokens left from index `i` on, iterated at
most `fuel` times. -/
def parseSegmentsLoop (env : Str → Str) : Nat → List Token → Except ParseError (List CmdSegment)
  | _, [] => .ok []
  | 0, _ :: _ => .error .outOfFuel
  | fuel + 1, t :: ts =>
    match parsePipelineSegment env ((t :: ts).takeWhile notAndOr) with
    | .error e => .error e
    | .ok seg =>
      match (t :: ts).dropWhile notAndOr with
      | [] => .ok [{ seg with NextOp := .TK_WORD }]
      | op :: rest =>
        match parseSegmentsLoop env fuel rest with
        | .error e => .error e
        | .ok segs => .ok ({ seg with NextOp := op.Kind } :: segs)

/-- Source: `parseSegments`. Every accepted iteration consumes at least one token, so
`len(toks)` iterations are always enough (`parseSegments_cons`). -/
def parseSegments (env : Str → Str) (toks : List Token) : Except ParseError (List CmdSegment) :=
  parseSegmentsLoop env toks.length toks

inductive LineError where
  | lex (e : LexError)
  | parse (e : ParseError)
  deriving DecidableEq, Repr

/-- The tokenize-then-parse sequence of `main` (lines 96-107): a line is abandoned on the
first lexical or parse failure. -/
def parseLine (env : Str → Str) (line : Str) : Except LineError (List CmdSegment) :=
  match tokenize line with
  | .error e => .error (.lex e)
  | .ok toks =>
    match parseSegments env toks with
    | .error e => .error (.parse e)
    | .ok segs => .ok segs

/-- An environment in which every variable is unset (`os.Getenv` returns the empty string). -/
def noEnv : Str → Str := fun _ => []

/-! ### Execution: conditional chains -/

inductive ExecError where
  | pipeFailed (i : Nat)
  | openFailed (path : Str)
  | createFailed (path : Str)
  | startFailed (stage : Nat)
  | waitFailed (stage : Nat)
  | builtinFailed (name : Str)
  deriving DecidableEq, Repr

/-- The pair `(int, error)` returned by `runSegment`, `runSingle` and `runPipeline`. -/
structure RunResult where
  code : Int
  err : Option ExecError
  deriving DecidableEq, Repr

/-- The value assigned to `lastOk` after a run: `err == nil && code == 0`. -/
def RunResult.ok (r : RunResult) : Bool := r.err.isNone && r.code == 0

/-- State of the chain loop of `main` (lines 110-135): the flag `lastOk`, the state of the
outside world threaded through the calls of `runSegment`, and the indices of the Segments
that were run, in order. -/
structure ChainState (σ : Type) where
  lastOk : Bool
  world : σ
  ran : List Nat

/-- The loop `for i, seg := range segs` of `main`. `prev` is `segs[i-1].NextOp` (absent for
`i = 0`), `i` is the index of the head of the remaining list. -/
def chainLoop {σ : Type} (runSegment : CmdSegment → σ → RunResult × σ) :
    Option TokenKind → Nat → List CmdSegment → ChainState σ → ChainState σ
  | _, _, [], st => st
  | prev, i, seg :: rest, st =>
    if prev = some .TK_AND ∧ st.lastOk = false then
      chainLoop runSegment (some seg.NextOp) (i + 1) rest { st with lastOk := false }
    else if prev = some .TK_OR ∧ st.lastOk = true then
      chainLoop runSegment (some seg.NextOp) (i + 1) rest { st with lastOk := true }
    else
      chainLoop runSegment (some seg.NextOp) (i + 1) rest
        { lastOk := (runSegment seg st.world).1.ok,
          world := (runSegment seg st.world).2,
          ran := st.ran ++ [i] }

/-- The chain evaluation of one line: `lastOk := true`, then the loop. -/
def evalChain {σ : Type} (runSegment : CmdSegment → σ → RunResult × σ)
    (segs : List CmdSegment) (w : σ) : ChainState σ :=
  chainLoop runSegment none 0 segs { lastOk := true, world := w, ran := [] }

/-! ### Execution: pipelines -/

/-- Source: `isBuiltin`. -/
def isBuiltin (name : Str) : Bool :=
  name = "cd".toList || name = "pwd".toList || name = "echo".toList ||
    name = "kill".toList || name = "ps".toList || name = "exit".toList

/-- A non-nil error returned by `cmd.Wait()`: an `*exec.ExitError` carrying the wait status
(whose `ExitStatus()` is `status`), or any other error. -/
inductive WaitError where
  | exit (status : Int)
  | other (e : ExecError)
  deriving DecidableEq, Repr

/-- The pair `(int, error)` returned by a builtin handler, the error as its message. -/
structure BuiltinResult where
  code : Int
  err : Option Str
  deriving DecidableEq, Repr

/-- Modelled from the Go standard library: `strings.Join(args, " ")`. -/
def joinSpaces : List Str → Str
  | [] => []
  | [a] => a
  | a :: rest => a ++ ' ' :: joinSpaces rest

/-- Source: `builtinEcho`: the text written to `out` and the result `(0, nil)`. -/
def builtinEcho (args : List Str) : Str × BuiltinResult :=
  (joinSpaces args ++ [Char.ofNat 10], ⟨0, none⟩)

/-- The streams a stage of a pipeline can be bound to. -/
inductive Stream where
  | stdin
  | stdout
  | file (path : Str)
  | pipeRead (i : Nat)
  | pipeWrite (i : Nat)
  deriving DecidableEq, Repr

/-- The input stream of stage `i` of `n` in `runPipeline` (lines 506-519). -/
def stageInput (i : Nat) (unit : CmdUnit) : Stream :=
  if i = 0 then
    if unit.Stdin ≠ [] then .file unit.Stdin else .stdin
  else .pipeRead (i - 1)

/-- The output stream of stage `i` of `n` in `runPipeline` (lines 521-534). -/
def stageOutput (n i : Nat) (unit : CmdUnit) : Stream :=
  if i = n - 1 then
    if unit.Stdout ≠ [] then .file unit.Stdout else .stdout
  else .pipeWrite i

/-- What the operating system answers to the calls made by `runPipeline`; stages and pipes
are named by their index. `taskFirst i` is the schedule of the task of a builtin stage `i`,
which runs beside `runPipeline`: `true` when the task has run by the time the loop over the
stages goes on, `false` when it runs only while `runPipeline` waits for it in `wg.Wait()`,
after the write ends of the pipes were closed. Run at another time, a task does what it does
in one of these two cases: its write to a pipe goes through exactly when it comes before the
write ends are closed, and `exit` ends the process whenever it runs. -/
structure System where
  pipeFails : Nat → Bool
  openFails : Str → Bool
  createFails : Str → Bool
  startFails : Nat → Bool
  pid : Nat → Nat
  wait : Nat → Option WaitError
  taskFirst : Nat → Bool

inductive Event where
  | streams (stage : Nat) (input output : Stream)
  | builtinLaunched (stage : Nat)
  | builtinRan (stage : Nat) (name : Str) (args : List Str)
  | wrote (stage : Nat) (output : Stream) (text : Str)
  | writeFailed (stage : Nat) (output : Stream)
  | processStarted (stage : Nat) (pid : Nat)
  | writersClosed
  | processWaited (stage : Nat)
  | builtinsJoined
  deriving DecidableEq, Repr

/-- The process-wide job state (`currentPgrp`) together with a log of what the engine did. -/
structure JobState where
  currentPgrp : Nat
  log : List Event
  deriving DecidableEq, Repr

def JobState.record (st : JobState) (e : Event) : JobState :=
  { st with log := st.log ++ [e] }

/-- How a call ends: it returns `(code, err)`, or the Go runtime panics (index out of range,
negative slice length), or the process is ended by `os.Exit(0)` in the task of a builtin
stage `exit` and the call does not return. -/
inductive Outcome where
  | ret (code : Int) (err : Option ExecError)
  | panic
  | exited
  deriving DecidableEq, Repr

/-- The loop `for i := 0; i < n-1; i++` that creates the pipes: the index of the first pipe
whose creation fails, if any. -/
def firstPipeFailure (sys : System) (n : Nat) : Option Nat :=
  (List.range (n - 1)).find? sys.pipeFails

/-- The task launched for a builtin stage (lines 535-541): the arguments of
`go func(u, r, w)`, that is the unit with its name and arguments and the streams `in` and
`out` of the stage. -/
structure Task where
  stage : Nat
  name : Str
  args : List Str
  input : Stream
  output : Stream
  deriving DecidableEq, Repr

/-- A write of `text` to the stream `output` by the task of a stage. `writersClosed` says
whether `runPipeline` has closed the write ends of the pipes (lines 563-568): the write end
of a pipe is the same file in the task and in `runPipeline`, so a write to it after that
fails, and the handler drops the error. -/
def writeTo (writersClosed : Bool) (stage : Nat) (output : Stream) (text : Str) : Event :=
  match output with
  | .pipeWrite _ => if writersClosed = true then .writeFailed stage output
    else .wrote stage output text
  | _ => .wrote stage output text

/-- The body of the task of a builtin stage, `_, _ = runBuiltin(u.Args[0], u.Args[1:], r, w)`.
For `exit` the call `os.Exit(0)` ends the process: the result is `none`. `echo` writes its
text to `w`. The handlers of `cd`, `pwd`, `kill` and `ps` act on the operating system (the
directory, the processes); their call is logged and not followed further. What the handlers
return is dropped by the task. -/
def runTask (writersClosed : Bool) (t : Task) (st : JobState) : Option JobState :=
  if t.name = "exit".toList then none
  else if t.name = "echo".toList then
    some ((st.record (.builtinRan t.stage t.name t.args)).record
      (writeTo writersClosed t.stage t.output (builtinEcho t.args).1))
  else some (st.record (.builtinRan t.stage t.name t.args))

/-- The tasks that have not run yet run while `runPipeline` waits for them in `wg.Wait()`
(line 583), here in stage order, the write ends of the pipes being closed. The `error` case
is the state in which a task `exit` ends the process. -/
def runTasks : List Task → JobState → Except JobState JobState
  | [], st => .ok st
  | t :: rest, st =>
    match runTask true t st with
    | none => .error st
    | some st2 => runTasks rest st2

/-- The loop `for i, unit := range units` of `runPipeline` (lines 503-561). The arguments are
the index `i` of the head of the remaining units, `leaderPid`, the indices of the non-nil
entries of `cmds`, and the tasks launched that have not run yet. An early `return`, and the
end of the process in a task `exit`, is the `error` case. -/
def startStages (sys : System) (n : Nat) :
    Nat → List CmdUnit → Nat → List Nat → List Task → JobState →
      Except (Outcome × JobState) (List Nat × List Task × JobState)
  | _, [], _, cmds, tasks, st => .ok (cmds, tasks, st)
  | i, unit :: rest, leaderPid, cmds, tasks, st =>
    match unit.Args with
    | [] => .error (.panic, st)
    | name :: args =>
      if i = 0 ∧ unit.Stdin ≠ [] ∧ sys.openFails unit.Stdin = true then
        .error (.ret 1 (some (.openFailed unit.Stdin)), st)
      else if i = n - 1 ∧ unit.Stdout ≠ [] ∧ sys.createFails unit.Stdout = true then
        .error (.ret 1 (some (.createFailed unit.Stdout)), st)
      else if isBuiltin name = true then
        if sys.taskFirst i = true then
          match runTask false ⟨i, name, args, stageInput i unit, stageOutput n i unit⟩
              ((st.record (.streams i (stageInput i unit) (stageOutput n i unit))).record
                (.builtinLaunched i)) with
          | none =>
            .error (.exited,
              (st.record (.streams i (stageInput i unit) (stageOutput n i unit))).record
                (.builtinLaunched i))
          | some st2 => startStages sys n (i + 1) rest leaderPid cmds tasks st2
        else
          startStages sys n (i + 1) rest leaderPid cmds
            (tasks ++ [⟨i, name, args, stageInput i unit, stageOutput n i unit⟩])
            ((st.record (.streams i (stageInput i unit) (stageOutput n i unit))).record
              (.builtinLaunched i))
      else if sys.startFails i = true then
        .error (.ret 1 (some (.startFailed i)),
          st.record (.streams i (stageInput i unit) (stageOutput n i unit)))
      else if leaderPid = 0 then
        startStages sys n (i + 1) rest (sys.pid i) (cmds ++ [i]) tasks
          ({ (st.record (.streams i (stageInput i unit) (stageOutput n i unit)))
              with currentPgrp := sys.pid i }.record (.processStarted i (sys.pid i)))
      else
        startStages sys n (i + 1) rest leaderPid (cmds ++ [i]) tasks
          ((st.record (.streams i (stageInput i unit) (stageOutput n i unit))).record
            (.processStarted i (sys.pid i)))

/-- The loop `for _, c := range cmds` (lines 573-580): every started process is waited for and
each non-nil error overwrites `finalErr`. -/
def waitStages (sys : System) : List Nat → Option WaitError → JobState →
    Option WaitError × JobState
  | [], finalErr, st => (finalErr, st)
  | i :: rest, finalErr, st =>
    match sys.wait i with
    | some err => waitStages sys rest (some err) (st.record (.processWaited i))
    | none => waitStages sys rest finalErr (st.record (.processWaited i))

/-- The tail of `runPipeline` (lines 590-598). -/
def pipelineResult : Option WaitError → Outcome
  | some (.exit status) => .ret status none
  | some (.other e) => .ret 1 (some e)
  | none => .ret 0 none

/-- Source: `runPipeline`. -/
def runPipeline (sys : System) (units : List CmdUnit) (st : JobState) : Outcome × JobState :=
  if units.length = 0 then (.panic, st)
  else
    match firstPipeFailure sys units.length with
    | some i => (.ret 1 (some (.pipeFailed i)), st)
    | none =>
      match startStages sys units.length 0 units 0 [] [] st with
      | .error early => early
      | .ok (cmds, tasks, st1) =>
        let waited := waitStages sys cmds none (st1.record .writersClosed)
        match runTasks tasks waited.2 with
        | .error st2 => (.exited, st2)
        | .ok st2 =>
          (pipelineResult waited.1, { (st2.record .builtinsJoined) with currentPgrp := 0 })

/-- Appending a token to the result of the rest of the scan (`toks = append(toks, t)`). -/
def consTok (t : Token) : Except LexError (List Token) → Except LexError (List Token)
  | .error e => .error e
  | .ok toks => .ok (t :: toks)

/-- The positions visited by the outer loop of `tokenize`: `ScanReaches s r` holds when the
loop, started on the text `s`, arrives at the head of an iteration with `r` left to scan. -/
inductive ScanReaches : Str → Str → Prop where
  | here (s : Str) : ScanReaches s s
  | next {c : Char} {cs : Str} {t : Option Token} {r s : Str} :
      tokStep c cs = .ok (t, r) → ScanReaches r s → ScanReaches (c :: cs) s

/-! ### Chains of plain words and operators -/

/-- A byte that is neither whitespace, a quote, `|` nor `&`. -/
def plainChar (c : Char) : Bool :=
  !isSpace c && c != dquote && c != squote && c != '|' && c != '&'

/-- A non-empty word made of plain bytes. -/
def isPlain (w : Str) : Bool := !w.isEmpty && w.all plainChar

inductive ChainOp where
  | and | or | pipe
  deriving DecidableEq, Repr

def ChainOp.text : ChainOp → Str
  | .and => ['&', '&']
  | .or => ['|', '|']
  | .pipe => ['|']

def ChainOp.kind : ChainOp → TokenKind
  | .and => .TK_AND
  | .or => .TK_OR
  | .pipe => .TK_PIPE

/-- One `operator word` step of a chain, with the whitespace written before and after the
operator (possibly none). -/
structure Link where
  pre : Str
  op : ChainOp
  post : Str
  word : Str

def Link.ok (l : Link) : Bool :=
  l.pre.all isSpace && l.post.all isSpace && isPlain l.word

def renderLinks : List Link → Str
  | [] => []
  | l :: ls => l.pre ++ (l.op.text ++ (l.post ++ (l.word ++ renderLinks ls)))

def linkTokens : List Link → List Token
  | [] => []
  | l :: ls => ⟨l.op.kind, l.op.text⟩ :: ⟨.TK_WORD, l.word⟩ :: linkTokens ls

/-! ### Vocabulary of the statements about the parser -/

/-- A plain command word: non-empty, made of plain bytes, without `$`, and not beginning with
`<` or `>`. -/
def isPlainArg (w : Str) : Bool :=
  isPlain w && w.all (fun c => c != '$') && w.head? != some '<' && w.head? != some '>'

/-- The line `c < i > o`. -/
def redirectLine (c i o : Str) : Str :=
  c ++ (" < ".toList ++ (i ++ (" > ".toList ++ o)))

def pipeTok : Token := ⟨.TK_PIPE, ['|']⟩

def wordToks (g : List Str) : List Token := g.map (fun v => ⟨.TK_WORD, v⟩)

/-- A word that `parseCmdUnit` takes as an argument: it does not begin with `<` or `>`. -/
def isArgWord (v : Str) : Bool := v.head? != some '<' && v.head? != some '>'

/-- Groups of words separated by single Pipe tokens. -/
def pipelineToks : List (List Str) → List Token
  | [] => []
  | [g] => wordToks g
  | g :: gs => wordToks g ++ pipeTok :: pipelineToks gs

/-- The command made of the words of `g`, all taken as arguments, without redirects. -/
def argUnit (env : Str → Str) (g : List Str) : CmdUnit :=
  ⟨g.map (expandEnv env), [], [], false⟩

/-- The token list begins with a Pipe, ends with a Pipe, or has two adjacent Pipes. -/
def BadPipes (toks : List Token) : Prop :=
  (∃ t rest, toks = t :: rest ∧ t.Kind = .TK_PIPE) ∨
  (∃ init t, toks = init ++ [t] ∧ t.Kind = .TK_PIPE) ∨
  (∃ a t1 t2 b, toks = a ++ t1 :: t2 :: b ∧ t1.Kind = .TK_PIPE ∧ t2.Kind = .TK_PIPE)

/-- The kinds of the `&&` and `||` tokens of a token list, in order. -/
def operatorKinds (toks : List Token) : List TokenKind :=
  (toks.filter (fun t => !notAndOr t)).map Token.Kind

/-- The `None` (encoded as `TK_WORD`) recorded for a final Segment that no operator follows:
present when the token list is non-empty and does not end with `&&` or `||`. -/
def trailingNone (toks : List Token) : List TokenKind :=
  match toks.getLast? with
  | none => []
  | some t => if notAndOr t = true then [.TK_WORD] else []

/-! ### Vocabulary of the statements about execution -/

/-- The text begins with a letter, a digit or an underscore. -/
def startsWithNameChar (s : Str) : Bool :=
  match s with
  | [] => false
  | c :: _ => isNameChar c

/-- No `$` of the text starts an expansion: none is immediately followed by a letter, a digit
or an underscore, and none is followed by an opening brace with a closing brace later on. -/
def literalDollars : Str → Bool
  | [] => true
  | c :: cs =>
    (c != '$' ||
      (!startsWithNameChar cs && !(cs.head? == some lbrace && cs.tail.contains rbrace)))
    && literalDollars cs

/-- An environment for the examples: `HOME` is `/root`, `TESTVAR` is `VALUE123`, `DOLLAR` is
`$HOME`, every other variable is unset. -/
def sampleEnv (name : Str) : Str :=
  if name = "HOME".toList then "/root".toList
  else if name = "TESTVAR".toList then "VALUE123".toList
  else if name = "DOLLAR".toList then "$HOME".toList
  else []

/-! ### Vocabulary of the statements about redirects and operators -/

/-- A bare redirect operator: the word `>` or the word `<`. -/
def isBareRedirect (w : Str) : Bool := w = ['>'] || w = ['<']

/-- An attached redirect: a word of more than one byte that begins with `>` or `<`. -/
def isAttachedRedirect (w : Str) : Bool :=
  (w.head? == some '>' || w.head? == some '<') && decide (1 < w.length)

/-- Scanning the words left to right, a bare `>` or `<` in operator position (not itself taken
as the file name of a bare redirect before it) is the last word. -/
def danglingRedirect : List Str → Bool
  | [] => false
  | w :: ws =>
    if isBareRedirect w = true then
      match ws with
      | [] => true
      | _ :: ws2 => danglingRedirect ws2
    else danglingRedirect ws

/-- Scanning the words left to right, the words that are neither redirects nor the file name
of a bare redirect: the argument words. -/
def argWords : List Str → List Str
  | [] => []
  | w :: ws =>
    if isBareRedirect w = true then
      match ws with
      | [] => []
      | _ :: ws2 => argWords ws2
    else if isAttachedRedirect w = true then argWords ws
    else w :: argWords ws

/-- The token list begins with `&&` or `||`, or has two adjacent tokens among `&&`, `||`. -/
def BadOperators (toks : List Token) : Prop :=
  (∃ t rest, toks = t :: rest ∧ notAndOr t = false) ∨
  (∃ a t1 t2 b, toks = a ++ t1 :: t2 :: b ∧ notAndOr t1 = false ∧ notAndOr t2 = false)

/-! ### Execution: single commands -/

/-- Source: `runSingle`. `runBuiltin name args` is what the builtin handler returns, `none`
when it does not return (`exit` ends the interpreter); the process of an external command is
stage `0` of `sys`. The result is `none` when the call does not return. -/
def runSingle (sys : System) (runBuiltin : Str → List Str → Option RunResult)
    (unit : CmdUnit) (st : JobState) : Option (Outcome × JobState) :=
  match unit.Args with
  | [] => some (.panic, st)
  | name :: args =>
    if isBuiltin name = true then
      if unit.Stdin ≠ [] ∧ sys.openFails unit.Stdin = true then
        some (.ret 1 (some (.openFailed unit.Stdin)), st)
      else if unit.Stdout ≠ [] ∧ sys.createFails unit.Stdout = true then
        some (.ret 1 (some (.createFailed unit.Stdout)), st)
      else
        match runBuiltin name args with
        | none => none
        | some r => some (.ret r.code r.err, st)
    else if unit.Stdin ≠ [] ∧ sys.openFails unit.Stdin = true then
      some (.ret 1 (some (.openFailed unit.Stdin)), st)
    else if unit.Stdout ≠ [] ∧ sys.createFails unit.Stdout = true then
      some (.ret 1 (some (.createFailed unit.Stdout)), st)
    else if sys.startFails 0 = true then
      some (.ret 1 (some (.startFailed 0)), st)
    else
      some (pipelineResult (sys.wait 0),
        { (({ st with currentPgrp := sys.pid 0 }.record
            (.processStarted 0 (sys.pid 0))).record (.processWaited 0))
          with currentPgrp := 0 })

/-- A system in which the process of stage `k` fails to start and the file `bad` cannot be
created; everything else succeeds and every started process exits with status 0; the tasks of
the builtin stages run last. -/
def failingSystem (k : Nat) (bad : Str) : System :=
  { pipeFails := fun _ => false
    openFails := fun _ => false
    createFails := fun p => decide (p = bad)
    startFails := fun i => decide (i = k)
    pid := fun i => 100 + i
    wait := fun _ => none
    taskFirst := fun _ => false }

/-- The units of `sleep 1 | nosuchcmd`. -/
def sleepThenMissing : List CmdUnit :=
  [⟨["sleep".toList, "1".toList], [], [], false⟩, ⟨["nosuchcmd".toList], [], [], false⟩]

/-- The units of `echo x | sleep 5 | cat > /nodir/out`. -/
def echoSleepCat : List CmdUnit :=
  [⟨["echo".toList, "x".toList], [], [], false⟩, ⟨["sleep".toList, "5".toList], [], [], false⟩,
   ⟨["cat".toList], [], "/nodir/out".toList, false⟩]

/-! ### Builtins -/

/-- The handlers of the builtins, as functions of what `runBuiltin` passes to them: the
arguments and, for `pwd`, `echo` and `ps`, the output stream. -/
structure Handlers (ω : Type) where
  builtinCd : List Str → BuiltinResult
  builtinPwd : ω → BuiltinResult
  builtinEcho : List Str → ω → BuiltinResult
  builtinKill : List Str → BuiltinResult
  builtinPs : ω → BuiltinResult

/-- Source: `runBuiltin`. The result is `none` for `exit`, where `os.Exit(0)` ends the
interpreter and nothing is returned. -/
def runBuiltin {ω : Type} (h : Handlers ω) (name : Str) (args : List Str) (_in out : ω) :
    Option BuiltinResult :=
  if name = "cd".toList then some (h.builtinCd args)
  else if name = "pwd".toList then some (h.builtinPwd out)
  else if name = "echo".toList then some (h.builtinEcho args out)
  else if name = "kill".toList then some (h.builtinKill args)
  else if name = "ps".toList then some (h.builtinPs out)
  else if name = "exit".toList then none
  else some ⟨1, some ("unknown builtin ".toList ++ name)⟩

/-- One iteration of the listener of `main` (lines 62-71) for a received signal `sig`, with
the job state as it is when `currentPgrp` is read under the lock: the calls of `syscall.Kill`
it makes, each as the pair of its target and its signal. -/
def onInterrupt (st : JobState) (sig : Nat) : List (Int × Nat) :=
  if st.currentPgrp ≠ 0 then [(-(st.currentPgrp : Int), sig)] else []

/-! ### The `kill` builtin -/

/-- The value of a non-empty text of ASCII digits. -/
def digitsValue : Str → Nat → Option Nat
  | [], acc => some acc
  | c :: cs, acc =>
    if '0' ≤ c ∧ c ≤ '9' then digitsValue cs (acc * 10 + (c.toNat - 48)) else none

/-- Modelled from the Go standard library: `strconv.Atoi` on a 64-bit platform, an optional
sign followed by at least one ASCII digit, the value within the range of `int`; `none` is
a non-nil error. -/
def atoi (s : Str) : Option Int :=
  match s with
  | [] => none
  | c :: cs =>
    let digits := if c = '-' ∨ c = '+' then cs else c :: cs
    if digits = [] then none
    else
      match digitsValue digits 0 with
      | none => none
      | some n =>
        let v : Int := if c = '-' then -(n : Int) else (n : Int)
        if -(2 ^ 63 : Int) ≤ v ∧ v ≤ 2 ^ 63 - 1 then some v else none

/-- What a run of `builtinKill` does: the code it returns, whether the error is non-nil, and
the calls of `syscall.Kill` it makes, each as the pair of its pid and its signal. -/
structure KillRun where
  code : Int
  failed : Bool
  sent : List (Int × Int)
  deriving DecidableEq, Repr

/-- The signal number of `syscall.SIGTERM`. -/
def SIGTERM : Int := 15

/-- The end of `builtinKill` (lines 738-741); `killFails pid sig` tells whether
`syscall.Kill(pid, sig)` returns an error. -/
def deliver (killFails : Int → Int → Bool) (pid sig : Int) : KillRun :=
  if killFails pid sig = true then ⟨1, true, [(pid, sig)]⟩ else ⟨0, false, [(pid, sig)]⟩

/-- Source: `builtinKill`. -/
def builtinKill (killFails : Int → Int → Bool) (args : List Str) : KillRun :=
  match args with
  | [] => ⟨1, true, []⟩
  | pidArg :: rest =>
    if pidArg.head? = some '-' ∧ 2 ≤ (pidArg :: rest).length then
      match atoi (pidArg.drop 1) with
      | some sn =>
        match atoi (rest.headD []) with
        | some pid => deliver killFails pid sn
        | none => ⟨1, true, []⟩
      | none => ⟨1, true, []⟩
    else
      match atoi pidArg with
      | some pid => deliver killFails pid SIGTERM
      | none => ⟨1, true, []⟩

/-! ### The chain of a line, as the claims state it -/

/-- The conventional evaluation of a chain after its first Segment, following the words of
the specification: with `op` the operator before the Segment and `st.lastOk` the status
carried from the left, the Segment is run exactly when the status is success and `op` is
`&&`, or the status is failure and `op` is `||`; a Segment that is not run leaves the
state as it is. -/
def conventionalRest {σ : Type} (runSegment : CmdSegment → σ → RunResult × σ) :
    TokenKind → Nat → List CmdSegment → ChainState σ → ChainState σ
  | _, _, [], st => st
  | op, i, seg :: rest, st =>
    if (st.lastOk = true ∧ op = .TK_AND) ∨ (st.lastOk = false ∧ op = .TK_OR) then
      conventionalRest runSegment seg.NextOp (i + 1) rest
        { lastOk := (runSegment seg st.world).1.ok,
          world := (runSegment seg st.world).2,
          ran := st.ran ++ [i] }
    else conventionalRest runSegment seg.NextOp (i + 1) rest st

/-- The conventional left-associative evaluation of a chain, following the words of the
specification: the first Segment is always run, and the status of the last Segment run is
the final status. With no Segment at all nothing is run and the status is the initial
`true`. -/
def conventionalChain {σ : Type} (runSegment : CmdSegment → σ → RunResult × σ)
    (segs : List CmdSegment) (w : σ) : ChainState σ :=
  match segs with
  | [] => { lastOk := true, world := w, ran := [] }
  | seg :: rest =>
    conventionalRest runSegment seg.NextOp 1 rest
      { lastOk := (runSegment seg w).1.ok, world := (runSegment seg w).2, ran := [0] }

/-- The targets of the output redirects of a command, in the order in which
`parseCmdUnit` meets them in its words: the rest of a word `>f`, and the word after a
word `>`. -/
def outputTargets : List Str → List Str
  | [] => []
  | w :: ws =>
    if w.head? = some '>' ∧ 1 < w.length then w.drop 1 :: outputTargets ws
    else if w.head? = some '<' ∧ 1 < w.length then outputTargets ws
    else if w = ['>'] then
      match ws with
      | [] => []
      | f :: ws2 => f :: outputTargets ws2
    else if w = ['<'] then
      match ws with
      | [] => []
      | _ :: ws2 => outputTargets ws2
    else outputTargets ws

/-- The targets of the input redirects of a command, in the order in which `parseCmdUnit`
meets them in its words: the rest of a word `<f`, and the word after a word `<`. -/
def inputTargets : List Str → List Str
  | [] => []
  | w :: ws =>
    if w.head? = some '>' ∧ 1 < w.length then inputTargets ws
    else if w.head? = some '<' ∧ 1 < w.length then w.drop 1 :: inputTargets ws
    else if w = ['>'] then
      match ws with
      | [] => []
      | _ :: ws2 => inputTargets ws2
    else if w = ['<'] then
      match ws with
      | [] => []
      | f :: ws2 => f :: inputTargets ws2
    else inputTargets ws

/-- The Segments of `false && echo b || echo c`. -/
def sampleChain : List CmdSegment :=
  [⟨[⟨["false".toList], [], [], false⟩], .TK_AND⟩,
   ⟨[⟨["echo".toList, "b".toList], [], [], false⟩], .TK_OR⟩,
   ⟨[⟨["echo".toList, "c".toList], [], [], false⟩], .TK_WORD⟩]

/-- A `runSegment` for the examples: the command `false` returns `(1, nil)`, every other
Segment `(0, nil)`. -/
def runFalseFails (seg : CmdSegment) (w : Unit) : RunResult × Unit :=
  (⟨if seg.Pipeline.map CmdUnit.Args = [["false".toList]] then 1 else 0, none⟩, w)

end Shell

namespace Unpack

/-! ## String unpacking (`L2.9/main.go`) -/

/-- A Go string of valid UTF-8 text, as the list of its runes, which is what
`for i, r := range s` goes through. -/
abbrev Str := List Char

/-- The two failures of `unpackString`. -/
inductive UnpackError where
  | endsWithEscape
  | startsWithDigit
  deriving DecidableEq, Repr

/-- The backslash, rune 92. -/
def backslash : Char := Char.ofNat 92

/-- The zero value of `rune`, the initial value of `prev`. -/
def zeroRune : Char := Char.ofNat 0

/-- The loop `for i, r := range s` of `unpackString` on the runes left, with the text written
to `result` so far, `prev` and `escaped`. `isDigit` is `unicode.IsDigit`. The test
`i == len(s)-1` is made on a backslash, which is one byte long, so it holds exactly when no
rune is left after it. The digit writes `prev` for `j` from `1` below `count = r - '0'`. -/
def unpackLoop (isDigit : Char → Bool) : Str → Str → Char → Bool → Except UnpackError Str
  | [], result, _, _ => .ok result
  | r :: rs, result, prev, escaped =>
    if escaped = true then unpackLoop isDigit rs (result ++ [r]) r false
    else if r = backslash then
      if rs = [] then .error .endsWithEscape
      else unpackLoop isDigit rs result prev true
    else if isDigit r = true then
      if prev = zeroRune then .error .startsWithDigit
      else
        unpackLoop isDigit rs
          (result ++ List.replicate (((r.toNat : Int) - 48) - 1).toNat prev) prev false
    else unpackLoop isDigit rs (result ++ [r]) r false

/-- Source: `unpackString`. -/
def unpackString (isDigit : Char → Bool) (s : Str) : Except UnpackError Str :=
  if s = [] then .ok []
  else unpackLoop isDigit s [] zeroRune false

/-- Modelled from the Go standard library: `unicode.IsDigit`, the decimal digits of Unicode
(category Nd). Of its table only the ASCII digits and the Arabic-Indic digits U+0660 to
U+0669 are kept, which is all that the examples use. -/
def unicodeIsDigit (r : Char) : Bool :=
  (48 ≤ r.toNat && r.toNat ≤ 57) || (1632 ≤ r.toNat && r.toNat ≤ 1641)

/-- ARABIC-INDIC DIGIT THREE, U+0663, a decimal digit of value 3. -/
def arabicThree : Char := Char.ofNat 1635

/-- One step of the reading of a string: a plain or escaped character, or an unescaped digit
with the number it stands for. -/
inductive Item where
  | plain (c : Char)
  | digit (d : Nat)
  deriving DecidableEq, Repr

/-- The reading of a string, left to right: a backslash makes the next rune a plain character,
an unescaped digit `r` stands for the number `r - '0'`, every other rune is a plain
character. -/
def items (isDigit : Char → Bool) : Str → List Item
  | [] => []
  | r :: rs =>
    if r = backslash then
      match rs with
      | [] => []
      | c :: rs2 => .plain c :: items isDigit rs2
    else if isDigit r = true then .digit (r.toNat - 48) :: items isDigit rs
    else .plain r :: items isDigit rs

/-- The reference unpacking: a plain or escaped character is written once, a digit `d` adds
`d - 1` further copies of the character written last. -/
def referenceUnpack : List Item → Char → Str
  | [], _ => []
  | .plain c :: rest, _ => c :: referenceUnpack rest c
  | .digit d :: rest, last => List.replicate (d - 1) last ++ referenceUnpack rest last

/-- The string ends with an unescaped backslash. -/
def endsWithEscape : Str → Bool
  | [] => false
  | r :: rs =>
    if r = backslash then
      match rs with
      | [] => true
      | _ :: rs2 => endsWithEscape rs2
    else endsWithEscape rs

/-- The string begins with an unescaped digit. -/
def startsWithDigit (isDigit : Char → Bool) (s : Str) : Bool :=
  match s with
  | [] => false
  | r :: _ => r != backslash && isDigit r

end Unpack

namespace SortTool

/-! ## Line sorting (`L2.10/main.go`) -/

/-- A Go string, as the list of its bytes. -/
abbrev Str := List Char

/-- The floating-point numbers of the program and the library functions that produce and
compare them: `strconv.ParseFloat(s, 64)` (`none` is a non-nil error), `<` on `float64`,
multiplication, the conversion of a constant, and `strings.TrimSpace`. -/
structure FloatLib where
  F : Type
  parseFloat : Str → Option F
  lt : F → F → Bool
  mul : F → F → F
  ofNat : Nat → F
  trimSpace : Str → Str

/-- An order is asymmetric: `a < b` excludes `b < a`. -/
def Asymmetric {α : Type} (less : α → α → Bool) : Prop :=
  ∀ a b, less a b = true → less b a = false

/-- An order is negatively transitive: when neither `a < b` nor `b < c`, then not `a < c`.
With asymmetry this makes a strict weak ordering, which `sort.SliceStable` requires of
`less`. -/
def NegTransitive {α : Type} (less : α → α → Bool) : Prop :=
  ∀ a b c, less a b = false → less b c = false → less a c = false

/-- A library without numbers: nothing parses. For the examples that use no numeric flag. -/
def noFloats : FloatLib :=
  { F := Unit
    parseFloat := fun _ => none
    lt := fun _ _ => false
    mul := fun _ _ => ()
    ofNat := fun _ => ()
    trimSpace := fun s => s }

/-- The tab, byte 9. -/
def tab : Char := Char.ofNat 9

/-- Source: `monthMap`. -/
def monthMap (key : Str) : Option Nat :=
  if key = "Jan".toList then some 1
  else if key = "Feb".toList then some 2
  else if key = "Mar".toList then some 3
  else if key = "Apr".toList then some 4
  else if key = "May".toList then some 5
  else if key = "Jun".toList then some 6
  else if key = "Jul".toList then some 7
  else if key = "Aug".toList then some 8
  else if key = "Sep".toList then some 9
  else if key = "Oct".toList then some 10
  else if key = "Nov".toList then some 11
  else if key = "Dec".toList then some 12
  else none

/-- Modelled from the Go standard library: `strings.Split(line, "\t")`. -/
def splitTabs : Str → List Str
  | [] => [[]]
  | c :: cs =>
    if c = tab then [] :: splitTabs cs
    else
      match splitTabs cs with
      | [] => [[c]]
      | col :: cols => (c :: col) :: cols

/-- Source: `extractColumn`. -/
def extractColumn (line : Str) (column : Int) : Str :=
  if column ≤ 0 then line
  else if column ≤ ((splitTabs line).length : Int) then
    (splitTabs line).getD (column - 1).toNat []
  else []

/-- Modelled from the Go standard library: `strings.TrimRight(key, " \t")`. -/
def trimRightBlanks (key : Str) : Str :=
  (key.reverse.dropWhile (fun c => c = ' ' || c = tab)).reverse

/-- Go's `<` on strings: the lexicographic order of the bytes. -/
def strLt : Str → Str → Bool
  | [], [] => false
  | [], _ :: _ => true
  | _ :: _, [] => false
  | a :: as, b :: bs =>
    if a.toNat < b.toNat then true else if b.toNat < a.toNat then false else strLt as bs

/-- Source: `parseHumanSize`; `none` is a non-nil error. -/
def parseHumanSize (lib : FloatLib) (s : Str) : Option lib.F :=
  if lib.trimSpace s = [] then none
  else
    let t := lib.trimSpace s
    let mult : Nat :=
      if t.getLast? = some 'G' then 1024 * 1024 * 1024
      else if t.getLast? = some 'M' then 1024 * 1024
      else if t.getLast? = some 'K' then 1024
      else 1
    let numStr : Str :=
      if t.getLast? = some 'G' ∨ t.getLast? = some 'M' ∨ t.getLast? = some 'K' then t.dropLast
      else t
    match lib.parseFloat (lib.trimSpace numStr) with
    | none => none
    | some val => some (lib.mul val (lib.ofNat mult))

/-- The pattern of the blocks `if month`, `if human` and `if numeric && !human` of
`compareValues`, on the two values looked up or parsed (`none` is `!ok`, or a non-nil
error). With both present they are compared, `valA > valB` under `reverse` being
`valB < valA`; with one present, `okA` is returned, or `!okA` under `reverse`; with none
control goes on to the next block, which is the result `none`. -/
def blockOrder {V : Type} (lt : V → V → Bool) (valA valB : Option V) (reverse : Bool) :
    Option Bool :=
  match valA, valB with
  | some x, some y => some (if reverse = true then lt y x else lt x y)
  | some _, none => some (if reverse = true then false else true)
  | none, some _ => some (if reverse = true then true else false)
  | none, none => none

/-- The key that `compareValues` compares for a line: its column, without the trailing
blanks under `-b`. -/
def sortKey (line : Str) (column : Int) (ignoreTrailing : Bool) : Str :=
  if ignoreTrailing = true then trimRightBlanks (extractColumn line column)
  else extractColumn line column

/-- Source: `compareValues`. -/
def compareValues (lib : FloatLib) (a b : Str) (column : Int)
    (numeric reverse month ignoreTrailing human : Bool) : Bool :=
  let keyA := sortKey a column ignoreTrailing
  let keyB := sortKey b column ignoreTrailing
  match (if month = true then
      blockOrder (fun x y : Nat => decide (x < y)) (monthMap keyA) (monthMap keyB) reverse
    else none) with
  | some r => r
  | none =>
    match (if human = true then
        blockOrder lib.lt (parseHumanSize lib keyA) (parseHumanSize lib keyB) reverse
      else none) with
    | some r => r
    | none =>
      match (if numeric = true ∧ human = false then
          blockOrder lib.lt (lib.parseFloat keyA) (lib.parseFloat keyB) reverse
        else none) with
      | some r => r
      | none => if reverse = true then strLt keyB keyA else strLt keyA keyB

/-- The inner loop of `insertionSort_func`,
`for j := i; j > a && data.Less(j, j-1); j--`, on the part `data[a:i]` in reverse order (its
last element first): `x = data[i]` moves down past every element it is less than. -/
def insertBack {α : Type} (less : α → α → Bool) (x : α) : List α → List α
  | [] => [x]
  | y :: ys => if less x y = true then y :: insertBack less x ys else x :: y :: ys

/-- The outer loop of `insertionSort_func`: the elements still to insert, and the part
already handled in reverse order. -/
def insertionLoop {α : Type} (less : α → α → Bool) : List α → List α → List α
  | [], sortedRev => sortedRev
  | x :: xs, sortedRev => insertionLoop less xs (insertBack less x sortedRev)

/-- Modelled from the Go standard library: `insertionSort_func(data, a, b)`, as a function
of the segment `data[a:b]`. -/
def insertionSort {α : Type} (less : α → α → Bool) (seg : List α) : List α :=
  (insertionLoop less seg []).reverse

/-- The call `data.Less(i, j)`: the comparison of two elements of a segment. -/
def lessAt {α : Type} (less : α → α → Bool) (seg : List α) (i j : Nat) : Bool :=
  match seg[i]?, seg[j]? with
  | some x, some y => less x y
  | _, _ => false

/-- The binary search loops of `symMerge_func`,
`for i < j { h := int(uint(i+j) >> 1); if test(h) { i = h + 1 } else { j = h } }`: the final
value of `i`. -/
def searchLoop (test : Nat → Bool) : Nat → Nat → Nat → Nat
  | 0, i, _ => i
  | fuel + 1, i, j =>
    if i < j then
      if test ((i + j) / 2) = true then searchLoop test fuel ((i + j) / 2 + 1) j
      else searchLoop test fuel i ((i + j) / 2)
    else i

/-- Modelled from the Go standard library: `rotate_func(data, a, m, b)`, by the effect its
documentation states: the blocks `data[a:m]` and `data[m:b]` change places. -/
def rotate {α : Type} (seg : List α) (a m b : Nat) : List α :=
  seg.take a ++ (seg.take b).drop m ++ (seg.take m).drop a ++ seg.drop b

/-- Modelled from the Go standard library: `symMerge_func(data, a, m, b)`, as a function of
the segment `data[a:b]` and of `m - a`, with the indices counted from `a`. The fuel bounds
the depth of the recursion; the length of the segment is enough. -/
def symMerge {α : Type} (less : α → α → Bool) : Nat → List α → Nat → List α
  | 0, seg, _ => seg
  | fuel + 1, seg, m =>
    if m = 1 then
      let i := searchLoop (fun h => lessAt less seg h 0) seg.length m seg.length
      (seg.take i).drop 1 ++ seg.take 1 ++ seg.drop i
    else if seg.length - m = 1 then
      let i := searchLoop (fun h => !lessAt less seg m h) seg.length 0 m
      seg.take i ++ seg.drop m ++ (seg.take m).drop i
    else
      let mid := seg.length / 2
      let n := mid + m
      let start := searchLoop (fun c => !lessAt less seg (n - 1 - c) c) seg.length
        (if m > mid then n - seg.length else 0) (if m > mid then mid else m)
      let stop := n - start
      let seg1 := if start < m ∧ m < stop then rotate seg start m stop else seg
      (if 0 < start ∧ start < mid then symMerge less fuel (seg1.take mid) start
        else seg1.take mid) ++
      (if mid < stop ∧ stop < seg.length then symMerge less fuel (seg1.drop mid) (stop - mid)
        else seg1.drop mid)

/-- The first loop of `stable_func`, on the part of the data from `a` on: insertion sort
of the blocks of `blockSize` elements, and of the shorter block left at the end. -/
def sortBlocks {α : Type} (less : α → α → Bool) (blockSize : Nat) : Nat → List α → List α
  | 0, data => data
  | fuel + 1, data =>
    if blockSize ≤ data.length then
      insertionSort less (data.take blockSize) ++
        sortBlocks less blockSize fuel (data.drop blockSize)
    else insertionSort less data

/-- The inner loop of the second loop of `stable_func`, on the part of the data from `a`
on: adjacent blocks are merged in pairs, a last pair of a whole block and a shorter one
included. -/
def mergePass {α : Type} (less : α → α → Bool) (blockSize : Nat) : Nat → List α → List α
  | 0, data => data
  | fuel + 1, data =>
    if 2 * blockSize ≤ data.length then
      symMerge less (2 * blockSize) (data.take (2 * blockSize)) blockSize ++
        mergePass less blockSize fuel (data.drop (2 * blockSize))
    else if blockSize < data.length then symMerge less data.length data blockSize
    else data

/-- The second loop of `stable_func`, `for blockSize < n { ...; blockSize *= 2 }`. -/
def mergeLoop {α : Type} (less : α → α → Bool) : Nat → Nat → List α → List α
  | 0, _, data => data
  | fuel + 1, blockSize, data =>
    if blockSize < data.length then
      mergeLoop less fuel (2 * blockSize) (mergePass less blockSize (data.length + 1) data)
    else data

/-- Modelled from the Go standard library: `stable_func(data, n)`, the insertion sort of
blocks of 20 elements followed by the merging of the blocks. -/
def stable {α : Type} (less : α → α → Bool) (data : List α) : List α :=
  mergeLoop less data.length 20 (sortBlocks less 20 (data.length + 1) data)

/-- Modelled from the Go standard library: `sort.SliceStable(x, less)`, where `less`
compares the elements at two indices of `x`. -/
def sliceStable {α : Type} (less : α → α → Bool) (x : List α) : List α :=
  stable less x

/-- The part of `float64` that the examples use: the natural numbers and not-a-number
(`none`). `parseFloat` accepts the decimal numerals without sign, point or exponent and
the text `NaN`, as `strconv.ParseFloat` does, and rejects every other text; `<` is false
whenever an operand is not-a-number. -/
def smallFloats : FloatLib :=
  { F := Option Nat
    parseFloat := fun s =>
      if s = "NaN".toList then some none
      else if s ≠ [] ∧ s.all (fun c => decide (48 ≤ c.toNat ∧ c.toNat ≤ 57)) = true then
        some (some (s.foldl (fun n c => 10 * n + (c.toNat - 48)) 0))
      else none
    lt := fun x y =>
      match x, y with
      | some a, some b => decide (a < b)
      | _, _ => false
    mul := fun x y =>
      match x, y with
      | some a, some b => some (a * b)
      | _, _ => none
    ofNat := fun n => some n
    trimSpace := fun s =>
      ((s.dropWhile (fun c => c = ' ' || c = tab)).reverse.dropWhile
        (fun c => c = ' ' || c = tab)).reverse }

/-- Twenty-one lines: ten times `1`, nine times `9`, `NaN`, and `5`. -/
def nanLines : List Str :=
  List.replicate 10 "1".toList ++ List.replicate 9 "9".toList ++ ["NaN".toList, "5".toList]

/-- What a call of `sortLines` leaves: the content of the slice it was given, and the slice
it returns. -/
structure SortRun where
  lines : List Str
  sorted : List Str

/-- Source: `sortLines`: `sorted` is a fresh copy of `lines`, and only `sorted` is written. -/
def sortLines (lib : FloatLib) (lines : List Str) (column : Int)
    (numeric reverse month ignoreTrailing human : Bool) : SortRun :=
  { lines := lines
    sorted := sliceStable
      (fun a b => compareValues lib a b column numeric reverse month ignoreTrailing human)
      lines }

/-- The check of the flag `-c` in `main` (lines 62-70) from index `i` on: the line number
reported for the first adjacent pair that `compareValues` rejects, `none` when the loop ends
without a report. -/
def checkSortedFrom (lib : FloatLib) (column : Int)
    (numeric reverse month ignoreTrailing human : Bool) : Nat → List Str → Option Nat
  | _, [] => none
  | _, [_] => none
  | i, a :: b :: rest =>
    if compareValues lib a b column numeric reverse month ignoreTrailing human = false then
      some (i + 1)
    else checkSortedFrom lib column numeric reverse month ignoreTrailing human (i + 1) (b :: rest)

/-- The check of the flag `-c`: the loop starts at `i = 1`. -/
def checkSorted (lib : FloatLib) (lines : List Str) (column : Int)
    (numeric reverse month ignoreTrailing human : Bool) : Option Nat :=
  checkSortedFrom lib column numeric reverse month ignoreTrailing human 1 lines

/-- One iteration of the loop of `removeDuplicates` at index `i`, on the backing array that
`lines` and `out` share and the length of `out`: `append(out, lines[i])` writes `lines[i]` at
index `len(out)` of that array. -/
def removeStep (state : List Str × Nat) (i : Nat) : List Str × Nat :=
  if state.1.getD i [] ≠ state.1.getD (i - 1) [] then
    (state.1.set state.2 (state.1.getD i []), state.2 + 1)
  else state

/-- Source: `removeDuplicates`: `out := lines[:1]`, the loop for `i` from `1` to
`len(lines) - 1`, and the first `len(out)` elements of the shared array as the result. -/
def removeDuplicates (lines : List Str) : List Str :=
  if lines.length = 0 then lines
  else
    let final := (List.range' 1 (lines.length - 1)).foldl removeStep (lines, 1)
    final.1.take final.2

/-- The elements `lines[i]` with `i = 0` or `lines[i] != lines[i-1]`, in order. -/
def keptLines (lines : List Str) : List Str :=
  ((List.range lines.length).filter
    (fun i => i = 0 ∨ lines.getD i [] ≠ lines.getD (i - 1) [])).map (fun i => lines.getD i [])

/-- The elements `lines[k]` with `k < i` and `k = 0` or `lines[k] != lines[k-1]`, in
order: what the loop of `removeDuplicates` has to have collected before index `i`. -/
def keptUpTo (lines : List Str) (i : Nat) : List Str :=
  ((List.range i).filter
    (fun k => k = 0 ∨ lines.getD k [] ≠ lines.getD (k - 1) [])).map (fun k => lines.getD k [])

/-- A list is sorted under `less`: no element is less than one that stands before it. -/
def Sorted {α : Type} (less : α → α → Bool) (l : List α) : Prop :=
  l.Pairwise (fun a b => less b a = false)

/-- Two elements are equivalent under `less`: neither is less than the other. -/
def equivalent {α : Type} (less : α → α → Bool) (z x : α) : Bool :=
  !less z x && !less x z

/-- The list `out` is the stable sort of `inp` under `less`: a permutation of it that is
sorted and in which the elements equivalent to any given `z` stand in the order they have
in `inp`. -/
def StableSortOf {α : Type} (less : α → α → Bool) (out inp : List α) : Prop :=
  out.Perm inp ∧ Sorted less out ∧
    ∀ z, out.filter (equivalent less z) = inp.filter (equivalent less z)

/-- The data consist of sorted runs of `blockSize` elements, the last of which may be
shorter: what the loops of `stable_func` keep while `blockSize` doubles. -/
def Runs {α : Type} (less : α → α → Bool) (blockSize : Nat) (data : List α) : Prop :=
  ∀ k, Sorted less ((data.drop (k * blockSize)).take blockSize)

/-- The part of `float64` without not-a-number that the examples use: the natural numbers.
`parseFloat` accepts the decimal numerals without sign, point or exponent, as
`strconv.ParseFloat` does, and rejects every other text. -/
def wholeFloats : FloatLib :=
  { F := Nat
    parseFloat := fun s =>
      if s ≠ [] ∧ s.all (fun c => decide (48 ≤ c.toNat ∧ c.toNat ≤ 57)) = true then
        some (s.foldl (fun n c => 10 * n + (c.toNat - 48)) 0)
      else none
    lt := fun x y => decide (x < y)
    mul := fun x y => x * y
    ofNat := fun n => n
    trimSpace := fun s =>
      ((s.dropWhile (fun c => c = ' ' || c = tab)).reverse.dropWhile
        (fun c => c = ' ' || c = tab)).reverse }

/-! ### Merging the sorted chunks -/

/-- Source: `lineItem`, an element of the heap. -/
structure lineItem where
  value : Str
  chunk : Nat
  index : Nat
  deriving DecidableEq, Repr

/-- Source: `lineHeap.Less`, on two elements of `items`; the flags are the fields of the
heap, which do not change. -/
def itemLess (lib : FloatLib) (column : Int)
    (numeric reverse month ignoreTrailing human : Bool) (x y : lineItem) : Bool :=
  compareValues lib x.value y.value column numeric reverse month ignoreTrailing human

/-- Source: `lineHeap.Swap`, on the slice `items`. The functions of the heap call it with
indices in range only. -/
def swapAt {α : Type} (items : List α) (i j : Nat) : List α :=
  match items[i]?, items[j]? with
  | some x, some y => (items.set i y).set j x
  | _, _ => items

/-- Modelled from the Go standard library: `up(h, j)` of `container/heap`,
`for { i := (j - 1) / 2; if i == j || !h.Less(j, i) { break }; h.Swap(i, j); j = i }`.
For `j = 0` the parent `(j - 1) / 2` is 0 in Go, where the division rounds towards zero,
and here, where `0 - 1` is 0. Each turn makes `j` smaller, so `fuel = j` is enough: at
`j = 0` the loop ends. -/
def up {α : Type} (less : α → α → Bool) : Nat → List α → Nat → List α
  | 0, items, _ => items
  | fuel + 1, items, j =>
    if (j - 1) / 2 = j ∨ lessAt less items j ((j - 1) / 2) = false then items
    else up less fuel (swapAt items ((j - 1) / 2) j) ((j - 1) / 2)

/-- Modelled from the Go standard library: `down(h, i0, n)` of `container/heap`,
`for { j1 := 2*i + 1; if j1 >= n || j1 < 0 { break }; j := j1;
if j2 := j1 + 1; j2 < n && h.Less(j2, j1) { j = j2 }; if !h.Less(j, i) { break };
h.Swap(i, j); i = j }`. The test `j1 < 0` is for an overflow, out of reach of the length
of a slice. Each turn makes `i` larger, so `fuel = n - i` is enough: at `i >= n` the
loop ends. -/
def down {α : Type} (less : α → α → Bool) : Nat → List α → Nat → Nat → List α
  | 0, items, _, _ => items
  | fuel + 1, items, i, n =>
    if 2 * i + 1 ≥ n then items
    else if lessAt less items
        (if 2 * i + 2 < n ∧ lessAt less items (2 * i + 2) (2 * i + 1) = true then 2 * i + 2
          else 2 * i + 1) i = false then items
    else
      down less fuel
        (swapAt items i
          (if 2 * i + 2 < n ∧ lessAt less items (2 * i + 2) (2 * i + 1) = true then 2 * i + 2
            else 2 * i + 1))
        (if 2 * i + 2 < n ∧ lessAt less items (2 * i + 2) (2 * i + 1) = true then 2 * i + 2
          else 2 * i + 1) n

/-- Modelled from the Go standard library: `heap.Push(h, x)`, that is `h.Push(x)`, which
appends `x` to `items`, and `up(h, h.Len()-1)`. -/
def heapPush {α : Type} (less : α → α → Bool) (items : List α) (x : α) : List α :=
  up less items.length (items ++ [x]) items.length

/-- Modelled from the Go standard library: `heap.Pop(h)`, that is `n := h.Len() - 1`,
`h.Swap(0, n)`, `down(h, 0, n)` and `h.Pop()`, which takes the last element off `items` and
returns it. The result is the element and the new `items`; `none` is the panic on an empty
heap. -/
def heapPop {α : Type} (less : α → α → Bool) (items : List α) : Option (α × List α) :=
  ((down less (items.length - 1) (swapAt items 0 (items.length - 1)) 0
      (items.length - 1))[items.length - 1]?).map
    (fun x => (x, (down less (items.length - 1) (swapAt items 0 (items.length - 1)) 0
      (items.length - 1)).take (items.length - 1)))

/-- The loop `for i, ch := range chunks` of `mergeSortedChunks`, from chunk `i` on: the
first line of each chunk that has one is pushed. -/
def pushHeads (less : lineItem → lineItem → Bool) :
    List (List Str) → Nat → List lineItem → List lineItem
  | [], _, items => items
  | [] :: rest, i, items => pushHeads less rest (i + 1) items
  | (v :: _) :: rest, i, items =>
    pushHeads less rest (i + 1) (heapPush less items ⟨v, i, 0⟩)

/-- The loop `for h.Len() > 0` of `mergeSortedChunks`. Each turn appends a line to
`result`, so `fuel` is the number of lines that may still be appended; `none` is a loop
that has not ended within it. -/
def popLoop (less : lineItem → lineItem → Bool) (chunks : List (List Str)) :
    Nat → List lineItem → List Str → Option (List Str)
  | 0, items, result => if items.length > 0 then none else some result
  | fuel + 1, items, result =>
    if items.length > 0 then
      match heapPop less items with
      | none => none
      | some (item, rest) =>
        if item.index + 1 < (chunks.getD item.chunk []).length then
          popLoop less chunks fuel
            (heapPush less rest
              ⟨(chunks.getD item.chunk []).getD (item.index + 1) [], item.chunk,
                item.index + 1⟩)
            (result ++ [item.value])
        else popLoop less chunks fuel rest (result ++ [item.value])
    else some result

/-- Source: `mergeSortedChunks`; `heap.Init` has nothing to do on the empty heap. The result
is `some` of the slice returned. -/
def mergeSortedChunks (lib : FloatLib) (chunks : List (List Str)) (column : Int)
    (numeric reverse month ignoreTrailing human : Bool) : Option (List Str) :=
  popLoop (itemLess lib column numeric reverse month ignoreTrailing human) chunks
    chunks.flatten.length
    (pushHeads (itemLess lib column numeric reverse month ignoreTrailing human) chunks 0 [])
    []

/-- The heap property of `container/heap`: no element is less than its parent, the element
at index `(k - 1) / 2`. -/
def IsHeap {α : Type} (less : α → α → Bool) (items : List α) : Prop :=
  ∀ k, lessAt less items k ((k - 1) / 2) = false

/-- The index at which `Swap(i, j)` finds the element that it puts at index `k`. -/
def transposed (i j k : Nat) : Nat := if k = i then j else if k = j then i else k

/-- The lines still to come out of the heap: for each element, the line it holds and the
lines after it in its chunk. -/
def remaining (chunks : List (List Str)) (items : List lineItem) : List Str :=
  items.flatMap (fun it => (chunks.getD it.chunk []).drop it.index)

/-- Each element of the heap holds the line of its chunk at its index. -/
def ItemsValid (chunks : List (List Str)) (items : List lineItem) : Prop :=
  ∀ it ∈ items, (chunks.getD it.chunk [])[it.index]? = some it.value

end SortTool

namespace Cut

/-! ## Field selection (`L2.13/main.go`) -/

/-- A Go string of valid UTF-8 text, as the list of its runes. -/
abbrev Str := List Char

/-- The line feed that `fmt.Println` writes after its text. -/
def newline : Char := Char.ofNat 10

/-- A rune put in front of the first piece of a split. -/
def consHead (c : Char) : List Str → List Str
  | [] => [[c]]
  | p :: ps => (c :: p) :: ps

/-- Modelled from the Go standard library: `strings.Split(s, string(sep))` for a separator
of one rune: the pieces of `s` between the occurrences of `sep`, one piece more than there
are occurrences. -/
def splitOn (sep : Char) : Str → List Str
  | [] => [[]]
  | c :: cs => if c = sep then [] :: splitOn sep cs else consHead c (splitOn sep cs)

/-- The two errors of `parseFields`, each with the part it names. -/
inductive FieldError where
  | invalidRange (part : Str)
  | invalidField (part : Str)
  deriving DecidableEq, Repr

/-- What a call of `parseFields` comes to: the map it returns, which holds the value `true`
and nothing else and so is given by the list of its keys; the error it returns; or no
return at all. -/
inductive FieldsResult where
  | ok (keys : List Int)
  | error (e : FieldError)
  | noReturn
  deriving DecidableEq, Repr

/-- The largest value of the type `int` on a 64-bit platform. -/
def maxInt : Int := 2 ^ 63 - 1

/-- The integers from `start` to `stop`, in order. -/
def rangeKeys (start stop : Int) : List Int :=
  (List.range (stop + 1 - start).toNat).map (fun (k : Nat) => start + (k : Int))

/-- The loop `for i := start; i <= end; i++ { result[i] = true }` on the 64-bit `int`: the
keys it sets, in order, and `none` when it does not end. For `end` the largest `int` the
condition `i <= end` holds for every `i` and `i++` wraps around, so the loop does not end;
for every other `end` the counter reaches `end + 1` without wrapping. -/
def rangeLoop (start stop : Int) : Option (List Int) :=
  if stop = maxInt then none else some (rangeKeys start stop)

/-- The body of the loop of `parseFields` for one part: the keys it sets to `true`, the
error it returns, or no return. `strconv.Atoi` is `Shell.atoi`. -/
def parsePart (part : Str) : FieldsResult :=
  if '-' ∈ part then
    if (splitOn '-' part).length ≠ 2 then .error (.invalidRange part)
    else
      match Shell.atoi ((splitOn '-' part).getD 0 []),
        Shell.atoi ((splitOn '-' part).getD 1 []) with
      | some start, some stop =>
        if start ≤ 0 ∨ stop ≤ 0 ∨ start > stop then .error (.invalidRange part)
        else
          match rangeLoop start stop with
          | none => .noReturn
          | some keys => .ok keys
      | _, _ => .error (.invalidRange part)
  else
    match Shell.atoi part with
    | some n => if n ≤ 0 then .error (.invalidField part) else .ok [n]
    | none => .error (.invalidField part)

/-- The loop `for _, part := range parts` of `parseFields`, with the keys of `result` set so
far. -/
def parseFieldsLoop : List Str → List Int → FieldsResult
  | [], result => .ok result
  | part :: parts, result =>
    match parsePart part with
    | .error e => .error e
    | .noReturn => .noReturn
    | .ok keys => parseFieldsLoop parts (result ++ keys)

/-- Source: `parseFields`. -/
def parseFields (spec : Str) : FieldsResult :=
  parseFieldsLoop (splitOn ',' spec) []

/-- The loop `for i := 1; i <= len(cols); i++` of `processLine` on the columns left from
index `i` on: the columns appended to `out`. `fields` is the lookup in the map, `false` for
an absent key. -/
def selectColumns (fields : Int → Bool) : Nat → List Str → List Str
  | _, [] => []
  | i, col :: cols =>
    if fields (i : Int) = true then col :: selectColumns fields (i + 1) cols
    else selectColumns fields (i + 1) cols

/-- Source: `processLine`: the text written to the standard output, empty when nothing is
printed. `strings.Join` is `List.intercalate`. -/
def processLine (line : Str) (delimiter : Char) (separated : Bool) (fields : Int → Bool) :
    Str :=
  if separated = true ∧ ¬ (delimiter ∈ line) then []
  else
    List.intercalate [delimiter] (selectColumns fields 1 (splitOn delimiter line))
      ++ [newline]

/-- The part is a single field `n`: a decimal integer, as `strconv.Atoi` reads it, that is
at least 1. -/
def IsField (part : Str) (n : Int) : Prop :=
  Shell.atoi part = some n ∧ 1 ≤ n

/-- The part is a range `a-b`: two decimal integers, as `strconv.Atoi` reads them, around
the only `-` of the part, with `1 <= a <= b`. -/
def IsRange (part : Str) (a b : Int) : Prop :=
  ∃ sa sb, part = sa ++ '-' :: sb ∧ '-' ∉ sa ∧ '-' ∉ sb ∧
    Shell.atoi sa = some a ∧ Shell.atoi sb = some b ∧ 1 ≤ a ∧ a ≤ b

/-- The lookup in the map that `parseFields` returns. -/
def fieldSet (keys : List Int) (i : Int) : Bool := decide (i ∈ keys)

end Cut

namespace Grep

/-! ## Context lines (`L2.12/main.go`) -/

/-- A Go string, as the list of its bytes. -/
abbrev Str := List Char

/-- The value of an `int` expression on a 64-bit platform: the mathematical result brought
into the range from `-2^63` to `2^63 - 1` by wrapping around. -/
def wrapInt (x : Int) : Int := (x + 2 ^ 63) % 2 ^ 64 - 2 ^ 63

/-- One line written by `printMatches`: the text of the line and, under `-n`, the number
`j+1` written before it. -/
structure OutLine where
  number : Option Nat
  text : Str
  deriving DecidableEq, Repr

/-- The variables of `printMatches`: the keys of the map `printed`, in the order in which
they were set, and the lines written so far. -/
structure PrintState where
  printed : List Nat
  out : List OutLine
  deriving DecidableEq, Repr

/-- The body of the loop `for j := start; j <= end; j++` of `printMatches`. -/
def printLine (lines : List Str) (showNum : Bool) (st : PrintState) (j : Nat) : PrintState :=
  if j ∈ st.printed then st
  else
    { printed := st.printed ++ [j],
      out := st.out ++ [⟨if showNum = true then some (j + 1) else none, lines.getD j []⟩] }

/-- The first index of the context of the match at `i`: `start := i - before`, and 0 in its
place when it is negative. -/
def contextStart (i : Nat) (before : Int) : Int :=
  if wrapInt ((i : Int) - before) < 0 then 0 else wrapInt ((i : Int) - before)

/-- The last index of the context of the match at `i`: `end := i + after`, and
`len(lines) - 1` in its place when it is `len(lines)` or more. -/
def contextEnd (len i : Nat) (after : Int) : Int :=
  if wrapInt ((i : Int) + after) ≥ (len : Int) then (len : Int) - 1
  else wrapInt ((i : Int) + after)

/-- The body of the loop `for i := 0; i < len(lines); i++` of `printMatches`. `matchIdx` is
the lookup in the map, `false` for an absent key. -/
def printContext (lines : List Str) (matchIdx : Int → Bool) (before after : Int)
    (showNum : Bool) (st : PrintState) (i : Nat) : PrintState :=
  if matchIdx (i : Int) = false then st
  else
    (List.range' (contextStart i before).toNat
        (contextEnd lines.length i after + 1 - contextStart i before).toNat).foldl
      (printLine lines showNum) st

/-- Source: `printMatches`: the lines it writes, in order. -/
def printMatches (lines : List Str) (matchIdx : Int → Bool) (before after : Int)
    (showNum : Bool) : List OutLine :=
  ((List.range lines.length).foldl (printContext lines matchIdx before after showNum)
    ⟨[], []⟩).out

/-- The line at index `j` is in the context of a match: `i - before <= j <= i + after` for
some index `i` of a line that matched. -/
def inContext (len : Nat) (matchIdx : Int → Bool) (before after : Int) (j : Nat) : Bool :=
  (List.range len).any
    (fun i => matchIdx (i : Int) && decide ((i : Int) - before ≤ j ∧ (j : Int) ≤ i + after))

/-- The lookup in a map of matches that holds the given indices. -/
def matchesAt (idx : List Int) (i : Int) : Bool := decide (i ∈ idx)

end Grep

namespace Anagram

/-! ## Anagram sets (`L2.11/main.go`) -/

/-- A Go string of valid UTF-8 text, as the list of its runes; the order of such strings
byte by byte is their order rune by rune. -/
abbrev Str := List Char

/-- A `map[string][]string`, as the list of its entries, one for each key. -/
abbrev Dict := List (Str × List Str)

/-- The value `m[key]` of a map: the zero value, an empty slice, for an absent key. -/
def get : Dict → Str → List Str
  | [], _ => []
  | (k, v) :: rest, key => if k = key then v else get rest key

/-- The assignment `m[key] = value`: the entry of the key is replaced, or a new entry is
added. -/
def set : Dict → Str → List Str → Dict
  | [], key, value => [(key, value)]
  | (k, v) :: rest, key, value =>
    if k = key then (k, value) :: rest else (k, v) :: set rest key value

/-- The order `<` of the runes. -/
def runeLt (a b : Char) : Bool := decide (a.toNat < b.toNat)

/-- Modelled from the Go standard library: `sort.Slice(inputWord, less)` with `less` the
order `<` of the runes. That order is total, so the sorted slice is the same whatever the
sorting algorithm; it is computed here by insertion. -/
def sortRunes (w : Str) : Str := SortTool.insertionSort runeLt w

/-- Modelled from the Go standard library: `sort.Strings(x)`. The order of strings is total,
so the sorted slice is the same whatever the sorting algorithm; it is computed here by
insertion. -/
def sortStrings (x : List Str) : List Str := SortTool.insertionSort SortTool.strLt x

/-- The body of the first loop of `findAnagrams`. `toLower` is `strings.ToLower`, whose
result is valid UTF-8 text, so that `string([]rune(v))` is `v` rune for rune. -/
def addWord (toLower : Str → Str) (dictionary : Dict) (v : Str) : Dict :=
  set dictionary (sortRunes (toLower v))
    (get dictionary (sortRunes (toLower v)) ++ [toLower v])

/-- The body of the second loop of `findAnagrams`, for one entry of `dictionary`. -/
def addResult (resultDictionary : Dict) (entry : Str × List Str) : Dict :=
  if entry.2.length > 1 then
    set resultDictionary (entry.2.headD []) (sortStrings entry.2)
  else resultDictionary

/-- Source: `findAnagrams`. `order` is the order in which `for key := range dictionary`
goes through the entries of the map, which the language leaves open. -/
def findAnagrams (toLower : Str → Str) (order : Dict → Dict) (words : List Str) : Dict :=
  (order (words.foldl (addWord toLower) [])).foldl addResult []

/-- The class of a word among the lowercased input words: the words with the same multiset
of runes, in input order and with their repeats. -/
def anagramClass (lowered : List Str) (w : Str) : List Str :=
  lowered.filter (fun x => decide (x.Perm w))

/-- A `strings.ToLower` for the examples: the ASCII letters are lowered. -/
def asciiLower (s : Str) : Str := s.map Char.toLower

end Anagram

/-! ## Theorems -/

namespace Shell

theorem scanWord_length (s : Str) : (scanWord s).2.length ≤ s.length := by
  induction s with
  | nil => simp [scanWord]
  | cons c cs ih =>
    unfold scanWord
    split_ifs <;> simp; omega

theorem tokStep_length {c : Char} {cs : Str} {t : Option Token} {r : Str}
    (h : tokStep c cs = .ok (t, r)) : r.length ≤ cs.length := by
  unfold tokStep at h
  split_ifs at h with h1 h2 h3 h4 h5
  · cases h; exact le_rfl
  · cases h; simp
  · cases h; simp
  · cases h; exact le_rfl
  · split at h
    · cases h
    · rename_i x after heq
      cases h
      have := (List.dropWhile_sublist (l := cs) (fun x => x != c)).length_le
      rw [heq] at this
      simp at this; omega
  · cases h
    have := scanWord_length cs
    simp [scanWord, h1, h2, h4]
    exact this

theorem tokenizeLoop_fuel : ∀ (f1 : Nat) (s : Str) (f2 : Nat),
    s.length ≤ f1 → s.length ≤ f2 → tokenizeLoop f1 s = tokenizeLoop f2 s := by
  intro f1
  induction f1 with
  | zero =>
    intro s f2 h1 _
    have : s = [] := List.length_eq_zero.mp (Nat.le_zero.mp h1)
    subst this
    cases f2 <;> simp [tokenizeLoop]
  | succ f1 ih =>
    intro s f2 h1 h2
    cases s with
    | nil => cases f2 <;> simp [tokenizeLoop]
    | cons c cs =>
      cases f2 with
      | zero => simp at h2
      | succ f2 =>
        simp only [tokenizeLoop]
        simp only [List.length_cons, Nat.add_le_add_iff_right] at h1 h2
        rcases hstep : tokStep c cs with e | ⟨t, r⟩
        · rfl
        · have hr := tokStep_length hstep
          have := ih r f2 (by omega) (by omega)
          cases t <;> simp [this]

theorem tokenize_nil : tokenize [] = .ok [] := rfl

theorem tokenize_cons (c : Char) (cs : Str) :
    tokenize (c :: cs) =
      match tokStep c cs with
      | .error e => .error e
      | .ok (none, rest) => tokenize rest
      | .ok (some t, rest) =>
        match tokenize rest with
        | .error e => .error e
        | .ok toks => .ok (t :: toks) := by
  simp only [tokenize, List.length_cons, tokenizeLoop]
  rcases hstep : tokStep c cs with e | ⟨t, r⟩
  · rfl
  · have hr := tokStep_length hstep
    have := tokenizeLoop_fuel cs.length r r.length hr le_rfl
    cases t <;> simp [this]

/-! ### Unfolding equations for each branch of the loop body -/

theorem tokenize_space {c : Char} (cs : Str) (h : isSpace c = true) :
    tokenize (c :: cs) = tokenize cs := by
  rw [tokenize_cons]; simp [tokStep, h]

theorem tokenize_spaces (sp rest : Str) (h : ∀ c ∈ sp, isSpace c = true) :
    tokenize (sp ++ rest) = tokenize rest := by
  induction sp with
  | nil => rfl
  | cons c cs ih =>
    rw [List.cons_append, tokenize_space _ (h c (by simp))]
    exact ih (fun x hx => h x (by simp [hx]))

theorem tokenize_and (rest : Str) :
    tokenize ('&' :: '&' :: rest) = consTok ⟨.TK_AND, ['&', '&']⟩ (tokenize rest) := by
  rw [tokenize_cons]
  have : isSpace '&' = false := by decide
  simp [tokStep, this]
  cases tokenize rest <;> rfl

theorem tokenize_or (rest : Str) :
    tokenize ('|' :: '|' :: rest) = consTok ⟨.TK_OR, ['|', '|']⟩ (tokenize rest) := by
  rw [tokenize_cons]
  have : isSpace '|' = false := by decide
  simp [tokStep, this]
  cases tokenize rest <;> rfl

theorem tokenize_pipe (rest : Str) (h : rest.head? ≠ some '|') :
    tokenize ('|' :: rest) = consTok ⟨.TK_PIPE, ['|']⟩ (tokenize rest) := by
  rw [tokenize_cons]
  have : isSpace '|' = false := by decide
  simp [tokStep, this, h]
  cases tokenize rest <;> rfl

/-! ### Chains of plain words and operators -/

theorem plainChar_spec {c : Char} (h : plainChar c = true) :
    isSpace c = false ∧ c ≠ dquote ∧ c ≠ squote ∧ c ≠ '|' ∧ c ≠ '&' := by
  simp only [plainChar, Bool.and_eq_true, Bool.not_eq_true', bne_iff_ne, ne_eq] at h
  obtain ⟨⟨⟨⟨h1, h2⟩, h3⟩, h4⟩, h5⟩ := h
  exact ⟨h1, h2, h3, h4, h5⟩

theorem scanWord_plain_append (w r : Str) (h : ∀ c ∈ w, plainChar c = true) :
    scanWord (w ++ r) = (w ++ (scanWord r).1, (scanWord r).2) := by
  induction w with
  | nil => rfl
  | cons c cs ih =>
    obtain ⟨h1, -, -, h4, h5⟩ := plainChar_spec (h c (by simp))
    have ih' := ih (fun x hx => h x (by simp [hx]))
    simp [scanWord, h1, h4, h5, ih']

theorem tokenize_plain (w r : Str) (hw : isPlain w = true) (hr : scanWord r = ([], r)) :
    tokenize (w ++ r) = consTok ⟨.TK_WORD, w⟩ (tokenize r) := by
  cases w with
  | nil => simp [isPlain] at hw
  | cons c cs =>
    have hall : ∀ x ∈ c :: cs, plainChar x = true := by
      simp only [isPlain, Bool.and_eq_true, List.all_eq_true] at hw
      exact hw.2
    obtain ⟨h1, h2, h3, h4, h5⟩ := plainChar_spec (hall c (by simp))
    have hs := scanWord_plain_append (c :: cs) r hall
    rw [hr] at hs
    simp only [List.cons_append, List.append_nil] at hs
    rw [List.cons_append, tokenize_cons]
    simp [tokStep, h1, h2, h3, h4, h5, hs]
    cases tokenize r <;> rfl

theorem scanWord_boundary_space {c : Char} (cs : Str) (h : isSpace c = true) :
    scanWord (c :: cs) = ([], c :: cs) := by
  simp [scanWord, h]

theorem scanWord_boundary_op (o : ChainOp) (r : Str) :
    scanWord (o.text ++ r) = ([], o.text ++ r) := by
  cases o <;> simp [ChainOp.text, scanWord, isSpace, tab]

theorem renderLinks_boundary (ls : List Link) (h : ∀ l ∈ ls, l.ok = true) :
    scanWord (renderLinks ls) = ([], renderLinks ls) := by
  cases ls with
  | nil => rfl
  | cons l ls =>
    have hl : l.ok = true := h l (by simp)
    simp only [Link.ok, Bool.and_eq_true, List.all_eq_true] at hl
    simp only [renderLinks]
    cases hp : l.pre with
    | nil => simpa using scanWord_boundary_op l.op _
    | cons c cs =>
      have : isSpace c = true := hl.1.1 c (by simp [hp])
      simpa using scanWord_boundary_space _ this

theorem tokenize_links (ls : List Link) (h : ∀ l ∈ ls, l.ok = true) :
    tokenize (renderLinks ls) = .ok (linkTokens ls) := by
  induction ls with
  | nil => rfl
  | cons l ls ih =>
    have hl : l.ok = true := h l (by simp)
    have hrest : ∀ x ∈ ls, x.ok = true := fun x hx => h x (by simp [hx])
    have hl' := hl
    simp only [Link.ok, Bool.and_eq_true, List.all_eq_true] at hl'
    obtain ⟨⟨hpre, hpost⟩, hword⟩ := hl'
    have hw : tokenize (l.word ++ renderLinks ls)
        = .ok (⟨.TK_WORD, l.word⟩ :: linkTokens ls) := by
      rw [tokenize_plain _ _ hword (renderLinks_boundary ls hrest), ih hrest]; rfl
    have hafter : tokenize (l.post ++ (l.word ++ renderLinks ls))
        = .ok (⟨.TK_WORD, l.word⟩ :: linkTokens ls) := by
      rw [tokenize_spaces _ _ hpost, hw]
    have hhead : (l.post ++ (l.word ++ renderLinks ls)).head? ≠ some '|' := by
      cases hp : l.post with
      | nil =>
        cases hwd : l.word with
        | nil => simp [isPlain, hwd] at hword
        | cons c cs =>
          have : plainChar c = true := by
            have : ∀ x ∈ l.word, plainChar x = true := by
              have := hword
              simp only [isPlain, Bool.and_eq_true, List.all_eq_true] at this
              exact this.2
            exact this c (by simp [hwd])
          have := (plainChar_spec this).2.2.2.1
          simpa using this
      | cons c cs =>
        have : isSpace c = true := hpost c (by simp [hp])
        intro hc
        simp at hc
        subst hc
        exact absurd this (by decide)
    simp only [renderLinks, linkTokens]
    rw [tokenize_spaces _ _ hpre]
    cases ho : l.op with
    | and =>
      simp only [ChainOp.text, ChainOp.kind, List.cons_append, List.nil_append]
      rw [tokenize_and, hafter]; rfl
    | or =>
      simp only [ChainOp.text, ChainOp.kind, List.cons_append, List.nil_append]
      rw [tokenize_or, hafter]; rfl
    | pipe =>
      simp only [ChainOp.text, ChainOp.kind, List.cons_append, List.nil_append]
      rw [tokenize_pipe _ hhead, hafter]; rfl

/-- C1: a chain `w0 o1 w1 ... on wn` of non-empty plain words and operators `&&`, `||`, `|`,
with any amount of whitespace (or none) around each operator, tokenizes to
`[Word w0, K(o1), Word w1, ..., K(on), Word wn]`; in particular `||` gives one Or token. -/
theorem tokenize_operator_chain (w0 : Str) (ls : List Link)
    (hw : isPlain w0 = true) (hls : ∀ l ∈ ls, l.ok = true) :
    tokenize (w0 ++ renderLinks ls) = .ok (⟨.TK_WORD, w0⟩ :: linkTokens ls) := by
  rw [tokenize_plain _ _ hw (renderLinks_boundary ls hls), tokenize_links ls hls]; rfl

theorem tokenize_operator_chain_witness :
    isPlain "a".toList = true ∧
    tokenize "a && b || c | d".toList
      = .ok [⟨.TK_WORD, "a".toList⟩, ⟨.TK_AND, ['&', '&']⟩, ⟨.TK_WORD, "b".toList⟩,
             ⟨.TK_OR, ['|', '|']⟩, ⟨.TK_WORD, "c".toList⟩, ⟨.TK_PIPE, ['|']⟩,
             ⟨.TK_WORD, "d".toList⟩] :=
  ⟨by decide, tokenize_operator_chain "a".toList
    [⟨" ".toList, .and, " ".toList, "b".toList⟩, ⟨" ".toList, .or, " ".toList, "c".toList⟩,
     ⟨" ".toList, .pipe, " ".toList, "d".toList⟩] (by decide) (by decide)⟩

/-! ### Quoted spans -/

theorem isSpace_dquote : isSpace dquote = false := by decide
theorem isSpace_squote : isSpace squote = false := by decide

theorem tokStep_quote (q : Char) (cs : Str) (hq : q = dquote ∨ q = squote) :
    tokStep q cs =
      match cs.dropWhile (fun x => x != q) with
      | [] => .error .unterminatedQuote
      | _ :: after => .ok (some ⟨.TK_WORD, cs.takeWhile (fun x => x != q)⟩, after) := by
  rcases hq with rfl | rfl
  · have h1 : dquote ≠ '&' := by decide
    have h2 : dquote ≠ '|' := by decide
    simp [tokStep, isSpace_dquote, h1, h2]
  · have h1 : squote ≠ '&' := by decide
    have h2 : squote ≠ '|' := by decide
    simp [tokStep, isSpace_squote, h1, h2]

theorem dropWhile_ne_closed (q : Char) (s rest : Str) (hs : q ∉ s) :
    (s ++ q :: rest).dropWhile (fun x => x != q) = q :: rest := by
  induction s with
  | nil => simp
  | cons c cs ih =>
    have hc : c ≠ q := fun h => hs (by simp [h])
    have hcs : q ∉ cs := fun h => hs (by simp [h])
    simp [hc, ih hcs]

theorem takeWhile_ne_closed (q : Char) (s rest : Str) (hs : q ∉ s) :
    (s ++ q :: rest).takeWhile (fun x => x != q) = s := by
  induction s with
  | nil => simp
  | cons c cs ih =>
    have hc : c ≠ q := fun h => hs (by simp [h])
    have hcs : q ∉ cs := fun h => hs (by simp [h])
    simp [hc, ih hcs]

theorem dropWhile_ne_open (q : Char) (s : Str) (hs : q ∉ s) :
    s.dropWhile (fun x => x != q) = [] := by
  rw [List.dropWhile_eq_nil_iff]
  intro x hx
  have : x ≠ q := fun h => hs (h ▸ hx)
  simpa using this

theorem tokenize_closed_quote (q : Char) (s rest : Str) (hq : q = dquote ∨ q = squote)
    (hs : q ∉ s) :
    tokenize (q :: (s ++ q :: rest)) = consTok ⟨.TK_WORD, s⟩ (tokenize rest) := by
  rw [tokenize_cons, tokStep_quote q _ hq, dropWhile_ne_closed q s rest hs,
    takeWhile_ne_closed q s rest hs]
  simp only
  cases tokenize rest <;> rfl

theorem tokenize_open_quote (q : Char) (s : Str) (hq : q = dquote ∨ q = squote)
    (hs : q ∉ s) : tokenize (q :: s) = .error .unterminatedQuote := by
  rw [tokenize_cons, tokStep_quote q _ hq, dropWhile_ne_open q s hs]

/-- C2: a quoted span `q s q`, where `q` is one of the two quote characters and `s` does not
contain `q`, tokenizes to the single Word token whose value is `s` verbatim; after `echo` and
a space it is the second token. -/
theorem tokenize_quoted (q : Char) (s : Str) (hq : q = dquote ∨ q = squote) (hs : q ∉ s) :
    tokenize (q :: (s ++ [q])) = .ok [⟨.TK_WORD, s⟩] ∧
    tokenize ("echo ".toList ++ q :: (s ++ [q]))
      = .ok [⟨.TK_WORD, "echo".toList⟩, ⟨.TK_WORD, s⟩] := by
  have h1 : tokenize (q :: (s ++ [q])) = .ok [⟨.TK_WORD, s⟩] := by
    rw [tokenize_closed_quote q s [] hq hs]; rfl
  refine ⟨h1, ?_⟩
  have hb : scanWord (' ' :: q :: (s ++ [q])) = ([], ' ' :: q :: (s ++ [q])) :=
    scanWord_boundary_space _ (by decide)
  have := tokenize_plain "echo".toList (' ' :: q :: (s ++ [q])) (by decide) hb
  have e : "echo ".toList ++ q :: (s ++ [q]) = "echo".toList ++ (' ' :: q :: (s ++ [q])) := rfl
  rw [e, this, tokenize_space _ (by decide), h1]; rfl

theorem tokenize_quoted_witness :
    (tokenize (dquote :: ("a b".toList ++ [dquote])) = .ok [⟨.TK_WORD, "a b".toList⟩] ∧
     tokenize ("echo ".toList ++ dquote :: ("a b".toList ++ [dquote]))
      = .ok [⟨.TK_WORD, "echo".toList⟩, ⟨.TK_WORD, "a b".toList⟩]) ∧
    squote ∉ "a\tb|c && d || \\ e".toList ++ [dquote] ∧
    tokenize (squote :: (("a\tb|c && d || \\ e".toList ++ [dquote]) ++ [squote]))
      = .ok [⟨.TK_WORD, "a\tb|c && d || \\ e".toList ++ [dquote]⟩] :=
  ⟨tokenize_quoted dquote "a b".toList (Or.inl rfl) (by decide), by decide,
   (tokenize_quoted squote _ (Or.inr rfl) (by decide)).1⟩

/-! ### Lexical failures -/

theorem scanWord_subset (s : Str) : ∀ x ∈ (scanWord s).2, x ∈ s := by
  induction s with
  | nil => simp [scanWord]
  | cons c cs ih =>
    unfold scanWord
    split_ifs
    · exact fun x hx => hx
    · exact fun x hx => hx
    · exact fun x hx => hx
    · exact fun x hx => List.mem_cons_of_mem _ (ih x hx)

theorem tokStep_subset {c : Char} {cs : Str} {t : Option Token} {r : Str}
    (h : tokStep c cs = .ok (t, r)) : ∀ x ∈ r, x ∈ c :: cs := by
  unfold tokStep at h
  split_ifs at h with h1 h2 h3 h4 h5
  · cases h; exact fun x hx => List.mem_cons_of_mem _ hx
  · cases h; exact fun x hx => List.mem_cons_of_mem _ (List.mem_of_mem_tail hx)
  · cases h; exact fun x hx => List.mem_cons_of_mem _ (List.mem_of_mem_tail hx)
  · cases h; exact fun x hx => List.mem_cons_of_mem _ hx
  · split at h
    · cases h
    · rename_i y after heq
      cases h
      intro x hx
      have : x ∈ cs.dropWhile (fun x => x != c) := by rw [heq]; exact List.mem_cons_of_mem _ hx
      exact List.mem_cons_of_mem _ (List.dropWhile_subset _ this)
  · cases h
    exact scanWord_subset _

theorem ScanReaches.subset {s r : Str} (h : ScanReaches s r) : ∀ x ∈ r, x ∈ s := by
  induction h with
  | here => exact fun x hx => hx
  | next hstep _ ih => exact fun x hx => tokStep_subset hstep x (ih x hx)

theorem tokStep_error {c : Char} {cs : Str} {e : LexError} (h : tokStep c cs = .error e) :
    e = .unterminatedQuote ∧ (c = dquote ∨ c = squote) ∧ c ∉ cs := by
  unfold tokStep at h
  split_ifs at h with h1 h2 h3 h4 h5
  split at h
  · rename_i heq
    cases h
    refine ⟨rfl, h5, ?_⟩
    rw [List.dropWhile_eq_nil_iff] at heq
    intro hc
    simpa using heq c hc
  · cases h

theorem tokenize_error_reaches : ∀ (n : Nat) (line : Str) (e : LexError), line.length ≤ n →
    tokenize line = .error e →
    e = .unterminatedQuote ∧
      ∃ q s, ScanReaches line (q :: s) ∧ (q = dquote ∨ q = squote) ∧ q ∉ s := by
  intro n
  induction n with
  | zero =>
    intro line e hlen h
    have : line = [] := List.length_eq_zero.mp (Nat.le_zero.mp hlen)
    subst this
    cases h
  | succ n ih =>
    intro line e hlen h
    cases line with
    | nil => cases h
    | cons c cs =>
      rw [tokenize_cons] at h
      rcases hstep : tokStep c cs with e' | ⟨t, r⟩
      · rw [hstep] at h
        cases h
        obtain ⟨h1, h2, h3⟩ := tokStep_error hstep
        exact ⟨h1, c, cs, .here _, h2, h3⟩
      · rw [hstep] at h
        have hr : r.length ≤ n := by
          have := tokStep_length hstep
          simp at hlen; omega
        have key : tokenize r = .error e := by
          cases t with
          | none => exact h
          | some t =>
            simp only at h
            cases hr' : tokenize r with
            | error e2 => rw [hr'] at h; cases h; rfl
            | ok toks => rw [hr'] at h; cases h
        obtain ⟨h1, q, s, hreach, hq, hs⟩ := ih r e hr key
        exact ⟨h1, q, s, .next hstep hreach, hq, hs⟩

theorem reaches_tokenize_error {line r : Str} (h : ScanReaches line r)
    (hr : tokenize r = .error .unterminatedQuote) :
    tokenize line = .error .unterminatedQuote := by
  induction h with
  | here => exact hr
  | @next c cs t r' s hstep _ ih =>
    rw [tokenize_cons, hstep]
    cases t <;> simp [ih hr]

/-- C3: `tokenize` fails if and only if the scan reaches, at the start of a token, a quote
character that does not occur again in the rest of the line, and the failure is then the
unterminated-quote error; a line without quote characters always tokenizes, and an opening
quote followed by a text without that quote always fails. -/
theorem tokenize_fails_iff (line : Str) :
    ((∃ e, tokenize line = .error e) ↔
      ∃ q s, ScanReaches line (q :: s) ∧ (q = dquote ∨ q = squote) ∧ q ∉ s) ∧
    (∀ e, tokenize line = .error e → e = .unterminatedQuote) ∧
    ((∀ c ∈ line, c ≠ dquote ∧ c ≠ squote) → ∃ toks, tokenize line = .ok toks) ∧
    (∀ q, (q = dquote ∨ q = squote) → q ∉ line →
      tokenize (q :: line) = .error .unterminatedQuote) := by
  have hfwd : ∀ e, tokenize line = .error e →
      e = .unterminatedQuote ∧
        ∃ q s, ScanReaches line (q :: s) ∧ (q = dquote ∨ q = squote) ∧ q ∉ s :=
    fun e h => tokenize_error_reaches line.length line e le_rfl h
  refine ⟨⟨fun ⟨e, h⟩ => (hfwd e h).2, ?_⟩, fun e h => (hfwd e h).1, ?_, ?_⟩
  · rintro ⟨q, s, hreach, hq, hs⟩
    exact ⟨_, reaches_tokenize_error hreach (tokenize_open_quote q s hq hs)⟩
  · intro hno
    cases h : tokenize line with
    | ok toks => exact ⟨toks, rfl⟩
    | error e =>
      obtain ⟨-, q, s, hreach, hq, -⟩ := hfwd e h
      have hmem : q ∈ line := hreach.subset q (by simp)
      have := hno q hmem
      rcases hq with rfl | rfl
      · exact absurd rfl this.1
      · exact absurd rfl this.2
  · intro q hq hs
    exact tokenize_open_quote q line hq hs

theorem tokenize_fails_iff_witness :
    (∃ e, tokenize ("echo ".toList ++ dquote :: "a b".toList) = .error e) ∧
    (∃ toks, tokenize "a && b | c".toList = .ok toks) ∧
    tokenize (squote :: "a b".toList) = .error .unterminatedQuote :=
  ⟨(tokenize_fails_iff ("echo ".toList ++ dquote :: "a b".toList)).1.2
      ⟨dquote, "a b".toList,
        .next (c := 'e') (t := some ⟨.TK_WORD, "echo".toList⟩) (r := ' ' :: dquote :: "a b".toList) rfl
          (.next (c := ' ') (t := none) (r := dquote :: "a b".toList) rfl (.here _)),
        Or.inl rfl, by decide⟩,
   (tokenize_fails_iff "a && b | c".toList).2.2.1 (by decide),
   (tokenize_fails_iff "a b".toList).2.2.2 squote (Or.inr rfl) (by decide)⟩

/-! ### Environment expansion without `$` -/

theorem expandLoop_no_dollar (env : Str → Str) : ∀ (fuel : Nat) (s : Str),
    s.length ≤ fuel → (∀ c ∈ s, c ≠ '$') → expandLoop env fuel s = s := by
  intro fuel
  induction fuel with
  | zero =>
    intro s h _
    have : s = [] := List.length_eq_zero.mp (Nat.le_zero.mp h)
    subst this; rfl
  | succ n ih =>
    intro s h hs
    cases s with
    | nil => rfl
    | cons c cs =>
      have hc : c ≠ '$' := hs c (by simp)
      have hcs : ∀ x ∈ cs, x ≠ '$' := fun x hx => hs x (by simp [hx])
      simp only [List.length_cons, Nat.add_le_add_iff_right] at h
      simp [expandLoop, expandStep, hc, ih cs h hcs]

theorem expandEnv_no_dollar (env : Str → Str) (s : Str) (hs : ∀ c ∈ s, c ≠ '$') :
    expandEnv env s = s :=
  expandLoop_no_dollar env s.length s le_rfl hs

theorem expandStep_length (env : Str → Str) (c : Char) (cs : Str) :
    (expandStep env c cs).2.length ≤ cs.length := by
  unfold expandStep
  split_ifs
  · have h1 := (List.dropWhile_sublist (l := cs.tail) (fun x => x != rbrace)).length_le
    simp only [List.length_tail] at h1 ⊢
    omega
  · exact (List.dropWhile_sublist _).length_le
  · exact le_rfl
  · exact le_rfl

theorem expandLoop_fuel (env : Str → Str) : ∀ (f1 : Nat) (s : Str) (f2 : Nat),
    s.length ≤ f1 → s.length ≤ f2 → expandLoop env f1 s = expandLoop env f2 s := by
  intro f1
  induction f1 with
  | zero =>
    intro s f2 h1 _
    have : s = [] := List.length_eq_zero.mp (Nat.le_zero.mp h1)
    subst this
    cases f2 <;> rfl
  | succ f1 ih =>
    intro s f2 h1 h2
    cases s with
    | nil => cases f2 <;> rfl
    | cons c cs =>
      cases f2 with
      | zero => simp at h2
      | succ f2 =>
        simp only [List.length_cons, Nat.add_le_add_iff_right] at h1 h2
        have hr := expandStep_length env c cs
        simp only [expandLoop]
        rw [ih _ f2 (by omega) (by omega)]

theorem expandEnv_nil (env : Str → Str) : expandEnv env [] = [] := rfl

/-- The loop of `expandEnv` always runs to the end of the string: each iteration writes its
text and goes on with what is left. -/
theorem expandEnv_cons (env : Str → Str) (c : Char) (cs : Str) :
    expandEnv env (c :: cs) =
      (expandStep env c cs).1 ++ expandEnv env (expandStep env c cs).2 := by
  simp only [expandEnv, List.length_cons, expandLoop]
  rw [expandLoop_fuel env cs.length _ _ (expandStep_length env c cs) le_rfl]

/-! ### Unfolding `parseSegments` -/

theorem dropWhile_length_lt {α : Type} (p : α → Bool) (l : List α) (x : α) (r : List α)
    (h : l.dropWhile p = x :: r) : r.length < l.length := by
  have := (List.dropWhile_sublist (l := l) p).length_le
  rw [h] at this
  simp at this; omega

theorem parseSegmentsLoop_fuel (env : Str → Str) : ∀ (f1 : Nat) (toks : List Token) (f2 : Nat),
    toks.length ≤ f1 → toks.length ≤ f2 →
    parseSegmentsLoop env f1 toks = parseSegmentsLoop env f2 toks := by
  intro f1
  induction f1 with
  | zero =>
    intro toks f2 h1 _
    have : toks = [] := List.length_eq_zero.mp (Nat.le_zero.mp h1)
    subst this
    cases f2 <;> simp [parseSegmentsLoop]
  | succ f1 ih =>
    intro toks f2 h1 h2
    cases toks with
    | nil => cases f2 <;> simp [parseSegmentsLoop]
    | cons t ts =>
      cases f2 with
      | zero => simp at h2
      | succ f2 =>
        simp only [parseSegmentsLoop]
        simp only [List.length_cons, Nat.add_le_add_iff_right] at h1 h2
        cases parsePipelineSegment env (List.takeWhile notAndOr (t :: ts)) with
        | error e => rfl
        | ok seg =>
          simp only
          cases hd : List.dropWhile notAndOr (t :: ts) with
          | nil => rfl
          | cons op rest =>
            have := dropWhile_length_lt _ _ _ _ hd
            simp only [List.length_cons] at this
            simp only
            rw [ih rest f2 (by omega) (by omega)]

theorem parseSegments_nil (env : Str → Str) : parseSegments env [] = .ok [] := rfl

theorem parseSegments_cons (env : Str → Str) (t : Token) (ts : List Token) :
    parseSegments env (t :: ts) =
      match parsePipelineSegment env ((t :: ts).takeWhile notAndOr) with
      | .error e => .error e
      | .ok seg =>
        match (t :: ts).dropWhile notAndOr with
        | [] => .ok [{ seg with NextOp := .TK_WORD }]
        | op :: rest =>
          match parseSegments env rest with
          | .error e => .error e
          | .ok segs => .ok ({ seg with NextOp := op.Kind } :: segs) := by
  simp only [parseSegments, List.length_cons, parseSegmentsLoop]
  cases parsePipelineSegment env (List.takeWhile notAndOr (t :: ts)) with
  | error e => rfl
  | ok seg =>
    simp only
    cases hd : List.dropWhile notAndOr (t :: ts) with
    | nil => rfl
    | cons op rest =>
      have := dropWhile_length_lt _ _ _ _ hd
      simp only [List.length_cons] at this
      simp only
      rw [parseSegmentsLoop_fuel env ts.length rest rest.length (by omega) le_rfl]

theorem parsePipelineSegment_NextOp (env : Str → Str) {toks : List Token} {seg : CmdSegment}
    (h : parsePipelineSegment env toks = .ok seg) : seg.NextOp = .TK_WORD := by
  unfold parsePipelineSegment at h
  split_ifs at h
  split at h
  · cases h
  · cases h; rfl

/-- A non-empty token list without `&&` and `||` is parsed as one Segment. -/
theorem parseSegments_single (env : Str → Str) (t : Token) (ts : List Token)
    (h : ∀ x ∈ t :: ts, notAndOr x = true) :
    parseSegments env (t :: ts) =
      match parsePipelineSegment env (t :: ts) with
      | .error e => .error e
      | .ok seg => .ok [seg] := by
  rw [parseSegments_cons]
  have h1 : (t :: ts).takeWhile notAndOr = t :: ts := List.takeWhile_eq_self_iff.mpr h
  have h2 : (t :: ts).dropWhile notAndOr = [] := List.dropWhile_eq_nil_iff.mpr h
  rw [h1, h2]
  cases hp : parsePipelineSegment env (t :: ts) with
  | error e => rfl
  | ok seg =>
    have := parsePipelineSegment_NextOp env hp
    cases seg
    simp at this
    simp [this]

/-! ### One iteration of the loop of `parsePipelineSegment` -/

theorem parsePipelineLoop_pipe (env : Str → Str) (t : Token) (ts sub : List Token)
    (units : List CmdUnit) (ht : t.Kind = .TK_PIPE) :
    parsePipelineLoop env (t :: ts) sub units =
      if sub.length = 0 then .error .emptyCommandInPipeline
      else
        match parseCmdUnit env sub with
        | .error e => .error e
        | .ok unit => parsePipelineLoop env ts [] (units ++ [unit]) := by
  rw [parsePipelineLoop, if_pos ht]

theorem parsePipelineLoop_word (env : Str → Str) (t : Token) (ts sub : List Token)
    (units : List CmdUnit) (ht : t.Kind ≠ .TK_PIPE) :
    parsePipelineLoop env (t :: ts) sub units =
      parsePipelineLoop env ts (sub ++ [t]) units := by
  rw [parsePipelineLoop, if_neg ht]

theorem parsePipelineLoop_end (env : Str → Str) (sub : List Token) (units : List CmdUnit) :
    parsePipelineLoop env [] sub units =
      if sub.length = 0 then .error .emptyCommandInPipeline
      else
        match parseCmdUnit env sub with
        | .error e => .error e
        | .ok unit => .ok (units ++ [unit]) := by
  rw [parsePipelineLoop]

/-! ### Commands made of argument words -/

theorem isArgWord_spec {v : Str} (h : isArgWord v = true) :
    v.head? ≠ some '>' ∧ v.head? ≠ some '<' ∧ v ≠ ['>'] ∧ v ≠ ['<'] := by
  simp only [isArgWord, Bool.and_eq_true, bne_iff_ne, ne_eq] at h
  refine ⟨h.2, h.1, ?_, ?_⟩
  · intro hv; rw [hv] at h; exact h.2 rfl
  · intro hv; rw [hv] at h; exact h.1 rfl

theorem parseCmdUnitLoop_cons (env : Str → Str) (t : Token) (ts : List Token)
    (args : List Str) (stdinFile stdoutFile : Str) :
    parseCmdUnitLoop env (t :: ts) args stdinFile stdoutFile =
      if t.Kind ≠ .TK_WORD then .error .unexpectedToken
      else if t.Val.head? = some '>' ∧ 1 < t.Val.length then
        parseCmdUnitLoop env ts args stdinFile (t.Val.drop 1)
      else if t.Val.head? = some '<' ∧ 1 < t.Val.length then
        parseCmdUnitLoop env ts args (t.Val.drop 1) stdoutFile
      else if t.Val = ['>'] then
        match ts with
        | [] => .error .expectedFilenameAfterGt
        | f :: ts2 => parseCmdUnitLoop env ts2 args stdinFile f.Val
      else if t.Val = ['<'] then
        match ts with
        | [] => .error .expectedFilenameAfterLt
        | f :: ts2 => parseCmdUnitLoop env ts2 args f.Val stdoutFile
      else parseCmdUnitLoop env ts (args ++ [expandEnv env t.Val]) stdinFile stdoutFile := by
  cases ts <;> rfl

theorem parseCmdUnitLoop_nil (env : Str → Str) (args : List Str) (stdinFile stdoutFile : Str) :
    parseCmdUnitLoop env [] args stdinFile stdoutFile =
      if args.length = 0 then .error .emptyCommand
      else .ok ⟨args, stdinFile, stdoutFile, false⟩ := rfl

theorem parseCmdUnitLoop_arg (env : Str → Str) (v : Str) (ts : List Token) (args : List Str)
    (i o : Str) (hv : isArgWord v = true) :
    parseCmdUnitLoop env (⟨.TK_WORD, v⟩ :: ts) args i o =
      parseCmdUnitLoop env ts (args ++ [expandEnv env v]) i o := by
  obtain ⟨h1, h2, h3, h4⟩ := isArgWord_spec hv
  rw [parseCmdUnitLoop_cons]
  simp [h1, h2, h3, h4]

theorem parseCmdUnitLoop_args (env : Str → Str) (g : List Str) (ts : List Token)
    (args : List Str) (i o : Str) (hg : ∀ v ∈ g, isArgWord v = true) :
    parseCmdUnitLoop env (wordToks g ++ ts) args i o =
      parseCmdUnitLoop env ts (args ++ g.map (expandEnv env)) i o := by
  induction g generalizing args with
  | nil => simp [wordToks]
  | cons v vs ih =>
    have hv := hg v (by simp)
    have hvs : ∀ x ∈ vs, isArgWord x = true := fun x hx => hg x (by simp [hx])
    have := ih (args ++ [expandEnv env v]) hvs
    simp only [wordToks, List.map_cons, List.cons_append] at this ⊢
    rw [parseCmdUnitLoop_arg env v _ args i o hv, this]
    simp

theorem parseCmdUnit_args (env : Str → Str) (g : List Str) (hne : g ≠ [])
    (hg : ∀ v ∈ g, isArgWord v = true) :
    parseCmdUnit env (wordToks g) = .ok (argUnit env g) := by
  have := parseCmdUnitLoop_args env g [] [] [] [] hg
  simp only [List.append_nil, List.nil_append] at this
  unfold parseCmdUnit
  rw [this, parseCmdUnitLoop_nil]
  simp [argUnit, hne]

theorem parsePipelineLoop_words (env : Str → Str) (g : List Str) (ts sub : List Token)
    (units : List CmdUnit) :
    parsePipelineLoop env (wordToks g ++ ts) sub units =
      parsePipelineLoop env ts (sub ++ wordToks g) units := by
  induction g generalizing sub with
  | nil => simp [wordToks]
  | cons v vs ih =>
    have := ih (sub ++ [⟨.TK_WORD, v⟩])
    simp only [wordToks, List.map_cons, List.cons_append] at this ⊢
    rw [parsePipelineLoop_word env ⟨.TK_WORD, v⟩ _ _ _ (by simp), this]
    simp

theorem wordToks_ne_nil {g : List Str} (h : g ≠ []) : (wordToks g).length ≠ 0 := by
  cases g with
  | nil => exact absurd rfl h
  | cons v vs => simp [wordToks]

theorem parsePipelineLoop_groups (env : Str → Str) (gs : List (List Str)) (hne : gs ≠ [])
    (hgs : ∀ g ∈ gs, g ≠ [] ∧ ∀ v ∈ g, isArgWord v = true) (units : List CmdUnit) :
    parsePipelineLoop env (pipelineToks gs) [] units
      = .ok (units ++ gs.map (argUnit env)) := by
  induction gs generalizing units with
  | nil => exact absurd rfl hne
  | cons g rest ih =>
    obtain ⟨hg1, hg2⟩ := hgs g (by simp)
    have hlen := wordToks_ne_nil hg1
    cases rest with
    | nil =>
      have := parsePipelineLoop_words env g [] [] units
      simp only [List.append_nil, List.nil_append] at this
      simp only [pipelineToks]
      rw [this, parsePipelineLoop_end, if_neg hlen, parseCmdUnit_args env g hg1 hg2]
      rfl
    | cons g2 rest2 =>
      have hrest : ∀ x ∈ g2 :: rest2, x ≠ [] ∧ ∀ v ∈ x, isArgWord v = true :=
        fun x hx => hgs x (List.mem_cons_of_mem _ hx)
      have := parsePipelineLoop_words env g (pipeTok :: pipelineToks (g2 :: rest2)) [] units
      simp only [List.nil_append] at this
      simp only [pipelineToks]
      rw [this]
      rw [parsePipelineLoop_pipe env pipeTok _ _ _ rfl, if_neg hlen,
        parseCmdUnit_args env g hg1 hg2]
      have ih' := ih (by simp) hrest (units ++ [argUnit env g])
      simp only [pipelineToks] at ih'
      simp only [ih']
      simp

theorem pipelineToks_ne_nil {gs : List (List Str)} (hne : gs ≠ [])
    (hgs : ∀ g ∈ gs, g ≠ []) : (pipelineToks gs).length ≠ 0 := by
  cases gs with
  | nil => exact absurd rfl hne
  | cons g rest =>
    have := wordToks_ne_nil (hgs g (by simp))
    cases rest with
    | nil => simpa [pipelineToks] using this
    | cons g2 r2 => simp [pipelineToks]

theorem pipelineToks_notAndOr (gs : List (List Str)) :
    ∀ t ∈ pipelineToks gs, notAndOr t = true := by
  induction gs with
  | nil => simp [pipelineToks]
  | cons g rest ih =>
    have hw : ∀ t ∈ wordToks g, notAndOr t = true := by
      intro t ht
      simp only [wordToks, List.mem_map] at ht
      obtain ⟨v, -, rfl⟩ := ht
      rfl
    cases rest with
    | nil => simpa [pipelineToks] using hw
    | cons g2 r2 =>
      intro t ht
      simp only [pipelineToks, List.mem_append, List.mem_cons] at ht ih
      rcases ht with h | h | h
      · exact hw t h
      · subst h; rfl
      · exact ih t h

/-! ### Empty commands in a pipeline -/

theorem parsePipelineLoop_leading (env : Str → Str) (t : Token) (rest : List Token)
    (units : List CmdUnit) (ht : t.Kind = .TK_PIPE) :
    parsePipelineLoop env (t :: rest) [] units = .error .emptyCommandInPipeline := by
  rw [parsePipelineLoop_pipe env t rest [] units ht]; rfl

theorem parsePipelineLoop_trailing (env : Str → Str) (init : List Token) (t : Token)
    (ht : t.Kind = .TK_PIPE) : ∀ (sub : List Token) (units : List CmdUnit),
    ∃ e, parsePipelineLoop env (init ++ [t]) sub units = .error e := by
  induction init with
  | nil =>
    intro sub units
    rw [List.nil_append, parsePipelineLoop_pipe env t [] sub units ht]
    split_ifs
    · exact ⟨_, rfl⟩
    · cases parseCmdUnit env sub with
      | error e => exact ⟨e, rfl⟩
      | ok u => exact ⟨_, rfl⟩
  | cons x xs ih =>
    intro sub units
    rw [List.cons_append]
    by_cases hx : x.Kind = .TK_PIPE
    · rw [parsePipelineLoop_pipe env x _ sub units hx]
      split_ifs
      · exact ⟨_, rfl⟩
      · cases parseCmdUnit env sub with
        | error e => exact ⟨e, rfl⟩
        | ok u => exact ih _ _
    · rw [parsePipelineLoop_word env x _ sub units hx]
      exact ih _ _

theorem parsePipelineLoop_adjacent (env : Str → Str) (a : List Token) (t1 t2 : Token)
    (b : List Token) (h1 : t1.Kind = .TK_PIPE) (h2 : t2.Kind = .TK_PIPE) :
    ∀ (sub : List Token) (units : List CmdUnit),
    ∃ e, parsePipelineLoop env (a ++ t1 :: t2 :: b) sub units = .error e := by
  induction a with
  | nil =>
    intro sub units
    rw [List.nil_append, parsePipelineLoop_pipe env t1 _ sub units h1]
    split_ifs
    · exact ⟨_, rfl⟩
    · cases parseCmdUnit env sub with
      | error e => exact ⟨e, rfl⟩
      | ok u => exact ⟨_, parsePipelineLoop_leading env t2 b _ h2⟩
  | cons x xs ih =>
    intro sub units
    rw [List.cons_append]
    by_cases hx : x.Kind = .TK_PIPE
    · rw [parsePipelineLoop_pipe env x _ sub units hx]
      split_ifs
      · exact ⟨_, rfl⟩
      · cases parseCmdUnit env sub with
        | error e => exact ⟨e, rfl⟩
        | ok u => exact ih _ _
    · rw [parsePipelineLoop_word env x _ sub units hx]
      exact ih _ _

theorem parsePipelineSegment_badPipes (env : Str → Str) (toks : List Token)
    (h : BadPipes toks) : ∃ e, parsePipelineSegment env toks = .error e := by
  unfold parsePipelineSegment
  split_ifs
  · exact ⟨_, rfl⟩
  · have key : ∃ e, parsePipelineLoop env toks [] [] = .error e := by
      rcases h with ⟨t, rest, rfl, ht⟩ | ⟨init, t, rfl, ht⟩ | ⟨a, t1, t2, b, rfl, h1, h2⟩
      · exact ⟨_, parsePipelineLoop_leading env t rest [] ht⟩
      · exact parsePipelineLoop_trailing env init t ht [] []
      · exact parsePipelineLoop_adjacent env a t1 t2 b h1 h2 [] []
    obtain ⟨e, he⟩ := key
    rw [he]
    exact ⟨e, rfl⟩

/-- C5: `parsePipelineSegment` fails on every token list that begins with a Pipe, ends with a
Pipe or has two adjacent Pipes, and so does `parseSegments` when the list is the tokens of
one Segment; on `n` non-empty groups of argument words separated by single Pipes both return
the pipeline of the `n` commands, in order. -/
theorem parsePipelineSegment_pipes (env : Str → Str) :
    (∀ toks, BadPipes toks →
      (∃ e, parsePipelineSegment env toks = .error e) ∧
      ((∀ t ∈ toks, notAndOr t = true) → ∃ e, parseSegments env toks = .error e)) ∧
    (∀ gs : List (List Str), gs ≠ [] → (∀ g ∈ gs, g ≠ [] ∧ ∀ v ∈ g, isArgWord v = true) →
      parsePipelineSegment env (pipelineToks gs) = .ok ⟨gs.map (argUnit env), .TK_WORD⟩ ∧
      parseSegments env (pipelineToks gs) = .ok [⟨gs.map (argUnit env), .TK_WORD⟩] ∧
      (gs.map (argUnit env)).length = gs.length) := by
  constructor
  · intro toks hbad
    obtain ⟨e, he⟩ := parsePipelineSegment_badPipes env toks hbad
    refine ⟨⟨e, he⟩, fun hseg => ?_⟩
    cases toks with
    | nil =>
      rcases hbad with ⟨t, rest, h, -⟩ | ⟨init, t, h, -⟩ | ⟨a, t1, t2, b, h, -, -⟩
      · cases h
      · simp at h
      · simp at h
    | cons t ts =>
      rw [parseSegments_single env t ts hseg, he]
      exact ⟨e, rfl⟩
  · intro gs hne hgs
    have h1 : parsePipelineSegment env (pipelineToks gs)
        = .ok ⟨gs.map (argUnit env), .TK_WORD⟩ := by
      unfold parsePipelineSegment
      rw [if_neg (pipelineToks_ne_nil hne (fun g hg => (hgs g hg).1)),
        parsePipelineLoop_groups env gs hne hgs []]
      rfl
    refine ⟨h1, ?_, by simp⟩
    have hlen := pipelineToks_ne_nil hne (fun g hg => (hgs g hg).1)
    have hall := pipelineToks_notAndOr gs
    cases hp : pipelineToks gs with
    | nil => simp [hp] at hlen
    | cons t ts =>
      rw [hp] at h1 hall
      rw [parseSegments_single env t ts hall, h1]

theorem parsePipelineSegment_pipes_witness :
    (tokenize "a | | b".toList = .ok [⟨.TK_WORD, ['a']⟩, pipeTok, pipeTok, ⟨.TK_WORD, ['b']⟩]) ∧
    (∃ e, parsePipelineSegment noEnv [⟨.TK_WORD, ['a']⟩, pipeTok, pipeTok, ⟨.TK_WORD, ['b']⟩]
      = .error e) ∧
    (∃ e, parseSegments noEnv [⟨.TK_WORD, ['a']⟩, pipeTok, pipeTok, ⟨.TK_WORD, ['b']⟩]
      = .error e) ∧
    tokenize "ps | grep ssh | wc -l".toList
      = .ok (pipelineToks [["ps".toList], ["grep".toList, "ssh".toList],
          ["wc".toList, "-l".toList]]) ∧
    parseSegments noEnv (pipelineToks [["ps".toList], ["grep".toList, "ssh".toList],
        ["wc".toList, "-l".toList]])
      = .ok [⟨[["ps".toList], ["grep".toList, "ssh".toList],
          ["wc".toList, "-l".toList]].map (argUnit noEnv), .TK_WORD⟩] ∧
    ([["ps".toList], ["grep".toList, "ssh".toList],
          ["wc".toList, "-l".toList]].map (argUnit noEnv)).length = 3 :=
  ⟨rfl,
   ((parsePipelineSegment_pipes noEnv).1 _
      (Or.inr (Or.inr ⟨[⟨.TK_WORD, ['a']⟩], pipeTok, pipeTok, [⟨.TK_WORD, ['b']⟩],
        rfl, rfl, rfl⟩))).1,
   ((parsePipelineSegment_pipes noEnv).1 _
      (Or.inr (Or.inr ⟨[⟨.TK_WORD, ['a']⟩], pipeTok, pipeTok, [⟨.TK_WORD, ['b']⟩],
        rfl, rfl, rfl⟩))).2 (by decide),
   rfl,
   ((parsePipelineSegment_pipes noEnv).2 _ (by decide) (by decide)).2.1,
   rfl⟩

/-! ### Redirects -/

theorem tokenize_word_space (w rest : Str) (hw : isPlain w = true) :
    tokenize (w ++ ' ' :: rest) = consTok ⟨.TK_WORD, w⟩ (tokenize rest) := by
  rw [tokenize_plain w _ hw (scanWord_boundary_space _ (by decide)),
    tokenize_space _ (by decide)]

theorem tokenize_word_end (w : Str) (hw : isPlain w = true) :
    tokenize w = .ok [⟨.TK_WORD, w⟩] := by
  have := tokenize_plain w [] hw rfl
  rw [List.append_nil] at this
  rw [this]; rfl

theorem isPlainArg_spec {w : Str} (h : isPlainArg w = true) :
    isPlain w = true ∧ (∀ c ∈ w, c ≠ '$') ∧ isArgWord w = true := by
  simp only [isPlainArg, Bool.and_eq_true, List.all_eq_true, bne_iff_ne, ne_eq] at h
  obtain ⟨⟨⟨h1, h2⟩, h3⟩, h4⟩ := h
  refine ⟨h1, h2, ?_⟩
  simp [isArgWord, h3, h4]

theorem tokenize_redirectLine (c i o : Str) (hc : isPlain c = true) (hi : isPlain i = true)
    (ho : isPlain o = true) :
    tokenize (redirectLine c i o) =
      .ok [⟨.TK_WORD, c⟩, ⟨.TK_WORD, ['<']⟩, ⟨.TK_WORD, i⟩, ⟨.TK_WORD, ['>']⟩, ⟨.TK_WORD, o⟩] := by
  have e : redirectLine c i o
      = c ++ ' ' :: (['<'] ++ ' ' :: (i ++ ' ' :: (['>'] ++ ' ' :: o))) := by
    simp [redirectLine]
  rw [e, tokenize_word_space _ _ hc, tokenize_word_space _ _ (by decide),
    tokenize_word_space _ _ hi, tokenize_word_space _ _ (by decide), tokenize_word_end _ ho]
  rfl

theorem parseCmdUnit_redirects (env : Str → Str) (c i o : Str) (hc : isPlainArg c = true) :
    parseCmdUnit env
        [⟨.TK_WORD, c⟩, ⟨.TK_WORD, ['<']⟩, ⟨.TK_WORD, i⟩, ⟨.TK_WORD, ['>']⟩, ⟨.TK_WORD, o⟩]
      = .ok ⟨[c], i, o, false⟩ := by
  obtain ⟨-, hd, ha⟩ := isPlainArg_spec hc
  unfold parseCmdUnit
  rw [parseCmdUnitLoop_arg env c _ _ _ _ ha, expandEnv_no_dollar env c hd,
    parseCmdUnitLoop_cons]
  simp only [ne_eq, not_true_eq_false, if_false, List.head?_cons, Option.some.injEq,
    List.length_singleton, lt_self_iff_false, and_false, if_true]
  rw [parseCmdUnitLoop_cons]
  simp only [ne_eq, not_true_eq_false, if_false, List.head?_cons, Option.some.injEq,
    List.length_singleton, lt_self_iff_false, and_false, if_true]
  rw [parseCmdUnitLoop_nil]
  rfl

/-- C4: for plain command words `c`, `i`, `o`, the line `c < i > o` tokenizes and parses to
exactly one Segment holding exactly one command, with `args = [c]`, `stdinPath = i` and
`stdoutPath = o`. -/
theorem parse_redirectLine (env : Str → Str) (c i o : Str) (hc : isPlainArg c = true)
    (hi : isPlainArg i = true) (ho : isPlainArg o = true) :
    parseLine env (redirectLine c i o) = .ok [⟨[⟨[c], i, o, false⟩], .TK_WORD⟩] := by
  unfold parseLine
  rw [tokenize_redirectLine c i o (isPlainArg_spec hc).1 (isPlainArg_spec hi).1
    (isPlainArg_spec ho).1]
  simp only
  have hall : ∀ x ∈ [(⟨.TK_WORD, c⟩ : Token), ⟨.TK_WORD, ['<']⟩, ⟨.TK_WORD, i⟩,
      ⟨.TK_WORD, ['>']⟩, ⟨.TK_WORD, o⟩], notAndOr x = true := by
    intro x hx
    simp only [List.mem_cons, List.mem_singleton, List.not_mem_nil, or_false] at hx
    rcases hx with rfl | rfl | rfl | rfl | rfl <;> rfl
  rw [parseSegments_single env _ _ hall]
  have hp : parsePipelineSegment env
      [⟨.TK_WORD, c⟩, ⟨.TK_WORD, ['<']⟩, ⟨.TK_WORD, i⟩, ⟨.TK_WORD, ['>']⟩, ⟨.TK_WORD, o⟩]
      = .ok ⟨[⟨[c], i, o, false⟩], .TK_WORD⟩ := by
    unfold parsePipelineSegment
    rw [if_neg (by simp)]
    rw [parsePipelineLoop_word env _ _ _ _ (by simp),
      parsePipelineLoop_word env _ _ _ _ (by simp),
      parsePipelineLoop_word env _ _ _ _ (by simp),
      parsePipelineLoop_word env _ _ _ _ (by simp),
      parsePipelineLoop_word env _ _ _ _ (by simp), parsePipelineLoop_end]
    simp only [List.nil_append, List.cons_append, List.length_cons, List.length_nil]
    rw [if_neg (by omega), parseCmdUnit_redirects env c i o hc]
  rw [hp]

theorem parse_redirectLine_witness :
    redirectLine "cmd".toList "in".toList "out".toList = "cmd < in > out".toList ∧
    parseLine noEnv "cmd < in > out".toList
      = .ok [⟨[⟨["cmd".toList], "in".toList, "out".toList, false⟩], .TK_WORD⟩] ∧
    parseLine noEnv "cat < input.txt > output.txt".toList
      = .ok [⟨[⟨["cat".toList], "input.txt".toList, "output.txt".toList, false⟩], .TK_WORD⟩] :=
  ⟨rfl, parse_redirectLine noEnv "cmd".toList "in".toList "out".toList
      (by decide) (by decide) (by decide),
    parse_redirectLine noEnv "cat".toList "input.txt".toList "output.txt".toList
      (by decide) (by decide) (by decide)⟩

/-! ### Invariants of the parse result -/

theorem parseCmdUnitLoop_args_pos (env : Str → Str) : ∀ (n : Nat) (toks : List Token),
    toks.length ≤ n → ∀ (args : List Str) (i o : Str) (u : CmdUnit),
    parseCmdUnitLoop env toks args i o = .ok u → 1 ≤ u.Args.length := by
  intro n
  induction n with
  | zero =>
    intro toks hlen args i o u h
    have : toks = [] := List.length_eq_zero.mp (Nat.le_zero.mp hlen)
    subst this
    rw [parseCmdUnitLoop_nil] at h
    split_ifs at h with h0
    cases h
    exact Nat.pos_of_ne_zero h0
  | succ n ih =>
    intro toks hlen args i o u h
    cases toks with
    | nil =>
      rw [parseCmdUnitLoop_nil] at h
      split_ifs at h with h0
      cases h
      exact Nat.pos_of_ne_zero h0
    | cons t ts =>
      simp only [List.length_cons, Nat.add_le_add_iff_right] at hlen
      rw [parseCmdUnitLoop_cons] at h
      split_ifs at h
      · exact ih ts hlen _ _ _ u h
      · exact ih ts hlen _ _ _ u h
      · cases ts with
        | nil => cases h
        | cons f ts2 =>
          simp only [List.length_cons] at hlen
          exact ih ts2 (by omega) _ _ _ u h
      · cases ts with
        | nil => cases h
        | cons f ts2 =>
          simp only [List.length_cons] at hlen
          exact ih ts2 (by omega) _ _ _ u h
      · exact ih ts hlen _ _ _ u h

theorem parseCmdUnit_args_pos (env : Str → Str) {toks : List Token} {u : CmdUnit}
    (h : parseCmdUnit env toks = .ok u) : 1 ≤ u.Args.length :=
  parseCmdUnitLoop_args_pos env toks.length toks le_rfl [] [] [] u h

theorem parsePipelineLoop_units (env : Str → Str) : ∀ (toks sub : List Token)
    (units res : List CmdUnit), (∀ u ∈ units, 1 ≤ u.Args.length) →
    parsePipelineLoop env toks sub units = .ok res →
    1 ≤ res.length ∧ ∀ u ∈ res, 1 ≤ u.Args.length := by
  intro toks
  induction toks with
  | nil =>
    intro sub units res hunits h
    rw [parsePipelineLoop_end] at h
    split_ifs at h
    cases hp : parseCmdUnit env sub with
    | error e => rw [hp] at h; cases h
    | ok unit =>
      rw [hp] at h
      cases h
      refine ⟨by simp, fun u hu => ?_⟩
      rcases List.mem_append.mp hu with hu | hu
      · exact hunits u hu
      · rw [List.mem_singleton] at hu
        subst hu
        exact parseCmdUnit_args_pos env hp
  | cons t ts ih =>
    intro sub units res hunits h
    by_cases ht : t.Kind = .TK_PIPE
    · rw [parsePipelineLoop_pipe env t ts sub units ht] at h
      split_ifs at h
      cases hp : parseCmdUnit env sub with
      | error e => rw [hp] at h; cases h
      | ok unit =>
        rw [hp] at h
        refine ih [] (units ++ [unit]) res (fun u hu => ?_) h
        rcases List.mem_append.mp hu with hu | hu
        · exact hunits u hu
        · rw [List.mem_singleton] at hu
          subst hu
          exact parseCmdUnit_args_pos env hp
    · rw [parsePipelineLoop_word env t ts sub units ht] at h
      exact ih _ units res hunits h

theorem parsePipelineSegment_units (env : Str → Str) {toks : List Token} {seg : CmdSegment}
    (h : parsePipelineSegment env toks = .ok seg) :
    1 ≤ seg.Pipeline.length ∧ ∀ u ∈ seg.Pipeline, 1 ≤ u.Args.length := by
  unfold parsePipelineSegment at h
  split_ifs at h
  cases hp : parsePipelineLoop env toks [] [] with
  | error e => rw [hp] at h; cases h
  | ok units =>
    rw [hp] at h
    cases h
    exact parsePipelineLoop_units env toks [] [] units (by simp) hp

/-- What an accepted step of `parseSegments` looks like: the first Segment is the parse of
the tokens before the first operator; either no operator follows and it is the only Segment,
or an operator `op` follows and the other Segments are the parse of the tokens after it. -/
theorem parseSegments_cons_ok (env : Str → Str) (t : Token) (ts : List Token)
    (segs : List CmdSegment) (h : parseSegments env (t :: ts) = .ok segs) :
    ∃ seg, parsePipelineSegment env ((t :: ts).takeWhile notAndOr) = .ok seg ∧
      (((t :: ts).dropWhile notAndOr = [] ∧ segs = [{ seg with NextOp := .TK_WORD }]) ∨
       (∃ op rest segs2, (t :: ts).dropWhile notAndOr = op :: rest ∧
          parseSegments env rest = .ok segs2 ∧
          segs = { seg with NextOp := op.Kind } :: segs2)) := by
  rw [parseSegments_cons] at h
  cases hp : parsePipelineSegment env ((t :: ts).takeWhile notAndOr) with
  | error e => rw [hp] at h; cases h
  | ok seg =>
    rw [hp] at h
    refine ⟨seg, rfl, ?_⟩
    cases hd : (t :: ts).dropWhile notAndOr with
    | nil =>
      rw [hd] at h
      cases h
      exact Or.inl ⟨rfl, rfl⟩
    | cons op rest =>
      rw [hd] at h
      simp only at h
      cases hr : parseSegments env rest with
      | error e => rw [hr] at h; cases h
      | ok segs2 =>
        rw [hr] at h
        cases h
        exact Or.inr ⟨op, rest, segs2, rfl, hr, rfl⟩

theorem parseSegments_units (env : Str → Str) : ∀ (n : Nat) (toks : List Token),
    toks.length ≤ n → ∀ segs, parseSegments env toks = .ok segs →
    ∀ seg ∈ segs, 1 ≤ seg.Pipeline.length ∧ ∀ u ∈ seg.Pipeline, 1 ≤ u.Args.length := by
  intro n
  induction n with
  | zero =>
    intro toks hlen segs h
    have : toks = [] := List.length_eq_zero.mp (Nat.le_zero.mp hlen)
    subst this
    cases h
    simp
  | succ n ih =>
    intro toks hlen segs h
    cases toks with
    | nil => cases h; simp
    | cons t ts =>
      obtain ⟨seg, hseg, hrest⟩ := parseSegments_cons_ok env t ts segs h
      have hgood := parsePipelineSegment_units env hseg
      rcases hrest with ⟨-, rfl⟩ | ⟨op, rest, segs2, hd, hr, rfl⟩
      · intro s hs
        rw [List.mem_singleton] at hs
        subst hs
        exact hgood
      · have hlt := dropWhile_length_lt _ _ _ _ hd
        have := ih rest (by simp only [List.length_cons] at hlen hlt; omega) segs2 hr
        intro s hs
        rcases List.mem_cons.mp hs with hs | hs
        · subst hs; exact hgood
        · exact this s hs

/-- C7: in every result that `parseSegments` accepts, every Segment has a pipeline of at
least one command and every command has at least one element in `args`. -/
theorem parseSegments_nonempty (env : Str → Str) (toks : List Token) (segs : List CmdSegment)
    (h : parseSegments env toks = .ok segs) :
    ∀ seg ∈ segs, 1 ≤ seg.Pipeline.length ∧ ∀ u ∈ seg.Pipeline, 1 ≤ u.Args.length :=
  parseSegments_units env toks.length toks le_rfl segs h

theorem parseSegments_nonempty_witness :
    parseSegments noEnv (pipelineToks [["ps".toList], ["grep".toList, "ssh".toList]])
      = .ok [⟨[⟨["ps".toList], [], [], false⟩,
               ⟨["grep".toList, "ssh".toList], [], [], false⟩], .TK_WORD⟩] ∧
    ∀ seg ∈ [(⟨[⟨["ps".toList], [], [], false⟩,
               ⟨["grep".toList, "ssh".toList], [], [], false⟩], .TK_WORD⟩ : CmdSegment)],
      1 ≤ seg.Pipeline.length ∧ ∀ u ∈ seg.Pipeline, 1 ≤ u.Args.length :=
  ⟨rfl, parseSegments_nonempty noEnv
    (pipelineToks [["ps".toList], ["grep".toList, "ssh".toList]]) _ rfl⟩

/-! ### The iteration budget of `parseSegments` is never exhausted -/

theorem parseCmdUnitLoop_budget (env : Str → Str) : ∀ (n : Nat) (toks : List Token),
    toks.length ≤ n → ∀ (args : List Str) (i o : Str),
    parseCmdUnitLoop env toks args i o ≠ .error .outOfFuel := by
  intro n
  induction n with
  | zero =>
    intro toks hlen args i o h
    have : toks = [] := List.length_eq_zero.mp (Nat.le_zero.mp hlen)
    subst this
    rw [parseCmdUnitLoop_nil] at h
    split_ifs at h
    cases h
  | succ n ih =>
    intro toks hlen args i o h
    cases toks with
    | nil =>
      rw [parseCmdUnitLoop_nil] at h
      split_ifs at h
      cases h
    | cons t ts =>
      simp only [List.length_cons, Nat.add_le_add_iff_right] at hlen
      rw [parseCmdUnitLoop_cons] at h
      split_ifs at h
      · cases h
      · exact ih ts hlen _ _ _ h
      · exact ih ts hlen _ _ _ h
      · cases ts with
        | nil => cases h
        | cons f ts2 =>
          simp only [List.length_cons] at hlen
          exact ih ts2 (by omega) _ _ _ h
      · cases ts with
        | nil => cases h
        | cons f ts2 =>
          simp only [List.length_cons] at hlen
          exact ih ts2 (by omega) _ _ _ h
      · exact ih ts hlen _ _ _ h

theorem parsePipelineLoop_budget (env : Str → Str) : ∀ (toks sub : List Token)
    (units : List CmdUnit), parsePipelineLoop env toks sub units ≠ .error .outOfFuel := by
  intro toks
  induction toks with
  | nil =>
    intro sub units h
    rw [parsePipelineLoop_end] at h
    split_ifs at h
    · cases h
    · cases hp : parseCmdUnit env sub with
      | error e =>
        rw [hp] at h
        cases h
        exact parseCmdUnitLoop_budget env sub.length sub le_rfl [] [] [] hp
      | ok unit => rw [hp] at h; cases h
  | cons t ts ih =>
    intro sub units h
    by_cases ht : t.Kind = .TK_PIPE
    · rw [parsePipelineLoop_pipe env t ts sub units ht] at h
      split_ifs at h
      · cases h
      · cases hp : parseCmdUnit env sub with
        | error e =>
          rw [hp] at h
          cases h
          exact parseCmdUnitLoop_budget env sub.length sub le_rfl [] [] [] hp
        | ok unit => rw [hp] at h; exact ih _ _ h
    · rw [parsePipelineLoop_word env t ts sub units ht] at h
      exact ih _ _ h

theorem parsePipelineSegment_budget (env : Str → Str) (toks : List Token) :
    parsePipelineSegment env toks ≠ .error .outOfFuel := by
  intro h
  unfold parsePipelineSegment at h
  split_ifs at h
  · cases h
  · cases hp : parsePipelineLoop env toks [] [] with
    | error e =>
      rw [hp] at h
      cases h
      exact parsePipelineLoop_budget env toks [] [] hp
    | ok units => rw [hp] at h; cases h

theorem parseSegments_budget (env : Str → Str) : ∀ (n : Nat) (toks : List Token),
    toks.length ≤ n → parseSegments env toks ≠ .error .outOfFuel := by
  intro n
  induction n with
  | zero =>
    intro toks hlen h
    have : toks = [] := List.length_eq_zero.mp (Nat.le_zero.mp hlen)
    subst this
    cases h
  | succ n ih =>
    intro toks hlen h
    cases toks with
    | nil => cases h
    | cons t ts =>
      rw [parseSegments_cons] at h
      cases hp : parsePipelineSegment env ((t :: ts).takeWhile notAndOr) with
      | error e =>
        rw [hp] at h
        cases h
        exact parsePipelineSegment_budget env _ hp
      | ok seg =>
        rw [hp] at h
        cases hd : (t :: ts).dropWhile notAndOr with
        | nil => rw [hd] at h; cases h
        | cons op rest =>
          rw [hd] at h
          simp only at h
          have hlt := dropWhile_length_lt _ _ _ _ hd
          cases hr : parseSegments env rest with
          | error e =>
            rw [hr] at h
            cases h
            exact ih rest (by simp only [List.length_cons] at hlen hlt; omega) hr
          | ok segs2 => rw [hr] at h; cases h

/-- The only failures of `parseSegments` are those of the source. -/
theorem parseSegments_never_outOfFuel (env : Str → Str) (toks : List Token) :
    parseSegments env toks ≠ .error .outOfFuel :=
  parseSegments_budget env toks.length toks le_rfl

/-! ### The operator recorded with each Segment -/

theorem dropWhile_head_not {α : Type} (p : α → Bool) (l : List α) (x : α) (r : List α)
    (h : l.dropWhile p = x :: r) : p x = false := by
  have := List.head?_dropWhile_not p l
  rw [h] at this
  simpa using this

theorem operatorKinds_append (a b : List Token) :
    operatorKinds (a ++ b) = operatorKinds a ++ operatorKinds b := by
  simp [operatorKinds]

theorem operatorKinds_of_notAndOr (a : List Token) (h : ∀ t ∈ a, notAndOr t = true) :
    operatorKinds a = [] := by
  have : a.filter (fun t => !notAndOr t) = [] := by
    rw [List.filter_eq_nil_iff]
    intro t ht
    simp [h t ht]
  simp [operatorKinds, this]

theorem operatorKinds_mem (toks : List Token) :
    ∀ k ∈ operatorKinds toks, k = .TK_AND ∨ k = .TK_OR := by
  intro k hk
  simp only [operatorKinds, List.mem_map, List.mem_filter] at hk
  obtain ⟨t, ⟨-, ht⟩, rfl⟩ := hk
  obtain ⟨k, v⟩ := t
  cases k <;> simp [notAndOr] at ht ⊢

theorem trailingNone_split (a : List Token) (op : Token) (rest : List Token)
    (hop : notAndOr op = false) :
    trailingNone (a ++ op :: rest) = trailingNone rest := by
  rcases List.eq_nil_or_concat rest with rfl | ⟨init, b, rfl⟩
  · have : (a ++ [op]).getLast? = some op := List.getLast?_concat a
    simp [trailingNone, this, hop]
  · have e : a ++ op :: List.concat init b = (a ++ op :: init) ++ [b] := by simp
    have h1 : (a ++ op :: List.concat init b).getLast? = some b := by
      rw [e]; exact List.getLast?_concat _
    have h2 : (List.concat init b).getLast? = some b := by
      rw [List.concat_eq_append]; exact List.getLast?_concat _
    unfold trailingNone
    rw [h1, h2]

theorem trailingNone_of_notAndOr (t : Token) (ts : List Token)
    (h : ∀ x ∈ t :: ts, notAndOr x = true) : trailingNone (t :: ts) = [.TK_WORD] := by
  rcases List.eq_nil_or_concat (t :: ts) with hnil | ⟨init, b, hb⟩
  · cases hnil
  · rw [List.concat_eq_append] at hb
    have hlast : (t :: ts).getLast? = some b := by rw [hb]; exact List.getLast?_concat _
    have hbm : notAndOr b = true := h b (by rw [hb]; simp)
    simp [trailingNone, hlast, hbm]

theorem nextOps_of_parseSegments (env : Str → Str) : ∀ (n : Nat) (toks : List Token),
    toks.length ≤ n → ∀ segs, parseSegments env toks = .ok segs →
    segs.map CmdSegment.NextOp = operatorKinds toks ++ trailingNone toks := by
  intro n
  induction n with
  | zero =>
    intro toks hlen segs h
    have : toks = [] := List.length_eq_zero.mp (Nat.le_zero.mp hlen)
    subst this
    cases h
    rfl
  | succ n ih =>
    intro toks hlen segs h
    cases toks with
    | nil => cases h; rfl
    | cons t ts =>
      obtain ⟨seg, -, hrest⟩ := parseSegments_cons_ok env t ts segs h
      rcases hrest with ⟨hd, rfl⟩ | ⟨op, rest, segs2, hd, hr, rfl⟩
      · have hall : ∀ x ∈ t :: ts, notAndOr x = true := List.dropWhile_eq_nil_iff.mp hd
        rw [operatorKinds_of_notAndOr _ hall, trailingNone_of_notAndOr t ts hall]
        rfl
      · have hlt := dropWhile_length_lt _ _ _ _ hd
        have hrec := ih rest (by simp only [List.length_cons] at hlen hlt; omega) segs2 hr
        have hop : notAndOr op = false := dropWhile_head_not _ _ _ _ hd
        have hsplit : t :: ts = (t :: ts).takeWhile notAndOr ++ op :: rest := by
          rw [← hd, List.takeWhile_append_dropWhile]
        have htake : ∀ x ∈ (t :: ts).takeWhile notAndOr, notAndOr x = true :=
          fun x hx => List.mem_takeWhile_imp hx
        have hk : operatorKinds (t :: ts) = op.Kind :: operatorKinds rest := by
          rw [hsplit, operatorKinds_append, operatorKinds_of_notAndOr _ htake]
          simp [operatorKinds, hop]
        have htr : trailingNone (t :: ts) = trailingNone rest := by
          rw [hsplit]; exact trailingNone_split _ op rest hop
        rw [hk, htr, List.map_cons, hrec]
        rfl

/-- C6 (amended): in every result that `parseSegments` accepts, the operators recorded with
the Segments are, in order, the kinds of the `&&` and `||` tokens of the input, followed by
`None` (`TK_WORD`) when the input does not end with an operator; so every Segment before the
last has `nextOp` in `{And, Or}`, and the last Segment has `nextOp = None` whenever the last
token is not `&&` or `||`. -/
theorem parseSegments_nextOps (env : Str → Str) (toks : List Token) (segs : List CmdSegment)
    (h : parseSegments env toks = .ok segs) :
    segs.map CmdSegment.NextOp = operatorKinds toks ++ trailingNone toks ∧
    (∀ s ∈ segs.dropLast, s.NextOp = .TK_AND ∨ s.NextOp = .TK_OR) ∧
    (∀ t, toks.getLast? = some t → notAndOr t = true →
      ∃ s, segs.getLast? = some s ∧ s.NextOp = .TK_WORD) := by
  have heq := nextOps_of_parseSegments env toks.length toks le_rfl segs h
  refine ⟨heq, ?_, ?_⟩
  · intro s hs
    have hmem : s.NextOp ∈ (segs.map CmdSegment.NextOp).dropLast := by
      rw [← List.map_dropLast]; exact List.mem_map_of_mem _ hs
    rw [heq] at hmem
    have hsub : ∀ k ∈ (operatorKinds toks ++ trailingNone toks).dropLast,
        k ∈ operatorKinds toks := by
      intro k hk
      unfold trailingNone at hk
      split at hk
      · rw [List.append_nil] at hk; exact List.dropLast_subset _ hk
      · split_ifs at hk
        · rw [List.dropLast_concat] at hk; exact hk
        · rw [List.append_nil] at hk; exact List.dropLast_subset _ hk
    exact operatorKinds_mem toks _ (hsub _ hmem)
  · intro t ht hnot
    have htr : trailingNone toks = [.TK_WORD] := by simp [trailingNone, ht, hnot]
    rw [htr] at heq
    have hlast : (segs.map CmdSegment.NextOp).getLast? = some .TK_WORD := by
      rw [heq]; exact List.getLast?_concat _
    rw [List.getLast?_map] at hlast
    cases hs : segs.getLast? with
    | none => rw [hs] at hlast; cases hlast
    | some s =>
      rw [hs] at hlast
      exact ⟨s, rfl, by simpa using hlast⟩

theorem parseSegments_nextOps_witness :
    tokenize "a && b || c".toList
      = .ok [⟨.TK_WORD, ['a']⟩, ⟨.TK_AND, ['&', '&']⟩, ⟨.TK_WORD, ['b']⟩,
          ⟨.TK_OR, ['|', '|']⟩, ⟨.TK_WORD, ['c']⟩] ∧
    [TokenKind.TK_AND, .TK_OR, .TK_WORD]
      = operatorKinds [⟨.TK_WORD, ['a']⟩, ⟨.TK_AND, ['&', '&']⟩, ⟨.TK_WORD, ['b']⟩,
          ⟨.TK_OR, ['|', '|']⟩, ⟨.TK_WORD, ['c']⟩]
        ++ trailingNone [⟨.TK_WORD, ['a']⟩, ⟨.TK_AND, ['&', '&']⟩, ⟨.TK_WORD, ['b']⟩,
          ⟨.TK_OR, ['|', '|']⟩, ⟨.TK_WORD, ['c']⟩] :=
  ⟨rfl, (parseSegments_nextOps noEnv
    [⟨.TK_WORD, ['a']⟩, ⟨.TK_AND, ['&', '&']⟩, ⟨.TK_WORD, ['b']⟩,
      ⟨.TK_OR, ['|', '|']⟩, ⟨.TK_WORD, ['c']⟩]
    [⟨[⟨[['a']], [], [], false⟩], .TK_AND⟩, ⟨[⟨[['b']], [], [], false⟩], .TK_OR⟩,
      ⟨[⟨[['c']], [], [], false⟩], .TK_WORD⟩] rfl).1⟩

/-- C6, counterexample: the tokens of `a &&` are accepted, and the only (hence last) Segment
of the result has `nextOp = And`, not `None`. -/
theorem parseSegments_trailing_operator :
    tokenize "a &&".toList = .ok [⟨.TK_WORD, ['a']⟩, ⟨.TK_AND, ['&', '&']⟩] ∧
    parseSegments noEnv [⟨.TK_WORD, ['a']⟩, ⟨.TK_AND, ['&', '&']⟩]
      = .ok [⟨[⟨[['a']], [], [], false⟩], .TK_AND⟩] ∧
    ([(⟨[⟨[['a']], [], [], false⟩], .TK_AND⟩ : CmdSegment)].getLast?.map CmdSegment.NextOp)
      ≠ some .TK_WORD :=
  ⟨rfl, rfl, by decide⟩

/-! ### Conditional chains of two Segments -/

/-- C8: for a chain `[A, B]` with `A.nextOp = And`, whatever `runSegment` does: `A` is run;
if its result is a failure (an error or a non-zero exit code), `B` is not run and the final
status is failure; if it is a success, `B` is run next and the final status is `B`'s. -/
theorem chain_and {σ : Type} (runSegment : CmdSegment → σ → RunResult × σ)
    (A B : CmdSegment) (w : σ) (hA : A.NextOp = .TK_AND) :
    ((runSegment A w).1.ok = false →
      (evalChain runSegment [A, B] w).ran = [0] ∧
      (evalChain runSegment [A, B] w).lastOk = false ∧
      (evalChain runSegment [A, B] w).world = (runSegment A w).2) ∧
    ((runSegment A w).1.ok = true →
      (evalChain runSegment [A, B] w).ran = [0, 1] ∧
      (evalChain runSegment [A, B] w).lastOk = (runSegment B (runSegment A w).2).1.ok ∧
      (evalChain runSegment [A, B] w).world = (runSegment B (runSegment A w).2).2) := by
  constructor
  · intro h
    simp [evalChain, chainLoop, hA, h]
  · intro h
    simp [evalChain, chainLoop, hA, h]

/-- C9: for a chain `[A, B]` with `A.nextOp = Or`, whatever `runSegment` does: `A` is run;
if its result is a success (no error and exit code 0), `B` is not run and the final status is
success; if it is a failure, `B` is run next and the final status is `B`'s. -/
theorem chain_or {σ : Type} (runSegment : CmdSegment → σ → RunResult × σ)
    (A B : CmdSegment) (w : σ) (hA : A.NextOp = .TK_OR) :
    ((runSegment A w).1.ok = true →
      (evalChain runSegment [A, B] w).ran = [0] ∧
      (evalChain runSegment [A, B] w).lastOk = true ∧
      (evalChain runSegment [A, B] w).world = (runSegment A w).2) ∧
    ((runSegment A w).1.ok = false →
      (evalChain runSegment [A, B] w).ran = [0, 1] ∧
      (evalChain runSegment [A, B] w).lastOk = (runSegment B (runSegment A w).2).1.ok ∧
      (evalChain runSegment [A, B] w).world = (runSegment B (runSegment A w).2).2) := by
  constructor
  · intro h
    simp [evalChain, chainLoop, hA, h]
  · intro h
    simp [evalChain, chainLoop, hA, h]

theorem chain_and_witness :
    (evalChain (fun (seg : CmdSegment) (w : Nat) =>
        ((⟨if seg.Pipeline = [⟨["false".toList], [], [], false⟩] then 1 else 0, none⟩ : RunResult),
          w + 1))
      [⟨[⟨["false".toList], [], [], false⟩], .TK_AND⟩,
       ⟨[⟨["echo".toList, "ok".toList], [], [], false⟩], .TK_WORD⟩] 0).ran = [0] ∧
    (evalChain (fun (seg : CmdSegment) (w : Nat) =>
        ((⟨if seg.Pipeline = [⟨["false".toList], [], [], false⟩] then 1 else 0, none⟩ : RunResult),
          w + 1))
      [⟨[⟨["false".toList], [], [], false⟩], .TK_AND⟩,
       ⟨[⟨["echo".toList, "ok".toList], [], [], false⟩], .TK_WORD⟩] 0).lastOk = false :=
  ⟨((chain_and _ _ _ 0 rfl).1 (by decide)).1, ((chain_and _ _ _ 0 rfl).1 (by decide)).2.1⟩

theorem chain_or_witness :
    (evalChain (fun (seg : CmdSegment) (w : Nat) =>
        ((⟨if seg.Pipeline = [⟨["false".toList], [], [], false⟩] then 1 else 0, none⟩ : RunResult),
          w + 1))
      [⟨[⟨["true".toList], [], [], false⟩], .TK_OR⟩,
       ⟨[⟨["echo".toList, "no".toList], [], [], false⟩], .TK_WORD⟩] 0).ran = [0] ∧
    (evalChain (fun (seg : CmdSegment) (w : Nat) =>
        ((⟨if seg.Pipeline = [⟨["false".toList], [], [], false⟩] then 1 else 0, none⟩ : RunResult),
          w + 1))
      [⟨[⟨["true".toList], [], [], false⟩], .TK_OR⟩,
       ⟨[⟨["echo".toList, "no".toList], [], [], false⟩], .TK_WORD⟩] 0).lastOk = true :=
  ⟨((chain_or _ _ _ 0 rfl).1 (by decide)).1, ((chain_or _ _ _ 0 rfl).1 (by decide)).2.1⟩

/-! ### The aggregate result of a pipeline -/

theorem expandEnv_literal (env : Str → Str) (c : Char) (cs : Str) (hc : c ≠ '$') :
    expandEnv env (c :: cs) = c :: expandEnv env cs := by
  rw [expandEnv_cons]
  simp [expandStep, hc]

theorem expandEnv_literals (env : Str → Str) (p s : Str) (hp : ∀ c ∈ p, c ≠ '$') :
    expandEnv env (p ++ s) = p ++ expandEnv env s := by
  induction p with
  | nil => rfl
  | cons c cs ih =>
    rw [List.cons_append, expandEnv_literal env c _ (hp c (by simp)),
      ih (fun x hx => hp x (by simp [hx]))]
    rfl

theorem takeWhile_name (n rest : Str) (hn : ∀ c ∈ n, isNameChar c = true)
    (hrest : startsWithNameChar rest = false) :
    (n ++ rest).takeWhile isNameChar = n ∧ (n ++ rest).dropWhile isNameChar = rest := by
  have h1 : rest.takeWhile isNameChar = [] ∧ rest.dropWhile isNameChar = rest := by
    cases rest with
    | nil => exact ⟨rfl, rfl⟩
    | cons c cs =>
      have : isNameChar c = false := hrest
      simp [List.takeWhile_cons, List.dropWhile_cons, this]
  constructor
  · rw [List.takeWhile_append_of_pos hn, h1.1, List.append_nil]
  · rw [List.dropWhile_append_of_pos hn, h1.2]

theorem expandEnv_name (env : Str → Str) (n rest : Str) (hne : n ≠ [])
    (hn : ∀ c ∈ n, isNameChar c = true) (hrest : startsWithNameChar rest = false) :
    expandEnv env ('$' :: (n ++ rest)) = env n ++ expandEnv env rest := by
  obtain ⟨ht, hd⟩ := takeWhile_name n rest hn hrest
  have hhead : (n ++ rest).head? ≠ some lbrace := by
    cases n with
    | nil => exact absurd rfl hne
    | cons c cs =>
      intro h
      simp only [List.cons_append, List.head?_cons, Option.some.injEq] at h
      have := hn c (by simp)
      rw [h] at this
      exact absurd this (by decide)
  have hcond : ¬ ((n ++ rest).head? = some lbrace ∧
      (n ++ rest).tail.dropWhile (fun x => x != rbrace) ≠ []) := fun h => hhead h.1
  rw [expandEnv_cons]
  simp only [expandStep, if_true, if_neg hcond, ht, hd, ne_eq, hne, not_false_eq_true]

theorem expandEnv_braces (env : Str → Str) (n rest : Str) (hn : rbrace ∉ n) :
    expandEnv env ('$' :: lbrace :: (n ++ rbrace :: rest)) = env n ++ expandEnv env rest := by
  rw [expandEnv_cons]
  simp [expandStep, dropWhile_ne_closed rbrace n rest hn, takeWhile_ne_closed rbrace n rest hn]

/-- C13: for a non-empty name `n` of letters, digits and underscores, a prefix `p` without
`$`, and a rest that is empty or begins with another character, `expandEnv` maps
`p $n rest` to `p`, then the value of `n` (as `os.Getenv` gives it, not scanned again), then
the expansion of the rest. -/
theorem expandEnv_dollar_name (env : Str → Str) (p n rest : Str) (hp : ∀ c ∈ p, c ≠ '$')
    (hne : n ≠ []) (hn : ∀ c ∈ n, isNameChar c = true)
    (hrest : startsWithNameChar rest = false) :
    expandEnv env (p ++ '$' :: (n ++ rest)) = p ++ (env n ++ expandEnv env rest) := by
  rw [expandEnv_literals env p _ hp, expandEnv_name env n rest hne hn hrest]

theorem expandEnv_dollar_name_witness :
    expandEnv sampleEnv "$HOME".toList = sampleEnv "HOME".toList ∧
    expandEnv sampleEnv "$DOLLAR/x".toList = "$HOME/x".toList ∧
    expandEnv sampleEnv ("X=$TESTVAR Y=$".toList ++ lbrace :: "TESTVAR".toList ++ [rbrace])
      = "X=VALUE123 Y=VALUE123".toList :=
  ⟨expandEnv_dollar_name sampleEnv [] "HOME".toList [] (by decide) (by decide)
      (by decide) (by decide),
   expandEnv_dollar_name sampleEnv [] "DOLLAR".toList "/x".toList (by decide) (by decide)
      (by decide) (by decide),
   expandEnv_dollar_name sampleEnv "X=".toList "TESTVAR".toList
      (" Y=$".toList ++ lbrace :: "TESTVAR".toList ++ [rbrace]) (by decide) (by decide)
      (by decide) (by decide)⟩

/-- C14: for a name `n` without closing brace, a prefix `p` without `$` and any rest,
`expandEnv` maps `p`, `$`, opening brace, `n`, closing brace, rest to `p`, then the value of
`n` (empty when unset, and not expanded again), then the expansion of the rest. -/
theorem expandEnv_dollar_braces (env : Str → Str) (p n rest : Str) (hp : ∀ c ∈ p, c ≠ '$')
    (hn : rbrace ∉ n) :
    expandEnv env (p ++ '$' :: lbrace :: (n ++ rbrace :: rest))
      = p ++ (env n ++ expandEnv env rest) := by
  rw [expandEnv_literals env p _ hp, expandEnv_braces env n rest hn]

theorem expandEnv_dollar_braces_witness :
    expandEnv sampleEnv ('$' :: lbrace :: ("UNSET_VAR".toList ++ [rbrace])) = [] ∧
    expandEnv sampleEnv ("a=".toList ++ '$' :: lbrace :: ("DOLLAR".toList ++ rbrace :: "!".toList))
      = "a=$HOME!".toList :=
  ⟨expandEnv_dollar_braces sampleEnv [] "UNSET_VAR".toList [] (by decide) (by decide),
   expandEnv_dollar_braces sampleEnv "a=".toList "DOLLAR".toList "!".toList (by decide)
      (by decide)⟩

theorem expandEnv_of_literalDollars (env : Str → Str) (s : Str)
    (h : literalDollars s = true) : expandEnv env s = s := by
  induction s with
  | nil => rfl
  | cons c cs ih =>
    simp only [literalDollars, Bool.and_eq_true, Bool.or_eq_true, bne_iff_ne, ne_eq,
      Bool.not_eq_true', Bool.and_eq_false_imp, beq_iff_eq] at h
    obtain ⟨hc, hcs⟩ := h
    by_cases hd : c = '$'
    · subst hd
      have hc2 := hc.resolve_left (by simp)
      obtain ⟨hname, hbrace⟩ := hc2
      have htake : cs.takeWhile isNameChar = [] := by
        cases cs with
        | nil => rfl
        | cons d ds =>
          have : isNameChar d = false := hname
          simp [List.takeWhile_cons, this]
      rw [expandEnv_cons]
      have hcond : ¬ (cs.head? = some lbrace ∧
          cs.tail.dropWhile (fun x => x != rbrace) ≠ []) := by
        rintro ⟨h1, h2⟩
        have h3 := hbrace h1
        apply h2
        rw [List.dropWhile_eq_nil_iff]
        intro x hx
        have : x ≠ rbrace := by
          intro hxr
          subst hxr
          simp [List.contains_iff_exists_mem_beq] at h3
          exact h3 hx
        simpa using this
      simp only [expandStep, if_true, if_neg hcond, htake, ne_eq, not_true_eq_false, if_false]
      rw [ih hcs]
      rfl
    · rw [expandEnv_literal env c cs hd, ih hcs]

/-- C15: when no `$` of `s` is immediately followed by a letter, digit or underscore, and none
is followed by an opening brace with a closing brace later on, `expandEnv s = s`; in
particular on every text without `$`, and on `$`, opening brace, `t` for `t` without closing
brace and without `$`. -/
theorem expandEnv_identity (env : Str → Str) (s t : Str) :
    (literalDollars s = true → expandEnv env s = s) ∧
    ((∀ c ∈ s, c ≠ '$') → expandEnv env s = s) ∧
    ((∀ c ∈ t, c ≠ rbrace ∧ c ≠ '$') →
      expandEnv env ('$' :: lbrace :: t) = '$' :: lbrace :: t) := by
  refine ⟨expandEnv_of_literalDollars env s, expandEnv_no_dollar env s, fun ht => ?_⟩
  have hcond : ¬ ((lbrace :: t).head? = some lbrace ∧
      (lbrace :: t).tail.dropWhile (fun x => x != rbrace) ≠ []) := by
    rintro ⟨-, h2⟩
    apply h2
    rw [List.tail_cons, List.dropWhile_eq_nil_iff]
    intro x hx
    simpa using (ht x hx).1
  have htake : (lbrace :: t).takeWhile isNameChar = [] := by
    have : isNameChar lbrace = false := by decide
    simp [List.takeWhile_cons, this]
  rw [expandEnv_cons]
  simp only [expandStep, if_true, if_neg hcond, htake, ne_eq, not_true_eq_false, if_false]
  have hl : lbrace ≠ '$' := by decide
  rw [expandEnv_literal env lbrace t hl, expandEnv_no_dollar env t (fun c hc => (ht c hc).2)]
  rfl

theorem expandEnv_identity_witness :
    expandEnv sampleEnv "cost: 5$ or $ 5 or $-x$".toList = "cost: 5$ or $ 5 or $-x$".toList ∧
    expandEnv sampleEnv "plain".toList = "plain".toList ∧
    expandEnv sampleEnv ('$' :: lbrace :: "HOME".toList) = '$' :: lbrace :: "HOME".toList :=
  ⟨(expandEnv_identity sampleEnv "cost: 5$ or $ 5 or $-x$".toList []).1 (by decide),
   (expandEnv_identity sampleEnv "plain".toList []).2.1 (by decide),
   (expandEnv_identity sampleEnv [] "HOME".toList).2.2 (by decide)⟩

/-! ### Attached and detached redirects -/

/-- C16: for a non-empty path `f`, argument words `g1` before and any tokens `g2` after, the
attached form `>f` and the detached form `>`, `f` give the same result of `parseCmdUnit`, and
likewise `<f` and `<`, `f`. -/
theorem parseCmdUnit_attached_detached (env : Str → Str) (f : Str) (g1 : List Str)
    (g2 : List Token) (hf : f ≠ []) (hg1 : ∀ v ∈ g1, isArgWord v = true) :
    parseCmdUnit env (wordToks g1 ++ ⟨.TK_WORD, '>' :: f⟩ :: g2)
      = parseCmdUnit env (wordToks g1 ++ ⟨.TK_WORD, ['>']⟩ :: ⟨.TK_WORD, f⟩ :: g2) ∧
    parseCmdUnit env (wordToks g1 ++ ⟨.TK_WORD, '<' :: f⟩ :: g2)
      = parseCmdUnit env (wordToks g1 ++ ⟨.TK_WORD, ['<']⟩ :: ⟨.TK_WORD, f⟩ :: g2) := by
  have hlen : 1 < (f.length + 1) := by
    have : f.length ≠ 0 := fun h => hf (List.length_eq_zero.mp h)
    omega
  unfold parseCmdUnit
  simp only [parseCmdUnitLoop_args env g1 _ _ _ _ hg1]
  constructor
  · rw [parseCmdUnitLoop_cons, parseCmdUnitLoop_cons]
    simp [hlen]
  · rw [parseCmdUnitLoop_cons, parseCmdUnitLoop_cons]
    simp [hlen]

theorem parseCmdUnit_attached_detached_witness :
    parseCmdUnit noEnv (wordToks ["sort".toList, "-r".toList] ++
        ⟨.TK_WORD, '>' :: "out.txt".toList⟩ :: wordToks ["-u".toList])
      = .ok ⟨["sort".toList, "-r".toList, "-u".toList], [], "out.txt".toList, false⟩ ∧
    parseCmdUnit noEnv (wordToks ["sort".toList, "-r".toList] ++
        ⟨.TK_WORD, ['>']⟩ :: ⟨.TK_WORD, "out.txt".toList⟩ :: wordToks ["-u".toList])
      = .ok ⟨["sort".toList, "-r".toList, "-u".toList], [], "out.txt".toList, false⟩ ∧
    parseCmdUnit noEnv (wordToks ["sort".toList, "-r".toList] ++
        ⟨.TK_WORD, '<' :: "in.txt".toList⟩ :: wordToks ["-u".toList])
      = parseCmdUnit noEnv (wordToks ["sort".toList, "-r".toList] ++
        ⟨.TK_WORD, ['<']⟩ :: ⟨.TK_WORD, "in.txt".toList⟩ :: wordToks ["-u".toList]) :=
  ⟨rfl, (parseCmdUnit_attached_detached noEnv "out.txt".toList ["sort".toList, "-r".toList]
      (wordToks ["-u".toList]) (by decide) (by decide)).1 ▸ rfl,
   (parseCmdUnit_attached_detached noEnv "in.txt".toList ["sort".toList, "-r".toList]
      (wordToks ["-u".toList]) (by decide) (by decide)).2⟩

/-! ### Empty slices between operators -/

theorem parseSegments_leading_operator (env : Str → Str) (t : Token) (rest : List Token)
    (ht : notAndOr t = false) :
    parseSegments env (t :: rest) = .error .emptySegment := by
  rw [parseSegments_cons]
  have : (t :: rest).takeWhile notAndOr = [] := by
    simp [List.takeWhile_cons, ht]
  rw [this]
  rfl

theorem parseSegments_adjacent_operators (env : Str → Str) (t1 t2 : Token) (b : List Token)
    (h1 : notAndOr t1 = false) (h2 : notAndOr t2 = false) : ∀ (n : Nat) (a : List Token),
    a.length ≤ n → ∃ e, parseSegments env (a ++ t1 :: t2 :: b) = .error e := by
  intro n
  induction n with
  | zero =>
    intro a hlen
    have : a = [] := List.length_eq_zero.mp (Nat.le_zero.mp hlen)
    subst this
    exact ⟨_, parseSegments_leading_operator env t1 _ h1⟩
  | succ n ih =>
    intro a hlen
    cases a with
    | nil => exact ⟨_, parseSegments_leading_operator env t1 _ h1⟩
    | cons x xs =>
      rw [List.cons_append, parseSegments_cons]
      cases hp : parsePipelineSegment env ((x :: (xs ++ t1 :: t2 :: b)).takeWhile notAndOr) with
      | error e => exact ⟨e, rfl⟩
      | ok seg =>
        simp only
        have hsplit : (x :: (xs ++ t1 :: t2 :: b)).dropWhile notAndOr
            = if ((x :: xs).dropWhile notAndOr).isEmpty = true
              then (t1 :: t2 :: b).dropWhile notAndOr
              else (x :: xs).dropWhile notAndOr ++ t1 :: t2 :: b := by
          rw [← List.cons_append, List.dropWhile_append]
        cases hd : (x :: xs).dropWhile notAndOr with
        | nil =>
          rw [hd] at hsplit
          simp only [List.isEmpty_nil, if_true] at hsplit
          rw [List.dropWhile_cons_of_neg (a := t1) (l := t2 :: b) (by simp [h1])] at hsplit
          rw [hsplit]
          simp only [parseSegments_leading_operator env t2 b h2]
          exact ⟨_, rfl⟩
        | cons op rest =>
          rw [hd] at hsplit
          simp only [List.isEmpty_cons, Bool.false_eq_true, if_false, List.cons_append]
            at hsplit
          rw [hsplit]
          have hlt := dropWhile_length_lt _ _ _ _ hd
          simp only [List.length_cons] at hlt hlen
          obtain ⟨e, he⟩ := ih rest (by omega)
          simp only [he]
          exact ⟨e, rfl⟩

/-- C17: `parseSegments` fails on every token list that begins with `&&` or `||`, or that has
two adjacent tokens among `&&` and `||`. -/
theorem parseSegments_empty_slice (env : Str → Str) (toks : List Token)
    (h : BadOperators toks) : ∃ e, parseSegments env toks = .error e := by
  rcases h with ⟨t, rest, rfl, ht⟩ | ⟨a, t1, t2, b, rfl, h1, h2⟩
  · exact ⟨_, parseSegments_leading_operator env t rest ht⟩
  · exact parseSegments_adjacent_operators env t1 t2 b h1 h2 a.length a le_rfl

theorem parseSegments_empty_slice_witness :
    tokenize "&& a".toList = .ok [⟨.TK_AND, ['&', '&']⟩, ⟨.TK_WORD, ['a']⟩] ∧
    (∃ e, parseSegments noEnv [⟨.TK_AND, ['&', '&']⟩, ⟨.TK_WORD, ['a']⟩] = .error e) ∧
    tokenize "a && || b".toList
      = .ok [⟨.TK_WORD, ['a']⟩, ⟨.TK_AND, ['&', '&']⟩, ⟨.TK_OR, ['|', '|']⟩,
          ⟨.TK_WORD, ['b']⟩] ∧
    (∃ e, parseSegments noEnv [⟨.TK_WORD, ['a']⟩, ⟨.TK_AND, ['&', '&']⟩,
        ⟨.TK_OR, ['|', '|']⟩, ⟨.TK_WORD, ['b']⟩] = .error e) :=
  ⟨rfl,
   parseSegments_empty_slice noEnv _ (Or.inl ⟨_, _, rfl, rfl⟩),
   rfl,
   parseSegments_empty_slice noEnv _
     (Or.inr ⟨[⟨.TK_WORD, ['a']⟩], ⟨.TK_AND, ['&', '&']⟩, ⟨.TK_OR, ['|', '|']⟩,
       [⟨.TK_WORD, ['b']⟩], rfl, rfl, rfl⟩)⟩

/-! ### When `parseCmdUnit` fails on words -/

theorem danglingRedirect_cons (w : Str) (ws : List Str) :
    danglingRedirect (w :: ws) =
      if isBareRedirect w = true then
        match ws with
        | [] => true
        | _ :: ws2 => danglingRedirect ws2
      else danglingRedirect ws := by
  cases ws <;> rfl

theorem argWords_cons (w : Str) (ws : List Str) :
    argWords (w :: ws) =
      if isBareRedirect w = true then
        match ws with
        | [] => []
        | _ :: ws2 => argWords ws2
      else if isAttachedRedirect w = true then argWords ws
      else w :: argWords ws := by
  cases ws <;> rfl

theorem parseCmdUnitLoop_fails_iff (env : Str → Str) : ∀ (n : Nat) (ws : List Str),
    ws.length ≤ n → ∀ (args : List Str) (i o : Str),
    ((∃ e, parseCmdUnitLoop env (wordToks ws) args i o = .error e) ↔
      (danglingRedirect ws = true ∨ (args = [] ∧ argWords ws = []))) := by
  intro n
  induction n with
  | zero =>
    intro ws hlen args i o
    have : ws = [] := List.length_eq_zero.mp (Nat.le_zero.mp hlen)
    subst this
    simp only [wordToks, List.map_nil, parseCmdUnitLoop_nil, danglingRedirect, argWords]
    by_cases ha : args = []
    · simp [ha]
    · have : args.length ≠ 0 := fun h => ha (List.length_eq_zero.mp h)
      simp [ha, this]
  | succ n ih =>
    intro ws hlen args i o
    cases ws with
    | nil =>
      simp only [wordToks, List.map_nil, parseCmdUnitLoop_nil, danglingRedirect, argWords]
      by_cases ha : args = []
      · simp [ha]
      · have : args.length ≠ 0 := fun h => ha (List.length_eq_zero.mp h)
        simp [ha, this]
    | cons w ws =>
      simp only [List.length_cons, Nat.add_le_add_iff_right] at hlen
      have hw : wordToks (w :: ws) = ⟨.TK_WORD, w⟩ :: wordToks ws := rfl
      rw [hw, parseCmdUnitLoop_cons, danglingRedirect_cons, argWords_cons]
      simp only [ne_eq, not_true_eq_false, if_false]
      by_cases h1 : w.head? = some '>' ∧ 1 < w.length
      · have hb : isBareRedirect w = false := by
          have : w ≠ ['>'] ∧ w ≠ ['<'] := by
            constructor <;> (intro h; rw [h] at h1; simp at h1)
          simp [isBareRedirect, this.1, this.2]
        have ha : isAttachedRedirect w = true := by
          simp [isAttachedRedirect, h1.1, h1.2]
        rw [if_pos h1]
        simp only [hb, ha, Bool.false_eq_true, if_false, if_true]
        exact ih ws hlen _ _ _
      · rw [if_neg h1]
        by_cases h2 : w.head? = some '<' ∧ 1 < w.length
        · have hb : isBareRedirect w = false := by
            have : w ≠ ['>'] ∧ w ≠ ['<'] := by
              constructor <;> (intro h; rw [h] at h2; simp at h2)
            simp [isBareRedirect, this.1, this.2]
          have ha : isAttachedRedirect w = true := by
            simp [isAttachedRedirect, h2.1, h2.2]
          rw [if_pos h2]
          simp only [hb, ha, Bool.false_eq_true, if_false, if_true]
          exact ih ws hlen _ _ _
        · rw [if_neg h2]
          by_cases h3 : w = ['>']
          · have hb : isBareRedirect w = true := by simp [isBareRedirect, h3]
            rw [if_pos h3]
            simp only [hb, if_true]
            cases ws with
            | nil => simp [wordToks]
            | cons f ws2 =>
              simp only [List.length_cons] at hlen
              exact ih ws2 (by omega) _ _ _
          · rw [if_neg h3]
            by_cases h4 : w = ['<']
            · have hb : isBareRedirect w = true := by simp [isBareRedirect, h4]
              rw [if_pos h4]
              simp only [hb, if_true]
              cases ws with
              | nil => simp [wordToks]
              | cons f ws2 =>
                simp only [List.length_cons] at hlen
                exact ih ws2 (by omega) _ _ _
            · rw [if_neg h4]
              have hb : isBareRedirect w = false := by simp [isBareRedirect, h3, h4]
              have ha : isAttachedRedirect w = false := by
                simp only [isAttachedRedirect, Bool.and_eq_false_imp, Bool.or_eq_true,
                  beq_iff_eq, decide_eq_false_iff_not]
                rintro (h | h)
                · exact fun hl => h1 ⟨h, hl⟩
                · exact fun hl => h2 ⟨h, hl⟩
              simp only [hb, ha, Bool.false_eq_true, if_false]
              rw [ih ws hlen _ _ _]
              simp

/-- C18: on a group of Word tokens, `parseCmdUnit` fails if and only if, scanning left to
right, a bare `>` or `<` in operator position is the last word, or no word is an argument
word; in every other case it succeeds. -/
theorem parseCmdUnit_fails_iff (env : Str → Str) (ws : List Str) :
    ((∃ e, parseCmdUnit env (wordToks ws) = .error e) ↔
      (danglingRedirect ws = true ∨ argWords ws = [])) ∧
    (¬ (danglingRedirect ws = true ∨ argWords ws = []) →
      ∃ u, parseCmdUnit env (wordToks ws) = .ok u) := by
  have key : (∃ e, parseCmdUnit env (wordToks ws) = .error e) ↔
      (danglingRedirect ws = true ∨ argWords ws = []) := by
    unfold parseCmdUnit
    rw [parseCmdUnitLoop_fails_iff env ws.length ws le_rfl [] [] []]
    simp
  refine ⟨key, fun hno => ?_⟩
  cases hp : parseCmdUnit env (wordToks ws) with
  | ok u => exact ⟨u, rfl⟩
  | error e => exact absurd (key.mp ⟨e, hp⟩) hno

theorem parseCmdUnit_fails_iff_witness :
    (∃ e, parseCmdUnit noEnv (wordToks ["ls".toList, ">".toList]) = .error e) ∧
    (∃ e, parseCmdUnit noEnv (wordToks [">out".toList, "<".toList, "in".toList]) = .error e) ∧
    (∃ u, parseCmdUnit noEnv (wordToks [">".toList, ">".toList, "ls".toList]) = .ok u) :=
  ⟨(parseCmdUnit_fails_iff noEnv ["ls".toList, ">".toList]).1.mpr (Or.inl (by decide)),
   (parseCmdUnit_fails_iff noEnv [">out".toList, "<".toList, "in".toList]).1.mpr
     (Or.inr (by decide)),
   (parseCmdUnit_fails_iff noEnv [">".toList, ">".toList, "ls".toList]).2 (by decide)⟩

/-! ### A single `&`, and quotes inside a word -/

theorem scanWord_through (w r : Str)
    (h : ∀ c ∈ w, isSpace c = false ∧ c ≠ '|' ∧ c ≠ '&') :
    scanWord (w ++ r) = (w ++ (scanWord r).1, (scanWord r).2) := by
  induction w with
  | nil => rfl
  | cons c cs ih =>
    obtain ⟨h1, h2, h3⟩ := h c (by simp)
    have ih2 := ih (fun x hx => h x (by simp [hx]))
    simp [scanWord, h1, h2, h3, ih2]

theorem plainChar_through {c : Char} (h : plainChar c = true) :
    isSpace c = false ∧ c ≠ '|' ∧ c ≠ '&' :=
  ⟨(plainChar_spec h).1, (plainChar_spec h).2.2.2.1, (plainChar_spec h).2.2.2.2⟩

theorem isPlain_spec {w : Str} (h : isPlain w = true) :
    w ≠ [] ∧ ∀ c ∈ w, plainChar c = true := by
  simp only [isPlain, Bool.and_eq_true, Bool.not_eq_true', List.all_eq_true] at h
  refine ⟨fun hn => ?_, h.2⟩
  rw [hn] at h
  exact absurd h.1 (by decide)

theorem scanWord_plain (w : Str) (h : ∀ c ∈ w, plainChar c = true) :
    scanWord w = (w, []) := by
  have := scanWord_through w [] (fun c hc => plainChar_through (h c hc))
  simpa [scanWord] using this

/-- The word branch of the loop: a first byte that is neither whitespace, `|`, the start of
`&&` nor a quote starts a word, which is what `scanWord` reads. -/
theorem tokStep_word (c : Char) (cs : Str) (h1 : isSpace c = false) (h2 : c ≠ '|')
    (h3 : ¬ (c = '&' ∧ cs.head? = some '&')) (h4 : c ≠ dquote) (h5 : c ≠ squote) :
    tokStep c cs
      = .ok (some ⟨.TK_WORD, (scanWord (c :: cs)).1⟩, (scanWord (c :: cs)).2) := by
  simp [tokStep, h1, h2, h3, h4, h5]

/-- C19: a single `&` is never an operator: for non-empty plain words `u`, `v`, the text
`u&v` is one Word, and `u & v` is the three Words `u`, `&`, `v`. -/
theorem tokenize_single_ampersand (u v : Str) (hu : isPlain u = true)
    (hv : isPlain v = true) :
    tokenize (u ++ '&' :: v) = .ok [⟨.TK_WORD, u ++ '&' :: v⟩] ∧
    tokenize (u ++ (" & ".toList ++ v))
      = .ok [⟨.TK_WORD, u⟩, ⟨.TK_WORD, ['&']⟩, ⟨.TK_WORD, v⟩] := by
  obtain ⟨hune, hup⟩ := isPlain_spec hu
  obtain ⟨hvne, hvp⟩ := isPlain_spec hv
  have hvhead : v.head? ≠ some '&' := by
    cases v with
    | nil => exact absurd rfl hvne
    | cons d ds =>
      have := (plainChar_spec (hvp d (by simp))).2.2.2.2
      simpa using this
  have hamp : isSpace '&' = false := by decide
  constructor
  · have hscan : scanWord (u ++ '&' :: v) = (u ++ '&' :: v, []) := by
      rw [scanWord_through u _ (fun c hc => plainChar_through (hup c hc))]
      simp [scanWord, hamp, hvhead, scanWord_plain v hvp]
    cases u with
    | nil => exact absurd rfl hune
    | cons c cs =>
      obtain ⟨h1, h4, h5, h2, h3⟩ := plainChar_spec (hup c (by simp))
      rw [List.cons_append, tokenize_cons,
        tokStep_word c _ h1 h2 (fun h => h3 h.1) h4 h5]
      rw [List.cons_append] at hscan
      rw [hscan]
      rfl
  · have e : u ++ (" & ".toList ++ v) = u ++ ' ' :: ('&' :: ' ' :: v) := rfl
    have hstep : tokStep '&' (' ' :: v) = .ok (some ⟨.TK_WORD, ['&']⟩, ' ' :: v) := by
      rw [tokStep_word '&' _ hamp (by decide) (by simp) (by decide) (by decide)]
      have hsp : isSpace ' ' = true := by decide
      simp [scanWord, hamp, hsp]
    rw [e, tokenize_word_space u _ hu, tokenize_cons, hstep]
    simp only
    rw [tokenize_space _ (by decide), tokenize_word_end v hv]
    rfl

theorem tokenize_single_ampersand_witness :
    tokenize "a&b".toList = .ok [⟨.TK_WORD, "a&b".toList⟩] ∧
    tokenize "sleep & echo".toList
      = .ok [⟨.TK_WORD, "sleep".toList⟩, ⟨.TK_WORD, ['&']⟩, ⟨.TK_WORD, "echo".toList⟩] :=
  ⟨(tokenize_single_ampersand "a".toList "b".toList (by decide) (by decide)).1,
   (tokenize_single_ampersand "sleep".toList "echo".toList (by decide) (by decide)).2⟩

theorem scanWord_concat (s : Str) : (scanWord s).1 ++ (scanWord s).2 = s := by
  induction s with
  | nil => rfl
  | cons c cs ih =>
    unfold scanWord
    split_ifs
    · rfl
    · rfl
    · rfl
    · simp [ih]

theorem scanWord_inside : ∀ (s a : Str) (x : Char) (b : Str),
    (scanWord s).1 = a ++ x :: b →
    isSpace x = false ∧ x ≠ '|' ∧ ¬ (x = '&' ∧ (b ++ (scanWord s).2).head? = some '&') := by
  intro s
  induction s with
  | nil => intro a x b h; simp [scanWord] at h
  | cons c cs ih =>
    intro a x b h
    unfold scanWord at h ⊢
    split_ifs at h ⊢ with h1 h2 h3
    · simp at h
    · simp at h
    · simp at h
    · simp only at h ⊢
      cases a with
      | nil =>
        simp only [List.nil_append, List.cons.injEq] at h
        obtain ⟨rfl, rfl⟩ := h
        rw [scanWord_concat]
        exact ⟨by simpa using h1, h2, h3⟩
      | cons a0 as =>
        simp only [List.cons_append, List.cons.injEq] at h
        exact ih as x b h.2

theorem scanWord_stops (s : Str) :
    (scanWord s).2 = [] ∨
      ∃ y ys, (scanWord s).2 = y :: ys ∧
        (isSpace y = true ∨ y = '|' ∨ (y = '&' ∧ ys.head? = some '&')) := by
  induction s with
  | nil => exact Or.inl rfl
  | cons c cs ih =>
    unfold scanWord
    split_ifs with h1 h2 h3
    · exact Or.inr ⟨c, cs, rfl, Or.inl h1⟩
    · exact Or.inr ⟨c, cs, rfl, Or.inr (Or.inl h2)⟩
    · exact Or.inr ⟨c, cs, rfl, Or.inr (Or.inr h3)⟩
    · exact ih

theorem tokStep_operator (y : Char) (ys : Str)
    (h : y = '|' ∨ (y = '&' ∧ ys.head? = some '&')) :
    ∃ t2 r2, tokStep y ys = .ok (some t2, r2) ∧ t2.Kind ≠ .TK_WORD := by
  have hs1 : isSpace '|' = false := by decide
  have hs2 : isSpace '&' = false := by decide
  rcases h with rfl | ⟨rfl, hh⟩
  · by_cases hp : ys.head? = some '|'
    · exact ⟨⟨.TK_OR, ['|', '|']⟩, ys.tail, by simp [tokStep, hs1, hp], by simp⟩
    · exact ⟨⟨.TK_PIPE, ['|']⟩, ys, by simp [tokStep, hs1, hp], by simp⟩
  · exact ⟨⟨.TK_AND, ['&', '&']⟩, ys.tail, by simp [tokStep, hs2, hh], by simp⟩

theorem tokStep_word_inv {c : Char} {cs : Str} {t : Token} {r : Str}
    (h : tokStep c cs = .ok (some t, r)) (hk : t.Kind = .TK_WORD)
    (hq : c ≠ dquote ∧ c ≠ squote) :
    t.Val = (scanWord (c :: cs)).1 ∧ r = (scanWord (c :: cs)).2 ∧
      (scanWord (c :: cs)).1 ≠ [] := by
  unfold tokStep at h
  split_ifs at h with h1 h2 h3 h4 h5
  · cases h
  · cases h; cases hk
  · cases h; cases hk
  · cases h; cases hk
  · exact absurd h5 (by simp [hq.1, hq.2])
  · cases h
    refine ⟨rfl, rfl, ?_⟩
    simp [scanWord, h1, h2, h4]

theorem tokenize_word_with_quote (u v rest : Str) (q : Char) (hu : isPlain u = true)
    (hq : q = dquote ∨ q = squote) (hv : ∀ x ∈ v, plainChar x = true)
    (hrest : scanWord rest = ([], rest)) :
    tokenize (u ++ q :: (v ++ rest)) = consTok ⟨.TK_WORD, u ++ q :: v⟩ (tokenize rest) := by
  obtain ⟨hune, hup⟩ := isPlain_spec hu
  have hqt : isSpace q = false ∧ q ≠ '|' ∧ q ≠ '&' := by
    rcases hq with rfl | rfl <;> decide
  have hall : ∀ x ∈ u ++ q :: v, isSpace x = false ∧ x ≠ '|' ∧ x ≠ '&' := by
    intro x hx
    rcases List.mem_append.mp hx with hx | hx
    · exact plainChar_through (hup x hx)
    · rcases List.mem_cons.mp hx with hx | hx
      · subst hx; exact hqt
      · exact plainChar_through (hv x hx)
  have hscan : scanWord ((u ++ q :: v) ++ rest) = (u ++ q :: v, rest) := by
    rw [scanWord_through _ _ hall, hrest, List.append_nil]
  have e : u ++ q :: (v ++ rest) = (u ++ q :: v) ++ rest := by simp
  rw [e]
  cases u with
  | nil => exact absurd rfl hune
  | cons c cs =>
    obtain ⟨h1, h4, h5, h2, h3⟩ := plainChar_spec (hup c (by simp))
    simp only [List.cons_append] at hscan ⊢
    rw [tokenize_cons, tokStep_word c _ h1 h2 (fun h => h3 h.1) h4 h5, hscan]
    simp only
    cases tokenize rest <;> rfl

/-- C20 (amended): an operator (`|`, `&&`) inside an unquoted word ends the word and starts a
new token: an unquoted Word token has no whitespace, no `|` and no `&&` at any of its
positions, and the text after it is empty, whitespace, or an operator token. A quote character
after the first byte of an unquoted word does not end it: it is kept as word text. -/
theorem unquoted_word_ends_at_operator (c : Char) (cs r u v rest : Str) (t : Token)
    (q : Char) :
    (tokStep c cs = .ok (some t, r) → t.Kind = .TK_WORD → c ≠ dquote ∧ c ≠ squote →
      t.Val ++ r = c :: cs ∧ t.Val ≠ [] ∧
      (∀ a x b, t.Val = a ++ x :: b →
        isSpace x = false ∧ x ≠ '|' ∧ ¬ (x = '&' ∧ (b ++ r).head? = some '&')) ∧
      (r = [] ∨ ∃ y ys, r = y :: ys ∧
        (isSpace y = true ∨
          ∃ t2 r2, tokStep y ys = .ok (some t2, r2) ∧ t2.Kind ≠ .TK_WORD))) ∧
    (isPlain u = true → (q = dquote ∨ q = squote) → (∀ x ∈ v, plainChar x = true) →
      tokenize (u ++ q :: v) = .ok [⟨.TK_WORD, u ++ q :: v⟩] ∧
      tokenize (u ++ q :: (v ++ ' ' :: rest))
        = consTok ⟨.TK_WORD, u ++ q :: v⟩ (tokenize rest)) := by
  constructor
  · intro h hk hq
    obtain ⟨hval, hr, hne⟩ := tokStep_word_inv h hk hq
    rw [hval, hr]
    refine ⟨scanWord_concat _, hne, fun a x b hab => scanWord_inside _ a x b hab, ?_⟩
    rcases scanWord_stops (c :: cs) with h0 | ⟨y, ys, hy, hstop⟩
    · exact Or.inl h0
    · refine Or.inr ⟨y, ys, hy, ?_⟩
      rcases hstop with hsp | hop
      · exact Or.inl hsp
      · exact Or.inr (tokStep_operator y ys hop)
  · intro hu hq hv
    constructor
    · have := tokenize_word_with_quote u v [] q hu hq hv rfl
      rw [List.append_nil] at this
      rw [this]; rfl
    · rw [tokenize_word_with_quote u v (' ' :: rest) q hu hq hv
        (scanWord_boundary_space _ (by decide)), tokenize_space _ (by decide)]

theorem unquoted_word_ends_at_operator_witness :
    tokStep 'a' "b|c".toList = .ok (some ⟨.TK_WORD, "ab".toList⟩, "|c".toList) ∧
    ("|c".toList = [] ∨ ∃ y ys, "|c".toList = y :: ys ∧
        (isSpace y = true ∨
          ∃ t2 r2, tokStep y ys = .ok (some t2, r2) ∧ t2.Kind ≠ .TK_WORD)) ∧
    tokenize ("ab".toList ++ dquote :: ("c".toList ++ ' ' :: ('d' :: [dquote])))
      = consTok ⟨.TK_WORD, "ab".toList ++ dquote :: "c".toList⟩ (tokenize ('d' :: [dquote])) :=
  ⟨rfl,
   ((unquoted_word_ends_at_operator 'a' "b|c".toList "|c".toList [] [] []
      ⟨.TK_WORD, "ab".toList⟩ dquote).1 rfl rfl (by decide)).2.2.2,
   ((unquoted_word_ends_at_operator 'a' [] [] "ab".toList "c".toList ('d' :: [dquote])
      ⟨.TK_WORD, []⟩ dquote).2 (by decide) (Or.inl rfl) (by decide)).2⟩

/-- C20, counterexample: the line `ab"c d"` gives the Word `ab"c` followed by the Word `d"`,
not the Word `ab` followed by the quoted Word `c d`. -/
theorem tokenize_quote_inside_word :
    tokenize ("ab".toList ++ dquote :: ("c d".toList ++ [dquote]))
      = .ok [⟨.TK_WORD, "ab".toList ++ dquote :: "c".toList⟩, ⟨.TK_WORD, 'd' :: [dquote]⟩] ∧
    tokenize ("ab".toList ++ dquote :: ("c d".toList ++ [dquote]))
      ≠ .ok [⟨.TK_WORD, "ab".toList⟩, ⟨.TK_WORD, "c d".toList⟩] ∧
    dquote ∈ "ab".toList ++ dquote :: "c".toList := by
  refine ⟨rfl, ?_, by decide⟩
  rw [show tokenize ("ab".toList ++ dquote :: ("c d".toList ++ [dquote]))
      = .ok [⟨.TK_WORD, "ab".toList ++ dquote :: "c".toList⟩, ⟨.TK_WORD, 'd' :: [dquote]⟩]
    from rfl]
  intro h
  injection h with h
  injection h with h1 h2
  injection h1 with _ hv
  exact absurd hv (by decide)

/-! ### The foreground group and the waits of the runners -/

theorem JobState.record_currentPgrp (st : JobState) (e : Event) :
    (st.record e).currentPgrp = st.currentPgrp := rfl

/-- `runSingle` never leaves the foreground group set: it only sets it around the wait of a
started process and clears it right after. -/
theorem runSingle_currentPgrp (sys : System) (runBuiltin : Str → List Str → Option RunResult)
    (unit : CmdUnit) (st : JobState) (res : Outcome × JobState)
    (h : runSingle sys runBuiltin unit st = some res) (h0 : st.currentPgrp = 0) :
    res.2.currentPgrp = 0 := by
  unfold runSingle at h
  split at h
  · cases h; exact h0
  · split_ifs at h
    · cases h; exact h0
    · cases h; exact h0
    · split at h
      · cases h
      · cases h; exact h0
    · cases h; exact h0
    · cases h; exact h0
    · cases h; exact h0
    · cases h; rfl

/-- When no stage has an early `return`, `runPipeline` ends the process in a task `exit` or
returns with the foreground group cleared. -/
theorem runPipeline_currentPgrp_of_started (sys : System) (units : List CmdUnit)
    (st : JobState) (cmds : List Nat) (tasks : List Task) (st1 : JobState)
    (hne : units.length ≠ 0)
    (hpipe : firstPipeFailure sys units.length = none)
    (h : startStages sys units.length 0 units 0 [] [] st = .ok (cmds, tasks, st1)) :
    (runPipeline sys units st).1 = .exited ∨ (runPipeline sys units st).2.currentPgrp = 0 := by
  unfold runPipeline
  rw [if_neg hne, hpipe, h]
  simp only
  cases runTasks tasks (waitStages sys cmds none (st1.record .writersClosed)).2 with
  | error st2 => exact Or.inl rfl
  | ok st2 => exact Or.inr rfl

/-- C11, failing input: in `sleep 1 | nosuchcmd` the first stage is started and becomes the
foreground group, the second stage fails to start, and `runPipeline` returns `(1, err)` with
the foreground group still set to the first stage's process, not cleared. -/
theorem runPipeline_leaves_foreground_group :
    runPipeline (failingSystem 1 []) sleepThenMissing ⟨0, []⟩
      = (.ret 1 (some (.startFailed 1)),
          ⟨100, [.streams 0 .stdin (.pipeWrite 0), .processStarted 0 100,
            .streams 1 (.pipeRead 0) .stdout]⟩) ∧
    (runPipeline (failingSystem 1 []) sleepThenMissing ⟨0, []⟩).2.currentPgrp ≠ 0 := by
  decide

/-- C12, failing input: in `echo x | sleep 5 | cat > /nodir/out` the builtin task of stage 0
is launched and the process of stage 1 is started, then the output file of the last stage
cannot be created, and `runPipeline` returns `(1, err)` at once: no started process is waited
for and the builtin tasks are not joined. This is so whether the task of `echo` runs as soon
as it is launched or has not run yet. -/
theorem runPipeline_returns_without_waiting :
    runPipeline (failingSystem 9 "/nodir/out".toList) echoSleepCat ⟨0, []⟩
      = (.ret 1 (some (.createFailed "/nodir/out".toList)),
          ⟨101, [.streams 0 .stdin (.pipeWrite 0), .builtinLaunched 0,
            .streams 1 (.pipeRead 0) (.pipeWrite 1), .processStarted 1 101]⟩) ∧
    Event.processWaited 1 ∉
      (runPipeline (failingSystem 9 "/nodir/out".toList) echoSleepCat ⟨0, []⟩).2.log ∧
    Event.builtinsJoined ∉
      (runPipeline (failingSystem 9 "/nodir/out".toList) echoSleepCat ⟨0, []⟩).2.log ∧
    runPipeline { failingSystem 9 "/nodir/out".toList with taskFirst := fun _ => true }
        echoSleepCat ⟨0, []⟩
      = (.ret 1 (some (.createFailed "/nodir/out".toList)),
          ⟨101, [.streams 0 .stdin (.pipeWrite 0), .builtinLaunched 0,
            .builtinRan 0 "echo".toList ["x".toList],
            .wrote 0 (.pipeWrite 0) "x\n".toList,
            .streams 1 (.pipeRead 0) (.pipeWrite 1), .processStarted 1 101]⟩) := by
  decide

/-! ### Pipelines without a failing wait -/

theorem waitStages_none (sys : System) : ∀ (cmds : List Nat) (st : JobState),
    (∀ i ∈ cmds, sys.wait i = none) → (waitStages sys cmds none st).1 = none := by
  intro cmds
  induction cmds with
  | nil => intro st _; rfl
  | cons i rest ih =>
    intro st h
    simp only [waitStages, h i (by simp)]
    exact ih _ (fun j hj => h j (by simp [hj]))

/-- C22: `isBuiltin name` holds exactly for `cd`, `pwd`, `echo`, `kill`, `ps` and `exit`;
`runBuiltin` calls the handler of each of the first five, ends the interpreter for `exit`,
and for every other name returns code 1 with the error `unknown builtin` and the name. -/
theorem runBuiltin_dispatch {ω : Type} (h : Handlers ω) (name : Str) (args : List Str)
    (inp out : ω) :
    (isBuiltin name = true ↔
      name ∈ ["cd".toList, "pwd".toList, "echo".toList, "kill".toList, "ps".toList,
        "exit".toList]) ∧
    runBuiltin h "cd".toList args inp out = some (h.builtinCd args) ∧
    runBuiltin h "pwd".toList args inp out = some (h.builtinPwd out) ∧
    runBuiltin h "echo".toList args inp out = some (h.builtinEcho args out) ∧
    runBuiltin h "kill".toList args inp out = some (h.builtinKill args) ∧
    runBuiltin h "ps".toList args inp out = some (h.builtinPs out) ∧
    runBuiltin h "exit".toList args inp out = none ∧
    (isBuiltin name = false →
      runBuiltin h name args inp out
        = some ⟨1, some ("unknown builtin ".toList ++ name)⟩) := by
  refine ⟨?_, rfl, rfl, rfl, rfl, rfl, rfl, ?_⟩
  · simp [isBuiltin, or_assoc]
  · intro hn
    simp only [isBuiltin, Bool.or_eq_false_iff, decide_eq_false_iff_not] at hn
    obtain ⟨⟨⟨⟨⟨h1, h2⟩, h3⟩, h4⟩, h5⟩, h6⟩ := hn
    unfold runBuiltin
    rw [if_neg h1, if_neg h2, if_neg h3, if_neg h4, if_neg h5, if_neg h6]

theorem runBuiltin_dispatch_witness :
    runBuiltin (ω := Unit)
        ⟨fun _ => ⟨0, none⟩, fun _ => ⟨0, none⟩, fun _ _ => ⟨0, none⟩, fun _ => ⟨0, none⟩,
          fun _ => ⟨0, none⟩⟩ "cat".toList [] () ()
      = some ⟨1, some "unknown builtin cat".toList⟩ :=
  (runBuiltin_dispatch (ω := Unit) _ "cat".toList [] () ()).2.2.2.2.2.2.2 (by decide)

/-! ### The pipeline `echo X | cat` -/

/-- C24: for a received signal, the listener makes no call of `syscall.Kill` when the
foreground group read is unset (0), and when it is `g` it makes exactly one call, with target
`-g` (the whole process group) and the same signal. -/
theorem onInterrupt_kills (st : JobState) (sig : Nat) :
    (st.currentPgrp = 0 → onInterrupt st sig = []) ∧
    (st.currentPgrp ≠ 0 → onInterrupt st sig = [(-(st.currentPgrp : Int), sig)]) := by
  constructor
  · intro h; simp [onInterrupt, h]
  · intro h; simp [onInterrupt, h]

theorem onInterrupt_kills_witness :
    onInterrupt ⟨0, []⟩ 2 = [] ∧ onInterrupt ⟨4242, []⟩ 2 = [(-4242, 2)] :=
  ⟨(onInterrupt_kills ⟨0, []⟩ 2).1 rfl, (onInterrupt_kills ⟨4242, []⟩ 2).2 (by decide)⟩

/-- After `runSingle` has returned, an interrupt reaches no process. -/
theorem onInterrupt_after_runSingle (sys : System)
    (runBuiltin : Str → List Str → Option RunResult) (unit : CmdUnit) (st : JobState)
    (res : Outcome × JobState) (h : runSingle sys runBuiltin unit st = some res)
    (h0 : st.currentPgrp = 0) (sig : Nat) : onInterrupt res.2 sig = [] := by
  simp [onInterrupt, runSingle_currentPgrp sys runBuiltin unit st res h h0]

/-! ### The `kill` builtin -/

theorem builtinKill_empty (killFails : Int → Int → Bool) :
    builtinKill killFails [] = ⟨1, true, []⟩ := rfl

/-- With a signal word `-N` and a pid word that are both numbers, signal `N` goes to the
pid. -/
theorem builtinKill_signal (killFails : Int → Int → Bool) (n pidWord : Str)
    (more : List Str) (sn pid : Int) (hn : atoi n = some sn) (hp : atoi pidWord = some pid) :
    (builtinKill killFails (('-' :: n) :: pidWord :: more)).sent = [(pid, sn)] := by
  simp only [builtinKill, List.head?_cons, List.length_cons, List.drop_succ_cons,
    List.drop_zero, List.headD_cons, hn, hp, deliver]
  have : (2 : Nat) ≤ more.length + 1 + 1 := by omega
  simp only [this, and_self, if_true]
  split_ifs <;> rfl

/-- With a single word that does not begin with `-`, TERM goes to the pid it denotes, and
nothing is sent when it is not a number. -/
theorem builtinKill_term (killFails : Int → Int → Bool) (pidWord : Str) (more : List Str)
    (h : pidWord.head? ≠ some '-') :
    (∀ pid, atoi pidWord = some pid →
      (builtinKill killFails (pidWord :: more)).sent = [(pid, SIGTERM)]) ∧
    (atoi pidWord = none → builtinKill killFails (pidWord :: more) = ⟨1, true, []⟩) := by
  constructor
  · intro pid hp
    simp only [builtinKill, h, false_and, if_false, hp, deliver]
    split_ifs <;> rfl
  · intro hp
    simp only [builtinKill, h, false_and, if_false, hp]

/-- C25, failing input: `kill -9` with no pid. The word `-9` is not taken as a signal, since
no second argument follows; it is parsed as the pid `-9`, and `syscall.Kill(-9, SIGTERM)` is
called: TERM is sent to process group 9. -/
theorem builtinKill_signal_without_pid (killFails : Int → Int → Bool) :
    (builtinKill killFails ["-9".toList]).sent = [(-9, SIGTERM)] ∧
    (builtinKill killFails ["-9".toList]).sent ≠ [] := by
  have h : (builtinKill killFails ["-9".toList]).sent = [(-9, SIGTERM)] := by
    have ha : atoi "-9".toList = some (-9) := by decide
    simp only [builtinKill, List.length_singleton, ha, deliver]
    split_ifs <;> first | rfl | (exfalso; omega)
  exact ⟨h, by rw [h]; simp⟩

end Shell

namespace Unpack

/-! ## String unpacking -/

/-- The examples of the tests of `unpackString`. -/
theorem unpackString_examples :
    unpackString unicodeIsDigit "a4bc2d5e".toList = .ok "aaaabccddddde".toList ∧
    unpackString unicodeIsDigit "abcd".toList = .ok "abcd".toList ∧
    unpackString unicodeIsDigit [] = .ok [] ∧
    unpackString unicodeIsDigit "45".toList = .error .startsWithDigit ∧
    unpackString unicodeIsDigit ("qwe".toList ++ [backslash, '4', backslash, '5'])
      = .ok "qwe45".toList ∧
    unpackString unicodeIsDigit ("qwe".toList ++ [backslash, '4', '5'])
      = .ok "qwe44444".toList ∧
    unpackString unicodeIsDigit [backslash] = .error .endsWithEscape := by
  refine ⟨by rfl, by rfl, by rfl, by rfl, by rfl, by rfl, by rfl⟩

/-- C26, failing input: `a` followed by the Arabic-Indic digit three, which
`unicode.IsDigit` accepts. The count is `r - '0'`, that is 1635 - 48 = 1587 and not 3, so the
output is 1587 times `a`, where the reference unpacking has `a` three times. -/
theorem unpackString_unicode_digit :
    unicodeIsDigit arabicThree = true ∧
    unpackString unicodeIsDigit ['a', arabicThree] = .ok (List.replicate 1587 'a') ∧
    unpackString unicodeIsDigit ['a', arabicThree] ≠ .ok ['a', 'a', 'a'] := by
  have h : unpackString unicodeIsDigit ['a', arabicThree] = .ok (List.replicate 1587 'a') := by
    rfl
  refine ⟨by decide, h, ?_⟩
  rw [h]
  intro hc
  have hlen := congrArg List.length (Except.ok.inj hc)
  rw [List.length_replicate] at hlen
  exact absurd hlen (by decide)

/-- C27, failing input: the NUL character followed by `3`. The string does not begin with a
digit and does not end with a backslash, and `unpackString` fails with `string starts with
digit`: after NUL is written `prev` is 0 again, the value that stands for `no character
yet`. -/
theorem unpackString_nul_then_digit :
    startsWithDigit unicodeIsDigit [zeroRune, '3'] = false ∧
    endsWithEscape [zeroRune, '3'] = false ∧
    unpackString unicodeIsDigit [zeroRune, '3'] = .error .startsWithDigit := by
  refine ⟨by decide, by decide, by rfl⟩

theorem items_cons (isDigit : Char → Bool) (r : Char) (rs : Str) :
    items isDigit (r :: rs) =
      if r = backslash then
        match rs with
        | [] => []
        | c :: rs2 => .plain c :: items isDigit rs2
      else if isDigit r = true then .digit (r.toNat - 48) :: items isDigit rs
      else .plain r :: items isDigit rs := by
  cases rs <;> rfl

theorem endsWithEscape_cons (r : Char) (rs : Str) :
    endsWithEscape (r :: rs) =
      if r = backslash then
        match rs with
        | [] => true
        | _ :: rs2 => endsWithEscape rs2
      else endsWithEscape rs := by
  cases rs <;> rfl

theorem unpackLoop_escaped (isDigit : Char → Bool) (c : Char) (rs result : Str)
    (prev : Char) :
    unpackLoop isDigit (c :: rs) result prev true
      = unpackLoop isDigit rs (result ++ [c]) c false := by
  rw [unpackLoop]; simp

theorem unpackLoop_cons (isDigit : Char → Bool) (r : Char) (rs result : Str) (prev : Char) :
    unpackLoop isDigit (r :: rs) result prev false =
      if r = backslash then
        if rs = [] then .error .endsWithEscape
        else unpackLoop isDigit rs result prev true
      else if isDigit r = true then
        if prev = zeroRune then .error .startsWithDigit
        else
          unpackLoop isDigit rs
            (result ++ List.replicate (((r.toNat : Int) - 48) - 1).toNat prev) prev false
      else unpackLoop isDigit rs (result ++ [r]) r false := by
  rw [unpackLoop]; simp

theorem copies_eq (r : Char) : (((r.toNat : Int) - 48) - 1).toNat = r.toNat - 48 - 1 := by
  omega

/-- On success the output of `unpackString` is the reference unpacking of the reading of the
input, in which an unescaped digit `r` counts for `r - '0'`. -/
theorem unpackLoop_reference (isDigit : Char → Bool) : ∀ (n : Nat) (s : Str),
    s.length ≤ n → ∀ (result : Str) (prev : Char) (out : Str),
    unpackLoop isDigit s result prev false = .ok out →
    out = result ++ referenceUnpack (items isDigit s) prev := by
  intro n
  induction n with
  | zero =>
    intro s hlen result prev out h
    have : s = [] := List.length_eq_zero.mp (Nat.le_zero.mp hlen)
    subst this
    rw [unpackLoop] at h
    cases h
    simp [items, referenceUnpack]
  | succ n ih =>
    intro s hlen result prev out h
    cases s with
    | nil =>
      rw [unpackLoop] at h
      cases h
      simp [items, referenceUnpack]
    | cons r rs =>
      simp only [List.length_cons, Nat.add_le_add_iff_right] at hlen
      rw [unpackLoop_cons] at h
      rw [items_cons]
      split_ifs at h ⊢ with h1 h2 h3 h4
      · cases rs with
        | nil => exact absurd rfl h2
        | cons c rs2 =>
          rw [unpackLoop_escaped] at h
          simp only [List.length_cons] at hlen
          have := ih rs2 (by omega) _ _ _ h
          rw [this]
          simp [referenceUnpack]
      · have := ih rs hlen _ _ _ h
        rw [this, copies_eq]
        simp [referenceUnpack]
      · have := ih rs hlen _ _ _ h
        rw [this]
        simp [referenceUnpack]

theorem unpackString_reference (isDigit : Char → Bool) (s out : Str)
    (h : unpackString isDigit s = .ok out) :
    out = referenceUnpack (items isDigit s) zeroRune := by
  unfold unpackString at h
  split_ifs at h with h0
  · cases h; subst h0; rfl
  · have := unpackLoop_reference isDigit s.length s le_rfl [] zeroRune out h
    simpa using this

/-- When the last character written is not NUL and the text left has no NUL, the loop fails
exactly when the text ends with an unescaped backslash. -/
theorem unpackLoop_fails_iff (isDigit : Char → Bool) : ∀ (n : Nat) (s : Str),
    s.length ≤ n → (∀ c ∈ s, c ≠ zeroRune) → ∀ (result : Str) (prev : Char),
    prev ≠ zeroRune →
    ((∃ e, unpackLoop isDigit s result prev false = .error e) ↔ endsWithEscape s = true) := by
  intro n
  induction n with
  | zero =>
    intro s hlen _ result prev _
    have : s = [] := List.length_eq_zero.mp (Nat.le_zero.mp hlen)
    subst this
    rw [unpackLoop]
    simp [endsWithEscape]
  | succ n ih =>
    intro s hlen hs result prev hprev
    cases s with
    | nil =>
      rw [unpackLoop]
      simp [endsWithEscape]
    | cons r rs =>
      simp only [List.length_cons, Nat.add_le_add_iff_right] at hlen
      have hr : r ≠ zeroRune := hs r (by simp)
      have hrs : ∀ c ∈ rs, c ≠ zeroRune := fun c hc => hs c (by simp [hc])
      rw [unpackLoop_cons, endsWithEscape_cons]
      split_ifs with h1 h2 h3
      · subst h2; simp
      · cases rs with
        | nil => exact absurd rfl h2
        | cons c rs2 =>
          rw [unpackLoop_escaped]
          simp only [List.length_cons] at hlen
          exact ih rs2 (by omega) (fun x hx => hrs x (by simp [hx])) _ c (hrs c (by simp))
      · exact ih rs hlen hrs _ prev hprev
      · exact ih rs hlen hrs _ r hr

/-- On a string without NUL, `unpackString` fails exactly when the string begins with an
unescaped digit or ends with an unescaped backslash. -/
theorem unpackString_fails_iff_of_no_nul (isDigit : Char → Bool) (s : Str)
    (hs : ∀ c ∈ s, c ≠ zeroRune) :
    ((∃ e, unpackString isDigit s = .error e) ↔
      (startsWithDigit isDigit s = true ∨ endsWithEscape s = true)) := by
  unfold unpackString
  cases s with
  | nil => simp [startsWithDigit, endsWithEscape]
  | cons r rs =>
    have hr : r ≠ zeroRune := hs r (by simp)
    have hrs : ∀ c ∈ rs, c ≠ zeroRune := fun c hc => hs c (by simp [hc])
    rw [if_neg (by simp), unpackLoop_cons, endsWithEscape_cons]
    simp only [startsWithDigit, Bool.and_eq_true, bne_iff_ne, ne_eq]
    split_ifs with h1 h2 h3
    · subst h2; simp
    · cases rs with
      | nil => exact absurd rfl h2
      | cons c rs2 =>
        rw [unpackLoop_escaped]
        rw [unpackLoop_fails_iff isDigit rs2.length rs2 le_rfl
          (fun x hx => hrs x (by simp [hx])) _ c (hrs c (by simp))]
        simp [h1]
    · simp [h1, h3]
    · rw [unpackLoop_fails_iff isDigit rs.length rs le_rfl hrs _ r hr]
      simp [h3]

end Unpack

namespace SortTool

/-! ### `compareValues` is asymmetric -/

theorem strLt_asymm : Asymmetric strLt := by
  intro a
  induction a with
  | nil =>
    intro b h
    cases b <;> simp_all [strLt]
  | cons x xs ih =>
    intro b h
    cases b with
    | nil => simp [strLt] at h
    | cons y ys =>
      simp only [strLt] at h ⊢
      split_ifs at h ⊢ with h1 h2 h3
      all_goals first
        | rfl
        | omega
        | exact ih ys h

theorem blockOrder_asymm {V : Type} (lt : V → V → Bool) (hlt : Asymmetric lt)
    (x y : Option V) (reverse : Bool) (h : blockOrder lt x y reverse = some true) :
    blockOrder lt y x reverse = some false := by
  cases x <;> cases y <;> cases reverse <;> simp_all [blockOrder]
  · exact hlt _ _ h
  · exact hlt _ _ h

theorem blockOrder_none {V : Type} (lt : V → V → Bool) (x y : Option V) (reverse : Bool) :
    blockOrder lt x y reverse = none ↔ x = none ∧ y = none := by
  cases x <;> cases y <;> simp [blockOrder]

theorem natLt_asymm : Asymmetric (fun x y : Nat => decide (x < y)) := by
  intro a b h
  simp only [decide_eq_true_eq, decide_eq_false_iff_not] at h ⊢
  omega

/-- One block of `compareValues` before the rest of the function: asymmetry passes from
the block and the rest to the whole. -/
theorem layer_asymm {V : Type} (lt : V → V → Bool) (hlt : Asymmetric lt)
    (active reverse : Bool) (x y : Option V) (rest restSwapped : Bool)
    (hrest : rest = true → restSwapped = false)
    (h : (match (if active = true then blockOrder lt x y reverse else none) with
          | some r => r
          | none => rest) = true) :
    (match (if active = true then blockOrder lt y x reverse else none) with
      | some r => r
      | none => restSwapped) = false := by
  cases active with
  | false => simpa using hrest (by simpa using h)
  | true =>
    simp only [if_true] at h ⊢
    cases hb : blockOrder lt x y reverse with
    | none =>
      rw [hb] at h
      obtain ⟨hx, hy⟩ := (blockOrder_none lt x y reverse).mp hb
      rw [(blockOrder_none lt y x reverse).mpr ⟨hy, hx⟩]
      exact hrest h
    | some r =>
      rw [hb] at h
      simp only at h
      subst h
      rw [blockOrder_asymm lt hlt x y reverse hb]

theorem compareValues_asymm (lib : FloatLib) (hlib : Asymmetric lib.lt) (column : Int)
    (numeric reverse month ignoreTrailing human : Bool) :
    Asymmetric
      (fun a b => compareValues lib a b column numeric reverse month ignoreTrailing human) := by
  intro a b h
  unfold compareValues at h ⊢
  simp only at h ⊢
  refine layer_asymm _ natLt_asymm month reverse _ _ _ _ ?_ h
  intro h
  refine layer_asymm _ hlib human reverse _ _ _ _ ?_ h
  intro h
  have hon : ∀ (x y : Option lib.F) (rest : Bool),
      (match (if numeric = true ∧ human = false then blockOrder lib.lt x y reverse
          else none) with
        | some r => r
        | none => rest)
      = (match (if (numeric && !human) = true then blockOrder lib.lt x y reverse
          else none) with
        | some r => r
        | none => rest) := by
    intro x y rest
    cases numeric <;> cases human <;> rfl
  rw [hon] at h ⊢
  refine layer_asymm _ hlib (numeric && !human) reverse _ _ _ _ ?_ h
  intro h
  cases reverse with
  | false => simpa using strLt_asymm _ _ (by simpa using h)
  | true => simpa using strLt_asymm _ _ (by simpa using h)

/-! ### The check of the flag `-c` -/

theorem sortLines_examples :
    (sortLines noFloats ["c".toList, "a".toList, "b".toList] 0 false false false false
      false).sorted = ["a".toList, "b".toList, "c".toList] ∧
    (sortLines noFloats ["Mar".toList, "Jan".toList, "Feb".toList, "Dec".toList] 0 false
      false true false false).sorted
      = ["Jan".toList, "Feb".toList, "Mar".toList, "Dec".toList] ∧
    (sortLines noFloats ["a  ".toList, "a".toList, "b  ".toList] 0 false false false true
      false).sorted = ["a  ".toList, "a".toList, "b  ".toList] ∧
    (sortLines smallFloats ["1K".toList, "500".toList, "2M".toList, "3K".toList] 0 false
      false false false true).sorted
      = ["500".toList, "1K".toList, "3K".toList, "2M".toList] ∧
    removeDuplicates ["a".toList, "a".toList, "b".toList, "b".toList, "c".toList]
      = ["a".toList, "b".toList, "c".toList] := by
  refine ⟨by rfl, by rfl, by rfl, by rfl, by rfl⟩

theorem checkSortedFrom_cons (lib : FloatLib) (column : Int)
    (numeric reverse month ignoreTrailing human : Bool) (i : Nat) (a b : Str)
    (rest : List Str) :
    checkSortedFrom lib column numeric reverse month ignoreTrailing human i (a :: b :: rest)
      = if compareValues lib a b column numeric reverse month ignoreTrailing human = false
        then some (i + 1)
        else checkSortedFrom lib column numeric reverse month ignoreTrailing human (i + 1)
          (b :: rest) := rfl

/-- An adjacent pair in the wrong order is reported by the check of `-c`. -/
theorem checkSortedFrom_reports (lib : FloatLib) (hlib : Asymmetric lib.lt) (column : Int)
    (numeric reverse month ignoreTrailing human : Bool) (post : List Str) (a b : Str)
    (hwrong : compareValues lib b a column numeric reverse month ignoreTrailing human = true) :
    ∀ (pre : List Str) (i : Nat),
      checkSortedFrom lib column numeric reverse month ignoreTrailing human i
        (pre ++ a :: b :: post) ≠ none := by
  intro pre
  induction pre with
  | nil =>
    intro i
    have := compareValues_asymm lib hlib column numeric reverse month ignoreTrailing human
      b a hwrong
    simp only at this
    rw [List.nil_append, checkSortedFrom_cons, if_pos this]
    simp
  | cons p pre ih =>
    intro i
    cases pre with
    | nil =>
      rw [List.cons_append, List.nil_append, checkSortedFrom_cons]
      split_ifs
      · simp
      · exact ih (i + 1)
    | cons q pre =>
      rw [List.cons_append, List.cons_append, checkSortedFrom_cons]
      split_ifs
      · simp
      · exact ih (i + 1)

/-- C29, failing input: the two equal lines `a`, `a` are the output of
`sortLines` on themselves, and the check of `-c` reports line 2 of that output as unsorted:
the check asks `compareValues(lines[i-1], lines[i])`, which is false for equal lines. -/
theorem checkSorted_rejects_equal_lines :
    (sortLines noFloats ["a".toList, "a".toList] 0 false false false false false).sorted
      = ["a".toList, "a".toList] ∧
    checkSorted noFloats
      (sortLines noFloats ["a".toList, "a".toList] 0 false false false false false).sorted
      0 false false false false false = some 2 ∧
    compareValues noFloats "a".toList "a".toList 0 false false false false false = false := by
  refine ⟨by rfl, by rfl, by rfl⟩

/-- C28, failing input: with `-n`, the lines `NaN` and `5` compare
equivalent, and `NaN` stands before `5` in the twenty-one lines of `nanLines`; in the output
of `sortLines` the line `5` stands before `NaN`. -/
theorem sortLines_reorders_equivalent_lines :
    (sortLines smallFloats nanLines 0 true false false false false).sorted
      = List.replicate 10 "1".toList ++ ["5".toList] ++ List.replicate 9 "9".toList
        ++ ["NaN".toList] ∧
    compareValues smallFloats "NaN".toList "5".toList 0 true false false false false = false ∧
    compareValues smallFloats "5".toList "NaN".toList 0 true false false false false = false ∧
    nanLines.indexOf "NaN".toList < nanLines.indexOf "5".toList ∧
    (sortLines smallFloats nanLines 0 true false false false false).sorted.indexOf "5".toList
      < (sortLines smallFloats nanLines 0 true false false false false).sorted.indexOf
          "NaN".toList := by
  refine ⟨by rfl, by rfl, by rfl, by decide, by decide⟩

/-! ### `removeDuplicates` -/

theorem keptUpTo_succ (lines : List Str) (i : Nat) :
    keptUpTo lines (i + 1) = keptUpTo lines i ++
      (if i = 0 ∨ lines.getD i [] ≠ lines.getD (i - 1) [] then [lines.getD i []] else []) := by
  unfold keptUpTo
  rw [List.range_succ, List.filter_append, List.map_append]
  congr 1
  by_cases h : i = 0 ∨ lines.getD i [] ≠ lines.getD (i - 1) []
  · rw [if_pos h, List.filter_cons_of_pos (by simpa using h)]
    rfl
  · rw [if_neg h, List.filter_cons_of_neg (by simpa using h)]
    rfl

theorem take_set_succ {α : Type} (arr : List α) (k : Nat) (v : α) (h : k < arr.length) :
    (arr.set k v).take (k + 1) = arr.take k ++ [v] := by
  induction arr generalizing k with
  | nil => simp at h
  | cons a arr ih =>
    cases k with
    | zero => simp
    | succ k =>
      simp only [List.set_cons_succ, List.take_succ_cons, List.cons_append, List.length_cons,
        Nat.add_lt_add_iff_right] at h ⊢
      rw [ih k h]

theorem getD_set_other {α : Type} (arr : List α) (k j : Nat) (v d : α) (h : k ≠ j) :
    (arr.set k v).getD j d = arr.getD j d := by
  simp [List.getD_eq_getElem?_getD, List.getElem?_set, h]

theorem getD_set_same {α : Type} (arr : List α) (k : Nat) (v d : α) (h : k < arr.length) :
    (arr.set k v).getD k d = v := by
  simp [List.getD_eq_getElem?_getD, List.getElem?_set, h]

theorem removeLoop_kept (lines : List Str) :
    ∀ (len i : Nat) (arr : List Str) (outLen : Nat),
      i + len = lines.length → 1 ≤ i → arr.length = lines.length → outLen ≤ i →
      (∀ k, i - 1 ≤ k → arr.getD k [] = lines.getD k []) →
      arr.take outLen = keptUpTo lines i →
      ((List.range' i len).foldl removeStep (arr, outLen)).1.take
        ((List.range' i len).foldl removeStep (arr, outLen)).2
        = keptUpTo lines lines.length := by
  intro len
  induction len with
  | zero =>
    intro i arr outLen hi _ _ _ _ htake
    have : i = lines.length := by omega
    subst this
    simpa using htake
  | succ len ih =>
    intro i arr outLen hi h1 hlen hout hsame htake
    rw [List.range'_succ, List.foldl_cons]
    have hli : arr.getD i [] = lines.getD i [] := hsame i (by omega)
    have hlp : arr.getD (i - 1) [] = lines.getD (i - 1) [] := hsame (i - 1) (by omega)
    by_cases hc : lines.getD i [] ≠ lines.getD (i - 1) []
    · have hstep : removeStep (arr, outLen) i
          = (arr.set outLen (arr.getD i []), outLen + 1) := by
        unfold removeStep
        rw [if_pos (by rw [hli, hlp]; exact hc)]
      rw [hstep]
      apply ih (i + 1) _ _ (by omega) (by omega) (by simpa using hlen) (by omega)
      · intro k hk
        by_cases hko : outLen = k
        · subst hko
          have hik : i = outLen := by omega
          subst hik
          rw [getD_set_same _ _ _ _ (by omega)]
          exact hli
        · rw [getD_set_other _ _ _ _ _ hko]
          exact hsame k (by omega)
      · rw [take_set_succ _ _ _ (by omega), htake, keptUpTo_succ, if_pos (Or.inr hc), hli]
    · have hstep : removeStep (arr, outLen) i = (arr, outLen) := by
        unfold removeStep
        rw [if_neg (by rw [hli, hlp]; exact hc)]
      rw [hstep]
      apply ih (i + 1) _ _ (by omega) (by omega) hlen (by omega)
      · intro k hk
        exact hsame k (by omega)
      · rw [htake, keptUpTo_succ, if_neg (by
          intro h
          rcases h with h | h
          · omega
          · exact hc h)]
        simp

theorem removeDuplicates_eq_kept (lines : List Str) :
    removeDuplicates lines = keptLines lines := by
  unfold removeDuplicates
  by_cases h0 : lines.length = 0
  · rw [if_pos h0]
    have : lines = [] := List.length_eq_zero.mp h0
    subst this
    rfl
  · rw [if_neg h0]
    have hk : keptLines lines = keptUpTo lines lines.length := rfl
    rw [hk]
    apply removeLoop_kept lines (lines.length - 1) 1 lines 1 (by omega) (by omega) rfl
      (by omega)
    · intro k _
      rfl
    · cases lines with
      | nil => simp at h0
      | cons a l => rfl

/-- The elements kept before index `i` have no two equal neighbours, and the last of them
is equal to `lines[i-1]`. -/
theorem keptUpTo_chain (lines : List Str) :
    ∀ i, 1 ≤ i → i ≤ lines.length →
      List.Chain' (fun a b => a ≠ b) (keptUpTo lines i) ∧
      (keptUpTo lines i).getLast? = some (lines.getD (i - 1) []) := by
  intro i
  induction i with
  | zero => intro h; omega
  | succ i ih =>
    intro _ hle
    rw [keptUpTo_succ]
    by_cases hi : i = 0
    · subst hi
      simp [keptUpTo]
    · obtain ⟨hch, hlast⟩ := ih (by omega) (by omega)
      by_cases hc : lines.getD i [] ≠ lines.getD (i - 1) []
      · rw [if_pos (Or.inr hc)]
        refine ⟨?_, by simp⟩
        rw [List.chain'_append]
        refine ⟨hch, List.chain'_singleton _, ?_⟩
        intro x hx y hy
        rw [hlast] at hx
        simp only [List.head?_cons, Option.mem_def, Option.some.injEq] at hx hy
        subst hx
        subst hy
        exact fun h => hc h.symm
      · rw [if_neg (by
          intro h
          rcases h with h | h
          · exact hi h
          · exact hc h)]
        rw [List.append_nil]
        refine ⟨hch, ?_⟩
        rw [hlast]
        simp only [Nat.add_sub_cancel]
        have : lines.getD i [] = lines.getD (i - 1) [] := by
          by_contra h
          exact hc h
        rw [this]

theorem keptLines_chain (lines : List Str) :
    List.Chain' (fun a b => a ≠ b) (keptLines lines) := by
  by_cases h0 : lines.length = 0
  · have : lines = [] := List.length_eq_zero.mp h0
    subst this
    simp [keptLines]
  · exact (keptUpTo_chain lines lines.length (by omega) (le_refl _)).1

/-- A list without equal neighbours is kept whole. -/
theorem keptLines_of_chain (lines : List Str)
    (h : List.Chain' (fun a b => a ≠ b) lines) : keptLines lines = lines := by
  unfold keptLines
  have hall : (List.range lines.length).filter
      (fun i => i = 0 ∨ lines.getD i [] ≠ lines.getD (i - 1) []) = List.range lines.length := by
    rw [List.filter_eq_self]
    intro i hi
    rw [List.mem_range] at hi
    by_cases h0 : i = 0
    · simp [h0]
    · have hrel := (List.chain'_iff_get.mp h) (i - 1) (by omega)
      have e1 : lines.getD (i - 1) [] = lines.get ⟨i - 1, by omega⟩ := by
        simp [List.getD_eq_getElem?_getD, List.getElem?_eq_getElem (show i - 1 < lines.length by omega)]
      have e2 : lines.getD i [] = lines.get ⟨i - 1 + 1, by omega⟩ := by
        have : i - 1 + 1 = i := by omega
        simp [List.getD_eq_getElem?_getD, List.getElem?_eq_getElem hi, this]
      simp only [decide_eq_true_eq]
      right
      rw [e1, e2]
      exact fun h => hrel h.symm
  rw [hall]
  apply List.ext_getElem
  · simp
  · intro i h1 h2
    simp [List.getD_eq_getElem?_getD, List.getElem?_eq_getElem h2]

/-- C30: for every list of lines, `removeDuplicates` returns, in order, exactly the
elements `lines[i]` with `i = 0` or `lines[i] != lines[i-1]`, the comparison being on the
values of the input although the loop reads the array it writes the result into; the result
has no two equal adjacent elements, and `removeDuplicates` is idempotent. -/
theorem removeDuplicates_kept (lines : List Str) :
    removeDuplicates lines = keptLines lines ∧
    List.Chain' (fun a b => a ≠ b) (removeDuplicates lines) ∧
    removeDuplicates (removeDuplicates lines) = removeDuplicates lines := by
  refine ⟨removeDuplicates_eq_kept lines, ?_, ?_⟩
  · rw [removeDuplicates_eq_kept]
    exact keptLines_chain lines
  · rw [removeDuplicates_eq_kept, removeDuplicates_eq_kept]
    exact keptLines_of_chain _ (keptLines_chain lines)

/-! ### `compareValues` is negatively transitive when the order of the numbers is -/

theorem strLt_negTrans : NegTransitive strLt := by
  intro a
  induction a with
  | nil =>
    intro b c h1 h2
    cases b with
    | nil => exact h2
    | cons y ys => simp [strLt] at h1
  | cons x xs ih =>
    intro b c h1 h2
    cases b with
    | nil =>
      cases c with
      | nil => rfl
      | cons z zs => simp [strLt] at h2
    | cons y ys =>
      cases c with
      | nil => rfl
      | cons z zs =>
        simp only [strLt] at h1 h2 ⊢
        split_ifs at h1 h2 ⊢ with g1 g2 g3 g4 g5 g6
        all_goals first
          | rfl
          | omega
          | exact ih ys zs h1 h2

theorem natLt_negTrans : NegTransitive (fun x y : Nat => decide (x < y)) := by
  intro a b c h1 h2
  simp only [decide_eq_false_iff_not] at h1 h2 ⊢
  omega

/-- One block of `compareValues` before the rest of the function: negative transitivity
passes from the block and the rest to the whole. -/
theorem layer_negTrans {V : Type} (lt : V → V → Bool) (hlt : NegTransitive lt)
    (active reverse : Bool) (x y z : Option V) (rxy ryz rxz : Bool)
    (hrest : rxy = false → ryz = false → rxz = false)
    (h1 : (match (if active = true then blockOrder lt x y reverse else none) with
          | some r => r
          | none => rxy) = false)
    (h2 : (match (if active = true then blockOrder lt y z reverse else none) with
          | some r => r
          | none => ryz) = false) :
    (match (if active = true then blockOrder lt x z reverse else none) with
      | some r => r
      | none => rxz) = false := by
  cases active with
  | false => simpa using hrest (by simpa using h1) (by simpa using h2)
  | true =>
    simp only [if_true] at h1 h2 ⊢
    cases x <;> cases y <;> cases z <;> cases reverse <;>
      simp_all [blockOrder]
    · exact hlt _ _ _ h1 h2
    · exact hlt _ _ _ h2 h1

theorem compareValues_negTrans (lib : FloatLib) (hlib : NegTransitive lib.lt) (column : Int)
    (numeric reverse month ignoreTrailing human : Bool) :
    NegTransitive
      (fun a b => compareValues lib a b column numeric reverse month ignoreTrailing human) := by
  intro a b c h1 h2
  unfold compareValues at h1 h2 ⊢
  simp only at h1 h2 ⊢
  refine layer_negTrans _ natLt_negTrans month reverse _ _ _ _ _ _ ?_ h1 h2
  intro h1 h2
  refine layer_negTrans _ hlib human reverse _ _ _ _ _ _ ?_ h1 h2
  intro h1 h2
  have hon : ∀ (x y : Option lib.F) (rest : Bool),
      (match (if numeric = true ∧ human = false then blockOrder lib.lt x y reverse
          else none) with
        | some r => r
        | none => rest)
      = (match (if (numeric && !human) = true then blockOrder lib.lt x y reverse
          else none) with
        | some r => r
        | none => rest) := by
    intro x y rest
    cases numeric <;> cases human <;> rfl
  rw [hon] at h1 h2 ⊢
  refine layer_negTrans _ hlib (numeric && !human) reverse _ _ _ _ _ _ ?_ h1 h2
  intro h1 h2
  cases reverse with
  | false => simpa using strLt_negTrans _ _ _ (by simpa using h1) (by simpa using h2)
  | true => simpa using strLt_negTrans _ _ _ (by simpa using h2) (by simpa using h1)

/-! ### Stable sorting under a strict weak ordering -/

theorem less_irrefl {α : Type} {less : α → α → Bool} (ha : Asymmetric less) (x : α) :
    less x x = false := by
  cases h : less x x with
  | false => rfl
  | true =>
    have h2 := ha x x h
    rw [h] at h2
    cases h2

/-- Under a strict weak ordering, two elements of which one is less than the other are not
both equivalent to a third. -/
theorem not_both_equivalent {α : Type} {less : α → α → Bool}
    (hn : NegTransitive less) (z x y : α) (hxy : less x y = true)
    (hx : equivalent less z x = true) : equivalent less z y = false := by
  unfold equivalent at hx ⊢
  simp only [Bool.and_eq_true, Bool.not_eq_true', Bool.and_eq_false_imp] at hx ⊢
  intro h1
  cases h2 : less y z with
  | true => rfl
  | false =>
    have := hn x z y hx.2 h1
    rw [hxy] at this
    cases this

/-- Two blocks of which each element of the first is less than each element of the second
can change places without a change of the elements equivalent to `z`. -/
theorem filter_equivalent_comm {α : Type} {less : α → α → Bool}
    (hn : NegTransitive less) (z : α) (xs ys : List α)
    (h : ∀ x ∈ xs, ∀ y ∈ ys, less x y = true) :
    xs.filter (equivalent less z) ++ ys.filter (equivalent less z)
      = ys.filter (equivalent less z) ++ xs.filter (equivalent less z) := by
  by_cases hx : ∃ x ∈ xs, equivalent less z x = true
  · obtain ⟨x, hxm, hxe⟩ := hx
    have : ys.filter (equivalent less z) = [] := by
      rw [List.filter_eq_nil_iff]
      intro y hy
      rw [not_both_equivalent hn z x y (h x hxm y hy) hxe]
      simp
    rw [this, List.append_nil, List.nil_append]
  · have : xs.filter (equivalent less z) = [] := by
      rw [List.filter_eq_nil_iff]
      intro x hxm hxe
      exact hx ⟨x, hxm, hxe⟩
    rw [this, List.append_nil, List.nil_append]

theorem stableSortOf_self {α : Type} (less : α → α → Bool) (l : List α)
    (h : Sorted less l) : StableSortOf less l l :=
  ⟨List.Perm.refl l, h, fun _ => rfl⟩

theorem StableSortOf.trans_perm {α : Type} {less : α → α → Bool} {out mid inp : List α}
    (h1 : StableSortOf less out mid) (hp : mid.Perm inp)
    (hf : ∀ z, mid.filter (equivalent less z) = inp.filter (equivalent less z)) :
    StableSortOf less out inp :=
  ⟨h1.1.trans hp, h1.2.1, fun z => (h1.2.2 z).trans (hf z)⟩

/-! #### Insertion sort -/

/-- The part handled by the insertion sort, in reverse order, is sorted: no element is less
than one that stands after it in the reversed list. -/
theorem insertBack_spec {α : Type} {less : α → α → Bool}
    (ha : Asymmetric less) (hn : NegTransitive less) (x : α) (ys : List α)
    (hs : ys.Pairwise (fun a b => less a b = false)) :
    (insertBack less x ys).Perm (x :: ys) ∧
    (insertBack less x ys).Pairwise (fun a b => less a b = false) ∧
    ∀ z, (insertBack less x ys).reverse.filter (equivalent less z)
      = (x :: ys).reverse.filter (equivalent less z) := by
  induction ys with
  | nil => exact ⟨List.Perm.refl _, List.pairwise_singleton _ _, fun _ => rfl⟩
  | cons y ys ih =>
    rw [List.pairwise_cons] at hs
    obtain ⟨hy, hys⟩ := hs
    obtain ⟨ihp, ihs, ihf⟩ := ih hys
    unfold insertBack
    by_cases hxy : less x y = true
    · rw [if_pos hxy]
      refine ⟨(List.Perm.cons y ihp).trans (List.Perm.swap x y ys), ?_, ?_⟩
      · rw [List.pairwise_cons]
        refine ⟨?_, ihs⟩
        intro w hw
        rcases List.mem_cons.mp (ihp.subset hw) with hw | hw
        · rw [hw]
          exact ha x y hxy
        · exact hy w hw
      · intro z
        rw [List.reverse_cons, List.filter_append, ihf z]
        simp only [List.reverse_cons, List.filter_append, List.append_assoc]
        congr 1
        exact filter_equivalent_comm hn z [x] [y] (by
          intro a ha1 b hb1
          rw [List.mem_singleton] at ha1 hb1
          rw [ha1, hb1]
          exact hxy)
    · rw [if_neg hxy]
      have hxy2 : less x y = false := by
        cases h : less x y with
        | false => rfl
        | true => exact absurd h hxy
      refine ⟨List.Perm.refl _, ?_, fun _ => rfl⟩
      rw [List.pairwise_cons]
      refine ⟨?_, List.pairwise_cons.mpr ⟨hy, hys⟩⟩
      intro w hw
      rcases List.mem_cons.mp hw with hw | hw
      · rw [hw]
        exact hxy2
      · exact hn x y w hxy2 (hy w hw)

theorem insertionLoop_spec {α : Type} {less : α → α → Bool}
    (ha : Asymmetric less) (hn : NegTransitive less) :
    ∀ (xs acc : List α), acc.Pairwise (fun a b => less a b = false) →
      (insertionLoop less xs acc).Perm (acc.reverse ++ xs) ∧
      (insertionLoop less xs acc).Pairwise (fun a b => less a b = false) ∧
      ∀ z, (insertionLoop less xs acc).reverse.filter (equivalent less z)
        = (acc.reverse ++ xs).filter (equivalent less z) := by
  intro xs
  induction xs with
  | nil =>
    intro acc hacc
    refine ⟨?_, hacc, ?_⟩
    · simpa [insertionLoop] using (List.reverse_perm acc).symm
    · intro z
      simp [insertionLoop]
  | cons x xs ih =>
    intro acc hacc
    obtain ⟨bp, bs, bf⟩ := insertBack_spec ha hn x acc hacc
    obtain ⟨lp, ls, lf⟩ := ih (insertBack less x acc) bs
    refine ⟨?_, ls, ?_⟩
    · refine lp.trans ?_
      have h1 : (insertBack less x acc).reverse.Perm (acc.reverse ++ [x]) := by
        refine (List.reverse_perm _).trans (bp.trans ?_)
        exact (List.perm_append_singleton x acc).symm.trans
          (List.Perm.append_right [x] (List.reverse_perm acc).symm)
      simpa using List.Perm.append_right xs h1
    · intro z
      show (insertionLoop less xs (insertBack less x acc)).reverse.filter _ = _
      rw [lf z, List.filter_append, bf z]
      simp only [List.reverse_cons, List.filter_append, List.append_assoc]
      rw [← List.filter_append, List.singleton_append]

theorem insertionSort_spec {α : Type} {less : α → α → Bool}
    (ha : Asymmetric less) (hn : NegTransitive less) (seg : List α) :
    StableSortOf less (insertionSort less seg) seg := by
  obtain ⟨hp, hs, hf⟩ := insertionLoop_spec ha hn seg [] List.Pairwise.nil
  refine ⟨?_, ?_, ?_⟩
  · exact (List.reverse_perm _).trans (by simpa using hp)
  · unfold Sorted insertionSort
    rw [List.pairwise_reverse]
    exact hs
  · intro z
    have := hf z
    rw [List.reverse_nil, List.nil_append] at this
    exact this

/-! #### Binary search -/

/-- On a range where the test holds up to some index and fails from it on, the search loop
finds that index. -/
theorem searchLoop_spec (test : Nat → Bool) :
    ∀ (fuel i j : Nat), i ≤ j → j - i ≤ fuel →
      (∀ k k2, i ≤ k2 → k2 ≤ k → k < j → test k = true → test k2 = true) →
      i ≤ searchLoop test fuel i j ∧ searchLoop test fuel i j ≤ j ∧
      (∀ k, i ≤ k → k < searchLoop test fuel i j → test k = true) ∧
      (∀ k, searchLoop test fuel i j ≤ k → k < j → test k = false) := by
  intro fuel
  induction fuel with
  | zero =>
    intro i j hij hf _
    have : i = j := by omega
    subst this
    refine ⟨le_refl _, le_refl _, ?_, ?_⟩
    · intro k h1 h2
      simp only [searchLoop] at h2
      omega
    · intro k h1 h2
      simp only [searchLoop] at h1
      omega
  | succ fuel ih =>
    intro i j hij hf hmono
    unfold searchLoop
    by_cases hlt : i < j
    · rw [if_pos hlt]
      have hh1 : i ≤ (i + j) / 2 := by omega
      have hh2 : (i + j) / 2 < j := by omega
      by_cases ht : test ((i + j) / 2) = true
      · rw [if_pos ht]
        obtain ⟨r1, r2, r3, r4⟩ := ih ((i + j) / 2 + 1) j (by omega) (by omega)
          (fun k k2 a b c d => hmono k k2 (by omega) b c d)
        refine ⟨by omega, r2, ?_, r4⟩
        intro k hk1 hk2
        by_cases hk : k ≤ (i + j) / 2
        · exact hmono ((i + j) / 2) k hk1 hk hh2 ht
        · exact r3 k (by omega) hk2
      · rw [if_neg ht]
        obtain ⟨r1, r2, r3, r4⟩ := ih i ((i + j) / 2) hh1 (by omega)
          (fun k k2 a b c d => hmono k k2 a b (by omega) d)
        refine ⟨r1, by omega, r3, ?_⟩
        intro k hk1 hk2
        by_cases hk : k < (i + j) / 2
        · exact r4 k hk1 hk
        · cases hv : test k with
          | false => rfl
          | true => exact absurd (hmono k ((i + j) / 2) hh1 (by omega) hk2 hv) ht
    · rw [if_neg hlt]
      have : i = j := by omega
      subst this
      refine ⟨le_refl _, le_refl _, ?_, ?_⟩
      · intro k h1 h2
        omega
      · intro k h1 h2
        omega

/-! #### Comparing the elements of a segment by index -/

theorem lessAt_eq {α : Type} (less : α → α → Bool) {l : List α} {i j : Nat} {x y : α}
    (hx : l[i]? = some x) (hy : l[j]? = some y) : lessAt less l i j = less x y := by
  simp [lessAt, hx, hy]

theorem lessAt_negTrans {α : Type} {less : α → α → Bool} (hn : NegTransitive less)
    (l : List α) (a b c : Nat) (hb : b < l.length)
    (h1 : lessAt less l a b = false) (h2 : lessAt less l b c = false) :
    lessAt less l a c = false := by
  unfold lessAt at h1 h2 ⊢
  rw [List.getElem?_eq_getElem hb] at h1 h2
  cases hxa : l[a]? with
  | none => rfl
  | some x =>
    cases hxc : l[c]? with
    | none => rfl
    | some z =>
      rw [hxa] at h1
      rw [hxc] at h2
      exact hn x l[b] z h1 h2

theorem sorted_lessAt {α : Type} {less : α → α → Bool} (ha : Asymmetric less)
    (l : List α) (hs : Sorted less l) (i j : Nat) (hij : i ≤ j) :
    lessAt less l j i = false := by
  unfold lessAt
  cases hj : l[j]? with
  | none => rfl
  | some y =>
    cases hi : l[i]? with
    | none => rfl
    | some x =>
      obtain ⟨hj1, hj2⟩ := List.getElem?_eq_some.mp hj
      obtain ⟨hi1, hi2⟩ := List.getElem?_eq_some.mp hi
      show less y x = false
      by_cases he : i = j
      · subst he
        rw [← hi2, ← hj2]
        exact less_irrefl ha _
      · have := (List.pairwise_iff_getElem.mp hs) i j hi1 hj1 (by omega)
        rw [hi2, hj2] at this
        exact this

theorem lessAt_take {α : Type} (less : α → α → Bool) (l : List α) (m i j : Nat)
    (hi : i < m) (hj : j < m) : lessAt less (l.take m) i j = lessAt less l i j := by
  unfold lessAt
  rw [List.getElem?_take_of_lt hi, List.getElem?_take_of_lt hj]

theorem lessAt_drop {α : Type} (less : α → α → Bool) (l : List α) (m i j : Nat) :
    lessAt less (l.drop m) i j = lessAt less l (m + i) (m + j) := by
  unfold lessAt
  rw [List.getElem?_drop, List.getElem?_drop]

/-- The two runs of a segment are sorted, said by index. -/
theorem runs_lessAt {α : Type} {less : α → α → Bool} (ha : Asymmetric less)
    (seg : List α) (m : Nat) (hu : Sorted less (seg.take m)) (hv : Sorted less (seg.drop m)) :
    (∀ i j, i ≤ j → j < m → lessAt less seg j i = false) ∧
    (∀ i j, m ≤ i → i ≤ j → lessAt less seg j i = false) := by
  constructor
  · intro i j hij hj
    rw [← lessAt_take less seg m j i hj (by omega)]
    exact sorted_lessAt ha _ hu i j hij
  · intro i j hi hij
    have := sorted_lessAt ha _ hv (i - m) (j - m) (by omega)
    rw [lessAt_drop] at this
    have e1 : m + (j - m) = j := by omega
    have e2 : m + (i - m) = i := by omega
    rw [e1, e2] at this
    exact this

theorem mem_slice {α : Type} {l : List α} {lo hi : Nat} {x : α}
    (h : x ∈ (l.take hi).drop lo) : ∃ k, lo ≤ k ∧ k < hi ∧ l[k]? = some x := by
  obtain ⟨i, hi2⟩ := List.mem_iff_getElem?.mp h
  rw [List.getElem?_drop, List.getElem?_take] at hi2
  by_cases hlt : lo + i < hi
  · rw [if_pos hlt] at hi2
    exact ⟨lo + i, by omega, hlt, hi2⟩
  · rw [if_neg hlt] at hi2
    cases hi2

theorem mem_take_index {α : Type} {l : List α} {hi : Nat} {x : α}
    (h : x ∈ l.take hi) : ∃ k, k < hi ∧ l[k]? = some x := by
  obtain ⟨k, _, h2, h3⟩ := @mem_slice _ l 0 hi x (by simpa using h)
  exact ⟨k, h2, h3⟩

theorem mem_drop_index {α : Type} {l : List α} {lo : Nat} {x : α}
    (h : x ∈ l.drop lo) : ∃ k, lo ≤ k ∧ k < l.length ∧ l[k]? = some x := by
  obtain ⟨i, hi2⟩ := List.mem_iff_getElem?.mp h
  rw [List.getElem?_drop] at hi2
  obtain ⟨hlt, _⟩ := List.getElem?_eq_some.mp hi2
  exact ⟨lo + i, by omega, hlt, hi2⟩

/-- A segment cut at three indices. -/
theorem take_split {α : Type} (l : List α) (i j : Nat) (hij : i ≤ j) :
    l.take j = l.take i ++ (l.take j).drop i := by
  have := List.take_append_drop i (l.take j)
  rw [List.take_take, Nat.min_eq_left hij] at this
  exact this.symm

/-! #### Merging -/

/-- The step of the symmetric merge: when the first run is cut into `u1`, `u2` and the
second into `v1`, `v2` so that no element of `v2` is less than one of `u1` and every element
of `v1` is less than every element of `u2`, the stable sort of `u1 ++ v1` followed by that
of `u2 ++ v2` is the stable sort of the two runs. -/
theorem stableSortOf_split {α : Type} {less : α → α → Bool}
    (ha : Asymmetric less) (hn : NegTransitive less) (u1 u2 v1 v2 left right : List α)
    (hu : Sorted less (u1 ++ u2)) (hv : Sorted less (v1 ++ v2))
    (h1 : ∀ x ∈ u1, ∀ y ∈ v2, less y x = false)
    (h2 : ∀ x ∈ v1, ∀ y ∈ u2, less x y = true)
    (hl : StableSortOf less left (u1 ++ v1)) (hr : StableSortOf less right (u2 ++ v2)) :
    StableSortOf less (left ++ right) ((u1 ++ u2) ++ (v1 ++ v2)) := by
  obtain ⟨lp, ls, lf⟩ := hl
  obtain ⟨rp, rs, rf⟩ := hr
  unfold Sorted at hu hv
  rw [List.pairwise_append] at hu hv
  refine ⟨?_, ?_, ?_⟩
  · refine (List.Perm.append lp rp).trans ?_
    have h : (v1 ++ u2).Perm (u2 ++ v1) := List.perm_append_comm
    have e1 : (u1 ++ v1) ++ (u2 ++ v2) = u1 ++ ((v1 ++ u2) ++ v2) := by
      simp only [List.append_assoc]
    have e2 : (u1 ++ u2) ++ (v1 ++ v2) = u1 ++ ((u2 ++ v1) ++ v2) := by
      simp only [List.append_assoc]
    rw [e1, e2]
    exact List.Perm.append_left u1 (List.Perm.append_right v2 h)
  · unfold Sorted
    rw [List.pairwise_append]
    refine ⟨ls, rs, ?_⟩
    intro x hx y hy
    rcases List.mem_append.mp (lp.subset hx) with hx | hx
    · rcases List.mem_append.mp (rp.subset hy) with hy | hy
      · exact hu.2.2 x hx y hy
      · exact h1 x hx y hy
    · rcases List.mem_append.mp (rp.subset hy) with hy | hy
      · exact ha x y (h2 x hx y hy)
      · exact hv.2.2 x hx y hy
  · intro z
    rw [List.filter_append, lf z, rf z]
    simp only [List.filter_append, List.append_assoc]
    congr 1
    rw [← List.append_assoc, ← List.append_assoc, filter_equivalent_comm hn z v1 u2 h2]

theorem drop_split {α : Type} (l : List α) (i j : Nat) (hij : i ≤ j) (hj : j ≤ l.length) :
    l.drop i = (l.take j).drop i ++ l.drop j := by
  have h := congrArg (List.drop i) (List.take_append_drop j l)
  rw [List.drop_append_of_le_length (by rw [List.length_take]; omega)] at h
  exact h.symm

theorem Sorted.left {α : Type} {less : α → α → Bool} {xs ys : List α}
    (h : Sorted less (xs ++ ys)) : Sorted less xs :=
  (List.pairwise_append.mp h).1

theorem Sorted.right {α : Type} {less : α → α → Bool} {xs ys : List α}
    (h : Sorted less (xs ++ ys)) : Sorted less ys :=
  (List.pairwise_append.mp h).2.1

theorem sorted_take_one {α : Type} (less : α → α → Bool) (l : List α) :
    Sorted less (l.take 1) := by
  cases l with
  | nil => exact List.Pairwise.nil
  | cons a l => exact List.pairwise_singleton _ _

/-- The branch `m - a == 1` of `symMerge_func`: the one element of the first run is moved
behind the elements of the second run that are less than it. -/
theorem symMerge_single_first {α : Type} {less : α → α → Bool}
    (ha : Asymmetric less) (hn : NegTransitive less) (seg : List α) (hb : 1 < seg.length)
    (hv : Sorted less (seg.drop 1)) :
    StableSortOf less
      ((seg.take (searchLoop (fun h => lessAt less seg h 0) seg.length 1 seg.length)).drop 1
        ++ seg.take 1
        ++ seg.drop (searchLoop (fun h => lessAt less seg h 0) seg.length 1 seg.length))
      seg := by
  have hu := sorted_take_one less seg
  obtain ⟨_, hsv⟩ := runs_lessAt ha seg 1 hu hv
  obtain ⟨s1, s2, s3, s4⟩ := searchLoop_spec (fun h => lessAt less seg h 0) seg.length 1
    seg.length (by omega) (by omega) (by
      intro k k2 h1 h2 h3 h4
      show lessAt less seg k2 0 = true
      cases hc : lessAt less seg k2 0 with
      | true => rfl
      | false =>
        have := lessAt_negTrans hn seg k k2 0 (by omega) (hsv k2 k h1 h2) hc
        simp only at h4
        rw [this] at h4
        cases h4)
  generalize searchLoop (fun h => lessAt less seg h 0) seg.length 1 seg.length = i at *
  have hvs : seg.drop 1 = (seg.take i).drop 1 ++ seg.drop i := drop_split seg 1 i s1 s2
  rw [hvs] at hv
  have key := stableSortOf_split ha hn [] (seg.take 1) ((seg.take i).drop 1) (seg.drop i)
    ((seg.take i).drop 1) (seg.take 1 ++ seg.drop i) (by simpa using hu) hv
    (by intro x hx; cases hx)
    (by
      intro x hx y hy
      obtain ⟨k, k1, k2, k3⟩ := mem_slice hx
      obtain ⟨l, l1, l2⟩ := mem_take_index hy
      have : l = 0 := by omega
      subst this
      rw [← lessAt_eq less k3 l2]
      exact s3 k k1 k2)
    (by
      rw [List.nil_append]
      exact stableSortOf_self less _ hv.left)
    (stableSortOf_self less _ (by
      unfold Sorted
      rw [List.pairwise_append]
      refine ⟨hu, hv.right, ?_⟩
      intro x hx y hy
      obtain ⟨l, l1, l2⟩ := mem_take_index hx
      have : l = 0 := by omega
      subst this
      obtain ⟨k, k1, k2, k3⟩ := mem_drop_index hy
      rw [← lessAt_eq less k3 l2]
      exact s4 k k1 k2))
  rw [List.nil_append, ← hvs, List.take_append_drop, ← List.append_assoc] at key
  exact key

/-- The branch `b - m == 1` of `symMerge_func`: the one element of the second run is moved
before the elements of the first run that it is less than. -/
theorem symMerge_single_second {α : Type} {less : α → α → Bool}
    (ha : Asymmetric less) (hn : NegTransitive less) (seg : List α) (m : Nat)
    (hmb : m < seg.length) (hb1 : seg.length - m = 1)
    (hu : Sorted less (seg.take m)) :
    StableSortOf less
      (seg.take (searchLoop (fun h => !lessAt less seg m h) seg.length 0 m)
        ++ seg.drop m
        ++ (seg.take m).drop (searchLoop (fun h => !lessAt less seg m h) seg.length 0 m))
      seg := by
  have hv : Sorted less (seg.drop m) := by
    have hl : (seg.drop m).length = 1 := by rw [List.length_drop]; exact hb1
    match hd : seg.drop m, hl with
    | [a], _ => exact List.pairwise_singleton _ _
  obtain ⟨hsu, _⟩ := runs_lessAt ha seg m hu hv
  obtain ⟨_, s2, s3, s4⟩ := searchLoop_spec (fun h => !lessAt less seg m h) seg.length 0 m
    (by omega) (by omega) (by
      intro k k2 _ h2 h3 h4
      simp only [Bool.not_eq_true'] at h4 ⊢
      exact lessAt_negTrans hn seg m k k2 (by omega) h4 (hsu k2 k h2 h3))
  generalize searchLoop (fun h => !lessAt less seg m h) seg.length 0 m = i at *
  have hus : seg.take m = seg.take i ++ (seg.take m).drop i := take_split seg i m s2
  rw [hus] at hu
  have key := stableSortOf_split ha hn (seg.take i) ((seg.take m).drop i) (seg.drop m) []
    (seg.take i ++ seg.drop m) ((seg.take m).drop i) hu (by simpa using hv)
    (by intro x _ y hy; cases hy)
    (by
      intro x hx y hy
      obtain ⟨k, k1, k2, k3⟩ := mem_drop_index hx
      have : k = m := by omega
      subst this
      obtain ⟨l, l1, l2, l3⟩ := mem_slice hy
      rw [← lessAt_eq less k3 l3]
      have := s4 l l1 l2
      simpa using this)
    (stableSortOf_self less _ (by
      unfold Sorted
      rw [List.pairwise_append]
      refine ⟨hu.left, hv, ?_⟩
      intro x hx y hy
      obtain ⟨l, l1, l2⟩ := mem_take_index hx
      obtain ⟨k, k1, k2, k3⟩ := mem_drop_index hy
      have : k = m := by omega
      subst this
      rw [← lessAt_eq less k3 l2]
      have := s3 l (by omega) l1
      simpa using this))
    (by
      rw [List.append_nil]
      exact stableSortOf_self less _ hu.right)
  rw [List.append_nil, ← hus, List.take_append_drop] at key
  exact key

theorem lessAt_none {α : Type} (less : α → α → Bool) (l : List α) (i j : Nat)
    (h : l.length ≤ i) : lessAt less l i j = false := by
  unfold lessAt
  rw [List.getElem?_eq_none h]

theorem take_append_length {α : Type} (xs ys : List α) (n : Nat) (h : xs.length = n) :
    (xs ++ ys).take n = xs := by
  subst h
  simp

theorem drop_append_length {α : Type} (xs ys : List α) (n : Nat) (h : xs.length = n) :
    (xs ++ ys).drop n = ys := by
  subst h
  simp

/-- The search of the general branch of `symMerge_func` cuts the two runs so that the cut
parts can be merged separately. -/
theorem symMerge_search {α : Type} {less : α → α → Bool}
    (ha : Asymmetric less) (hn : NegTransitive less) (seg : List α) (m : Nat)
    (hm0 : 0 < m) (hmb : m < seg.length)
    (hu : Sorted less (seg.take m)) (hv : Sorted less (seg.drop m)) (start : Nat)
    (hstart : start = searchLoop (fun c => !lessAt less seg (seg.length / 2 + m - 1 - c) c)
      seg.length (if m > seg.length / 2 then seg.length / 2 + m - seg.length else 0)
      (if m > seg.length / 2 then seg.length / 2 else m)) :
    start ≤ m ∧ start ≤ seg.length / 2 ∧ seg.length / 2 + m - start ≤ seg.length ∧
    (∀ k l, k < start → seg.length / 2 + m - start ≤ l → lessAt less seg l k = false) ∧
    (∀ k l, m ≤ k → k < seg.length / 2 + m - start → start ≤ l → l < m →
      lessAt less seg k l = true) := by
  obtain ⟨hsu, hsv⟩ := runs_lessAt ha seg m hu hv
  have search : ∀ lo hi, lo ≤ hi → hi ≤ m → hi ≤ seg.length / 2 →
      seg.length / 2 + m - seg.length ≤ lo →
      start = searchLoop (fun c => !lessAt less seg (seg.length / 2 + m - 1 - c) c)
        seg.length lo hi →
      lo ≤ start ∧ start ≤ hi ∧
      (∀ k, lo ≤ k → k < start → lessAt less seg (seg.length / 2 + m - 1 - k) k = false) ∧
      (∀ k, start ≤ k → k < hi → lessAt less seg (seg.length / 2 + m - 1 - k) k = true) := by
    intro lo hi h1 h2 h3 h4 hs
    obtain ⟨s1, s2, s3, s4⟩ := searchLoop_spec
      (fun c => !lessAt less seg (seg.length / 2 + m - 1 - c) c) seg.length lo hi h1
      (by omega) (by
        intro k k2 g1 g2 g3 g4
        simp only [Bool.not_eq_true'] at g4 ⊢
        have e1 := hsv (seg.length / 2 + m - 1 - k) (seg.length / 2 + m - 1 - k2)
          (by omega) (by omega)
        have e2 := lessAt_negTrans hn seg _ _ _ (by omega) e1 g4
        exact lessAt_negTrans hn seg _ _ _ (by omega) e2 (hsu k2 k g2 (by omega)))
    rw [← hs] at s1 s2 s3 s4
    refine ⟨s1, s2, ?_, ?_⟩
    · intro k g1 g2
      simpa using s3 k g1 g2
    · intro k g1 g2
      simpa using s4 k g1 g2
  have facts : ∀ lo hi, lo ≤ hi → hi ≤ m → hi ≤ seg.length / 2 →
      seg.length / 2 + m - seg.length ≤ lo →
      (lo = 0 ∨ lo = seg.length / 2 + m - seg.length) → (hi = m ∨ hi = seg.length / 2) →
      start = searchLoop (fun c => !lessAt less seg (seg.length / 2 + m - 1 - c) c)
        seg.length lo hi →
      start ≤ m ∧ start ≤ seg.length / 2 ∧ seg.length / 2 + m - start ≤ seg.length ∧
      (∀ k l, k < start → seg.length / 2 + m - start ≤ l → lessAt less seg l k = false) ∧
      (∀ k l, m ≤ k → k < seg.length / 2 + m - start → start ≤ l → l < m →
        lessAt less seg k l = true) := by
    intro lo hi h1 h2 h3 h4 hlo hhi hs
    obtain ⟨s1, s2, s3, s4⟩ := search lo hi h1 h2 h3 h4 hs
    refine ⟨by omega, by omega, by omega, ?_, ?_⟩
    · intro k l hk hl
      by_cases hlb : seg.length ≤ l
      · exact lessAt_none less seg l k hlb
      · have hne : lo < start := by
          rcases hlo with hlo | hlo <;> omega
        have e0 := s3 (start - 1) (by omega) (by omega)
        have e0b : seg.length / 2 + m - 1 - (start - 1) = seg.length / 2 + m - start := by
          omega
        rw [e0b] at e0
        have e1 := hsv (seg.length / 2 + m - start) l (by omega) hl
        have e2 := lessAt_negTrans hn seg _ _ _ (by omega) e1 e0
        exact lessAt_negTrans hn seg _ _ _ (by omega) e2 (hsu k (start - 1) (by omega)
          (by omega))
    · intro k l hk1 hk2 hl1 hl2
      have hlt : start < hi := by
        rcases hhi with hhi | hhi <;> omega
      have e0 := s4 start (le_refl _) hlt
      cases hc : lessAt less seg k l with
      | true => rfl
      | false =>
        have e1 := hsv k (seg.length / 2 + m - 1 - start) hk1 (by omega)
        have e2 := lessAt_negTrans hn seg _ _ _ (by omega) e1 hc
        have e3 := lessAt_negTrans hn seg _ _ _ (by omega) e2 (hsu start l hl1 hl2)
        rw [e3] at e0
        cases e0
  by_cases hmm : m > seg.length / 2
  · rw [if_pos hmm, if_pos hmm] at hstart
    exact facts _ _ (by omega) (by omega) (le_refl _) (le_refl _) (Or.inr rfl) (Or.inr rfl)
      hstart
  · rw [if_neg hmm, if_neg hmm] at hstart
    exact facts _ _ (by omega) (le_refl _) (by omega) (by omega) (Or.inl rfl) (Or.inl rfl)
      hstart

/-- The general branch of `symMerge_func`, given that the recursive calls merge. -/
theorem symMerge_general {α : Type} {less : α → α → Bool}
    (ha : Asymmetric less) (hn : NegTransitive less) (fuel : Nat)
    (ih : ∀ (seg : List α) (m : Nat), seg.length ≤ fuel → 0 < m → m < seg.length →
      Sorted less (seg.take m) → Sorted less (seg.drop m) →
      StableSortOf less (symMerge less fuel seg m) seg)
    (seg : List α) (m : Nat) (hf : seg.length ≤ fuel + 1) (hm0 : 0 < m)
    (hmb : m < seg.length)
    (hu : Sorted less (seg.take m)) (hv : Sorted less (seg.drop m)) (start : Nat)
    (hstart : start = searchLoop (fun c => !lessAt less seg (seg.length / 2 + m - 1 - c) c)
      seg.length (if m > seg.length / 2 then seg.length / 2 + m - seg.length else 0)
      (if m > seg.length / 2 then seg.length / 2 else m))
    (seg1 : List α)
    (hseg1 : seg1 = if start < m ∧ m < seg.length / 2 + m - start
      then rotate seg start m (seg.length / 2 + m - start) else seg) :
    StableSortOf less
      ((if 0 < start ∧ start < seg.length / 2
          then symMerge less fuel (seg1.take (seg.length / 2)) start
          else seg1.take (seg.length / 2)) ++
        (if seg.length / 2 < seg.length / 2 + m - start ∧
            seg.length / 2 + m - start < seg.length
          then symMerge less fuel (seg1.drop (seg.length / 2))
            (seg.length / 2 + m - start - seg.length / 2)
          else seg1.drop (seg.length / 2)))
      seg := by
  obtain ⟨f1, f2, f3, f4, f5⟩ := symMerge_search ha hn seg m hm0 hmb hu hv start hstart
  obtain ⟨stop, hstop⟩ : ∃ stop, stop = seg.length / 2 + m - start := ⟨_, rfl⟩
  rw [← hstop] at f3 f4 f5 hseg1 ⊢
  obtain ⟨u1, hu1⟩ : ∃ u1, u1 = seg.take start := ⟨_, rfl⟩
  obtain ⟨u2, hu2⟩ : ∃ u2, u2 = (seg.take m).drop start := ⟨_, rfl⟩
  obtain ⟨v1, hv1⟩ : ∃ v1, v1 = (seg.take stop).drop m := ⟨_, rfl⟩
  obtain ⟨v2, hv2⟩ : ∃ v2, v2 = seg.drop stop := ⟨_, rfl⟩
  have lu1 : u1.length = start := by rw [hu1, List.length_take]; omega
  have lu2 : u2.length = m - start := by
    rw [hu2, List.length_drop, List.length_take]; omega
  have lv1 : v1.length = stop - m := by
    rw [hv1, List.length_drop, List.length_take]; omega
  have lv2 : v2.length = seg.length - stop := by rw [hv2, List.length_drop]
  have eu : seg.take m = u1 ++ u2 := by
    rw [hu1, hu2]
    exact take_split seg start m f1
  have ev : seg.drop m = v1 ++ v2 := by
    rw [hv1, hv2]
    exact drop_split seg m stop (by omega) f3
  have eseg : seg = (u1 ++ u2) ++ (v1 ++ v2) := by
    rw [← eu, ← ev, List.take_append_drop]
  have e1 : seg1 = (u1 ++ v1) ++ (u2 ++ v2) := by
    rw [hseg1]
    by_cases hc : start < m ∧ m < stop
    · rw [if_pos hc]
      unfold rotate
      rw [← hu1, ← hu2, ← hv1, ← hv2]
      simp only [List.append_assoc]
    · rw [if_neg hc]
      have hempty : u2 = [] ∨ v1 = [] := by
        by_cases h : start < m
        · right
          exact List.length_eq_zero.mp (by omega)
        · left
          exact List.length_eq_zero.mp (by omega)
      rcases hempty with h | h
      · rw [eseg, h]
        simp only [List.append_nil, List.nil_append, List.append_assoc]
      · rw [eseg, h]
        simp only [List.append_nil, List.nil_append, List.append_assoc]
  have etake : seg1.take (seg.length / 2) = u1 ++ v1 := by
    rw [e1]
    exact take_append_length _ _ _ (by rw [List.length_append]; omega)
  have edrop : seg1.drop (seg.length / 2) = u2 ++ v2 := by
    rw [e1]
    exact drop_append_length _ _ _ (by rw [List.length_append]; omega)
  rw [etake, edrop]
  rw [eu] at hu
  rw [ev] at hv
  have hleft : StableSortOf less
      (if 0 < start ∧ start < seg.length / 2 then symMerge less fuel (u1 ++ v1) start
        else u1 ++ v1) (u1 ++ v1) := by
    by_cases hc : 0 < start ∧ start < seg.length / 2
    · rw [if_pos hc]
      apply ih (u1 ++ v1) start
      · rw [List.length_append]; omega
      · exact hc.1
      · rw [List.length_append]; omega
      · rw [take_append_length _ _ _ lu1]
        exact hu.left
      · rw [drop_append_length _ _ _ lu1]
        exact hv.left
    · rw [if_neg hc]
      apply stableSortOf_self
      have hempty : u1 = [] ∨ v1 = [] := by
        by_cases h : 0 < start
        · right
          exact List.length_eq_zero.mp (by omega)
        · left
          exact List.length_eq_zero.mp (by omega)
      rcases hempty with h | h
      · rw [h, List.nil_append]
        exact hv.left
      · rw [h, List.append_nil]
        exact hu.left
  have hright : StableSortOf less
      (if seg.length / 2 < stop ∧ stop < seg.length
        then symMerge less fuel (u2 ++ v2) (stop - seg.length / 2)
        else u2 ++ v2) (u2 ++ v2) := by
    by_cases hc : seg.length / 2 < stop ∧ stop < seg.length
    · rw [if_pos hc]
      have lm : u2.length = stop - seg.length / 2 := by omega
      apply ih (u2 ++ v2) (stop - seg.length / 2)
      · rw [List.length_append]; omega
      · omega
      · rw [List.length_append]; omega
      · rw [take_append_length _ _ _ lm]
        exact hu.right
      · rw [drop_append_length _ _ _ lm]
        exact hv.right
    · rw [if_neg hc]
      apply stableSortOf_self
      have hempty : u2 = [] ∨ v2 = [] := by
        by_cases h : seg.length / 2 < stop
        · right
          exact List.length_eq_zero.mp (by omega)
        · left
          exact List.length_eq_zero.mp (by omega)
      rcases hempty with h | h
      · rw [h, List.nil_append]
        exact hv.right
      · rw [h, List.append_nil]
        exact hu.right
  have key := stableSortOf_split ha hn u1 u2 v1 v2 _ _ hu hv
    (by
      intro x hx y hy
      rw [hu1] at hx
      rw [hv2] at hy
      obtain ⟨k, k1, k2⟩ := mem_take_index hx
      obtain ⟨l, l1, _, l3⟩ := mem_drop_index hy
      rw [← lessAt_eq less l3 k2]
      exact f4 k l k1 l1)
    (by
      intro x hx y hy
      rw [hv1] at hx
      rw [hu2] at hy
      obtain ⟨k, k1, k2, k3⟩ := mem_slice hx
      obtain ⟨l, l1, l2, l3⟩ := mem_slice hy
      rw [← lessAt_eq less k3 l3]
      exact f5 k l k1 k2 l1 l2)
    hleft hright
  rw [← eseg] at key
  exact key

/-- Under a strict weak ordering `symMerge_func` turns two adjacent sorted runs into their
stable sort; the length of the segment is fuel enough. -/
theorem symMerge_spec {α : Type} {less : α → α → Bool}
    (ha : Asymmetric less) (hn : NegTransitive less) :
    ∀ (fuel : Nat) (seg : List α) (m : Nat), seg.length ≤ fuel → 0 < m → m < seg.length →
      Sorted less (seg.take m) → Sorted less (seg.drop m) →
      StableSortOf less (symMerge less fuel seg m) seg := by
  intro fuel
  induction fuel with
  | zero =>
    intro seg m hf hm0 hmb
    omega
  | succ fuel ih =>
    intro seg m hf hm0 hmb hu hv
    rw [symMerge]
    by_cases hm1 : m = 1
    · rw [if_pos hm1]
      subst hm1
      exact symMerge_single_first ha hn seg hmb hv
    · rw [if_neg hm1]
      by_cases hb1 : seg.length - m = 1
      · rw [if_pos hb1]
        exact symMerge_single_second ha hn seg m hmb hb1 hu
      · rw [if_neg hb1]
        exact symMerge_general ha hn fuel ih seg m hf hm0 hmb hu hv _ rfl _ rfl

/-! #### The loops of `stable_func` -/

theorem runs_of_sorted {α : Type} {less : α → α → Bool} (blockSize : Nat) (data : List α)
    (h : Sorted less data) : Runs less blockSize data := by
  intro k
  exact List.Pairwise.sublist ((List.take_sublist _ _).trans (List.drop_sublist _ _)) h

theorem runs_append {α : Type} {less : α → α → Bool} (blockSize : Nat) (xs ys : List α)
    (hlen : xs.length = blockSize) (hx : Sorted less xs) (hy : Runs less blockSize ys) :
    Runs less blockSize (xs ++ ys) := by
  intro k
  cases k with
  | zero =>
    rw [Nat.zero_mul, List.drop_zero, take_append_length _ _ _ hlen]
    exact hx
  | succ k =>
    have e : (k + 1) * blockSize = blockSize + k * blockSize := by
      rw [Nat.add_mul, Nat.one_mul, Nat.add_comm]
    rw [e, ← List.drop_drop, drop_append_length _ _ _ hlen]
    exact hy k

theorem runs_drop {α : Type} {less : α → α → Bool} (blockSize : Nat) (data : List α)
    (j : Nat) (h : Runs less blockSize data) : Runs less blockSize (data.drop (j * blockSize)) := by
  intro k
  have e : (data.drop (j * blockSize)).drop (k * blockSize)
      = data.drop ((j + k) * blockSize) := by
    rw [List.drop_drop, Nat.add_mul]
  rw [e]
  exact h (j + k)

theorem sorted_of_runs {α : Type} {less : α → α → Bool} (blockSize : Nat) (data : List α)
    (h : Runs less blockSize data) (hlen : data.length ≤ blockSize) : Sorted less data := by
  have := h 0
  rw [Nat.zero_mul, List.drop_zero, List.take_of_length_le hlen] at this
  exact this

theorem StableSortOf.length_eq {α : Type} {less : α → α → Bool} {out inp : List α}
    (h : StableSortOf less out inp) : out.length = inp.length :=
  h.1.length_eq

/-- A first part and the rest, each replaced by a permutation that keeps the order of
equivalent elements. -/
theorem append_parts {α : Type} {less : α → α → Bool} (n : Nat) (data a b : List α)
    (ha : a.Perm (data.take n) ∧
      ∀ z, a.filter (equivalent less z) = (data.take n).filter (equivalent less z))
    (hb : b.Perm (data.drop n) ∧
      ∀ z, b.filter (equivalent less z) = (data.drop n).filter (equivalent less z)) :
    (a ++ b).Perm data ∧
      ∀ z, (a ++ b).filter (equivalent less z) = data.filter (equivalent less z) := by
  constructor
  · have := List.Perm.append ha.1 hb.1
    rw [List.take_append_drop] at this
    exact this
  · intro z
    rw [List.filter_append, ha.2 z, hb.2 z, ← List.filter_append, List.take_append_drop]

theorem sortBlocks_spec {α : Type} {less : α → α → Bool}
    (ha : Asymmetric less) (hn : NegTransitive less) (blockSize : Nat) (hbs : 0 < blockSize) :
    ∀ (fuel : Nat) (data : List α), data.length < fuel →
      Runs less blockSize (sortBlocks less blockSize fuel data) ∧
      (sortBlocks less blockSize fuel data).Perm data ∧
      ∀ z, (sortBlocks less blockSize fuel data).filter (equivalent less z)
        = data.filter (equivalent less z) := by
  intro fuel
  induction fuel with
  | zero => intro data h; omega
  | succ fuel ih =>
    intro data hf
    rw [sortBlocks]
    by_cases hc : blockSize ≤ data.length
    · rw [if_pos hc]
      obtain ⟨r1, r2, r3⟩ := ih (data.drop blockSize) (by rw [List.length_drop]; omega)
      have hs := insertionSort_spec ha hn (data.take blockSize)
      have hl : (insertionSort less (data.take blockSize)).length = blockSize := by
        rw [hs.length_eq, List.length_take]
        omega
      obtain ⟨p1, p2⟩ := append_parts blockSize data _ _ ⟨hs.1, hs.2.2⟩ ⟨r2, r3⟩
      exact ⟨runs_append blockSize _ _ hl hs.2.1 r1, p1, p2⟩
    · rw [if_neg hc]
      have hs := insertionSort_spec ha hn data
      exact ⟨runs_of_sorted blockSize _ hs.2.1, hs.1, hs.2.2⟩

theorem mergePass_spec {α : Type} {less : α → α → Bool}
    (ha : Asymmetric less) (hn : NegTransitive less) (blockSize : Nat) (hbs : 0 < blockSize) :
    ∀ (fuel : Nat) (data : List α), data.length < fuel → Runs less blockSize data →
      Runs less (2 * blockSize) (mergePass less blockSize fuel data) ∧
      (mergePass less blockSize fuel data).Perm data ∧
      ∀ z, (mergePass less blockSize fuel data).filter (equivalent less z)
        = data.filter (equivalent less z) := by
  intro fuel
  induction fuel with
  | zero => intro data h; omega
  | succ fuel ih =>
    intro data hf hruns
    rw [mergePass]
    by_cases hc : 2 * blockSize ≤ data.length
    · rw [if_pos hc]
      have hd : Runs less blockSize (data.drop (2 * blockSize)) :=
        runs_drop blockSize data 2 hruns
      obtain ⟨r1, r2, r3⟩ := ih (data.drop (2 * blockSize))
        (by rw [List.length_drop]; omega) hd
      have hlen : (data.take (2 * blockSize)).length = 2 * blockSize := by
        rw [List.length_take]
        omega
      have hs := symMerge_spec ha hn (2 * blockSize) (data.take (2 * blockSize)) blockSize
        (by omega) hbs (by omega)
        (by
          rw [List.take_take, Nat.min_eq_left (by omega)]
          have := hruns 0
          rw [Nat.zero_mul, List.drop_zero] at this
          exact this)
        (by
          rw [List.drop_take]
          have := hruns 1
          rw [Nat.one_mul] at this
          have e : 2 * blockSize - blockSize = blockSize := by omega
          rw [e]
          exact this)
      have hl : (symMerge less (2 * blockSize) (data.take (2 * blockSize)) blockSize).length
          = 2 * blockSize := by
        rw [hs.length_eq, hlen]
      obtain ⟨p1, p2⟩ := append_parts (2 * blockSize) data _ _ ⟨hs.1, hs.2.2⟩ ⟨r2, r3⟩
      exact ⟨runs_append (2 * blockSize) _ _ hl hs.2.1 r1, p1, p2⟩
    · rw [if_neg hc]
      by_cases hc2 : blockSize < data.length
      · rw [if_pos hc2]
        have hs := symMerge_spec ha hn data.length data blockSize (le_refl _) hbs hc2
          (by
            have := hruns 0
            rw [Nat.zero_mul, List.drop_zero] at this
            exact this)
          (by
            have := hruns 1
            rw [Nat.one_mul, List.take_of_length_le (by rw [List.length_drop]; omega)] at this
            exact this)
        exact ⟨runs_of_sorted _ _ hs.2.1, hs.1, hs.2.2⟩
      · rw [if_neg hc2]
        exact ⟨runs_of_sorted _ _ (sorted_of_runs blockSize data hruns (by omega)),
          List.Perm.refl _, fun _ => rfl⟩

theorem mergeLoop_spec {α : Type} {less : α → α → Bool}
    (ha : Asymmetric less) (hn : NegTransitive less) :
    ∀ (fuel blockSize : Nat) (data : List α), 0 < blockSize →
      data.length - blockSize ≤ fuel → Runs less blockSize data →
      StableSortOf less (mergeLoop less fuel blockSize data) data := by
  intro fuel
  induction fuel with
  | zero =>
    intro blockSize data _ hf hruns
    rw [mergeLoop]
    exact stableSortOf_self less data (sorted_of_runs blockSize data hruns (by omega))
  | succ fuel ih =>
    intro blockSize data hbs hf hruns
    rw [mergeLoop]
    by_cases hc : blockSize < data.length
    · rw [if_pos hc]
      obtain ⟨r1, r2, r3⟩ := mergePass_spec ha hn blockSize hbs (data.length + 1) data
        (by omega) hruns
      have hl := r2.length_eq
      exact (ih (2 * blockSize) _ (by omega) (by omega) r1).trans_perm r2 r3
    · rw [if_neg hc]
      exact stableSortOf_self less data (sorted_of_runs blockSize data hruns (by omega))

/-- Under a strict weak ordering `sort.SliceStable` returns the stable sort. -/
theorem sliceStable_spec {α : Type} {less : α → α → Bool}
    (ha : Asymmetric less) (hn : NegTransitive less) (x : List α) :
    StableSortOf less (sliceStable less x) x := by
  unfold sliceStable stable
  obtain ⟨r1, r2, r3⟩ := sortBlocks_spec ha hn 20 (by omega) (x.length + 1) x (by omega)
  have hl := r2.length_eq
  exact (mergeLoop_spec ha hn x.length 20 _ (by omega) (by omega) r1).trans_perm r2 r3

/-- Where the order of the numbers is a strict weak ordering, as `<` is on the
floating-point numbers other than not-a-number: for every list of lines and every flag
combination, `sortLines` leaves its input as it is and returns a permutation of it that is
sorted under `compareValues` and keeps the lines that compare equivalent in their input
order. -/
theorem sortLines_stable_of_strictWeak (lib : FloatLib) (ha : Asymmetric lib.lt)
    (hn : NegTransitive lib.lt) (lines : List Str) (column : Int)
    (numeric reverse month ignoreTrailing human : Bool) :
    (sortLines lib lines column numeric reverse month ignoreTrailing human).lines = lines ∧
    StableSortOf
      (fun a b => compareValues lib a b column numeric reverse month ignoreTrailing human)
      (sortLines lib lines column numeric reverse month ignoreTrailing human).sorted lines ∧
    List.Chain'
      (fun a b =>
        compareValues lib b a column numeric reverse month ignoreTrailing human = false)
      (sortLines lib lines column numeric reverse month ignoreTrailing human).sorted := by
  have hs := sliceStable_spec
    (compareValues_asymm lib ha column numeric reverse month ignoreTrailing human)
    (compareValues_negTrans lib hn column numeric reverse month ignoreTrailing human) lines
  exact ⟨rfl, hs, List.Pairwise.chain' hs.2.1⟩

theorem wholeFloats_strictWeak : Asymmetric wholeFloats.lt ∧ NegTransitive wholeFloats.lt :=
  ⟨natLt_asymm, natLt_negTrans⟩

theorem sortLines_stable_of_strictWeak_witness :
    StableSortOf
      (fun a b => compareValues wholeFloats a b 0 true false false false false)
      (sortLines wholeFloats ["10".toList, "x".toList, "9".toList, "09".toList] 0 true false
        false false false).sorted
      ["10".toList, "x".toList, "9".toList, "09".toList] ∧
    (sortLines wholeFloats ["10".toList, "x".toList, "9".toList, "09".toList] 0 true false
        false false false).sorted
      = ["9".toList, "09".toList, "10".toList, "x".toList] :=
  ⟨(sortLines_stable_of_strictWeak wholeFloats wholeFloats_strictWeak.1
      wholeFloats_strictWeak.2 _ 0 true false false false false).2.1, by rfl⟩

/-! ### Comparing in reverse -/

theorem blockOrder_reverse {V : Type} (lt : V → V → Bool) (x y : Option V) :
    blockOrder lt x y true = blockOrder lt y x false := by
  cases x <;> cases y <;> rfl

theorem smallFloats_asymm : Asymmetric smallFloats.lt := by
  intro a b h
  cases a with
  | none => cases h
  | some x =>
    cases b with
    | none => cases h
    | some y =>
      have h1 : x < y := by simpa [smallFloats] using h
      have h2 : ¬ y < x := by omega
      simpa [smallFloats] using h2

/-- C40: for all lines `a`, `b` and all values of the other flags, `compareValues` with
`reverse` set is `compareValues` without it on the swapped lines; and in both directions
`compareValues` is irreflexive and asymmetric: never a line before itself, never both `a`
before `b` and `b` before `a`. The order `<` of the floating-point numbers enters as an
asymmetric relation, which it is, not-a-number included. -/
theorem compareValues_reverse_swap (lib : FloatLib) (hlib : Asymmetric lib.lt) (column : Int)
    (numeric month ignoreTrailing human : Bool) :
    (∀ a b, compareValues lib a b column numeric true month ignoreTrailing human
      = compareValues lib b a column numeric false month ignoreTrailing human) ∧
    (∀ reverse a,
      compareValues lib a a column numeric reverse month ignoreTrailing human = false) ∧
    (∀ reverse a b,
      compareValues lib a b column numeric reverse month ignoreTrailing human = true →
      compareValues lib b a column numeric reverse month ignoreTrailing human = false) := by
  refine ⟨?_, ?_, ?_⟩
  · intro a b
    unfold compareValues
    simp only [blockOrder_reverse, if_true]
    rfl
  · intro reverse a
    exact less_irrefl
      (compareValues_asymm lib hlib column numeric reverse month ignoreTrailing human) a
  · intro reverse a b h
    exact compareValues_asymm lib hlib column numeric reverse month ignoreTrailing human a b h

theorem compareValues_reverse_swap_witness :
    compareValues smallFloats "10".toList "9".toList 0 true true false false false
      = compareValues smallFloats "9".toList "10".toList 0 true false false false false ∧
    compareValues smallFloats "NaN".toList "NaN".toList 0 true true false false false
      = false :=
  ⟨(compareValues_reverse_swap smallFloats smallFloats_asymm 0 true false false false).1 _ _,
   (compareValues_reverse_swap smallFloats smallFloats_asymm 0 true false false false).2.1
      true _⟩

end SortTool

namespace Shell

/-! ### The chain loop and the conventional evaluation -/

theorem chainLoop_conventional {σ : Type} (runSegment : CmdSegment → σ → RunResult × σ) :
    ∀ (rest : List CmdSegment) (op : TokenKind) (i : Nat) (st : ChainState σ),
      (rest ≠ [] → op = .TK_AND ∨ op = .TK_OR) →
      (∀ s ∈ rest.dropLast, s.NextOp = .TK_AND ∨ s.NextOp = .TK_OR) →
      chainLoop runSegment (some op) i rest st = conventionalRest runSegment op i rest st := by
  intro rest
  induction rest with
  | nil => intro op i st _ _; rfl
  | cons seg rest ih =>
    intro op i st hop hin
    have hnext : rest ≠ [] → seg.NextOp = .TK_AND ∨ seg.NextOp = .TK_OR := by
      intro hne
      apply hin
      cases rest with
      | nil => exact absurd rfl hne
      | cons r rs => simp [List.dropLast]
    have hin2 : ∀ s ∈ rest.dropLast, s.NextOp = .TK_AND ∨ s.NextOp = .TK_OR := by
      intro s hs
      apply hin
      cases rest with
      | nil => simp at hs
      | cons r rs =>
        rw [List.dropLast_cons₂]
        exact List.mem_cons_of_mem _ hs
    obtain ⟨ok, world, ran⟩ := st
    unfold chainLoop conventionalRest
    rcases hop (by simp) with h | h <;> subst h <;> cases ok <;>
      simp [ih _ _ _ hnext hin2]

/-- C36: on every list of Segments in which each Segment but the last is followed by `&&` or
`||`, as in every list that `parseSegments` returns, and for every behaviour of
`runSegment`, the chain loop of `main` is the conventional left-associative evaluation: the
first Segment is run; a later Segment is run exactly when the status carried from the left
is success and the operator before it is `&&`, or failure and the operator is `||`; a
Segment that is skipped leaves the status as it is; the final status is that of the last
Segment run. The Segments run, the final status and the final state of the world are the
same. -/
theorem evalChain_conventional {σ : Type} (runSegment : CmdSegment → σ → RunResult × σ)
    (segs : List CmdSegment) (w : σ)
    (h : ∀ s ∈ segs.dropLast, s.NextOp = .TK_AND ∨ s.NextOp = .TK_OR) :
    evalChain runSegment segs w = conventionalChain runSegment segs w := by
  cases segs with
  | nil => rfl
  | cons seg rest =>
    have hnext : rest ≠ [] → seg.NextOp = .TK_AND ∨ seg.NextOp = .TK_OR := by
      intro hne
      apply h
      cases rest with
      | nil => exact absurd rfl hne
      | cons r rs => simp [List.dropLast]
    have hin2 : ∀ s ∈ rest.dropLast, s.NextOp = .TK_AND ∨ s.NextOp = .TK_OR := by
      intro s hs
      apply h
      cases rest with
      | nil => simp at hs
      | cons r rs =>
        rw [List.dropLast_cons₂]
        exact List.mem_cons_of_mem _ hs
    unfold evalChain conventionalChain
    rw [chainLoop]
    simp only [reduceCtorEq, false_and, if_false, List.nil_append, zero_add]
    exact chainLoop_conventional runSegment rest seg.NextOp 1 _ hnext hin2

/-- Every list of Segments that `parseSegments` returns has `&&` or `||` after each Segment
but the last. -/
theorem parseSegments_inner_operators (env : Str → Str) (toks : List Token)
    (segs : List CmdSegment) (h : parseSegments env toks = .ok segs) :
    ∀ s ∈ segs.dropLast, s.NextOp = .TK_AND ∨ s.NextOp = .TK_OR := by
  have heq := nextOps_of_parseSegments env toks.length toks le_rfl segs h
  intro s hs
  have hmem : s.NextOp ∈ (segs.map CmdSegment.NextOp).dropLast := by
    rw [← List.map_dropLast]; exact List.mem_map_of_mem _ hs
  rw [heq] at hmem
  have hsub : ∀ k ∈ (operatorKinds toks ++ trailingNone toks).dropLast,
      k ∈ operatorKinds toks := by
    intro k hk
    unfold trailingNone at hk
    split at hk
    · rw [List.append_nil] at hk; exact List.dropLast_subset _ hk
    · split_ifs at hk
      · rw [List.dropLast_concat] at hk; exact hk
      · rw [List.append_nil] at hk; exact List.dropLast_subset _ hk
  exact operatorKinds_mem toks _ (hsub _ hmem)

theorem evalChain_conventional_witness :
    (evalChain runFalseFails sampleChain ()).ran = [0, 2] ∧
    (evalChain runFalseFails sampleChain ()).lastOk = true ∧
    evalChain runFalseFails sampleChain () = conventionalChain runFalseFails sampleChain () :=
  ⟨by rfl, by rfl, evalChain_conventional runFalseFails sampleChain () (by decide)⟩

/-! ### Lines without quotes -/

/-- At a byte that is neither a blank nor a quote, one iteration of `tokenize` appends a
token: a non-empty piece cut from the front of the text, without blanks; a Word holds no
`|`, and an operator token holds the text of its operator. -/
theorem tokStep_quote_free (c : Char) (cs : Str) (hsp : isSpace c = false)
    (hd : c ≠ dquote) (hs : c ≠ squote) :
    ∃ t rest, tokStep c cs = .ok (some t, rest) ∧ t.Val ++ rest = c :: cs ∧ t.Val ≠ [] ∧
      (∀ x ∈ t.Val, isSpace x = false) ∧
      (t.Kind = .TK_WORD → ∀ x ∈ t.Val, x ≠ '|') ∧
      (t.Kind = .TK_AND → t.Val = ['&', '&']) ∧
      (t.Kind = .TK_OR → t.Val = ['|', '|']) ∧
      (t.Kind = .TK_PIPE → t.Val = ['|']) := by
  by_cases hand : c = '&' ∧ cs.head? = some '&'
  · obtain ⟨rfl, hcs⟩ := hand
    cases cs with
    | nil => simp at hcs
    | cons y ys =>
      simp only [List.head?_cons, Option.some.injEq] at hcs
      subst hcs
      refine ⟨⟨.TK_AND, ['&', '&']⟩, ys, ?_, rfl, by simp, ?_, ?_, ?_, ?_, ?_⟩
      · simp [tokStep, hsp]
      · intro x hx
        simp only [List.mem_cons, List.mem_singleton, List.not_mem_nil, or_false,
          or_self] at hx
        subst hx
        exact hsp
      · intro h; cases h
      · intro _; rfl
      · intro h; cases h
      · intro h; cases h
  · by_cases hor : c = '|' ∧ cs.head? = some '|'
    · obtain ⟨rfl, hcs⟩ := hor
      cases cs with
      | nil => simp at hcs
      | cons y ys =>
        simp only [List.head?_cons, Option.some.injEq] at hcs
        subst hcs
        refine ⟨⟨.TK_OR, ['|', '|']⟩, ys, ?_, rfl, by simp, ?_, ?_, ?_, ?_, ?_⟩
        · simp [tokStep, hsp]
        · intro x hx
          simp only [List.mem_cons, List.mem_singleton, List.not_mem_nil, or_false,
            or_self] at hx
          subst hx
          exact hsp
        · intro h; cases h
        · intro h; cases h
        · intro _; rfl
        · intro h; cases h
    · by_cases hp : c = '|'
      · subst hp
        refine ⟨⟨.TK_PIPE, ['|']⟩, cs, ?_, rfl, by simp, ?_, ?_, ?_, ?_, ?_⟩
        · unfold tokStep
          rw [if_neg (by simp [hsp]), if_neg hand, if_neg hor, if_pos rfl]
        · intro x hx
          simp only [List.mem_singleton] at hx
          subst hx
          exact hsp
        · intro h; cases h
        · intro h; cases h
        · intro h; cases h
        · intro _; rfl
      · have hw := tokStep_word c cs hsp hp hand hd hs
        have hcat := scanWord_concat (c :: cs)
        have hne : (scanWord (c :: cs)).1 ≠ [] := by
          unfold scanWord
          rw [if_neg (by simp [hsp]), if_neg hp, if_neg hand]
          simp
        have hin : ∀ x ∈ (scanWord (c :: cs)).1, isSpace x = false ∧ x ≠ '|' := by
          intro x hx
          obtain ⟨a, b, hab⟩ := List.append_of_mem hx
          have := scanWord_inside (c :: cs) a x b hab
          exact ⟨this.1, this.2.1⟩
        refine ⟨⟨.TK_WORD, (scanWord (c :: cs)).1⟩, (scanWord (c :: cs)).2, hw, hcat, hne,
          fun x hx => (hin x hx).1, fun _ x hx => (hin x hx).2, ?_, ?_, ?_⟩
        · intro h; cases h
        · intro h; cases h
        · intro h; cases h

theorem tokenize_quote_free_aux : ∀ (n : Nat) (line : Str), line.length ≤ n →
    dquote ∉ line → squote ∉ line →
    ∃ toks, tokenize line = .ok toks ∧
      (toks.map Token.Val).flatten = line.filter (fun c => !isSpace c) ∧
      ∀ t ∈ toks, t.Val ≠ [] ∧
        (t.Kind = .TK_WORD → ∀ x ∈ t.Val, isSpace x = false ∧ x ≠ '|') ∧
        (t.Kind = .TK_AND → t.Val = ['&', '&']) ∧
        (t.Kind = .TK_OR → t.Val = ['|', '|']) ∧
        (t.Kind = .TK_PIPE → t.Val = ['|']) := by
  intro n
  induction n with
  | zero =>
    intro line hl _ _
    have : line = [] := List.length_eq_zero.mp (by omega)
    subst this
    exact ⟨[], tokenize_nil, rfl, by intro t ht; cases ht⟩
  | succ n ih =>
    intro line hl hd hs
    cases line with
    | nil => exact ⟨[], tokenize_nil, rfl, by intro t ht; cases ht⟩
    | cons c cs =>
      have hd2 : dquote ∉ cs := fun h => hd (List.mem_cons_of_mem _ h)
      have hs2 : squote ∉ cs := fun h => hs (List.mem_cons_of_mem _ h)
      by_cases hsp : isSpace c = true
      · obtain ⟨toks, h1, h2, h3⟩ := ih cs (by simpa using hl) hd2 hs2
        refine ⟨toks, by rw [tokenize_space cs hsp]; exact h1, ?_, h3⟩
        rw [h2, List.filter_cons_of_neg (by simp [hsp])]
      · have hsp2 : isSpace c = false := by
          cases h : isSpace c with
          | false => rfl
          | true => exact absurd h hsp
        obtain ⟨t, rest, e1, e2, e3, e4, e5, e6, e7, e8⟩ := tokStep_quote_free c cs hsp2
          (fun h => hd (by rw [h]; exact List.mem_cons_self _ _))
          (fun h => hs (by rw [h]; exact List.mem_cons_self _ _))
        have hlen : rest.length ≤ n := by
          have h1 := congrArg List.length e2
          rw [List.length_append, List.length_cons] at h1
          have h2 : 0 < t.Val.length := List.length_pos.mpr e3
          simp only [List.length_cons] at hl
          omega
        have hsub : ∀ x ∈ rest, x ∈ c :: cs := by
          intro x hx
          rw [← e2]
          exact List.mem_append_right _ hx
        obtain ⟨toks, h1, h2, h3⟩ := ih rest hlen (fun h => hd (hsub _ h))
          (fun h => hs (hsub _ h))
        refine ⟨t :: toks, ?_, ?_, ?_⟩
        · rw [tokenize_cons, e1]
          simp only
          rw [h1]
        · rw [List.map_cons, List.flatten_cons, h2, ← e2, List.filter_append]
          congr 1
          symm
          rw [List.filter_eq_self]
          intro x hx
          simp [e4 x hx]
        · intro u hu
          rcases List.mem_cons.mp hu with rfl | hu
          · exact ⟨e3, fun hk x hx => ⟨e4 x hx, e5 hk x hx⟩, e6, e7, e8⟩
          · exact h3 u hu

/-- C37: on every line that holds no quote character `tokenize` succeeds; the values of the
tokens, concatenated in order, are the line without its spaces and tabs; every token is
non-empty; a Word holds no space, tab or `|`; and an And, Or or Pipe token has the value
`&&`, `||` or `|`. -/
theorem tokenize_quote_free (line : Str) (hd : dquote ∉ line) (hs : squote ∉ line) :
    ∃ toks, tokenize line = .ok toks ∧
      (toks.map Token.Val).flatten = line.filter (fun c => !isSpace c) ∧
      ∀ t ∈ toks, t.Val ≠ [] ∧
        (t.Kind = .TK_WORD → ∀ x ∈ t.Val, isSpace x = false ∧ x ≠ '|') ∧
        (t.Kind = .TK_AND → t.Val = ['&', '&']) ∧
        (t.Kind = .TK_OR → t.Val = ['|', '|']) ∧
        (t.Kind = .TK_PIPE → t.Val = ['|']) :=
  tokenize_quote_free_aux line.length line le_rfl hd hs

theorem tokenize_quote_free_witness :
    ∃ toks, tokenize "a&b |c&&  d||e".toList = .ok toks ∧
      (toks.map Token.Val).flatten = "a&b|c&&d||e".toList ∧
      ∀ t ∈ toks, t.Val ≠ [] ∧
        (t.Kind = .TK_WORD → ∀ x ∈ t.Val, isSpace x = false ∧ x ≠ '|') ∧
        (t.Kind = .TK_AND → t.Val = ['&', '&']) ∧
        (t.Kind = .TK_OR → t.Val = ['|', '|']) ∧
        (t.Kind = .TK_PIPE → t.Val = ['|']) :=
  tokenize_quote_free "a&b |c&&  d||e".toList (by decide) (by decide)

/-! ### Quoted words after tokenization -/

/-- A line of Words only is one Segment of one command. -/
theorem parseSegments_wordToks (env : Str → Str) (ws : List Str) (hne : ws ≠ []) :
    parseSegments env (wordToks ws) =
      match parseCmdUnit env (wordToks ws) with
      | .error e => .error e
      | .ok u => .ok [⟨[u], .TK_WORD⟩] := by
  cases ws with
  | nil => exact absurd rfl hne
  | cons w ws =>
    have hall : ∀ x ∈ wordToks (w :: ws), notAndOr x = true := by
      intro x hx
      simp only [wordToks, List.mem_map] at hx
      obtain ⟨v, _, rfl⟩ := hx
      rfl
    have hw : wordToks (w :: ws) = ⟨.TK_WORD, w⟩ :: wordToks ws := rfl
    rw [hw] at hall ⊢
    rw [parseSegments_single env _ _ hall]
    unfold parsePipelineSegment
    rw [if_neg (by simp)]
    have hloop := parsePipelineLoop_words env (w :: ws) [] [] []
    rw [List.append_nil, List.nil_append, hw] at hloop
    rw [hloop, parsePipelineLoop_end, if_neg (by simp)]
    cases parseCmdUnit env (⟨.TK_WORD, w⟩ :: wordToks ws) <;> rfl

theorem tokenize_echo_quoted (q : Char) (s : Str) (hq : q = dquote ∨ q = squote)
    (hs : q ∉ s) :
    tokenize ("echo ".toList ++ q :: (s ++ [q])) = .ok (wordToks ["echo".toList, s]) := by
  have e : "echo ".toList ++ q :: (s ++ [q]) = "echo".toList ++ ' ' :: (q :: (s ++ [q])) := by
    simp
  rw [e, tokenize_word_space _ _ (by decide), tokenize_closed_quote q s [] hq hs,
    tokenize_nil]
  rfl

/-- C38: quoting is not remembered past tokenization. For every non-empty name `N` of
letters, digits and underscores, the line `echo '$N'` parses to the one command with
`args = [echo, env(N)]`; for every non-empty path `x` without a double quote, the line
`echo ">x"` parses to the one command with `args = [echo]` and `stdoutPath = x`; and the
line `echo ">"` fails with the parse error `expected filename after >`. -/
theorem parseLine_quoted_word (env : Str → Str) :
    (∀ N : Str, N ≠ [] → (∀ c ∈ N, isNameChar c = true) →
      parseLine env ("echo ".toList ++ squote :: (('$' :: N) ++ [squote]))
        = .ok [⟨[⟨["echo".toList, env N], [], [], false⟩], .TK_WORD⟩]) ∧
    (∀ x : Str, x ≠ [] → dquote ∉ x →
      parseLine env ("echo ".toList ++ dquote :: (('>' :: x) ++ [dquote]))
        = .ok [⟨[⟨["echo".toList], [], x, false⟩], .TK_WORD⟩]) ∧
    parseLine env ("echo ".toList ++ dquote :: (['>'] ++ [dquote]))
      = .error (.parse .expectedFilenameAfterGt) := by
  have hecho : expandEnv env "echo".toList = "echo".toList :=
    expandEnv_no_dollar env _ (by decide)
  refine ⟨?_, ?_, ?_⟩
  · intro N hne hN
    have hs : squote ∉ '$' :: N := by
      intro h
      rcases List.mem_cons.mp h with h | h
      · exact absurd h (by decide)
      · exact absurd (hN _ h) (by decide)
    unfold parseLine
    rw [tokenize_echo_quoted squote _ (Or.inr rfl) hs]
    simp only
    rw [parseSegments_wordToks env _ (by simp),
      parseCmdUnit_args env _ (by simp) (by
        intro v hv
        simp only [List.mem_cons, List.mem_singleton, List.not_mem_nil, or_false] at hv
        rcases hv with rfl | rfl <;> rfl)]
    have hname : expandEnv env ('$' :: N) = env N := by
      have := expandEnv_name env N [] hne hN rfl
      rw [List.append_nil, expandEnv_nil, List.append_nil] at this
      exact this
    simp only [argUnit, List.map_cons, List.map_nil, hecho, hname]
  · intro x hne hx
    have hs : dquote ∉ '>' :: x := by
      intro h
      rcases List.mem_cons.mp h with h | h
      · exact absurd h (by decide)
      · exact hx h
    have hlen : 1 < ('>' :: x).length := by
      have := List.length_pos.mpr hne
      simp only [List.length_cons]
      omega
    unfold parseLine
    rw [tokenize_echo_quoted dquote _ (Or.inl rfl) hs]
    simp only
    rw [parseSegments_wordToks env _ (by simp)]
    have hu : parseCmdUnit env (wordToks ["echo".toList, '>' :: x])
        = .ok ⟨["echo".toList], [], x, false⟩ := by
      unfold parseCmdUnit
      show parseCmdUnitLoop env [⟨.TK_WORD, "echo".toList⟩, ⟨.TK_WORD, '>' :: x⟩] [] [] [] = _
      rw [parseCmdUnitLoop_arg env _ _ _ _ _ (by decide), parseCmdUnitLoop_cons]
      simp only [ne_eq, not_true_eq_false, if_false]
      rw [if_pos ⟨rfl, hlen⟩, parseCmdUnitLoop_nil, hecho]
      rfl
    rw [hu]
  · have hs : dquote ∉ ['>'] := by decide
    unfold parseLine
    rw [tokenize_echo_quoted dquote _ (Or.inl rfl) hs]
    simp only
    rw [parseSegments_wordToks env _ (by simp)]
    have hu : parseCmdUnit env (wordToks ["echo".toList, ['>']])
        = .error .expectedFilenameAfterGt := by
      unfold parseCmdUnit
      show parseCmdUnitLoop env [⟨.TK_WORD, "echo".toList⟩, ⟨.TK_WORD, ['>']⟩] [] [] [] = _
      rw [parseCmdUnitLoop_arg env _ _ _ _ _ (by decide), parseCmdUnitLoop_cons]
      simp
    rw [hu]

theorem parseLine_quoted_word_witness :
    parseLine sampleEnv ("echo ".toList ++ squote :: ("$HOME".toList ++ [squote]))
      = .ok [⟨[⟨["echo".toList, "/root".toList], [], [], false⟩], .TK_WORD⟩] ∧
    parseLine sampleEnv ("echo ".toList ++ dquote :: (">out.txt".toList ++ [dquote]))
      = .ok [⟨[⟨["echo".toList], [], "out.txt".toList, false⟩], .TK_WORD⟩] :=
  ⟨(parseLine_quoted_word sampleEnv).1 "HOME".toList (by decide) (by decide),
   (parseLine_quoted_word sampleEnv).2.1 "out.txt".toList (by decide) (by decide)⟩

/-! ### Redirect targets -/

theorem outputTargets_cons (w : Str) (ws : List Str) :
    outputTargets (w :: ws) =
      if w.head? = some '>' ∧ 1 < w.length then w.drop 1 :: outputTargets ws
      else if w.head? = some '<' ∧ 1 < w.length then outputTargets ws
      else if w = ['>'] then
        match ws with
        | [] => []
        | f :: ws2 => f :: outputTargets ws2
      else if w = ['<'] then
        match ws with
        | [] => []
        | _ :: ws2 => outputTargets ws2
      else outputTargets ws := by
  cases ws <;> rfl

theorem inputTargets_cons (w : Str) (ws : List Str) :
    inputTargets (w :: ws) =
      if w.head? = some '>' ∧ 1 < w.length then inputTargets ws
      else if w.head? = some '<' ∧ 1 < w.length then w.drop 1 :: inputTargets ws
      else if w = ['>'] then
        match ws with
        | [] => []
        | _ :: ws2 => inputTargets ws2
      else if w = ['<'] then
        match ws with
        | [] => []
        | f :: ws2 => f :: inputTargets ws2
      else inputTargets ws := by
  cases ws <;> rfl

theorem getLast?_cons_getD {α : Type} (a d : α) (l : List α) :
    (a :: l).getLast?.getD d = l.getLast?.getD a := by
  rw [List.getLast?_cons]
  rfl

/-- The loop of `parseCmdUnit` leaves in `stdoutFile` and `stdinFile` the last target it met,
and what they held before when it met none. -/
theorem parseCmdUnitLoop_targets (env : Str → Str) : ∀ (n : Nat) (ws : List Str),
    ws.length ≤ n → ∀ (args : List Str) (i o : Str) (u : CmdUnit),
    parseCmdUnitLoop env (wordToks ws) args i o = .ok u →
    u.Stdout = (outputTargets ws).getLast?.getD o ∧
    u.Stdin = (inputTargets ws).getLast?.getD i := by
  intro n
  induction n with
  | zero =>
    intro ws hl args i o u h
    have : ws = [] := List.length_eq_zero.mp (by omega)
    subst this
    simp only [wordToks, List.map_nil] at h
    rw [parseCmdUnitLoop_nil] at h
    split_ifs at h
    cases h
    exact ⟨rfl, rfl⟩
  | succ n ih =>
    intro ws hl args i o u h
    cases ws with
    | nil =>
      simp only [wordToks, List.map_nil] at h
      rw [parseCmdUnitLoop_nil] at h
      split_ifs at h
      cases h
      exact ⟨rfl, rfl⟩
    | cons w ws =>
      have hw : wordToks (w :: ws) = ⟨.TK_WORD, w⟩ :: wordToks ws := rfl
      rw [hw, parseCmdUnitLoop_cons] at h
      rw [outputTargets_cons, inputTargets_cons]
      simp only [ne_eq, not_true_eq_false, if_false] at h
      have hl2 : ws.length ≤ n := by simpa using hl
      by_cases c1 : w.head? = some '>' ∧ 1 < w.length
      · rw [if_pos c1] at h ⊢
        rw [if_pos c1]
        obtain ⟨r1, r2⟩ := ih ws hl2 _ _ _ u h
        exact ⟨by rw [getLast?_cons_getD]; exact r1, r2⟩
      · rw [if_neg c1] at h ⊢
        rw [if_neg c1]
        by_cases c2 : w.head? = some '<' ∧ 1 < w.length
        · rw [if_pos c2] at h ⊢
          rw [if_pos c2]
          obtain ⟨r1, r2⟩ := ih ws hl2 _ _ _ u h
          exact ⟨r1, by rw [getLast?_cons_getD]; exact r2⟩
        · rw [if_neg c2] at h ⊢
          rw [if_neg c2]
          by_cases c3 : w = ['>']
          · rw [if_pos c3] at h ⊢
            rw [if_pos c3]
            cases ws with
            | nil => cases h
            | cons f ws2 =>
              have hl3 : ws2.length ≤ n := by
                simp only [List.length_cons] at hl2
                omega
              have hf : wordToks (f :: ws2) = ⟨.TK_WORD, f⟩ :: wordToks ws2 := rfl
              rw [hf] at h
              obtain ⟨r1, r2⟩ := ih ws2 hl3 _ _ _ u h
              exact ⟨by rw [getLast?_cons_getD]; exact r1, r2⟩
          · rw [if_neg c3] at h ⊢
            rw [if_neg c3]
            by_cases c4 : w = ['<']
            · rw [if_pos c4] at h ⊢
              rw [if_pos c4]
              cases ws with
              | nil => cases h
              | cons f ws2 =>
                have hl3 : ws2.length ≤ n := by
                  simp only [List.length_cons] at hl2
                  omega
                have hf : wordToks (f :: ws2) = ⟨.TK_WORD, f⟩ :: wordToks ws2 := rfl
                rw [hf] at h
                obtain ⟨r1, r2⟩ := ih ws2 hl3 _ _ _ u h
                exact ⟨r1, by rw [getLast?_cons_getD]; exact r2⟩
            · rw [if_neg c4] at h ⊢
              rw [if_neg c4]
              exact ih ws hl2 _ _ _ u h

/-- C39: redirect targets are stored as they are written, whatever the environment: for a
command word `cmd` that is no redirect and every word `f`, `parseCmdUnit` on the Words
`cmd`, `>`, `f` and, for non-empty `f`, on the Words `cmd`, `>f` sets `stdoutPath` to `f`
itself, and likewise `stdinPath` for `<`; and on every list of Words that it accepts,
`stdoutPath` is the target of the last output redirect and `stdinPath` that of the last
input redirect. -/
theorem parseCmdUnit_redirect_verbatim (env : Str → Str) (cmd : Str)
    (hcmd : isArgWord cmd = true) :
    (∀ f, parseCmdUnit env [⟨.TK_WORD, cmd⟩, ⟨.TK_WORD, ['>']⟩, ⟨.TK_WORD, f⟩]
      = .ok ⟨[expandEnv env cmd], [], f, false⟩) ∧
    (∀ f, f ≠ [] → parseCmdUnit env [⟨.TK_WORD, cmd⟩, ⟨.TK_WORD, '>' :: f⟩]
      = .ok ⟨[expandEnv env cmd], [], f, false⟩) ∧
    (∀ f, parseCmdUnit env [⟨.TK_WORD, cmd⟩, ⟨.TK_WORD, ['<']⟩, ⟨.TK_WORD, f⟩]
      = .ok ⟨[expandEnv env cmd], f, [], false⟩) ∧
    (∀ f, f ≠ [] → parseCmdUnit env [⟨.TK_WORD, cmd⟩, ⟨.TK_WORD, '<' :: f⟩]
      = .ok ⟨[expandEnv env cmd], f, [], false⟩) ∧
    (∀ ws u, parseCmdUnit env (wordToks ws) = .ok u →
      u.Stdout = (outputTargets ws).getLast?.getD [] ∧
      u.Stdin = (inputTargets ws).getLast?.getD []) := by
  refine ⟨?_, ?_, ?_, ?_, ?_⟩
  · intro f
    unfold parseCmdUnit
    rw [parseCmdUnitLoop_arg env cmd _ _ _ _ hcmd, parseCmdUnitLoop_cons]
    simp only [ne_eq, not_true_eq_false, if_false, List.head?_cons, Option.some.injEq,
      List.length_singleton, lt_self_iff_false, and_false, if_true]
    rw [parseCmdUnitLoop_nil]
    rfl
  · intro f hf
    have hlen : 1 < ('>' :: f).length := by
      have := List.length_pos.mpr hf
      simp only [List.length_cons]
      omega
    unfold parseCmdUnit
    rw [parseCmdUnitLoop_arg env cmd _ _ _ _ hcmd, parseCmdUnitLoop_cons]
    simp only [ne_eq, not_true_eq_false, if_false]
    rw [if_pos ⟨rfl, hlen⟩, parseCmdUnitLoop_nil]
    rfl
  · intro f
    unfold parseCmdUnit
    rw [parseCmdUnitLoop_arg env cmd _ _ _ _ hcmd, parseCmdUnitLoop_cons]
    simp only [ne_eq, not_true_eq_false, if_false, List.head?_cons, Option.some.injEq,
      List.length_singleton, lt_self_iff_false, and_false, if_true]
    rw [parseCmdUnitLoop_nil]
    rfl
  · intro f hf
    have hlen : 1 < ('<' :: f).length := by
      have := List.length_pos.mpr hf
      simp only [List.length_cons]
      omega
    unfold parseCmdUnit
    rw [parseCmdUnitLoop_arg env cmd _ _ _ _ hcmd, parseCmdUnitLoop_cons]
    simp only [ne_eq, not_true_eq_false, if_false]
    rw [if_neg (by simp), if_pos ⟨rfl, hlen⟩, parseCmdUnitLoop_nil]
    rfl
  · intro ws u h
    exact parseCmdUnitLoop_targets env ws.length ws le_rfl [] [] [] u h

theorem parseCmdUnit_redirect_verbatim_witness :
    parseCmdUnit sampleEnv
        [⟨.TK_WORD, "cat".toList⟩, ⟨.TK_WORD, ['>']⟩, ⟨.TK_WORD, "$HOME/out".toList⟩]
      = .ok ⟨["cat".toList], [], "$HOME/out".toList, false⟩ ∧
    parseCmdUnit sampleEnv [⟨.TK_WORD, "cat".toList⟩, ⟨.TK_WORD, ">$HOME/out".toList⟩]
      = .ok ⟨["cat".toList], [], "$HOME/out".toList, false⟩ :=
  ⟨(parseCmdUnit_redirect_verbatim sampleEnv "cat".toList (by decide)).1 _,
   (parseCmdUnit_redirect_verbatim sampleEnv "cat".toList (by decide)).2.1 _ (by decide)⟩

end Shell

namespace Cut

/-! ## Field selection -/

theorem parseFields_examples :
    parseFields "1,3-5".toList = .ok [1, 3, 4, 5] ∧
    parseFields "2-2".toList = .ok [2] ∧
    parseFields "0".toList = .error (.invalidField "0".toList) ∧
    parseFields "3-a".toList = .error (.invalidRange "3-a".toList) ∧
    parseFields "5-1".toList = .error (.invalidRange "5-1".toList) ∧
    parseFields "1--3".toList = .error (.invalidRange "1--3".toList) ∧
    parseFields "1,".toList = .error (.invalidField []) := by
  refine ⟨by decide, by decide, by decide, by decide, by decide, by decide, by decide⟩

theorem processLine_examples :
    processLine "a,b,c,d".toList ',' false (fieldSet [1, 3]) = "a,c".toList ++ [newline] ∧
    processLine "abc".toList ',' true (fieldSet [1]) = [] ∧
    processLine "abc".toList ',' false (fieldSet [2]) = [newline] ∧
    processLine "a,b".toList ',' true (fieldSet [2, 7]) = "b".toList ++ [newline] := by
  refine ⟨by decide, by decide, by decide, by decide⟩

/-! ### `strings.Split` -/

theorem splitOn_ne_nil (sep : Char) (s : Str) : splitOn sep s ≠ [] := by
  cases s with
  | nil => simp [splitOn]
  | cons c cs =>
    unfold splitOn
    split_ifs
    · simp
    · cases splitOn sep cs <;> simp [consHead]

/-- A text either holds no separator and is its own single piece, or is cut at its first
separator. -/
theorem splitOn_first (sep : Char) : ∀ s : Str,
    (sep ∉ s ∧ splitOn sep s = [s]) ∨
    (∃ a rest, s = a ++ sep :: rest ∧ sep ∉ a ∧ splitOn sep s = a :: splitOn sep rest) := by
  intro s
  induction s with
  | nil => exact Or.inl ⟨by simp, rfl⟩
  | cons c cs ih =>
    by_cases hc : c = sep
    · subst hc
      right
      refine ⟨[], cs, rfl, by simp, ?_⟩
      rw [splitOn, if_pos rfl]
    · have hstep : splitOn sep (c :: cs) = consHead c (splitOn sep cs) := by
        rw [splitOn, if_neg hc]
      rcases ih with ⟨h1, h2⟩ | ⟨a, rest, h1, h2, h3⟩
      · left
        refine ⟨?_, by rw [hstep, h2]; rfl⟩
        intro h
        rcases List.mem_cons.mp h with h | h
        · exact hc h.symm
        · exact h1 h
      · right
        refine ⟨c :: a, rest, by rw [h1]; rfl, ?_, by rw [hstep, h3]; rfl⟩
        intro h
        rcases List.mem_cons.mp h with h | h
        · exact hc h.symm
        · exact h2 h

theorem splitOn_of_not_mem (sep : Char) (s : Str) (h : sep ∉ s) : splitOn sep s = [s] := by
  rcases splitOn_first sep s with ⟨_, h2⟩ | ⟨a, rest, h1, _, _⟩
  · exact h2
  · exact absurd (by rw [h1]; simp) h

theorem splitOn_append (sep : Char) : ∀ (a rest : Str), sep ∉ a →
    splitOn sep (a ++ sep :: rest) = a :: splitOn sep rest := by
  intro a
  induction a with
  | nil =>
    intro rest _
    rw [List.nil_append, splitOn, if_pos rfl]
  | cons c a ih =>
    intro rest h
    have hc : c ≠ sep := fun e => h (by rw [e]; exact List.mem_cons_self _ _)
    rw [List.cons_append, splitOn, if_neg hc, ih rest (fun e => h (List.mem_cons_of_mem _ e))]
    rfl

/-- A text has exactly two pieces when it holds the separator exactly once. -/
theorem splitOn_two (sep : Char) (s : Str) :
    (splitOn sep s).length = 2 ↔
      ∃ a b, s = a ++ sep :: b ∧ sep ∉ a ∧ sep ∉ b := by
  constructor
  · intro h
    rcases splitOn_first sep s with ⟨_, h2⟩ | ⟨a, rest, h1, h2, h3⟩
    · rw [h2] at h
      cases h
    · rw [h3] at h
      rcases splitOn_first sep rest with ⟨g1, _⟩ | ⟨a2, rest2, _, _, g3⟩
      · exact ⟨a, rest, h1, h2, g1⟩
      · rw [g3] at h
        have := splitOn_ne_nil sep rest2
        cases hs : splitOn sep rest2 with
        | nil => exact absurd hs this
        | cons p ps =>
          rw [hs] at h
          simp at h
  · rintro ⟨a, b, rfl, ha, hb⟩
    rw [splitOn_append sep a b ha, splitOn_of_not_mem sep b hb]
    rfl

/-! ### `strconv.Atoi` -/

theorem digitsValue_digits : ∀ (s : Str) (acc m : Nat), Shell.digitsValue s acc = some m →
    ∀ x ∈ s, x ≠ '-' := by
  intro s
  induction s with
  | nil => intro _ _ _ x hx; cases hx
  | cons c cs ih =>
    intro acc m h x hx
    unfold Shell.digitsValue at h
    by_cases hc : '0' ≤ c ∧ c ≤ '9'
    · rw [if_pos hc] at h
      rcases List.mem_cons.mp hx with rfl | hx
      · intro e
        rw [e] at hc
        exact absurd hc (by decide)
      · exact ih _ _ h x hx
    · rw [if_neg hc] at h
      cases h

/-- A text that holds `-` is read by `strconv.Atoi`, if at all, as a number that is not
positive. -/
theorem atoi_of_minus (part : Str) (n : Int) (hm : '-' ∈ part)
    (h : Shell.atoi part = some n) : n ≤ 0 := by
  cases part with
  | nil => cases hm
  | cons c cs =>
    unfold Shell.atoi at h
    simp only at h
    generalize hdig : (if c = '-' ∨ c = '+' then cs else c :: cs) = digits at h
    by_cases hnil : digits = []
    · rw [if_pos hnil] at h
      cases h
    · rw [if_neg hnil] at h
      cases hd : Shell.digitsValue digits 0 with
      | none =>
        rw [hd] at h
        cases h
      | some m =>
        rw [hd] at h
        simp only at h
        by_cases hc : c = '-'
        · rw [if_pos hc] at h
          split_ifs at h
          cases h
          omega
        · exfalso
          have hno := digitsValue_digits _ _ _ hd
          have hcs : '-' ∈ cs := by
            rcases List.mem_cons.mp hm with e | e
            · exact absurd e.symm hc
            · exact e
          by_cases hs : c = '-' ∨ c = '+'
          · rw [if_pos hs] at hdig
            rw [← hdig] at hno
            exact hno _ hcs rfl
          · rw [if_neg hs] at hdig
            rw [← hdig] at hno
            exact hno _ hm rfl

theorem mem_rangeKeys (a b n : Int) : n ∈ rangeKeys a b ↔ a ≤ n ∧ n ≤ b := by
  unfold rangeKeys
  rw [List.mem_map]
  constructor
  · rintro ⟨k, hk, rfl⟩
    rw [List.mem_range, Int.lt_toNat] at hk
    omega
  · intro h
    refine ⟨(n - a).toNat, ?_, ?_⟩
    · rw [List.mem_range, Int.lt_toNat, Int.toNat_of_nonneg (by omega)]
      omega
    · rw [Int.toNat_of_nonneg (by omega)]
      omega

/-! ### `parseFields` -/

theorem splitOn_range (part sa sb : Str) (hpart : part = sa ++ '-' :: sb) (hsa : '-' ∉ sa)
    (hsb : '-' ∉ sb) : splitOn '-' part = [sa, sb] := by
  rw [hpart, splitOn_append '-' sa sb hsa, splitOn_of_not_mem '-' sb hsb]

/-- A part with `-` in it: what `parsePart` does with a part that is a range. -/
theorem parsePart_range (part : Str) (a b : Int) (h : IsRange part a b) :
    parsePart part = if b = maxInt then .noReturn else .ok (rangeKeys a b) := by
  obtain ⟨sa, sb, hpart, hsa, hsb, ha, hb, h1, h2⟩ := h
  have hm : '-' ∈ part := by rw [hpart]; simp
  unfold parsePart
  rw [if_pos hm, splitOn_range part sa sb hpart hsa hsb]
  simp only [List.length_cons, List.length_nil, ne_eq, not_true_eq_false, if_false,
    List.getD_cons_zero, List.getD_cons_succ, ha, hb]
  rw [if_neg (by omega)]
  unfold rangeLoop
  split_ifs <;> rfl

theorem parsePart_field (part : Str) (n : Int) (h : IsField part n) :
    parsePart part = .ok [n] := by
  obtain ⟨h1, h2⟩ := h
  have hm : '-' ∉ part := by
    intro hm
    have := atoi_of_minus part n hm h1
    omega
  unfold parsePart
  rw [if_neg hm, h1]
  simp only
  rw [if_neg (by omega)]

/-- A part that is neither a field nor a range is rejected. -/
theorem parsePart_invalid (part : Str) (hf : ¬ ∃ n, IsField part n)
    (hr : ¬ ∃ a b, IsRange part a b) : ∃ e, parsePart part = .error e := by
  unfold parsePart
  by_cases hm : '-' ∈ part
  · rw [if_pos hm]
    by_cases h2 : (splitOn '-' part).length ≠ 2
    · rw [if_pos h2]
      exact ⟨_, rfl⟩
    · rw [if_neg h2]
      obtain ⟨sa, sb, hpart, hsa, hsb⟩ := (splitOn_two '-' part).mp (by
        by_contra hc
        exact h2 hc)
      rw [splitOn_range part sa sb hpart hsa hsb]
      simp only [List.getD_cons_zero, List.getD_cons_succ]
      cases ha : Shell.atoi sa with
      | none => exact ⟨_, rfl⟩
      | some a =>
        cases hb : Shell.atoi sb with
        | none => exact ⟨_, rfl⟩
        | some b =>
          simp only
          by_cases h3 : a ≤ 0 ∨ b ≤ 0 ∨ a > b
          · rw [if_pos h3]
            exact ⟨_, rfl⟩
          · exact absurd ⟨a, b, sa, sb, hpart, hsa, hsb, ha, hb, by omega, by omega⟩ hr
  · rw [if_neg hm]
    cases hn : Shell.atoi part with
    | none => exact ⟨_, rfl⟩
    | some n =>
      simp only
      by_cases h1 : n ≤ 0
      · rw [if_pos h1]
        exact ⟨_, rfl⟩
      · exact absurd ⟨n, hn, by omega⟩ hf

theorem isField_not_range (part : Str) (n a b : Int) (hf : IsField part n)
    (hr : IsRange part a b) : False := by
  obtain ⟨sa, sb, hpart, _⟩ := hr
  have := atoi_of_minus part n (by rw [hpart]; simp) hf.1
  have := hf.2
  omega

theorem isRange_unique (part : Str) (a b a2 b2 : Int) (h : IsRange part a b)
    (h2 : IsRange part a2 b2) : a = a2 ∧ b = b2 := by
  obtain ⟨sa, sb, hpart, hsa, hsb, ha, hb, _, _⟩ := h
  obtain ⟨ta, tb, hpart2, hta, htb, ha2, hb2, _, _⟩ := h2
  have e1 := splitOn_range part sa sb hpart hsa hsb
  have e2 := splitOn_range part ta tb hpart2 hta htb
  rw [e1] at e2
  simp only [List.cons.injEq, and_true] at e2
  obtain ⟨rfl, rfl⟩ := e2
  rw [ha] at ha2
  rw [hb] at hb2
  exact ⟨Option.some.inj ha2, Option.some.inj hb2⟩

/-- One part is accepted exactly when it is a single field, or a range that does not end at
the largest `int`; and then it sets the keys of that field or range. -/
theorem parsePart_ok (part : Str) (keys : List Int) :
    parsePart part = .ok keys ↔
      (∃ n, IsField part n ∧ keys = [n]) ∨
      (∃ a b, IsRange part a b ∧ b ≠ maxInt ∧ keys = rangeKeys a b) := by
  constructor
  · intro h
    by_cases hf : ∃ n, IsField part n
    · obtain ⟨n, hn⟩ := hf
      rw [parsePart_field part n hn] at h
      cases h
      exact Or.inl ⟨n, hn, rfl⟩
    · by_cases hr : ∃ a b, IsRange part a b
      · obtain ⟨a, b, hab⟩ := hr
        rw [parsePart_range part a b hab] at h
        split_ifs at h with hb
        cases h
        exact Or.inr ⟨a, b, hab, hb, rfl⟩
      · obtain ⟨e, he⟩ := parsePart_invalid part hf hr
        rw [he] at h
        cases h
  · rintro (⟨n, hn, rfl⟩ | ⟨a, b, hab, hb, rfl⟩)
    · exact parsePart_field part n hn
    · rw [parsePart_range part a b hab, if_neg hb]

theorem parseFieldsLoop_ok : ∀ (parts : List Str) (result : List Int),
    ((∃ keys, parseFieldsLoop parts result = .ok keys) ↔
      ∀ part ∈ parts, ∃ keys, parsePart part = .ok keys) ∧
    (∀ keys, parseFieldsLoop parts result = .ok keys →
      ∀ n, n ∈ keys ↔
        n ∈ result ∨ ∃ part ∈ parts, ∃ ks, parsePart part = .ok ks ∧ n ∈ ks) ∧
    (∀ e, parseFieldsLoop parts result = .error e →
      ∃ part ∈ parts, parsePart part = .error e) := by
  intro parts
  induction parts with
  | nil =>
    intro result
    refine ⟨⟨fun _ part hp => absurd hp (List.not_mem_nil _), fun _ => ⟨result, rfl⟩⟩, ?_, ?_⟩
    · intro keys h n
      cases h
      simp
    · intro e h
      cases h
  | cons part parts ih =>
    intro result
    cases hp : parsePart part with
    | error e =>
      have hloop : parseFieldsLoop (part :: parts) result = .error e := by
        rw [parseFieldsLoop, hp]
      refine ⟨⟨?_, ?_⟩, ?_, ?_⟩
      · rintro ⟨keys, h⟩
        rw [hloop] at h
        cases h
      · intro h
        obtain ⟨ks, hk⟩ := h part (List.mem_cons_self _ _)
        rw [hp] at hk
        cases hk
      · intro keys h
        rw [hloop] at h
        cases h
      · intro e2 h
        rw [hloop] at h
        cases h
        exact ⟨part, List.mem_cons_self _ _, hp⟩
    | noReturn =>
      have hloop : parseFieldsLoop (part :: parts) result = .noReturn := by
        rw [parseFieldsLoop, hp]
      refine ⟨⟨?_, ?_⟩, ?_, ?_⟩
      · rintro ⟨keys, h⟩
        rw [hloop] at h
        cases h
      · intro h
        obtain ⟨ks, hk⟩ := h part (List.mem_cons_self _ _)
        rw [hp] at hk
        cases hk
      · intro keys h
        rw [hloop] at h
        cases h
      · intro e2 h
        rw [hloop] at h
        cases h
    | ok ks =>
      have hloop : parseFieldsLoop (part :: parts) result
          = parseFieldsLoop parts (result ++ ks) := by
        rw [parseFieldsLoop, hp]
      obtain ⟨ih1, ih2, ih3⟩ := ih (result ++ ks)
      rw [hloop]
      refine ⟨⟨?_, ?_⟩, ?_, ?_⟩
      · intro h q hq
        rcases List.mem_cons.mp hq with rfl | hq
        · exact ⟨ks, hp⟩
        · exact ih1.mp h q hq
      · intro h
        exact ih1.mpr (fun q hq => h q (List.mem_cons_of_mem _ hq))
      · intro keys h n
        rw [ih2 keys h n, List.mem_append]
        constructor
        · rintro ((h1 | h1) | ⟨q, hq, hk⟩)
          · exact Or.inl h1
          · exact Or.inr ⟨part, List.mem_cons_self _ _, ks, hp, h1⟩
          · exact Or.inr ⟨q, List.mem_cons_of_mem _ hq, hk⟩
        · rintro (h1 | ⟨q, hq, ks2, hk, hn⟩)
          · exact Or.inl (Or.inl h1)
          · rcases List.mem_cons.mp hq with rfl | hq
            · rw [hp] at hk
              cases hk
              exact Or.inl (Or.inr hn)
            · exact Or.inr ⟨q, hq, ks2, hk, hn⟩
      · intro e h
        obtain ⟨q, hq, hk⟩ := ih3 e h
        exact ⟨q, List.mem_cons_of_mem _ hq, hk⟩

/-- Where no range ends at the largest `int`, `parseFields` does what is said of it:
it succeeds if and only if every comma-separated part is a single field `n >= 1` or a range
`a-b` with `1 <= a <= b` around its only `-`; on success the set holds `n` exactly when
some part is the field `n` or a range with `a <= n <= b`; and an error is returned only
when some part is neither. -/
theorem parseFields_spec (spec : Str) :
    ((∃ keys, parseFields spec = .ok keys) ↔
      ∀ part ∈ splitOn ',' spec,
        (∃ n, IsField part n) ∨ (∃ a b, IsRange part a b ∧ b ≠ maxInt)) ∧
    (∀ keys, parseFields spec = .ok keys →
      ∀ n, fieldSet keys n = true ↔
        ∃ part ∈ splitOn ',' spec,
          IsField part n ∨ (∃ a b, IsRange part a b ∧ a ≤ n ∧ n ≤ b)) ∧
    (∀ e, parseFields spec = .error e →
      ∃ part ∈ splitOn ',' spec, (¬ ∃ n, IsField part n) ∧ ¬ ∃ a b, IsRange part a b) := by
  obtain ⟨h1, h2, h3⟩ := parseFieldsLoop_ok (splitOn ',' spec) []
  unfold parseFields
  refine ⟨?_, ?_, ?_⟩
  · rw [h1]
    constructor
    · intro h part hp
      obtain ⟨ks, hk⟩ := h part hp
      rcases (parsePart_ok part ks).mp hk with ⟨n, hn, _⟩ | ⟨a, b, hab, hb, _⟩
      · exact Or.inl ⟨n, hn⟩
      · exact Or.inr ⟨a, b, hab, hb⟩
    · intro h part hp
      rcases h part hp with ⟨n, hn⟩ | ⟨a, b, hab, hb⟩
      · exact ⟨[n], (parsePart_ok part _).mpr (Or.inl ⟨n, hn, rfl⟩)⟩
      · exact ⟨rangeKeys a b, (parsePart_ok part _).mpr (Or.inr ⟨a, b, hab, hb, rfl⟩)⟩
  · intro keys hk n
    unfold fieldSet
    rw [decide_eq_true_iff, h2 keys hk n]
    constructor
    · rintro (h | ⟨part, hp, ks, hks, hn⟩)
      · cases h
      · refine ⟨part, hp, ?_⟩
        rcases (parsePart_ok part ks).mp hks with ⟨m, hm, rfl⟩ | ⟨a, b, hab, _, rfl⟩
        · rw [List.mem_singleton] at hn
          subst hn
          exact Or.inl hm
        · exact Or.inr ⟨a, b, hab, (mem_rangeKeys a b n).mp hn⟩
    · rintro ⟨part, hp, (hf | ⟨a, b, hab, hn⟩)⟩
      · exact Or.inr ⟨part, hp, [n], (parsePart_ok part _).mpr (Or.inl ⟨n, hf, rfl⟩),
          List.mem_singleton.mpr rfl⟩
      · obtain ⟨ks, hks⟩ := (h1.mp ⟨keys, hk⟩) part hp
        rcases (parsePart_ok part ks).mp hks with ⟨m, hm, _⟩ | ⟨a2, b2, hab2, _, rfl⟩
        · exact (isField_not_range part m a b hm hab).elim
        · obtain ⟨rfl, rfl⟩ := isRange_unique part a b a2 b2 hab hab2
          exact Or.inr ⟨part, hp, _, hks, (mem_rangeKeys a b n).mpr hn⟩
  · intro e he
    obtain ⟨part, hp, hk⟩ := h3 e he
    refine ⟨part, hp, ?_, ?_⟩
    · rintro ⟨n, hn⟩
      rw [parsePart_field part n hn] at hk
      cases hk
    · rintro ⟨a, b, hab⟩
      rw [parsePart_range part a b hab] at hk
      split_ifs at hk

theorem parseFields_spec_witness :
    parseFields "1,3-5".toList = .ok [1, 3, 4, 5] ∧
    (fieldSet [1, 3, 4, 5] 4 = true ↔
      ∃ part ∈ splitOn ',' "1,3-5".toList,
        IsField part 4 ∨ (∃ a b, IsRange part a b ∧ a ≤ 4 ∧ (4 : Int) ≤ b)) :=
  ⟨by decide, (parseFields_spec "1,3-5".toList).2.1 [1, 3, 4, 5] (by decide) 4⟩

/-- C33, failing input: the field list `1-9223372036854775807`. Its one part is a range
`a-b` of two decimal integers with `1 <= a <= b`, and `parseFields` does not succeed: the
loop `for i := start; i <= end; i++` cannot end when `end` is the largest `int`, so the
call never returns. -/
theorem parseFields_largest_range :
    IsRange "1-9223372036854775807".toList 1 9223372036854775807 ∧
    parseFields "1-9223372036854775807".toList = .noReturn ∧
    ¬ ∃ keys, parseFields "1-9223372036854775807".toList = .ok keys := by
  have h : parseFields "1-9223372036854775807".toList = .noReturn := by decide
  refine ⟨⟨"1".toList, "9223372036854775807".toList, rfl, by decide, by decide, by decide,
    by decide, by decide, by decide⟩, h, ?_⟩
  rintro ⟨keys, hk⟩
  rw [h] at hk
  cases hk

/-! ### `processLine` -/

theorem selectColumns_eq (fields : Int → Bool) : ∀ (cols : List Str) (i : Nat),
    selectColumns fields i cols
      = ((cols.enumFrom i).filter (fun p => fields (p.1 : Int))).map Prod.snd := by
  intro cols
  induction cols with
  | nil => intro i; rfl
  | cons col cols ih =>
    intro i
    rw [selectColumns, List.enumFrom_cons, ih (i + 1)]
    by_cases h : fields (i : Int) = true
    · rw [if_pos h, List.filter_cons_of_pos (by simpa using h)]
      rfl
    · rw [if_neg h, List.filter_cons_of_neg (by simpa using h)]

/-- C34: for every line, delimiter and field set, `processLine` prints nothing when `-s` is
set and the line does not hold the delimiter; otherwise it prints exactly one line: the
columns of the line, split at the delimiter, whose 1-based index is in the field set, in
their order and joined by the delimiter. Fields past the last column select nothing, and
when no column is selected the line printed is empty. -/
theorem processLine_spec (line : Str) (delimiter : Char) (separated : Bool)
    (fields : Int → Bool) :
    (separated = true → delimiter ∉ line →
      processLine line delimiter separated fields = []) ∧
    (¬ (separated = true ∧ delimiter ∉ line) →
      processLine line delimiter separated fields
        = List.intercalate [delimiter]
            ((((splitOn delimiter line).enumFrom 1).filter
              (fun p => fields (p.1 : Int))).map Prod.snd) ++ [newline]) ∧
    (¬ (separated = true ∧ delimiter ∉ line) →
      (∀ i : Nat, 1 ≤ i → i ≤ (splitOn delimiter line).length → fields (i : Int) = false) →
      processLine line delimiter separated fields = [newline]) := by
  refine ⟨?_, ?_, ?_⟩
  · intro hs hd
    unfold processLine
    rw [if_pos ⟨hs, hd⟩]
  · intro h
    unfold processLine
    rw [if_neg h, selectColumns_eq]
  · intro h hnone
    unfold processLine
    rw [if_neg h, selectColumns_eq]
    have : ((splitOn delimiter line).enumFrom 1).filter (fun p => fields (p.1 : Int)) = [] := by
      rw [List.filter_eq_nil_iff]
      intro p hp
      have h1 := List.le_fst_of_mem_enumFrom hp
      have h2 := List.fst_lt_add_of_mem_enumFrom hp
      rw [hnone p.1 h1 (by omega)]
      simp
    rw [this]
    rfl

theorem processLine_spec_witness :
    processLine "abc".toList ',' true (fieldSet [1]) = [] ∧
    processLine "a,b,c,d".toList ',' false (fieldSet [1, 3, 9])
      = "a,c".toList ++ [newline] ∧
    processLine "a,b".toList ',' true (fieldSet [5]) = [newline] :=
  ⟨(processLine_spec "abc".toList ',' true (fieldSet [1])).1 rfl (by decide),
   (processLine_spec "a,b,c,d".toList ',' false (fieldSet [1, 3, 9])).2.1 (by decide),
   (processLine_spec "a,b".toList ',' true (fieldSet [5])).2.2 (by decide) (by
      intro i h1 h2
      have h3 : i ≤ 2 := h2
      have : i = 1 ∨ i = 2 := by omega
      rcases this with rfl | rfl <;> decide)⟩

end Cut

namespace Grep

/-! ## Context lines -/

theorem printMatches_examples :
    (printMatches ["a".toList, "b".toList, "match".toList, "c".toList, "match".toList,
        "d".toList, "e".toList] (matchesAt [2, 4]) 1 1 false).map OutLine.text
      = ["b".toList, "match".toList, "c".toList, "match".toList, "d".toList] ∧
    printMatches ["a".toList, "match".toList] (matchesAt [1]) 5 5 true
      = [⟨some 1, "a".toList⟩, ⟨some 2, "match".toList⟩] ∧
    printMatches ["a".toList, "match".toList] (matchesAt [1]) 0 0 false
      = [⟨none, "match".toList⟩] := by
  refine ⟨by decide, by decide, by decide⟩

/-- C35, failing input: the two lines `x`, `match` with the second one matched, `before = 0`
and `after = 9223372036854775807`. The line at index 1 is in the context of the match at 1,
and `printMatches` prints nothing: `end := i + after` wraps around to a negative number, so
the loop from `start` to `end` has no iteration. -/
theorem printMatches_largest_after :
    inContext 2 (matchesAt [1]) 0 9223372036854775807 1 = true ∧
    contextEnd 2 1 9223372036854775807 = -9223372036854775808 ∧
    printMatches ["x".toList, "match".toList] (matchesAt [1]) 0 9223372036854775807 false
      = [] := by
  refine ⟨by decide, by decide, by decide⟩

/-! ### Where `i + after` does not wrap around -/

theorem wrapInt_of_range (x : Int) (h1 : -(2 ^ 63 : Int) ≤ x) (h2 : x < 2 ^ 63) :
    wrapInt x = x := by
  unfold wrapInt
  rw [Int.emod_eq_of_lt (by omega) (by omega)]
  omega

/-- Two strictly increasing lists with the same elements are the same list. -/
theorem increasing_unique (l1 l2 : List Nat) (h1 : l1.Pairwise (· < ·))
    (h2 : l2.Pairwise (· < ·)) (hm : ∀ a, a ∈ l1 ↔ a ∈ l2) : l1 = l2 := by
  have n1 : l1.Nodup := h1.imp (fun h => Nat.ne_of_lt h)
  have n2 : l2.Nodup := h2.imp (fun h => Nat.ne_of_lt h)
  have hp : l1.Perm l2 := (List.perm_ext_iff_of_nodup n1 n2).mpr hm
  exact List.eq_of_perm_of_sorted (r := (· ≤ ·)) hp (h1.imp (fun h => Nat.le_of_lt h))
    (h2.imp (fun h => Nat.le_of_lt h))

/-- The loop over the indices of a context prints, in order, those not printed before. -/
theorem printLine_fold (lines : List Str) (showNum : Bool) :
    ∀ (js : List Nat) (st : PrintState), js.Nodup →
      (js.foldl (printLine lines showNum) st).printed
        = st.printed ++ js.filter (fun j => decide (j ∉ st.printed)) ∧
      (js.foldl (printLine lines showNum) st).out
        = st.out ++ (js.filter (fun j => decide (j ∉ st.printed))).map
            (fun j => ⟨if showNum = true then some (j + 1) else none, lines.getD j []⟩) := by
  intro js
  induction js with
  | nil => intro st _; simp
  | cons j js ih =>
    intro st hnd
    rw [List.nodup_cons] at hnd
    obtain ⟨hj, hnd⟩ := hnd
    rw [List.foldl_cons]
    by_cases hp : j ∈ st.printed
    · have hstep : printLine lines showNum st j = st := by
        unfold printLine
        rw [if_pos hp]
      rw [hstep, List.filter_cons_of_neg (by simpa using hp)]
      exact ih st hnd
    · have hstep : printLine lines showNum st j
          = { printed := st.printed ++ [j],
              out := st.out ++
                [⟨if showNum = true then some (j + 1) else none, lines.getD j []⟩] } := by
        unfold printLine
        rw [if_neg hp]
      rw [hstep, List.filter_cons_of_pos (by simpa using hp)]
      obtain ⟨r1, r2⟩ := ih _ hnd
      have hfilter : js.filter (fun x => decide (x ∉ st.printed ++ [j]))
          = js.filter (fun x => decide (x ∉ st.printed)) := by
        apply List.filter_congr
        intro x hx
        have hxj : x ≠ j := fun e => hj (e ▸ hx)
        simp [hxj]
      rw [r1, r2, hfilter]
      simp

theorem inContext_succ (len : Nat) (matchIdx : Int → Bool) (before after : Int) (j : Nat) :
    inContext (len + 1) matchIdx before after j
      = (inContext len matchIdx before after j ||
          (matchIdx (len : Int) &&
            decide ((len : Int) - before ≤ j ∧ (j : Int) ≤ len + after))) := by
  unfold inContext
  rw [List.range_succ, List.any_append]
  simp

theorem inContext_iff (len : Nat) (matchIdx : Int → Bool) (before after : Int) (j : Nat) :
    inContext len matchIdx before after j = true ↔
      ∃ i : Nat, i < len ∧ matchIdx (i : Int) = true ∧
        (i : Int) - before ≤ j ∧ (j : Int) ≤ i + after := by
  unfold inContext
  simp [List.any_eq_true, List.mem_range]

/-- What the loop over the matches keeps: the indices printed are strictly increasing, they
are the indices in the context of a match met so far, and the lines written are their
lines. -/
theorem printContext_invariant (lines : List Str) (matchIdx : Int → Bool)
    (before after : Int) (showNum : Bool) (hb : 0 ≤ before) (hb2 : before < 2 ^ 63)
    (ha : 0 ≤ after) (hov : (lines.length : Int) + after < 2 ^ 63) :
    ∀ k, k ≤ lines.length →
      ((List.range k).foldl (printContext lines matchIdx before after showNum)
          ⟨[], []⟩).printed.Pairwise (· < ·) ∧
      (∀ j, j ∈ ((List.range k).foldl (printContext lines matchIdx before after showNum)
          ⟨[], []⟩).printed ↔ j < lines.length ∧ inContext k matchIdx before after j = true) ∧
      ((List.range k).foldl (printContext lines matchIdx before after showNum) ⟨[], []⟩).out
        = ((List.range k).foldl (printContext lines matchIdx before after showNum)
            ⟨[], []⟩).printed.map
            (fun j => ⟨if showNum = true then some (j + 1) else none, lines.getD j []⟩) := by
  intro k
  induction k with
  | zero =>
    intro _
    refine ⟨List.Pairwise.nil, ?_, rfl⟩
    intro j
    simp [inContext]
  | succ k ih =>
    intro hk
    obtain ⟨i1, i2, i3⟩ := ih (by omega)
    rw [List.range_succ, List.foldl_append, List.foldl_cons, List.foldl_nil]
    generalize (List.range k).foldl (printContext lines matchIdx before after showNum)
      ⟨[], []⟩ = st at i1 i2 i3 ⊢
    by_cases hm : matchIdx (k : Int) = false
    · have hstep : printContext lines matchIdx before after showNum st k = st := by
        unfold printContext
        rw [if_pos hm]
      rw [hstep]
      refine ⟨i1, ?_, i3⟩
      intro j
      rw [i2 j, inContext_succ, hm]
      simp
    · have hm2 : matchIdx (k : Int) = true := by
        cases h : matchIdx (k : Int) with
        | false => exact absurd h hm
        | true => rfl
      have hs : contextStart k before = max 0 ((k : Int) - before) := by
        unfold contextStart
        rw [wrapInt_of_range _ (by omega) (by omega)]
        split_ifs <;> omega
      have he : contextEnd lines.length k after
          = min ((lines.length : Int) - 1) ((k : Int) + after) := by
        unfold contextEnd
        rw [wrapInt_of_range _ (by omega) (by omega)]
        split_ifs <;> omega
      have hwin : ∀ j : Nat, j ∈ List.range' (contextStart k before).toNat
            (contextEnd lines.length k after + 1 - contextStart k before).toNat ↔
          j < lines.length ∧ (k : Int) - before ≤ j ∧ (j : Int) ≤ k + after := by
        intro j
        rw [List.mem_range'_1, hs, he]
        omega
      obtain ⟨r1, r2⟩ := printLine_fold lines showNum _ st (List.nodup_range' _ _)
      have hstep : printContext lines matchIdx before after showNum st k
          = (List.range' (contextStart k before).toNat
              (contextEnd lines.length k after + 1 - contextStart k before).toNat).foldl
              (printLine lines showNum) st := by
        unfold printContext
        rw [if_neg hm]
      rw [hstep]
      refine ⟨?_, ?_, ?_⟩
      · rw [r1, List.pairwise_append]
        refine ⟨i1, (List.pairwise_lt_range' _ _).filter _, ?_⟩
        intro a hap b hb
        rw [List.mem_filter] at hb
        obtain ⟨hbw, hbn⟩ := hb
        have hbn2 : b ∉ st.printed := by simpa using hbn
        obtain ⟨hb1, hb2, hb3⟩ := (hwin b).mp hbw
        obtain ⟨ha1, ha2⟩ := (i2 a).mp hap
        obtain ⟨i, hi1, hi2, hi3, hi4⟩ := (inContext_iff _ _ _ _ _).mp ha2
        by_contra hlt
        apply hbn2
        rw [i2 b]
        refine ⟨hb1, (inContext_iff _ _ _ _ _).mpr ⟨i, hi1, hi2, by omega, by omega⟩⟩
      · intro j
        rw [r1, List.mem_append, List.mem_filter, inContext_succ, hm2]
        simp only [Bool.true_and, Bool.or_eq_true, decide_eq_true_eq]
        constructor
        · rintro (h | ⟨hw, _⟩)
          · obtain ⟨h1, h2⟩ := (i2 j).mp h
            exact ⟨h1, Or.inl h2⟩
          · obtain ⟨h1, h2, h3⟩ := (hwin j).mp hw
            exact ⟨h1, Or.inr ⟨h2, h3⟩⟩
        · rintro ⟨h1, h2 | ⟨h2, h3⟩⟩
          · exact Or.inl ((i2 j).mpr ⟨h1, h2⟩)
          · by_cases hp : j ∈ st.printed
            · exact Or.inl hp
            · exact Or.inr ⟨(hwin j).mpr ⟨h1, h2, h3⟩, hp⟩
      · rw [r2, r1, i3, List.map_append]

/-- For all `before >= 0`, all `after >= 0` small enough that `i + after` does not wrap
around, every list of lines and every set of matched indices, `printMatches` prints exactly
the lines whose index `j` is in the context of a match, `i - before <= j <= i + after` for
the index `i` of some line that matched, each of them once and in increasing order of
index. -/
theorem printMatches_of_no_overflow (lines : List Str) (matchIdx : Int → Bool)
    (before after : Int) (showNum : Bool) (hb : 0 ≤ before) (hb2 : before < 2 ^ 63)
    (ha : 0 ≤ after) (hov : (lines.length : Int) + after < 2 ^ 63) :
    printMatches lines matchIdx before after showNum
      = ((List.range lines.length).filter
          (inContext lines.length matchIdx before after)).map
          (fun j => ⟨if showNum = true then some (j + 1) else none, lines.getD j []⟩) := by
  obtain ⟨h1, h2, h3⟩ := printContext_invariant lines matchIdx before after showNum hb hb2
    ha hov lines.length le_rfl
  unfold printMatches
  rw [h3]
  congr 1
  apply increasing_unique _ _ h1 ((List.pairwise_lt_range _).filter _)
  intro j
  rw [h2 j, List.mem_filter, List.mem_range]

theorem printMatches_of_no_overflow_witness :
    printMatches ["a".toList, "b".toList, "match".toList, "c".toList, "match".toList,
        "d".toList, "e".toList] (matchesAt [2, 4]) 1 1 false
      = [⟨none, "b".toList⟩, ⟨none, "match".toList⟩, ⟨none, "c".toList⟩,
          ⟨none, "match".toList⟩, ⟨none, "d".toList⟩] :=
  (printMatches_of_no_overflow _ (matchesAt [2, 4]) 1 1 false (by decide) (by decide)
    (by decide) (by decide)).trans (by decide)

end Grep

namespace Anagram

/-! ## Anagram sets -/

theorem findAnagrams_examples :
    findAnagrams asciiLower id
        ["Tea".toList, "ate".toList, "bob".toList, "EAT".toList, "tea".toList,
          "obb".toList, "x".toList]
      = [("tea".toList, ["ate".toList, "eat".toList, "tea".toList, "tea".toList]),
         ("bob".toList, ["bob".toList, "obb".toList])] ∧
    findAnagrams asciiLower List.reverse
        ["Tea".toList, "ate".toList, "bob".toList, "EAT".toList, "tea".toList,
          "obb".toList, "x".toList]
      = [("bob".toList, ["bob".toList, "obb".toList]),
         ("tea".toList, ["ate".toList, "eat".toList, "tea".toList, "tea".toList])] ∧
    findAnagrams asciiLower id ["cat".toList, "dog".toList] = [] := by
  refine ⟨by decide, by decide, by decide⟩

theorem char_of_toNat_eq {a b : Char} (h : a.toNat = b.toNat) : a = b := by
  have h2 := congrArg Char.ofNat h
  rwa [Char.ofNat_toNat, Char.ofNat_toNat] at h2

/-- Two strings neither of which is before the other are the same string. -/
theorem strLt_connected :
    ∀ a b : Str, SortTool.strLt a b = false → SortTool.strLt b a = false → a = b
  | [], [], _, _ => rfl
  | [], _ :: _, h, _ => by simp [SortTool.strLt] at h
  | _ :: _, [], _, h => by simp [SortTool.strLt] at h
  | a :: as, b :: bs, h1, h2 => by
    unfold SortTool.strLt at h1 h2
    by_cases hab : a.toNat < b.toNat
    · rw [if_pos hab] at h1
      cases h1
    · by_cases hba : b.toNat < a.toNat
      · rw [if_pos hba] at h2
        cases h2
      · rw [if_neg hab, if_neg hba] at h1
        rw [if_neg hba, if_neg hab] at h2
        have hc : a = b := char_of_toNat_eq (by omega)
        rw [hc, strLt_connected as bs h1 h2]

theorem runeLt_asymm : SortTool.Asymmetric runeLt := by
  intro a b h
  simp only [runeLt, decide_eq_true_eq, decide_eq_false_iff_not] at h ⊢
  omega

theorem runeLt_negTrans : SortTool.NegTransitive runeLt := by
  intro a b c h1 h2
  simp only [runeLt, decide_eq_false_iff_not] at h1 h2 ⊢
  omega

theorem runeLt_connected (a b : Char) (h1 : runeLt a b = false) (h2 : runeLt b a = false) :
    a = b := by
  simp only [runeLt, decide_eq_false_iff_not] at h1 h2
  exact char_of_toNat_eq (by omega)

/-- Under a total order a list has one sorted arrangement only. -/
theorem sorted_arrangement_unique {α : Type} {less : α → α → Bool}
    (hc : ∀ a b, less a b = false → less b a = false → a = b)
    {l1 l2 : List α} (hp : l1.Perm l2) (h1 : SortTool.Sorted less l1)
    (h2 : SortTool.Sorted less l2) : l1 = l2 := by
  haveI : IsAntisymm α (fun a b => less b a = false) :=
    ⟨fun a b hab hba => hc a b hba hab⟩
  unfold SortTool.Sorted at h1 h2
  exact List.eq_of_perm_of_sorted hp h1 h2

theorem sortRunes_perm (w : Str) : (sortRunes w).Perm w :=
  (SortTool.insertionSort_spec runeLt_asymm runeLt_negTrans w).1

theorem sortRunes_sorted (w : Str) : SortTool.Sorted runeLt (sortRunes w) :=
  (SortTool.insertionSort_spec runeLt_asymm runeLt_negTrans w).2.1

/-- Two words have the same sorted runes exactly when they have the same multiset of
runes. -/
theorem sortRunes_eq_iff (a b : Str) : sortRunes a = sortRunes b ↔ a.Perm b := by
  constructor
  · intro h
    exact (sortRunes_perm a).symm.trans (h ▸ sortRunes_perm b)
  · intro h
    exact sorted_arrangement_unique runeLt_connected
      (((sortRunes_perm a).trans h).trans (sortRunes_perm b).symm)
      (sortRunes_sorted a) (sortRunes_sorted b)

theorem sortStrings_perm (x : List Str) : (sortStrings x).Perm x :=
  (SortTool.insertionSort_spec SortTool.strLt_asymm SortTool.strLt_negTrans x).1

theorem sortStrings_sorted (x : List Str) : SortTool.Sorted SortTool.strLt (sortStrings x) :=
  (SortTool.insertionSort_spec SortTool.strLt_asymm SortTool.strLt_negTrans x).2.1

/-- The slice `sort.Strings` leaves is the sorted arrangement of the slice it is given. -/
theorem sortStrings_iff (x v : List Str) :
    v = sortStrings x ↔ v.Perm x ∧ SortTool.Sorted SortTool.strLt v := by
  constructor
  · intro h
    rw [h]
    exact ⟨sortStrings_perm x, sortStrings_sorted x⟩
  · intro h
    exact sorted_arrangement_unique strLt_connected (h.1.trans (sortStrings_perm x).symm)
      h.2 (sortStrings_sorted x)

theorem get_set (d : Dict) (k k2 : Str) (v : List Str) :
    get (set d k v) k2 = if k = k2 then v else get d k2 := by
  induction d with
  | nil => simp [set, get]
  | cons e rest ih =>
    obtain ⟨k0, v0⟩ := e
    unfold set
    by_cases h0 : k0 = k
    · rw [if_pos h0]
      simp only [get]
      subst h0
      by_cases h1 : k0 = k2
      · rw [if_pos h1, if_pos h1]
      · rw [if_neg h1, if_neg h1, if_neg h1]
    · rw [if_neg h0]
      simp only [get]
      rw [ih]
      by_cases h1 : k0 = k2
      · rw [if_pos h1, if_pos h1, if_neg (fun h => h0 (h1.trans h.symm))]
      · rw [if_neg h1, if_neg h1]

theorem set_of_not_mem (d : Dict) (k : Str) (v : List Str) (h : k ∉ d.map Prod.fst) :
    set d k v = d ++ [(k, v)] := by
  induction d with
  | nil => rfl
  | cons e rest ih =>
    obtain ⟨k0, v0⟩ := e
    rw [List.map_cons, List.mem_cons, not_or] at h
    unfold set
    rw [if_neg (fun h0 => h.1 h0.symm), ih h.2]
    rfl

theorem keys_set_of_mem (d : Dict) (k : Str) (v : List Str) (h : k ∈ d.map Prod.fst) :
    (set d k v).map Prod.fst = d.map Prod.fst := by
  induction d with
  | nil => cases h
  | cons e rest ih =>
    obtain ⟨k0, v0⟩ := e
    unfold set
    by_cases h0 : k0 = k
    · rw [if_pos h0]
      rfl
    · rw [if_neg h0, List.map_cons, List.map_cons, ih]
      rw [List.map_cons, List.mem_cons] at h
      rcases h with h | h
      · exact absurd h.symm h0
      · exact h

theorem keys_set_nodup (d : Dict) (k : Str) (v : List Str) (h : (d.map Prod.fst).Nodup) :
    ((set d k v).map Prod.fst).Nodup := by
  by_cases hk : k ∈ d.map Prod.fst
  · rw [keys_set_of_mem d k v hk]
    exact h
  · rw [set_of_not_mem d k v hk, List.map_append]
    refine List.Nodup.append h (List.nodup_singleton _) ?_
    intro x hx hx2
    rw [List.map_singleton, List.mem_singleton] at hx2
    have hx3 : x = k := hx2
    exact hk (hx3 ▸ hx)

theorem mem_keys_set (d : Dict) (k k2 : Str) (v : List Str) :
    k2 ∈ (set d k v).map Prod.fst ↔ k2 = k ∨ k2 ∈ d.map Prod.fst := by
  by_cases hk : k ∈ d.map Prod.fst
  · rw [keys_set_of_mem d k v hk]
    constructor
    · exact Or.inr
    · rintro (h | h)
      · exact h ▸ hk
      · exact h
  · rw [set_of_not_mem d k v hk, List.map_append, List.mem_append, List.map_singleton,
      List.mem_singleton]
    exact or_comm

/-- In a map an entry is the key with the value read at the key. -/
theorem mem_iff_get (d : Dict) (h : (d.map Prod.fst).Nodup) (k : Str) (v : List Str) :
    (k, v) ∈ d ↔ k ∈ d.map Prod.fst ∧ get d k = v := by
  induction d with
  | nil => simp
  | cons e rest ih =>
    obtain ⟨k0, v0⟩ := e
    rw [List.map_cons, List.nodup_cons] at h
    rw [List.mem_cons, List.map_cons, List.mem_cons, ih h.2]
    simp only [get, Prod.mk.injEq]
    by_cases h0 : k0 = k
    · subst h0
      rw [if_pos rfl]
      constructor
      · rintro (⟨-, hv⟩ | ⟨hk, -⟩)
        · exact ⟨Or.inl rfl, hv.symm⟩
        · exact absurd hk h.1
      · rintro ⟨-, hv⟩
        exact Or.inl ⟨rfl, hv.symm⟩
    · rw [if_neg h0]
      constructor
      · rintro (⟨hk, -⟩ | ⟨hk, hv⟩)
        · exact absurd hk.symm h0
        · exact ⟨Or.inr hk, hv⟩
      · rintro ⟨hk | hk, hv⟩
        · exact absurd hk.symm h0
        · exact Or.inr ⟨hk, hv⟩

theorem get_of_not_mem (d : Dict) (k : Str) (h : k ∉ d.map Prod.fst) : get d k = [] := by
  induction d with
  | nil => rfl
  | cons e rest ih =>
    obtain ⟨k0, v0⟩ := e
    rw [List.map_cons, List.mem_cons, not_or] at h
    simp only [get]
    rw [if_neg (fun h0 => h.1 h0.symm), ih h.2]

/-- What the first loop of `findAnagrams` keeps: the map has, at each key, the lowercased
words read so far whose sorted runes are the key, in input order, and no empty entry. -/
theorem addWord_fold (toLower : Str → Str) (words : List Str) (d : Dict) (pre : List Str)
    (h1 : (d.map Prod.fst).Nodup)
    (h2 : ∀ key, get d key = pre.filter (fun w => decide (sortRunes w = key)))
    (h3 : ∀ key ∈ d.map Prod.fst, get d key ≠ []) :
    ((words.foldl (addWord toLower) d).map Prod.fst).Nodup ∧
    (∀ key, get (words.foldl (addWord toLower) d) key
      = (pre ++ words.map toLower).filter (fun w => decide (sortRunes w = key))) ∧
    (∀ key ∈ (words.foldl (addWord toLower) d).map Prod.fst,
      get (words.foldl (addWord toLower) d) key ≠ []) := by
  induction words generalizing d pre with
  | nil =>
    rw [List.foldl_nil, List.map_nil, List.append_nil]
    exact ⟨h1, h2, h3⟩
  | cons w ws ih =>
    rw [List.foldl_cons, List.map_cons]
    have h := ih (addWord toLower d w) (pre ++ [toLower w]) ?_ ?_ ?_
    · rwa [List.append_assoc, List.singleton_append] at h
    · exact keys_set_nodup _ _ _ h1
    · intro key
      unfold addWord
      rw [get_set, List.filter_append, h2, h2]
      by_cases hk : sortRunes (toLower w) = key
      · rw [if_pos hk]
        simp [List.filter, hk]
      · rw [if_neg hk]
        simp [List.filter, hk]
    · intro key hkey
      unfold addWord at hkey ⊢
      rw [get_set]
      rw [mem_keys_set] at hkey
      by_cases hk : sortRunes (toLower w) = key
      · rw [if_pos hk]
        simp
      · rw [if_neg hk]
        rcases hkey with h | h
        · exact absurd h.symm hk
        · exact h3 key h

/-- The map after the first loop of `findAnagrams`: one entry for each value of the sorted
runes met, holding the lowercased words with these sorted runes. -/
theorem dictionary_entries (toLower : Str → Str) (words : List Str) :
    ((words.foldl (addWord toLower) []).map Prod.fst).Nodup ∧
    ∀ key vs, (key, vs) ∈ words.foldl (addWord toLower) [] ↔
      vs = (words.map toLower).filter (fun w => decide (sortRunes w = key)) ∧ vs ≠ [] := by
  obtain ⟨h1, h2, h3⟩ := addWord_fold toLower words [] [] List.nodup_nil
    (fun _ => rfl) (fun _ h => absurd h (List.not_mem_nil _))
  rw [List.nil_append] at h2
  refine ⟨h1, ?_⟩
  intro key vs
  rw [mem_iff_get _ h1]
  constructor
  · rintro ⟨hk, hv⟩
    exact ⟨by rw [← hv, h2], hv ▸ h3 key hk⟩
  · rintro ⟨hv, hne⟩
    have hg : get (words.foldl (addWord toLower) []) key = vs := by rw [hv, h2]
    refine ⟨?_, hg⟩
    by_contra hk
    rw [get_of_not_mem _ _ hk] at hg
    exact hne hg.symm

/-- What the second loop of `findAnagrams` does when the first words of the entries with
more than one word differ from each other and from the keys already written. -/
theorem addResult_fold (l : Dict) (R : Dict) (hR : (R.map Prod.fst).Nodup)
    (hl : l.Pairwise (fun e1 e2 => e1.2.length > 1 → e2.2.length > 1 →
      e1.2.headD [] ≠ e2.2.headD []))
    (hd : ∀ e ∈ l, e.2.length > 1 → e.2.headD [] ∉ R.map Prod.fst) :
    ((l.foldl addResult R).map Prod.fst).Nodup ∧
    ∀ k v, (k, v) ∈ l.foldl addResult R ↔
      (k, v) ∈ R ∨ ∃ e ∈ l, e.2.length > 1 ∧ e.2.headD [] = k ∧ v = sortStrings e.2 := by
  induction l generalizing R with
  | nil =>
    rw [List.foldl_nil]
    refine ⟨hR, fun k v => ⟨Or.inl, ?_⟩⟩
    rintro (h | ⟨e, he, -⟩)
    · exact h
    · exact absurd he (List.not_mem_nil _)
  | cons e l ih =>
    rw [List.foldl_cons]
    rw [List.pairwise_cons] at hl
    by_cases hlen : e.2.length > 1
    · have hset : addResult R e = R ++ [(e.2.headD [], sortStrings e.2)] := by
        unfold addResult
        rw [if_pos hlen]
        exact set_of_not_mem _ _ _ (hd e (List.mem_cons_self _ _) hlen)
      have hR1 : ((addResult R e).map Prod.fst).Nodup := by
        unfold addResult
        rw [if_pos hlen]
        exact keys_set_nodup _ _ _ hR
      have hd1 : ∀ e2 ∈ l, e2.2.length > 1 → e2.2.headD [] ∉ (addResult R e).map Prod.fst := by
        intro e2 he2 hlen2 hmem
        rw [hset, List.map_append, List.mem_append, List.map_singleton,
          List.mem_singleton] at hmem
        rcases hmem with hmem | hmem
        · exact hd e2 (List.mem_cons_of_mem _ he2) hlen2 hmem
        · exact hl.1 e2 he2 hlen hlen2 hmem.symm
      obtain ⟨hn, hiff⟩ := ih (addResult R e) hR1 hl.2 hd1
      refine ⟨hn, ?_⟩
      intro k v
      rw [hiff, hset, List.mem_append, List.mem_singleton, Prod.mk.injEq]
      constructor
      · rintro ((h | ⟨hk, hv⟩) | ⟨e2, he2, h⟩)
        · exact Or.inl h
        · exact Or.inr ⟨e, List.mem_cons_self _ _, hlen, hk.symm, hv⟩
        · exact Or.inr ⟨e2, List.mem_cons_of_mem _ he2, h⟩
      · rintro (h | ⟨e2, he2, h⟩)
        · exact Or.inl (Or.inl h)
        · rw [List.mem_cons] at he2
          rcases he2 with he2 | he2
          · subst he2
            exact Or.inl (Or.inr ⟨h.2.1.symm, h.2.2⟩)
          · exact Or.inr ⟨e2, he2, h⟩
    · have hset : addResult R e = R := by
        unfold addResult
        rw [if_neg hlen]
      rw [hset]
      obtain ⟨hn, hiff⟩ := ih R hR hl.2
        (fun e2 he2 => hd e2 (List.mem_cons_of_mem _ he2))
      refine ⟨hn, ?_⟩
      intro k v
      rw [hiff]
      constructor
      · rintro (h | ⟨e2, he2, h⟩)
        · exact Or.inl h
        · exact Or.inr ⟨e2, List.mem_cons_of_mem _ he2, h⟩
      · rintro (h | ⟨e2, he2, h⟩)
        · exact Or.inl h
        · rw [List.mem_cons] at he2
          rcases he2 with he2 | he2
          · subst he2
            exact absurd h.1 hlen
          · exact Or.inr ⟨e2, he2, h⟩

theorem headD_mem (vs : List Str) (h : vs ≠ []) : vs.headD [] ∈ vs := by
  cases vs with
  | nil => exact absurd rfl h
  | cons a as => exact List.mem_cons_self _ _

theorem headOpt_eq_headD (vs : List Str) (h : vs ≠ []) : vs.head? = some (vs.headD []) := by
  cases vs with
  | nil => exact absurd rfl h
  | cons a as => rfl

/-- The class of a word, by the sorted runes. -/
theorem anagramClass_eq (lowered : List Str) (w : Str) :
    anagramClass lowered w
      = lowered.filter (fun x => decide (sortRunes x = sortRunes w)) := by
  unfold anagramClass
  apply List.filter_congr
  intro x _
  exact decide_eq_decide.mpr (sortRunes_eq_iff x w).symm

theorem anagramClass_of_perm (lowered : List Str) {w w2 : Str} (h : w.Perm w2) :
    anagramClass lowered w = anagramClass lowered w2 := by
  rw [anagramClass_eq, anagramClass_eq, (sortRunes_eq_iff w w2).mpr h]

theorem mem_anagramClass (lowered : List Str) (w x : Str) :
    x ∈ anagramClass lowered w ↔ x ∈ lowered ∧ x.Perm w := by
  unfold anagramClass
  rw [List.mem_filter, decide_eq_true_eq]

/-- The entries of the map returned by `findAnagrams`. -/
theorem findAnagrams_entries (toLower : Str → Str) (order : Dict → Dict)
    (horder : ∀ d, (order d).Perm d) (words : List Str) :
    ((findAnagrams toLower order words).map Prod.fst).Nodup ∧
    ∀ k v, (k, v) ∈ findAnagrams toLower order words ↔
      ∃ w ∈ words.map toLower, 2 ≤ (anagramClass (words.map toLower) w).length ∧
        (anagramClass (words.map toLower) w).head? = some k ∧
        v.Perm (anagramClass (words.map toLower) w) ∧ SortTool.Sorted SortTool.strLt v := by
  obtain ⟨hD1, hD2⟩ := dictionary_entries toLower words
  have hp := horder (words.foldl (addWord toLower) [])
  have hE1 : ((order (words.foldl (addWord toLower) [])).map Prod.fst).Nodup :=
    ((hp.map Prod.fst).nodup_iff).mpr hD1
  have hE2 : ∀ key vs, (key, vs) ∈ order (words.foldl (addWord toLower) []) ↔
      vs = (words.map toLower).filter (fun w => decide (sortRunes w = key)) ∧ vs ≠ [] := by
    intro key vs
    rw [hp.mem_iff]
    exact hD2 key vs
  have hsig : ∀ e ∈ order (words.foldl (addWord toLower) []),
      e.2.headD [] ∈ words.map toLower ∧ sortRunes (e.2.headD []) = e.1 := by
    intro e he
    obtain ⟨key, vs⟩ := e
    obtain ⟨hv, hne⟩ := (hE2 key vs).mp he
    have hm := headD_mem vs hne
    rw [hv, List.mem_filter, decide_eq_true_eq] at hm
    rw [hv]
    exact hm
  have hpair : (order (words.foldl (addWord toLower) [])).Pairwise
      (fun e1 e2 => e1.2.length > 1 → e2.2.length > 1 → e1.2.headD [] ≠ e2.2.headD []) := by
    have h0 : (order (words.foldl (addWord toLower) [])).Pairwise
        (fun e1 e2 => e1.1 ≠ e2.1) := List.pairwise_map.mp hE1
    refine h0.imp_of_mem ?_
    intro e1 e2 he1 he2 hne _ _ heq
    apply hne
    rw [← (hsig e1 he1).2, ← (hsig e2 he2).2, heq]
  obtain ⟨hn, hiff⟩ := addResult_fold (order (words.foldl (addWord toLower) [])) []
    List.nodup_nil hpair (fun _ _ _ h => absurd h (List.not_mem_nil _))
  refine ⟨hn, ?_⟩
  intro k v
  unfold findAnagrams
  rw [hiff]
  constructor
  · rintro (h | ⟨e, he, hlen, hk, hv⟩)
    · exact absurd h (List.not_mem_nil _)
    · obtain ⟨key, vs⟩ := e
      obtain ⟨hvs, hne⟩ := (hE2 key vs).mp he
      obtain ⟨hm, hs⟩ := hsig (key, vs) he
      have hcl : anagramClass (words.map toLower) (List.headD vs []) = vs := by
        rw [anagramClass_eq, hs]
        exact hvs.symm
      refine ⟨List.headD vs [], hm, ?_, ?_, ?_⟩
      · rw [hcl]
        exact hlen
      · rw [hcl, headOpt_eq_headD vs hne]
        exact congrArg some hk
      · rw [hcl]
        exact (sortStrings_iff vs v).mp hv
  · rintro ⟨w, hw, hlen, hk, hv⟩
    right
    have hne : anagramClass (words.map toLower) w ≠ [] := by
      intro h0
      rw [h0] at hlen
      exact absurd hlen (by decide)
    refine ⟨(sortRunes w, anagramClass (words.map toLower) w), ?_, hlen, ?_, ?_⟩
    · rw [hE2]
      exact ⟨anagramClass_eq _ w, hne⟩
    · rw [headOpt_eq_headD _ hne] at hk
      exact Option.some.inj hk
    · exact (sortStrings_iff _ v).mpr hv

/-- C32: `findAnagrams` returns a map with exactly one entry for each class of lowercased
input words with the same multiset of runes that has two members or more, repeats counted:
the keys of the entries are distinct, and `(k, v)` is an entry exactly when, for the class of
some lowercased word, the class has two members or more, `k` is its first member in input
order and `v` is the sorted arrangement of all its members; two classes with the same first
member are one class; a word whose class has one member is no key and in no value; and when
no class has two members the map is empty. This holds whatever the order in which the
language goes through the intermediate map. -/
theorem findAnagrams_spec (toLower : Str → Str) (order : Dict → Dict)
    (horder : ∀ d, (order d).Perm d) (words : List Str) :
    ((findAnagrams toLower order words).map Prod.fst).Nodup ∧
    (∀ k v, (k, v) ∈ findAnagrams toLower order words ↔
      ∃ w ∈ words.map toLower, 2 ≤ (anagramClass (words.map toLower) w).length ∧
        (anagramClass (words.map toLower) w).head? = some k ∧
        v.Perm (anagramClass (words.map toLower) w) ∧
        SortTool.Sorted SortTool.strLt v) ∧
    (∀ w1 ∈ words.map toLower, ∀ w2 ∈ words.map toLower,
      (anagramClass (words.map toLower) w1).head?
        = (anagramClass (words.map toLower) w2).head? → w1.Perm w2) ∧
    (∀ w ∈ words.map toLower, (anagramClass (words.map toLower) w).length < 2 →
      ∀ k v, (k, v) ∈ findAnagrams toLower order words → k ≠ w ∧ w ∉ v) ∧
    ((∀ w ∈ words.map toLower, (anagramClass (words.map toLower) w).length < 2) →
      findAnagrams toLower order words = []) := by
  obtain ⟨hn, hiff⟩ := findAnagrams_entries toLower order horder words
  refine ⟨hn, hiff, ?_, ?_, ?_⟩
  · intro w1 hw1 w2 hw2 hh
    have hne : anagramClass (words.map toLower) w1 ≠ [] := by
      intro h0
      have hm : w1 ∈ anagramClass (words.map toLower) w1 :=
        (mem_anagramClass _ _ _).mpr ⟨hw1, List.Perm.refl _⟩
      rw [h0] at hm
      exact absurd hm (List.not_mem_nil _)
    have h1 := headD_mem _ hne
    have h2 : (anagramClass (words.map toLower) w1).headD []
        ∈ anagramClass (words.map toLower) w2 := by
      rw [headOpt_eq_headD _ hne] at hh
      exact List.mem_of_mem_head? hh.symm
    exact ((mem_anagramClass _ _ _).mp h1).2.symm.trans ((mem_anagramClass _ _ _).mp h2).2
  · intro w hw hlen k v hkv
    obtain ⟨w2, hw2, hlen2, hk, hv, -⟩ := (hiff k v).mp hkv
    have hnot : w ∉ anagramClass (words.map toLower) w2 := by
      intro hm
      rw [anagramClass_of_perm _ ((mem_anagramClass _ _ _).mp hm).2] at hlen
      omega
    constructor
    · intro hkw
      apply hnot
      rw [hkw] at hk
      exact List.mem_of_mem_head? hk
    · intro hm
      exact hnot (hv.mem_iff.mp hm)
  · intro hall
    apply List.eq_nil_iff_forall_not_mem.mpr
    rintro ⟨k, v⟩ hkv
    obtain ⟨w, hw, hlen, -⟩ := (hiff k v).mp hkv
    have h := hall w hw
    omega

theorem findAnagrams_spec_witness :
    (∀ d : Dict, (id d).Perm d) ∧
    ((findAnagrams asciiLower id ["Tea".toList, "ate".toList, "x".toList]).map
      Prod.fst).Nodup ∧
    findAnagrams asciiLower id ["Tea".toList, "ate".toList, "x".toList]
      = [("tea".toList, ["ate".toList, "tea".toList])] :=
  ⟨fun d => List.Perm.refl d,
    (findAnagrams_spec asciiLower id (fun d => List.Perm.refl d)
      ["Tea".toList, "ate".toList, "x".toList]).1,
    by decide⟩

end Anagram

namespace SortTool

/-! ### Merging the sorted chunks -/

theorem mergeSortedChunks_examples :
    mergeSortedChunks noFloats [["a".toList, "c".toList, "e".toList],
        ["b".toList, "d".toList, "f".toList]] 0 false false false false false
      = some ["a".toList, "b".toList, "c".toList, "d".toList, "e".toList, "f".toList] ∧
    mergeSortedChunks noFloats [[], ["Feb".toList, "x".toList], [],
        ["Jan".toList, "Mar".toList, "a".toList]] 0 false false true false false
      = some ["Jan".toList, "Feb".toList, "Mar".toList, "a".toList, "x".toList] ∧
    mergeSortedChunks noFloats [["c".toList, "a".toList], ["d".toList, "b".toList],
        ["e".toList]] 0 false true false false false
      = some ["e".toList, "d".toList, "c".toList, "b".toList, "a".toList] ∧
    mergeSortedChunks noFloats [] 0 false false false false false = some [] := by
  refine ⟨by decide, by decide, by decide, by decide⟩

theorem swapAt_length {α : Type} (l : List α) (i j : Nat) :
    (swapAt l i j).length = l.length := by
  unfold swapAt
  split
  · rw [List.length_set, List.length_set]
  · rfl

theorem getElem?_swapAt {α : Type} (l : List α) (i j k : Nat) (hi : i < l.length)
    (hj : j < l.length) : (swapAt l i j)[k]? = l[transposed i j k]? := by
  unfold swapAt transposed
  rw [List.getElem?_eq_getElem hi, List.getElem?_eq_getElem hj]
  simp only
  rw [List.getElem?_set, List.getElem?_set, List.length_set]
  by_cases h1 : k = j
  · subst h1
    rw [if_pos rfl, if_pos hj]
    by_cases h2 : k = i
    · subst h2
      rw [if_pos rfl, List.getElem?_eq_getElem hi]
    · rw [if_neg h2, if_pos rfl, List.getElem?_eq_getElem hi]
  · rw [if_neg (fun h => h1 h.symm)]
    by_cases h2 : k = i
    · subst h2
      rw [if_pos rfl, if_pos hi, if_pos rfl, List.getElem?_eq_getElem hj]
    · rw [if_neg (fun h => h2 h.symm), if_neg h2, if_neg h1]

theorem lessAt_swapAt {α : Type} (less : α → α → Bool) (l : List α) (i j a b : Nat)
    (hi : i < l.length) (hj : j < l.length) :
    lessAt less (swapAt l i j) a b
      = lessAt less l (transposed i j a) (transposed i j b) := by
  unfold lessAt
  rw [getElem?_swapAt l i j a hi hj, getElem?_swapAt l i j b hi hj]

/-- Putting a new element in the place of an element of a list and the old element in
front gives the list with the new element in front, up to the order. -/
theorem set_perm_cons {α : Type} (l : List α) (j : Nat) (y a : α) (h : l[j]? = some y) :
    (y :: l.set j a).Perm (a :: l) := by
  induction l generalizing j with
  | nil => simp at h
  | cons b t ih =>
    cases j with
    | zero =>
      simp only [List.getElem?_cons_zero, Option.some.injEq] at h
      subst h
      exact List.Perm.swap _ _ _
    | succ j =>
      rw [List.getElem?_cons_succ] at h
      rw [List.set_cons_succ]
      exact (List.Perm.swap _ _ _).trans
        (((ih j h).cons b).trans (List.Perm.swap _ _ _))

theorem swapAt_perm {α : Type} (l : List α) (i j : Nat) : (swapAt l i j).Perm l := by
  induction l generalizing i j with
  | nil => simp [swapAt]
  | cons a t ih =>
    cases i with
    | zero =>
      cases j with
      | zero => simp [swapAt]
      | succ j =>
        unfold swapAt
        rw [List.getElem?_cons_zero, List.getElem?_cons_succ]
        cases hy : t[j]? with
        | none => exact List.Perm.refl _
        | some y =>
          simp only [List.set_cons_zero, List.set_cons_succ]
          exact set_perm_cons t j y a hy
    | succ i =>
      cases j with
      | zero =>
        unfold swapAt
        rw [List.getElem?_cons_zero, List.getElem?_cons_succ]
        cases hx : t[i]? with
        | none => exact List.Perm.refl _
        | some x =>
          simp only [List.set_cons_zero, List.set_cons_succ]
          exact set_perm_cons t i x a hx
      | succ j =>
        have h := ih i j
        unfold swapAt at h ⊢
        rw [List.getElem?_cons_succ, List.getElem?_cons_succ]
        cases hx : t[i]? with
        | none => exact List.Perm.refl _
        | some x =>
          cases hy : t[j]? with
          | none => exact List.Perm.refl _
          | some y =>
            rw [hx, hy] at h
            simp only [List.set_cons_succ] at h ⊢
            exact h.cons a

theorem lessAt_self {α : Type} {less : α → α → Bool} (ha : Asymmetric less) (l : List α)
    (i : Nat) : lessAt less l i i = false := by
  unfold lessAt
  cases l[i]? with
  | none => rfl
  | some x => exact less_irrefl ha x

theorem lessAt_asymm {α : Type} {less : α → α → Bool} (ha : Asymmetric less) (l : List α)
    (i j : Nat) (h : lessAt less l i j = true) : lessAt less l j i = false := by
  unfold lessAt at h ⊢
  cases hx : l[i]? with
  | none => simp [hx] at h
  | some x =>
    cases hy : l[j]? with
    | none => simp [hx, hy] at h
    | some y =>
      rw [hx, hy] at h
      exact ha x y h

theorem lessAt_lt {α : Type} (less : α → α → Bool) (l : List α) (i j : Nat)
    (h : lessAt less l i j = true) : i < l.length ∧ j < l.length := by
  unfold lessAt at h
  cases hx : l[i]? with
  | none => simp [hx] at h
  | some x =>
    cases hy : l[j]? with
    | none => simp [hx, hy] at h
    | some y =>
      exact ⟨(List.getElem?_eq_some.mp hx).1, (List.getElem?_eq_some.mp hy).1⟩

theorem lessAt_trans {α : Type} {less : α → α → Bool} (ha : Asymmetric less)
    (hn : NegTransitive less) (l : List α) (a b c : Nat)
    (h1 : lessAt less l a b = true) (h2 : lessAt less l b c = true) :
    lessAt less l a c = true := by
  cases h : lessAt less l a c with
  | true => rfl
  | false =>
    have h3 := lessAt_negTrans hn l a c b (lessAt_lt less l b c h2).2 h
      (lessAt_asymm ha l b c h2)
    rw [h1] at h3
    cases h3

/-- An element that is not less than its parent, where the parent is less than a third
element, is not less than that element. -/
theorem lessAt_sibling {α : Type} {less : α → α → Bool} (ha : Asymmetric less)
    (hn : NegTransitive less) (l : List α) (k i j : Nat)
    (h1 : lessAt less l k i = false) (h2 : lessAt less l j i = true) :
    lessAt less l k j = false := by
  cases h : lessAt less l k j with
  | false => rfl
  | true =>
    rw [lessAt_trans ha hn l k j i h h2] at h1
    cases h1

theorem up_perm {α : Type} (less : α → α → Bool) (fuel : Nat) (l : List α) (j : Nat) :
    (up less fuel l j).Perm l := by
  induction fuel generalizing l j with
  | zero => exact List.Perm.refl _
  | succ fuel ih =>
    unfold up
    split_ifs
    · exact List.Perm.refl _
    · exact (ih _ _).trans (swapAt_perm l _ _)

/-- The loop `up` restores the heap property when the element at `j` is the only one that
may be less than its parent, the children of `j` not being less than the parent of `j`. -/
theorem up_heap {α : Type} {less : α → α → Bool} (ha : Asymmetric less)
    (hn : NegTransitive less) (fuel : Nat) (l : List α) (j : Nat) (hf : j ≤ fuel)
    (hj : j < l.length)
    (hA : ∀ k, k ≠ j → lessAt less l k ((k - 1) / 2) = false)
    (hB : ∀ k, (k - 1) / 2 = j → k ≠ j → lessAt less l k ((j - 1) / 2) = false) :
    ∀ k, lessAt less (up less fuel l j) k ((k - 1) / 2) = false := by
  induction fuel generalizing l j with
  | zero =>
    intro k
    have hj0 : j = 0 := by omega
    subst hj0
    unfold up
    by_cases hk : k = 0
    · subst hk
      exact lessAt_self ha l 0
    · exact hA k hk
  | succ fuel ih =>
    unfold up
    by_cases hc : (j - 1) / 2 = j ∨ lessAt less l j ((j - 1) / 2) = false
    · rw [if_pos hc]
      intro k
      by_cases hk : k = j
      · subst hk
        rcases hc with hc | hc
        · rw [hc]
          exact lessAt_self ha l k
        · exact hc
      · exact hA k hk
    · rw [if_neg hc]
      rw [not_or] at hc
      obtain ⟨hij, hlt⟩ := hc
      rw [Bool.not_eq_false] at hlt
      have hi : (j - 1) / 2 < l.length := by omega
      have hji : lessAt less l ((j - 1) / 2) j = false := lessAt_asymm ha l _ _ hlt
      have hsib : ∀ k, k ≠ j → lessAt less l k j = false ∨ (k - 1) / 2 ≠ (j - 1) / 2 := by
        intro k hk
        by_cases hp : (k - 1) / 2 = (j - 1) / 2
        · left
          have h1 := hA k hk
          rw [hp] at h1
          exact lessAt_sibling ha hn l k _ j h1 hlt
        · exact Or.inr hp
      apply ih (swapAt l ((j - 1) / 2) j) ((j - 1) / 2) (by omega)
        (by rw [swapAt_length]; exact hi)
      · intro k hk
        rw [lessAt_swapAt less l _ _ _ _ hi hj]
        unfold transposed
        by_cases hkj : k = j
        · subst hkj
          rw [if_neg hk, if_pos rfl, if_pos rfl]
          exact hji
        · rw [if_neg hk, if_neg hkj]
          by_cases hp : (k - 1) / 2 = (j - 1) / 2
          · rw [if_pos hp]
            rcases hsib k hkj with h | h
            · exact h
            · exact absurd hp h
          · rw [if_neg hp]
            by_cases hp2 : (k - 1) / 2 = j
            · rw [if_pos hp2]
              exact hB k hp2 hkj
            · rw [if_neg hp2]
              exact hA k hkj
      · intro k hp hk
        rw [lessAt_swapAt less l _ _ _ _ hi hj]
        unfold transposed
        rw [if_neg hk]
        have hq : ((j - 1) / 2 - 1) / 2 ≠ j := by omega
        by_cases hkj : k = j
        · subst hkj
          rw [if_pos rfl]
          by_cases hq0 : ((k - 1) / 2 - 1) / 2 = (k - 1) / 2
          · rw [if_pos hq0]
            exact hji
          · rw [if_neg hq0, if_neg hq]
            exact hA _ hij
        · rw [if_neg hkj]
          by_cases hq0 : ((j - 1) / 2 - 1) / 2 = (j - 1) / 2
          · rw [if_pos hq0]
            rcases hsib k hkj with h | h
            · exact h
            · exact absurd hp h
          · rw [if_neg hq0, if_neg hq]
            have h1 := hA k hkj
            rw [hp] at h1
            exact lessAt_negTrans hn l k _ _ hi h1 (hA _ hij)

theorem down_perm {α : Type} (less : α → α → Bool) (fuel : Nat) (l : List α) (i n : Nat) :
    (down less fuel l i n).Perm l := by
  induction fuel generalizing l i with
  | zero => exact List.Perm.refl _
  | succ fuel ih =>
    unfold down
    split_ifs
    all_goals first
      | exact List.Perm.refl _
      | exact (ih _ _).trans (swapAt_perm l _ _)

theorem down_length {α : Type} (less : α → α → Bool) (fuel : Nat) (l : List α) (i n : Nat) :
    (down less fuel l i n).length = l.length :=
  (down_perm less fuel l i n).length_eq

theorem lessAt_append_left {α : Type} (less : α → α → Bool) (a b : List α) (i j : Nat)
    (hi : i < a.length) (hj : j < a.length) :
    lessAt less (a ++ b) i j = lessAt less a i j := by
  unfold lessAt
  rw [List.getElem?_append_left hi, List.getElem?_append_left hj]

theorem swapAt_append_left {α : Type} (a b : List α) (i j : Nat) (hi : i < a.length)
    (hj : j < a.length) : swapAt (a ++ b) i j = swapAt a i j ++ b := by
  unfold swapAt
  rw [List.getElem?_append_left hi, List.getElem?_append_left hj,
    List.getElem?_eq_getElem hi, List.getElem?_eq_getElem hj]
  simp only
  rw [List.set_append_left _ _ hi, List.set_append_left _ _ (by rw [List.length_set]; exact hj)]

/-- The loop `down(h, i, n)` works on the first `n` elements and leaves the others where
they are. -/
theorem down_append {α : Type} (less : α → α → Bool) (fuel : Nat) (a b : List α) (i : Nat) :
    down less fuel (a ++ b) i a.length = down less fuel a i a.length ++ b := by
  induction fuel generalizing a i with
  | zero => rfl
  | succ fuel ih =>
    unfold down
    by_cases h1 : 2 * i + 1 ≥ a.length
    · rw [if_pos h1, if_pos h1]
    · rw [if_neg h1, if_neg h1]
      have hi : i < a.length := by omega
      have h21 : 2 * i + 1 < a.length := by omega
      have hc : (2 * i + 2 < a.length ∧ lessAt less (a ++ b) (2 * i + 2) (2 * i + 1) = true)
          ↔ (2 * i + 2 < a.length ∧ lessAt less a (2 * i + 2) (2 * i + 1) = true) := by
        constructor
        · rintro ⟨h, h2⟩
          rw [lessAt_append_left less a b _ _ h h21] at h2
          exact ⟨h, h2⟩
        · rintro ⟨h, h2⟩
          rw [← lessAt_append_left less a b _ _ h h21] at h2
          exact ⟨h, h2⟩
      rw [if_congr hc rfl rfl]
      generalize hj : (if 2 * i + 2 < a.length ∧ lessAt less a (2 * i + 2) (2 * i + 1) = true
        then 2 * i + 2 else 2 * i + 1) = j
      have hjlt : j < a.length := by
        rw [← hj]
        split_ifs with h
        · exact h.1
        · exact h21
      rw [lessAt_append_left less a b _ _ hjlt hi]
      by_cases h2 : lessAt less a j i = false
      · rw [if_pos h2, if_pos h2]
      · rw [if_neg h2, if_neg h2, swapAt_append_left a b i j hi hjlt]
        have h := ih (swapAt a i j) j
        rw [swapAt_length] at h
        exact h

/-- When the element at `i` has no child, the heap property holds as soon as it holds away
from the children of `i`. -/
theorem heap_of_leaf {α : Type} (less : α → α → Bool) (l : List α) (i : Nat)
    (hA : ∀ k, (k - 1) / 2 ≠ i ∨ k = i → lessAt less l k ((k - 1) / 2) = false)
    (h : 2 * i + 1 ≥ l.length) : ∀ k, lessAt less l k ((k - 1) / 2) = false := by
  intro k
  by_cases hk : (k - 1) / 2 ≠ i ∨ k = i
  · exact hA k hk
  · rw [not_or, not_not] at hk
    exact lessAt_none less l k _ (by omega)

/-- The loop `down` restores the heap property when the children of `i` are the only
elements that may be less than their parent, and are not less than the parent of `i`. -/
theorem down_heap {α : Type} {less : α → α → Bool} (ha : Asymmetric less)
    (hn : NegTransitive less) (fuel : Nat) (l : List α) (i : Nat)
    (hf : l.length - i ≤ fuel)
    (hA : ∀ k, (k - 1) / 2 ≠ i ∨ k = i → lessAt less l k ((k - 1) / 2) = false)
    (hB : ∀ k, (k - 1) / 2 = i → k ≠ i → i ≠ 0 → lessAt less l k ((i - 1) / 2) = false) :
    ∀ k, lessAt less (down less fuel l i l.length) k ((k - 1) / 2) = false := by
  induction fuel generalizing l i with
  | zero =>
    unfold down
    exact heap_of_leaf less l i hA (by omega)
  | succ fuel ih =>
    unfold down
    by_cases h1 : 2 * i + 1 ≥ l.length
    · rw [if_pos h1]
      exact heap_of_leaf less l i hA h1
    · rw [if_neg h1]
      have hi : i < l.length := by omega
      have h21 : 2 * i + 1 < l.length := by omega
      generalize hj : (if 2 * i + 2 < l.length ∧ lessAt less l (2 * i + 2) (2 * i + 1) = true
        then 2 * i + 2 else 2 * i + 1) = j
      have hjlt : j < l.length := by
        rw [← hj]
        split_ifs with h
        · exact h.1
        · exact h21
      have hjp : (j - 1) / 2 = i ∧ j ≠ i := by
        rw [← hj]
        split_ifs <;> omega
      have hother : ∀ k, (k - 1) / 2 = i → k ≠ i → k ≠ j → lessAt less l k j = false := by
        intro k hp hki hkj
        by_cases hc : 2 * i + 2 < l.length ∧ lessAt less l (2 * i + 2) (2 * i + 1) = true
        · rw [if_pos hc] at hj
          have hk : k = 2 * i + 1 := by omega
          rw [hk, ← hj]
          exact lessAt_asymm ha l _ _ hc.2
        · rw [if_neg hc] at hj
          have hk : k = 2 * i + 2 := by omega
          rw [not_and] at hc
          by_cases hlen : 2 * i + 2 < l.length
          · have h2 := hc hlen
            rw [Bool.not_eq_true] at h2
            rw [hk, ← hj]
            exact h2
          · exact lessAt_none less l k _ (by omega)
      by_cases h2 : lessAt less l j i = false
      · rw [if_pos h2]
        intro k
        by_cases hk : (k - 1) / 2 ≠ i ∨ k = i
        · exact hA k hk
        · rw [not_or, not_not] at hk
          rw [hk.1]
          by_cases hkj : k = j
          · rw [hkj]
            exact h2
          · exact lessAt_negTrans hn l k j i hjlt (hother k hk.1 hk.2 hkj) h2
      · rw [if_neg h2]
        rw [Bool.not_eq_false] at h2
        have hlen : (swapAt l i j).length = l.length := swapAt_length l i j
        have h := ih (swapAt l i j) j (by rw [hlen]; omega) ?_ ?_
        · rw [hlen] at h
          exact h
        · intro k hk
          rw [lessAt_swapAt less l _ _ _ _ hi hjlt]
          unfold transposed
          by_cases hkj : k = j
          · subst hkj
            rw [if_neg hjp.2, if_pos rfl, hjp.1, if_pos rfl]
            exact lessAt_asymm ha l _ _ h2
          · have hpj : (k - 1) / 2 ≠ j := by
              rcases hk with hk | hk
              · exact hk
              · exact absurd hk hkj
            by_cases hki : k = i
            · subst hki
              rw [if_pos rfl]
              by_cases hp0 : (k - 1) / 2 = k
              · rw [if_pos hp0]
                exact lessAt_self ha l j
              · rw [if_neg hp0, if_neg hpj]
                exact hB j hjp.1 hjp.2 (by omega)
            · rw [if_neg hki, if_neg hkj]
              by_cases hp : (k - 1) / 2 = i
              · rw [if_pos hp]
                exact hother k hp hki hkj
              · rw [if_neg hp, if_neg hpj]
                exact hA k (Or.inl hp)
        · intro k hp hkj _
          rw [lessAt_swapAt less l _ _ _ _ hi hjlt]
          unfold transposed
          have hki : k ≠ i := by omega
          rw [if_neg hki, if_neg hkj, hjp.1, if_pos rfl]
          have h3 := hA k (Or.inl (by omega))
          rw [hp] at h3
          exact h3

/-- In a heap no element is less than the first one. -/
theorem isHeap_root {α : Type} {less : α → α → Bool} (hn : NegTransitive less)
    (ha : Asymmetric less) (l : List α) (h : IsHeap less l) :
    ∀ k, lessAt less l k 0 = false := by
  intro k
  induction k using Nat.strong_induction_on with
  | _ k ih =>
    by_cases hk : k = 0
    · subst hk
      exact lessAt_self ha l 0
    · by_cases hlen : l.length ≤ k
      · exact lessAt_none less l k 0 hlen
      · exact lessAt_negTrans hn l k ((k - 1) / 2) 0 (by omega) (h k)
          (ih ((k - 1) / 2) (by omega))

theorem isHeap_nil {α : Type} (less : α → α → Bool) : IsHeap less ([] : List α) :=
  fun _ => rfl

/-- After `heap.Push` the heap holds the new element with the old ones, and is a heap. -/
theorem heapPush_spec {α : Type} {less : α → α → Bool} (ha : Asymmetric less)
    (hn : NegTransitive less) (items : List α) (x : α) (h : IsHeap less items) :
    IsHeap less (heapPush less items x) ∧ (heapPush less items x).Perm (x :: items) := by
  constructor
  · unfold heapPush
    apply up_heap ha hn _ _ _ (Nat.le_refl _)
      (by rw [List.length_append, List.length_singleton]; omega)
    · intro k hk
      by_cases hlt : k < items.length
      · rw [lessAt_append_left less items [x] _ _ hlt (by omega)]
        exact h k
      · exact lessAt_none less _ k _
          (by rw [List.length_append, List.length_singleton]; omega)
    · intro k hp hk
      exact lessAt_none less _ k _
        (by rw [List.length_append, List.length_singleton]; omega)
  · unfold heapPush
    exact (up_perm less _ _ _).trans (List.perm_append_singleton x items)

/-- On a heap that is not empty `heap.Pop` returns an element that no element of the heap is
less than, and leaves a heap of the other elements. -/
theorem heapPop_spec {α : Type} {less : α → α → Bool} (ha : Asymmetric less)
    (hn : NegTransitive less) (items : List α) (hne : items ≠ []) (h : IsHeap less items) :
    ∃ x rest, heapPop less items = some (x, rest) ∧ items.Perm (x :: rest) ∧
      IsHeap less rest ∧ ∀ y ∈ items, less y x = false := by
  obtain ⟨x, t, rfl⟩ := List.exists_cons_of_ne_nil hne
  have hn1 : (x :: t).length - 1 = t.length := by simp
  rw [show heapPop less (x :: t)
    = ((down less t.length (swapAt (x :: t) 0 t.length) 0 t.length)[t.length]?).map
        (fun y => (y, (down less t.length (swapAt (x :: t) 0 t.length) 0 t.length).take
          t.length)) by unfold heapPop; rw [hn1]]
  have hslen : (swapAt (x :: t) 0 t.length).length = t.length + 1 := by
    rw [swapAt_length, List.length_cons]
  have hlast : (swapAt (x :: t) 0 t.length)[t.length]? = some x := by
    rw [getElem?_swapAt _ _ _ _ (by simp) (by simp)]
    unfold transposed
    by_cases h0 : t.length = 0
    · rw [if_pos h0, h0]
      exact List.getElem?_cons_zero
    · rw [if_neg h0, if_pos rfl]
      exact List.getElem?_cons_zero
  have hsplit : swapAt (x :: t) 0 t.length
      = (swapAt (x :: t) 0 t.length).take t.length ++ [x] := by
    conv_lhs => rw [← List.take_append_drop t.length (swapAt (x :: t) 0 t.length)]
    congr 1
    apply List.ext_getElem?
    intro k
    rw [List.getElem?_drop]
    cases k with
    | zero => simpa using hlast
    | succ k =>
      rw [List.getElem?_eq_none (by rw [hslen]; omega)]
      rfl
  have halen : ((swapAt (x :: t) 0 t.length).take t.length).length = t.length := by
    rw [List.length_take, hslen]
    omega
  generalize ha2 : (swapAt (x :: t) 0 t.length).take t.length = a at hsplit halen
  have hdown : down less t.length (swapAt (x :: t) 0 t.length) 0 t.length
      = down less t.length a 0 a.length ++ [x] := by
    rw [hsplit]
    have h2 := down_append less t.length a [x] 0
    rw [halen] at h2 ⊢
    exact h2
  have hdlen : (down less t.length a 0 a.length).length = t.length := by
    rw [down_length, halen]
  rw [hdown]
  refine ⟨x, down less t.length a 0 a.length, ?_, ?_, ?_, ?_⟩
  · rw [List.getElem?_append_right (by omega), hdlen, Nat.sub_self,
      List.take_left' hdlen]
    rfl
  · have h1 : (x :: t).Perm (a ++ [x]) := by
      rw [← hsplit]
      exact (swapAt_perm _ _ _).symm
    exact h1.trans ((List.perm_append_singleton x a).trans
      ((down_perm less _ a 0 _).symm.cons x))
  · apply down_heap ha hn _ a 0 (by omega)
    · intro k hk
      by_cases hk0 : k = 0
      · subst hk0
        exact lessAt_self ha a 0
      · by_cases hlt : k < t.length
        · have hp : (k - 1) / 2 ≠ 0 := by
            rcases hk with hk | hk
            · exact hk
            · exact absurd hk hk0
          rw [← ha2, lessAt_take less _ _ _ _ hlt (by omega),
            lessAt_swapAt less _ _ _ _ _ (by simp) (by simp)]
          unfold transposed
          rw [if_neg hk0, if_neg (by omega), if_neg hp, if_neg (by omega)]
          exact h k
        · exact lessAt_none less a k _ (by omega)
    · intro k _ _ h0
      exact absurd rfl h0
  · intro y hy
    obtain ⟨k, hk⟩ := List.mem_iff_getElem?.mp hy
    have h1 := isHeap_root hn ha (x :: t) h k
    rw [lessAt_eq less hk (List.getElem?_cons_zero)] at h1
    exact h1

theorem remaining_cons (chunks : List (List Str)) (it : lineItem) (items : List lineItem) :
    remaining chunks (it :: items)
      = (chunks.getD it.chunk []).drop it.index ++ remaining chunks items := by
  unfold remaining
  rw [List.flatMap_cons]

theorem remaining_perm (chunks : List (List Str)) {items items2 : List lineItem}
    (h : items.Perm items2) : (remaining chunks items).Perm (remaining chunks items2) :=
  List.Perm.flatMap_right _ h

theorem drop_of_getElem {α : Type} (ch : List α) (i : Nat) (v : α) (h : ch[i]? = some v) :
    ch.drop i = v :: ch.drop (i + 1) := by
  obtain ⟨hlt, hv⟩ := List.getElem?_eq_some.mp h
  rw [List.drop_eq_getElem_cons hlt, hv]

/-- In a sorted chunk no line from an index on is less than the line at the index. -/
theorem sorted_drop_head {cmp : Str → Str → Bool} (ha : Asymmetric cmp) (ch : List Str)
    (hc : Sorted cmp ch) (i : Nat) (v : Str) (h : ch[i]? = some v) :
    ∀ y ∈ ch.drop i, cmp y v = false := by
  intro y hy
  have hs : Sorted cmp (ch.drop i) := List.Pairwise.sublist (List.drop_sublist i ch) hc
  rw [drop_of_getElem ch i v h] at hs hy
  unfold Sorted at hs
  rw [List.pairwise_cons] at hs
  rw [List.mem_cons] at hy
  rcases hy with hy | hy
  · rw [hy]
    exact less_irrefl ha v
  · exact hs.1 y hy

theorem getD_sorted {cmp : Str → Str → Bool} (chunks : List (List Str))
    (hs : ∀ ch ∈ chunks, Sorted cmp ch) (k : Nat) : Sorted cmp (chunks.getD k []) := by
  rw [List.getD_eq_getElem?_getD]
  cases hk : chunks[k]? with
  | none => exact List.Pairwise.nil
  | some ch => exact hs ch (List.mem_iff_getElem?.mpr ⟨k, hk⟩)

/-- No line still to come is less than the line of an element that no element of the heap is
less than. -/
theorem remaining_min {cmp : Str → Str → Bool} (ha : Asymmetric cmp)
    (hn : NegTransitive cmp) (chunks : List (List Str))
    (hs : ∀ ch ∈ chunks, Sorted cmp ch) (items : List lineItem)
    (hv : ItemsValid chunks items) (x : lineItem)
    (hx : ∀ it ∈ items, cmp it.value x.value = false) :
    ∀ y ∈ remaining chunks items, cmp y x.value = false := by
  intro y hy
  unfold remaining at hy
  rw [List.mem_flatMap] at hy
  obtain ⟨it, hit, hy⟩ := hy
  exact hn y it.value x.value
    (sorted_drop_head ha _ (getD_sorted chunks hs it.chunk) it.index it.value (hv it hit) y hy)
    (hx it hit)

theorem remaining_length_pos (chunks : List (List Str)) (items : List lineItem)
    (hv : ItemsValid chunks items) (hne : items ≠ []) : 0 < (remaining chunks items).length := by
  obtain ⟨it, rest, rfl⟩ := List.exists_cons_of_ne_nil hne
  rw [remaining_cons, drop_of_getElem _ _ _ (hv it (List.mem_cons_self _ _))]
  simp

/-- The first loop of `mergeSortedChunks` leaves a heap whose elements are the first lines
of the chunks that have one. -/
theorem pushHeads_spec {less : lineItem → lineItem → Bool} (ha : Asymmetric less)
    (hn : NegTransitive less) (chunks : List (List Str)) (rest : List (List Str)) (i : Nat)
    (items : List lineItem) (hrest : ∀ m, rest[m]? = chunks[i + m]?)
    (hh : IsHeap less items) (hv : ItemsValid chunks items) :
    IsHeap less (pushHeads less rest i items) ∧
    ItemsValid chunks (pushHeads less rest i items) ∧
    (remaining chunks (pushHeads less rest i items)).Perm
      (remaining chunks items ++ rest.flatten) := by
  induction rest generalizing i items with
  | nil =>
    unfold pushHeads
    rw [List.flatten_nil, List.append_nil]
    exact ⟨hh, hv, List.Perm.refl _⟩
  | cons ch rest ih =>
    have hrest2 : ∀ m, rest[m]? = chunks[i + 1 + m]? := by
      intro m
      have h := hrest (m + 1)
      rw [List.getElem?_cons_succ] at h
      rw [h]
      congr 1
      omega
    have hch : chunks.getD i [] = ch := by
      have h := hrest 0
      rw [List.getElem?_cons_zero, Nat.add_zero] at h
      rw [List.getD_eq_getElem?_getD, ← h]
      rfl
    cases ch with
    | nil =>
      unfold pushHeads
      rw [List.flatten_cons, List.nil_append]
      exact ih (i + 1) items hrest2 hh hv
    | cons v vs =>
      unfold pushHeads
      obtain ⟨hh2, hp⟩ := heapPush_spec ha hn items ⟨v, i, 0⟩ hh
      have hv2 : ItemsValid chunks (heapPush less items ⟨v, i, 0⟩) := by
        intro it hit
        rw [hp.mem_iff, List.mem_cons] at hit
        rcases hit with hit | hit
        · rw [hit]
          simp only
          rw [hch]
          exact List.getElem?_cons_zero
        · exact hv it hit
      obtain ⟨h1, h2, h3⟩ := ih (i + 1) (heapPush less items ⟨v, i, 0⟩) hrest2 hh2 hv2
      refine ⟨h1, h2, h3.trans ?_⟩
      have h4 := remaining_perm chunks hp
      rw [remaining_cons] at h4
      simp only [hch, List.drop_zero] at h4
      rw [List.flatten_cons]
      refine (h4.append_right _).trans ?_
      rw [List.append_assoc]
      refine (List.perm_append_comm_assoc _ _ _).trans ?_
      exact List.Perm.refl _

/-- The second loop of `mergeSortedChunks` ends and appends the lines still to come in
sorted order, the chunks being sorted. -/
theorem popLoop_spec {cmp : Str → Str → Bool} (ha : Asymmetric cmp) (hn : NegTransitive cmp)
    (chunks : List (List Str)) (hs : ∀ ch ∈ chunks, Sorted cmp ch) (fuel : Nat)
    (items : List lineItem) (result : List Str)
    (hh : IsHeap (fun a b : lineItem => cmp a.value b.value) items)
    (hv : ItemsValid chunks items) (hf : (remaining chunks items).length ≤ fuel)
    (hr : Sorted cmp result)
    (hry : ∀ r ∈ result, ∀ y ∈ remaining chunks items, cmp y r = false) :
    ∃ out, popLoop (fun a b : lineItem => cmp a.value b.value) chunks fuel items result
        = some out ∧
      out.Perm (result ++ remaining chunks items) ∧ Sorted cmp out := by
  have hal : Asymmetric (fun a b : lineItem => cmp a.value b.value) :=
    fun a b h => ha a.value b.value h
  have hnl : NegTransitive (fun a b : lineItem => cmp a.value b.value) :=
    fun a b c h1 h2 => hn a.value b.value c.value h1 h2
  induction fuel generalizing items result with
  | zero =>
    have hnil : items = [] := by
      by_contra hne
      have h := remaining_length_pos chunks items hv hne
      omega
    subst hnil
    exact ⟨result, rfl, by simp [remaining], hr⟩
  | succ fuel ih =>
    unfold popLoop
    by_cases hlen : items.length > 0
    · rw [if_pos hlen]
      have hne : items ≠ [] := List.length_pos.mp hlen
      obtain ⟨x, rest, hpop, hperm, hheap, hmin⟩ := heapPop_spec hal hnl items hne hh
      rw [hpop]
      simp only
      have hvx : (chunks.getD x.chunk [])[x.index]? = some x.value :=
        hv x (hperm.mem_iff.mpr (List.mem_cons_self _ _))
      have hvrest : ItemsValid chunks rest :=
        fun it hit => hv it (hperm.mem_iff.mpr (List.mem_cons_of_mem _ hit))
      have hrem : (remaining chunks items).Perm
          (x.value :: ((chunks.getD x.chunk []).drop (x.index + 1)
            ++ remaining chunks rest)) := by
        have h := remaining_perm chunks hperm
        rw [remaining_cons, drop_of_getElem _ _ _ hvx] at h
        exact h
      have hxmin : ∀ y ∈ remaining chunks items, cmp y x.value = false :=
        remaining_min ha hn chunks hs items hv x hmin
      have hr2 : Sorted cmp (result ++ [x.value]) := by
        unfold Sorted at hr ⊢
        rw [List.pairwise_append]
        refine ⟨hr, List.pairwise_singleton _ _, ?_⟩
        intro r hr1 y hy
        rw [List.mem_singleton] at hy
        rw [hy]
        exact hry r hr1 x.value (hrem.mem_iff.mpr (List.mem_cons_self _ _))
      have hstep : ∀ items2, IsHeap (fun a b : lineItem => cmp a.value b.value) items2 →
          ItemsValid chunks items2 →
          (remaining chunks items2).Perm
            ((chunks.getD x.chunk []).drop (x.index + 1) ++ remaining chunks rest) →
          ∃ out, popLoop (fun a b : lineItem => cmp a.value b.value) chunks fuel items2
              (result ++ [x.value]) = some out ∧
            out.Perm (result ++ remaining chunks items) ∧ Sorted cmp out := by
        intro items2 hh2 hv2 hp2
        have hrem2 : (remaining chunks items).Perm (x.value :: remaining chunks items2) :=
          hrem.trans (hp2.symm.cons _)
        have hf2 : (remaining chunks items2).length ≤ fuel := by
          have h := hrem2.length_eq
          rw [List.length_cons] at h
          omega
        have hsub : ∀ y ∈ remaining chunks items2, y ∈ remaining chunks items :=
          fun y hy => hrem2.mem_iff.mpr (List.mem_cons_of_mem _ hy)
        obtain ⟨out, ho, hop, hos⟩ := ih items2 (result ++ [x.value]) hh2 hv2 hf2 hr2
          (by
            intro r hr1 y hy
            rw [List.mem_append, List.mem_singleton] at hr1
            rcases hr1 with hr1 | hr1
            · exact hry r hr1 y (hsub y hy)
            · rw [hr1]
              exact hxmin y (hsub y hy))
        refine ⟨out, ho, hop.trans ?_, hos⟩
        rw [List.append_assoc, List.singleton_append]
        exact (hrem2.symm.append_left result)
      by_cases hnext : x.index + 1 < (chunks.getD x.chunk []).length
      · rw [if_pos hnext]
        obtain ⟨hh2, hp⟩ := heapPush_spec hal hnl rest
          ⟨(chunks.getD x.chunk []).getD (x.index + 1) [], x.chunk, x.index + 1⟩ hheap
        apply hstep _ hh2
        · intro it hit
          rw [hp.mem_iff, List.mem_cons] at hit
          rcases hit with hit | hit
          · rw [hit]
            simp only
            generalize chunks.getD x.chunk [] = chunk at hnext ⊢
            rw [List.getD_eq_getElem?_getD, List.getElem?_eq_getElem hnext]
            rfl
          · exact hvrest it hit
        · have h := remaining_perm chunks hp
          rw [remaining_cons] at h
          exact h
      · rw [if_neg hnext]
        apply hstep rest hheap hvrest
        rw [List.drop_eq_nil_of_le (by omega), List.nil_append]
    · rw [if_neg hlen]
      have hnil : items = [] := by
        cases items with
        | nil => rfl
        | cons a t => exact absurd (Nat.succ_pos _) hlen
      subst hnil
      exact ⟨result, rfl, by simp [remaining], hr⟩

/-- Without `-n` and `-h` the comparison does not look at numbers. -/
theorem compareValues_plain (lib : FloatLib) (a b : Str) (column : Int)
    (reverse month ignoreTrailing : Bool) :
    compareValues lib a b column false reverse month ignoreTrailing false
      = compareValues noFloats a b column false reverse month ignoreTrailing false := by
  unfold compareValues
  rfl

theorem noFloats_strictWeak : Asymmetric noFloats.lt ∧ NegTransitive noFloats.lt :=
  ⟨fun _ _ h => (by cases h), fun _ _ _ _ _ => rfl⟩

/-- The merge over the heap, for a comparison that is a strict weak ordering: with every
chunk sorted, `mergeSortedChunks` returns a sorted permutation of the lines of the chunks. -/
theorem mergeSortedChunks_of_strictWeak (lib : FloatLib) (chunks : List (List Str))
    (column : Int) (numeric reverse month ignoreTrailing human : Bool)
    (ha : Asymmetric
      (fun a b => compareValues lib a b column numeric reverse month ignoreTrailing human))
    (hn : NegTransitive
      (fun a b => compareValues lib a b column numeric reverse month ignoreTrailing human))
    (hs : ∀ ch ∈ chunks, List.Chain'
      (fun a b =>
        compareValues lib b a column numeric reverse month ignoreTrailing human = false) ch) :
    ∃ out, mergeSortedChunks lib chunks column numeric reverse month ignoreTrailing human
        = some out ∧
      out.Perm chunks.flatten ∧
      Sorted
        (fun a b => compareValues lib a b column numeric reverse month ignoreTrailing human)
        out := by
  haveI : IsTrans Str (fun a b =>
      compareValues lib b a column numeric reverse month ignoreTrailing human = false) :=
    ⟨fun a b c h1 h2 => hn c b a h2 h1⟩
  have hs2 : ∀ ch ∈ chunks, Sorted
      (fun a b => compareValues lib a b column numeric reverse month ignoreTrailing human)
      ch := fun ch hch => List.chain'_iff_pairwise.mp (hs ch hch)
  have hal : Asymmetric (itemLess lib column numeric reverse month ignoreTrailing human) :=
    fun a b h => ha a.value b.value h
  have hnl : NegTransitive (itemLess lib column numeric reverse month ignoreTrailing human) :=
    fun a b c h1 h2 => hn a.value b.value c.value h1 h2
  obtain ⟨h1, h2, h3⟩ := pushHeads_spec hal hnl chunks chunks 0 []
    (fun m => by rw [Nat.zero_add]) (isHeap_nil _) (fun _ h => absurd h (List.not_mem_nil _))
  have h4 : (remaining chunks
      (pushHeads (itemLess lib column numeric reverse month ignoreTrailing human) chunks 0
        [])).Perm chunks.flatten := by
    have h5 : remaining chunks [] = [] := rfl
    rw [h5, List.nil_append] at h3
    exact h3
  obtain ⟨out, ho, hop, hos⟩ := popLoop_spec ha hn chunks hs2 chunks.flatten.length
    (pushHeads (itemLess lib column numeric reverse month ignoreTrailing human) chunks 0 [])
    [] h1 h2 (by rw [h4.length_eq]) List.Pairwise.nil
    (fun _ h => absurd h (List.not_mem_nil _))
  refine ⟨out, ho, ?_, hos⟩
  rw [List.nil_append] at hop
  exact hop.trans h4

/-- C31: in string or month mode (without `-n` and `-h`), for every list of chunks each of
which is sorted under `compareValues` with the given flags, no line being less than the line
before it, `mergeSortedChunks` returns a list that is a permutation of the concatenation of
all chunks and is sorted under `compareValues`: no line of it is less than a line before
it. -/
theorem mergeSortedChunks_sorted (lib : FloatLib) (chunks : List (List Str)) (column : Int)
    (reverse month ignoreTrailing : Bool)
    (hs : ∀ ch ∈ chunks, List.Chain'
      (fun a b =>
        compareValues lib b a column false reverse month ignoreTrailing false = false) ch) :
    ∃ out, mergeSortedChunks lib chunks column false reverse month ignoreTrailing false
        = some out ∧
      out.Perm chunks.flatten ∧
      Sorted (fun a b => compareValues lib a b column false reverse month ignoreTrailing false)
        out ∧
      List.Chain'
        (fun a b =>
          compareValues lib b a column false reverse month ignoreTrailing false = false)
        out := by
  have heq : (fun a b => compareValues lib a b column false reverse month ignoreTrailing false)
      = (fun a b =>
        compareValues noFloats a b column false reverse month ignoreTrailing false) :=
    funext fun a => funext fun b => compareValues_plain lib a b column reverse month
      ignoreTrailing
  have ha : Asymmetric
      (fun a b => compareValues lib a b column false reverse month ignoreTrailing false) := by
    rw [heq]
    exact compareValues_asymm noFloats noFloats_strictWeak.1 column false reverse month
      ignoreTrailing false
  have hn : NegTransitive
      (fun a b => compareValues lib a b column false reverse month ignoreTrailing false) := by
    rw [heq]
    exact compareValues_negTrans noFloats noFloats_strictWeak.2 column false reverse month
      ignoreTrailing false
  obtain ⟨out, ho, hp, hsorted⟩ := mergeSortedChunks_of_strictWeak lib chunks column false
    reverse month ignoreTrailing false ha hn hs
  exact ⟨out, ho, hp, hsorted, List.Pairwise.chain' hsorted⟩

theorem mergeSortedChunks_sorted_witness :
    (∀ ch ∈ [["a".toList, "c".toList, "e".toList], ["b".toList, "d".toList, "f".toList]],
      List.Chain' (fun a b => compareValues noFloats b a 0 false false false false false = false)
        ch) ∧
    (∃ out, mergeSortedChunks noFloats
          [["a".toList, "c".toList, "e".toList], ["b".toList, "d".toList, "f".toList]]
          0 false false false false false = some out ∧
      out.Perm
        [["a".toList, "c".toList, "e".toList], ["b".toList, "d".toList, "f".toList]].flatten ∧
      Sorted (fun a b => compareValues noFloats a b 0 false false false false false) out ∧
      List.Chain' (fun a b => compareValues noFloats b a 0 false false false false false = false)
        out) ∧
    mergeSortedChunks noFloats
        [["a".toList, "c".toList, "e".toList], ["b".toList, "d".toList, "f".toList]]
        0 false false false false false
      = some ["a".toList, "b".toList, "c".toList, "d".toList, "e".toList, "f".toList] := by
  have h : ∀ ch ∈ [["a".toList, "c".toList, "e".toList],
      ["b".toList, "d".toList, "f".toList]],
      List.Chain'
        (fun a b => compareValues noFloats b a 0 false false false false false = false)
        ch := by
    intro ch hch
    simp only [List.mem_cons, List.mem_singleton, List.not_mem_nil, or_false] at hch
    rcases hch with rfl | rfl
    · exact List.Chain'.cons (by decide)
        (List.Chain'.cons (by decide) (List.chain'_singleton _))
    · exact List.Chain'.cons (by decide)
        (List.Chain'.cons (by decide) (List.chain'_singleton _))
  exact ⟨h,
    mergeSortedChunks_sorted noFloats
      [["a".toList, "c".toList, "e".toList], ["b".toList, "d".toList, "f".toList]]
      0 false false false h,
    by decide⟩

end SortTool
